import Mathlib

/-!
The compile-and-evaluate pipeline of `tinyexpr.c`.

A shallow embedding of the tokenizer (`next_token`), the name lookup
(`find_lookup`, `find_builtin`), the recursive-descent parser (`base`, `power`,
`factor`, `term`, `expr`, `list`), the constant folder (`optimize`), the
evaluator with forward-mode gradient (`te_eval2`, `te_eval`) and `te_compile`.

Modelling conventions

* `double` is modelled by exact rational arithmetic (`ℚ`).  The IEEE special
  values `NAN` and `INFINITY`, the C library functions (`strtod`, `sin`, `pow`,
  ...), `rand` and the caller's callables are fields of an environment `Env`.
* A `const char *` text is the list of its characters before the terminator.
* A `double *` is `Option (Nat → ℚ)`: `none` is the null pointer, `some a` an
  array read and written by index.  Dereferencing a null pointer is a fault,
  rendered by the result `none` of the function that does it.
* Loops and recursion that the C code bounds by the input are given a fuel
  argument; `none` is also the result of running out of fuel.  The theorems
  show that the fuel handed out by `te_compile` is always enough.
* Scratch memory obtained from `alloca` is modelled as one fresh zeroed array
  per gradient vector.
-/

namespace TinyExpr

/-! ## Constants of `tinyexpr.h` and of `tinyexpr.c` -/

/-- Modelled from the spec: the header `tinyexpr.h` that declares the type
codes is not among the sources.  A binding is a `Variable` or a `Function` of
arity 0..7 with a purity flag; the numeric codes are the ones the macros of
`tinyexpr.c` assume (`TYPE_MASK` keeps five bits, `ARITY` reads the low three
bits when the `TE_FUNCTION0` bit is set, `TOK_NULL = TE_FUNCTION7+1`, a binding
written `{"x"}` has type 0 and is a variable). -/
def TE_VARIABLE : Nat := 0

/-- Modelled from the spec: type code of a function of arity 0 (see `TE_VARIABLE`). -/
def TE_FUNCTION0 : Nat := 8
/-- Modelled from the spec: type code of a function of arity 1 (see `TE_VARIABLE`). -/
def TE_FUNCTION1 : Nat := 9
/-- Modelled from the spec: type code of a function of arity 2 (see `TE_VARIABLE`). -/
def TE_FUNCTION2 : Nat := 10
/-- Modelled from the spec: type code of a function of arity 3 (see `TE_VARIABLE`). -/
def TE_FUNCTION3 : Nat := 11
/-- Modelled from the spec: type code of a function of arity 4 (see `TE_VARIABLE`). -/
def TE_FUNCTION4 : Nat := 12
/-- Modelled from the spec: type code of a function of arity 5 (see `TE_VARIABLE`). -/
def TE_FUNCTION5 : Nat := 13
/-- Modelled from the spec: type code of a function of arity 6 (see `TE_VARIABLE`). -/
def TE_FUNCTION6 : Nat := 14
/-- Modelled from the spec: type code of a function of arity 7 (see `TE_VARIABLE`). -/
def TE_FUNCTION7 : Nat := 15
/-- Modelled from the spec: the purity flag of a binding type (see `TE_VARIABLE`). -/
def TE_FLAG_PURE : Nat := 32

def TOK_NULL : Nat := TE_FUNCTION7 + 1
def TOK_ERROR : Nat := TE_FUNCTION7 + 2
def TOK_END : Nat := TE_FUNCTION7 + 3
def TOK_SEP : Nat := TE_FUNCTION7 + 4
def TOK_OPEN : Nat := TE_FUNCTION7 + 5
def TOK_CLOSE : Nat := TE_FUNCTION7 + 6
def TOK_NUMBER : Nat := TE_FUNCTION7 + 7
def TOK_VARIABLE : Nat := TE_FUNCTION7 + 8
def TOK_INFIX : Nat := TE_FUNCTION7 + 9

def TE_CONSTANT : Nat := 1

/-- Macro `TYPE_MASK(TYPE) ((TYPE)&0x0000001F)`. -/
def TYPE_MASK (t : Nat) : Nat := t &&& 0x1F

/-- Macro `IS_PURE(TYPE) (((TYPE) & TE_FLAG_PURE) != 0)`. -/
def IS_PURE (t : Nat) : Bool := (t &&& TE_FLAG_PURE) != 0

/-- Macro `ARITY(TYPE) ( ((TYPE) & TE_FUNCTION0) ? ((TYPE) & 0x00000007) : 0 )`. -/
def ARITY (t : Nat) : Nat := if (t &&& TE_FUNCTION0) != 0 then t &&& 0x7 else 0

/-- Constant `UINT_MAX` of `limits.h` for a 32-bit `unsigned int`. -/
def UINT_MAX : Nat := 2 ^ 32 - 1

/-- Constant `ULONG_MAX` of `limits.h` for a 64-bit `unsigned long`. -/
def ULONG_MAX : Nat := 2 ^ 64 - 1

/-! ## Data model -/

/-- The addresses of callables: the static functions of `tinyexpr.c` that are
stored in tokens and tree nodes, and the caller's functions, `user a` for the
function at address `a` (`user 0` is the null address of a binding written
without a callable, such as `{"x"}`). -/
inductive Fn where
  | pi | e | fac
  | te_wrapped_fabs | te_wrapped_acos | te_wrapped_asin | te_wrapped_atan
  | te_wrapped_atan2 | te_wrapped_ceil | te_wrapped_cos | te_wrapped_cosh
  | te_wrapped_exp | te_wrapped_floor | te_wrapped_fmod | te_wrapped_log
  | te_wrapped_log10 | te_wrapped_ncr | te_wrapped_npr | te_wrapped_pow
  | te_wrapped_random | te_wrapped_myround | te_wrapped_sign | te_wrapped_sin
  | te_wrapped_sinh | te_wrapped_sqrt | te_wrapped_tan | te_wrapped_tanh
  | add | sub | mul | divide | negate | comma
  | user (address : Nat)
  deriving DecidableEq, Repr

/-- The anonymous `union {double value; int ivar; const void *function;}` of
`te_expr` and of `state`. -/
inductive te_union where
  | value (v : ℚ)
  | ivar (i : Int)
  | function (f : Fn)
  deriving DecidableEq, Repr

/-- Reading the member `value`; the code reads it only where it was stored. -/
def te_union.getValue : te_union → ℚ
  | .value v => v
  | _ => 0

/-- Reading the member `ivar`; the code reads it only where it was stored. -/
def te_union.getIvar : te_union → Int
  | .ivar i => i
  | _ => 0

/-- Reading the member `function`; the code reads it only where it was stored. -/
def te_union.getFunction : te_union → Fn
  | .function f => f
  | _ => .user 0

/-- The caller's binding `struct te_variable {name, address, type, context}`;
`context` is an address. -/
structure te_variable where
  name : List Char
  address : Fn
  type : Nat
  context : Nat
  deriving DecidableEq, Repr

/-- A `te_expr *`: the null pointer, or a node with its `type`, its union, the
`parameters` slots `0 .. arity-1` and the context kept in slot `arity`. -/
inductive te_expr where
  | null : te_expr
  | mk (type : Nat) (u : te_union) (parameters : List te_expr) (context : Nat) : te_expr
  deriving Repr

/-- The compiled `struct te_expression {root, nvar, idx}`. -/
structure te_expression where
  root : te_expr
  nvar : Nat
  idx : List Nat
  deriving Repr

/-- The tokenizer `struct state`: `start` and `next` are the whole text and the
text that remains at the cursor. -/
structure state where
  start : List Char
  next : List Char
  type : Nat
  u : te_union
  context : Nat
  lookup : List te_variable
  deriving DecidableEq, Repr

/-- The C library and the caller's code, which `tinyexpr.c` only calls.
`strtod text` gives the value read and the number of characters consumed;
`user a ctx x` is the value and the local gradient written by the caller's
function at address `a`; `rand k` is the result of the `k`-th call of `rand`. -/
structure Env where
  strtod : List Char → ℚ × Nat
  nan : ℚ
  inf : ℚ
  acos : ℚ → ℚ
  asin : ℚ → ℚ
  atan : ℚ → ℚ
  atan2 : ℚ → ℚ → ℚ
  cos : ℚ → ℚ
  cosh : ℚ → ℚ
  exp : ℚ → ℚ
  fmod : ℚ → ℚ → ℚ
  log : ℚ → ℚ
  log10 : ℚ → ℚ
  pow : ℚ → ℚ → ℚ
  sin : ℚ → ℚ
  sinh : ℚ → ℚ
  sqrt : ℚ → ℚ
  tan : ℚ → ℚ
  tanh : ℚ → ℚ
  rand : Nat → ℚ
  RAND_MAX : ℚ
  user : Nat → Nat → (Nat → ℚ) → ℚ × (Nat → ℚ)

/-! ## Tree nodes -/

def te_expr.type : te_expr → Nat
  | .null => 0
  | .mk t _ _ _ => t

def te_expr.u : te_expr → te_union
  | .null => .ivar 0
  | .mk _ u _ _ => u

def te_expr.parameters : te_expr → List te_expr
  | .null => []
  | .mk _ _ ps _ => ps

def te_expr.context : te_expr → Nat
  | .null => 0
  | .mk _ _ _ c => c

/-- Assignment `ret->value = v`. -/
def te_expr.set_value : te_expr → ℚ → te_expr
  | .null, _ => .null
  | .mk t _ ps c, v => .mk t (.value v) ps c

/-- Assignment `ret->ivar = i`. -/
def te_expr.set_ivar : te_expr → Int → te_expr
  | .null, _ => .null
  | .mk t _ ps c, i => .mk t (.ivar i) ps c

/-- Assignment `ret->function = f`. -/
def te_expr.set_function : te_expr → Fn → te_expr
  | .null, _ => .null
  | .mk t _ ps c, f => .mk t (.function f) ps c

/-- Assignment `ret->parameters[i] = p` for a slot `i < arity`. -/
def te_expr.set_parameter : te_expr → Nat → te_expr → te_expr
  | .null, _, _ => .null
  | .mk t u ps c, i, p => .mk t u (ps.set i p) c

/-- Assignment `ret->parameters[arity] = context`. -/
def te_expr.set_context : te_expr → Nat → te_expr
  | .null, _ => .null
  | .mk t u ps _, c => .mk t u ps c

/-- Function `new_expr(type, parameters)`: a zeroed node of `ARITY(type)` slots, filled
from `parameters` when the arity is not 0 and the array is given, with
`ivar = -1`. -/
def new_expr (type : Nat) (parameters : Option (List te_expr)) : te_expr :=
  let arity := ARITY type
  let ps : List te_expr :=
    match parameters with
    | some given => if arity ≠ 0 then (List.range arity).map (fun i => given.getD i .null)
                    else List.replicate arity .null
    | none => List.replicate arity .null
  .mk type (.ivar (-1)) ps 0

/-- Macro `NEW_EXPR(type, ...)`, which is `new_expr` on the array of the given nodes. -/
def NEW_EXPR (type : Nat) (parameters : List te_expr) : te_expr :=
  new_expr type (some parameters)

/-- The node built by `ret = new_expr(TE_CONSTANT, 0); ret->value = v;`. -/
def constant_node (v : ℚ) : te_expr := (new_expr TE_CONSTANT none).set_value v

/-- The node built by `ret = new_expr(TE_VARIABLE, 0); ret->ivar = i;`. -/
def variable_node (i : Int) : te_expr := (new_expr TE_VARIABLE none).set_ivar i

/-- The node built by
`ret = NEW_EXPR(TE_FUNCTION2 | TE_FLAG_PURE, a, b); ret->function = t;`. -/
def binary_node (t : Fn) (a b : te_expr) : te_expr :=
  (NEW_EXPR (TE_FUNCTION2 ||| TE_FLAG_PURE) [a, b]).set_function t

/-- The node built by
`ret = NEW_EXPR(TE_FUNCTION1 | TE_FLAG_PURE, a); ret->function = negate;`. -/
def negate_node (a : te_expr) : te_expr :=
  (NEW_EXPR (TE_FUNCTION1 ||| TE_FLAG_PURE) [a]).set_function .negate

/-- The node built by `ret = new_expr(type, 0); ret->function = f;
ret->parameters[arity] = context;`, whose slots are still null. -/
def function_node (type : Nat) (f : Fn) (context : Nat) : te_expr :=
  ((new_expr type none).set_function f).set_context context

/-! ## Name lookup -/

/-- The C library's `strncmp(a, b, n)`: the difference of the first characters
that differ among the first `n`, where a text is followed by its terminator. -/
def strncmp : List Char → List Char → Nat → Int
  | _, _, 0 => 0
  | a, b, n + 1 =>
    let ca := a.headD '\x00'
    let cb := b.headD '\x00'
    if ca ≠ cb then (ca.toNat : Int) - (cb.toNat : Int)
    else if ca = '\x00' then 0
    else strncmp a.tail b.tail n

/-- One row of the table `functions`. -/
def builtin (name : String) (address : Fn) (type : Nat) : te_variable :=
  { name := name.toList, address := address, type := type, context := 0 }

/-- The table `functions` of builtins (default configuration: `TE_NAT_LOG` is
not defined), without its closing row of zeros. -/
def functions : List te_variable :=
  [ builtin "abs" .te_wrapped_fabs (TE_FUNCTION1 ||| TE_FLAG_PURE),
    builtin "acos" .te_wrapped_acos (TE_FUNCTION1 ||| TE_FLAG_PURE),
    builtin "asin" .te_wrapped_asin (TE_FUNCTION1 ||| TE_FLAG_PURE),
    builtin "atan" .te_wrapped_atan (TE_FUNCTION1 ||| TE_FLAG_PURE),
    builtin "atan2" .te_wrapped_atan2 (TE_FUNCTION2 ||| TE_FLAG_PURE),
    builtin "ceil" .te_wrapped_ceil (TE_FUNCTION1 ||| TE_FLAG_PURE),
    builtin "cos" .te_wrapped_cos (TE_FUNCTION1 ||| TE_FLAG_PURE),
    builtin "cosh" .te_wrapped_cosh (TE_FUNCTION1 ||| TE_FLAG_PURE),
    builtin "e" .e (TE_FUNCTION0 ||| TE_FLAG_PURE),
    builtin "exp" .te_wrapped_exp (TE_FUNCTION1 ||| TE_FLAG_PURE),
    builtin "fac" .fac (TE_FUNCTION1 ||| TE_FLAG_PURE),
    builtin "floor" .te_wrapped_floor (TE_FUNCTION1 ||| TE_FLAG_PURE),
    builtin "ln" .te_wrapped_log (TE_FUNCTION1 ||| TE_FLAG_PURE),
    builtin "log" .te_wrapped_log10 (TE_FUNCTION1 ||| TE_FLAG_PURE),
    builtin "log10" .te_wrapped_log10 (TE_FUNCTION1 ||| TE_FLAG_PURE),
    builtin "ncr" .te_wrapped_ncr (TE_FUNCTION2 ||| TE_FLAG_PURE),
    builtin "npr" .te_wrapped_npr (TE_FUNCTION2 ||| TE_FLAG_PURE),
    builtin "pi" .pi (TE_FUNCTION0 ||| TE_FLAG_PURE),
    builtin "pow" .te_wrapped_pow (TE_FUNCTION2 ||| TE_FLAG_PURE),
    builtin "random" .te_wrapped_random (TE_FUNCTION0 ||| TE_FLAG_PURE),
    builtin "round" .te_wrapped_myround (TE_FUNCTION1 ||| TE_FLAG_PURE),
    builtin "sign" .te_wrapped_sign (TE_FUNCTION1 ||| TE_FLAG_PURE),
    builtin "sin" .te_wrapped_sin (TE_FUNCTION1 ||| TE_FLAG_PURE),
    builtin "sinh" .te_wrapped_sinh (TE_FUNCTION1 ||| TE_FLAG_PURE),
    builtin "sqrt" .te_wrapped_sqrt (TE_FUNCTION1 ||| TE_FLAG_PURE),
    builtin "tan" .te_wrapped_tan (TE_FUNCTION1 ||| TE_FLAG_PURE),
    builtin "tanh" .te_wrapped_tanh (TE_FUNCTION1 ||| TE_FLAG_PURE) ]

/-- The binary search of `find_builtin` between `imin` and `imax`; every
iteration shrinks the interval, and the fuel bounds the iterations. -/
def find_builtin_loop (name : List Char) (len : Nat) : Nat → Int → Int → Option te_variable
  | 0, _, _ => none
  | fuel + 1, imin, imax =>
    if imax ≥ imin then
      let i := imin + (imax - imin) / 2
      let row := functions.getD i.toNat (builtin "" (.user 0) 0)
      let c := strncmp name row.name len
      let c := if c = 0 then (0 : Int) - ((row.name.getD len '\x00').toNat : Int) else c
      if c = 0 then some row
      else if c > 0 then find_builtin_loop name len fuel (i + 1) imax
      else find_builtin_loop name len fuel imin (i - 1)
    else none

/-- Function `find_builtin(name, len)`. -/
def find_builtin (name : List Char) (len : Nat) : Option te_variable :=
  find_builtin_loop name len (functions.length + 1) 0 ((functions.length : Int) - 1)

/-- The scan of `find_lookup` from position `i` of the binding list: the first
binding whose name is `name` over `len` characters and ends there. -/
def find_lookup_from (name : List Char) (len : Nat) : List te_variable → Nat → Option (Nat × te_variable)
  | [], _ => none
  | var :: rest, i =>
    if strncmp name var.name len = 0 ∧ var.name.getD len '\x00' = '\x00' then some (i, var)
    else find_lookup_from name len rest (i + 1)

/-- Function `find_lookup(s, name, len)`: the matching binding and its position
`var - s->lookup`. -/
def find_lookup (s : state) (name : List Char) (len : Nat) : Option (Nat × te_variable) :=
  find_lookup_from name len s.lookup 0

/-! ## Tokenizer -/

def is_digit (c : Char) : Bool := decide ('0' ≤ c) && decide (c ≤ '9')

def is_lower (c : Char) : Bool := decide ('a' ≤ c) && decide (c ≤ 'z')

/-- The characters that continue an identifier: `[a-z0-9_]`. -/
def is_ident (c : Char) : Bool := is_lower c || is_digit c || c == '_'

/-- The `switch (s->next++[0])` of `next_token` on the character `c` just
consumed: an operator or special character sets the type, white space leaves
it as it is. -/
def next_token_symbol (s : state) (c : Char) : state :=
  if c = '+' then { s with type := TOK_INFIX, u := .function .add }
  else if c = '-' then { s with type := TOK_INFIX, u := .function .sub }
  else if c = '*' then { s with type := TOK_INFIX, u := .function .mul }
  else if c = '/' then { s with type := TOK_INFIX, u := .function .divide }
  else if c = '^' then { s with type := TOK_INFIX, u := .function .te_wrapped_pow }
  else if c = '%' then { s with type := TOK_INFIX, u := .function .te_wrapped_fmod }
  else if c = '(' then { s with type := TOK_OPEN }
  else if c = ')' then { s with type := TOK_CLOSE }
  else if c = ',' then { s with type := TOK_SEP }
  else if c = ' ' ∨ c = '\t' ∨ c = '\n' ∨ c = '\r' then s
  else { s with type := TOK_ERROR }

/-- The branch of `next_token` for a text that starts with a lower-case letter:
the identifier is consumed and looked up, first among the caller's bindings,
then among the builtins.  A binding whose masked type is neither a variable nor
a function leaves the type as it is. -/
def next_token_identifier (s : state) : state :=
  let name := s.next.takeWhile is_ident
  let s1 := { s with next := s.next.dropWhile is_ident }
  let var : Option (Nat × te_variable) :=
    match find_lookup s1 name name.length with
    | some v => some v
    | none => (find_builtin name name.length).map (fun v => (0, v))
  match var with
  | none => { s1 with type := TOK_ERROR }
  | some (i, v) =>
    if TYPE_MASK v.type = TE_VARIABLE then
      { s1 with type := TOK_VARIABLE, u := .ivar i }
    else if TE_FUNCTION0 ≤ TYPE_MASK v.type ∧ TYPE_MASK v.type ≤ TE_FUNCTION7 then
      { s1 with context := v.context, type := v.type, u := .function v.address }
    else s1

/-- The body of the `do ... while (s->type == TOK_NULL)` loop of `next_token`,
entered with the type `TOK_NULL`. -/
def next_token_step (E : Env) (s : state) : state :=
  match s.next with
  | [] => { s with type := TOK_END }
  | c :: rest =>
    if c = '\x00' then { s with type := TOK_END }
    else if is_digit c || c == '.' then
      { s with u := .value (E.strtod s.next).1, next := s.next.drop (E.strtod s.next).2,
               type := TOK_NUMBER }
    else if is_lower c then next_token_identifier s
    else next_token_symbol { s with next := rest } c

/-- The `do ... while (s->type == TOK_NULL)` loop of `next_token`.  An iteration
that leaves the type `TOK_NULL` has consumed a character, so the fuel
`length + 1` given by `next_token` is never used up. -/
def next_token_loop (E : Env) : Nat → state → state
  | 0, s => s
  | fuel + 1, s =>
    if (next_token_step E s).type = TOK_NULL then next_token_loop E fuel (next_token_step E s)
    else next_token_step E s

/-- Function `next_token(s)`. -/
def next_token (E : Env) (s : state) : state :=
  next_token_loop E (s.next.length + 1) { s with type := TOK_NULL }

/-! ## Parser -/

/-- Assignment `s->type = TOK_ERROR`. -/
def state.set_error (s : state) : state := { s with type := TOK_ERROR }

/-- The argument loop of `base` for a function of arity 2..7,
`for(i = 0; i < arity; i++) { next_token(s); ret->parameters[i] = expr(s);
if(s->type != TOK_SEP) break; }`, with `k = arity - i` iterations left; the
result carries the final value of `i`.  The argument `sub` is `expr`. -/
def base_args (E : Env) (sub : state → Option (te_expr × state)) :
    Nat → Nat → te_expr → state → Option (te_expr × Nat × state)
  | 0, i, ret, s => some (ret, i, s)
  | k + 1, i, ret, s =>
    match sub (next_token E s) with
    | none => none
    | some (p, s1) =>
      if s1.type ≠ TOK_SEP then some (ret.set_parameter i p, i, s1)
      else base_args E sub k (i + 1) (ret.set_parameter i p) s1

/-- The sign loop of `power`,
`while (s->type == TOK_INFIX && (s->function == add || s->function == sub))`,
which flips `sign` at every `-` and consumes the token. -/
def power_signs (E : Env) : Nat → state → Int → Option (state × Int)
  | 0, _, _ => none
  | fuel + 1, s, sign =>
    if s.type = TOK_INFIX ∧ (s.u.getFunction = .add ∨ s.u.getFunction = .sub) then
      power_signs E fuel (next_token E s) (if s.u.getFunction = .sub then -sign else sign)
    else some (s, sign)

/-- The loop shared by `factor`, `term`, `expr` and `list`:
`while (cond) { t = s->function; next_token(s);
ret = NEW_EXPR(TE_FUNCTION2 | TE_FLAG_PURE, ret, sub(s)); ret->function = t; }`.
The condition `cond` yields the callable `t` of the new node when it holds
(`comma` in `list`). -/
def binary_loop (E : Env) (cond : state → Option Fn) (sub : state → Option (te_expr × state)) :
    Nat → te_expr → state → Option (te_expr × state)
  | 0, _, _ => none
  | fuel + 1, ret, s =>
    match cond s with
    | none => some (ret, s)
    | some t =>
      match sub (next_token E s) with
      | none => none
      | some (r, s1) =>
        binary_loop E cond sub fuel (binary_node t ret r) s1

/-- Loop condition of `factor`: `s->type == TOK_INFIX && s->function == te_wrapped_pow`. -/
def factor_op (s : state) : Option Fn :=
  if s.type = TOK_INFIX ∧ s.u.getFunction = .te_wrapped_pow then some s.u.getFunction else none

/-- Loop condition of `term`: an infix token of `mul`, `divide` or `te_wrapped_fmod`. -/
def term_op (s : state) : Option Fn :=
  if s.type = TOK_INFIX ∧ (s.u.getFunction = .mul ∨ s.u.getFunction = .divide
      ∨ s.u.getFunction = .te_wrapped_fmod) then some s.u.getFunction else none

/-- Loop condition of `expr`: an infix token of `add` or `sub`. -/
def expr_op (s : state) : Option Fn :=
  if s.type = TOK_INFIX ∧ (s.u.getFunction = .add ∨ s.u.getFunction = .sub)
  then some s.u.getFunction else none

/-- Loop condition of `list`: `s->type == TOK_SEP`; the node gets `comma`. -/
def list_op (s : state) : Option Fn :=
  if s.type = TOK_SEP then some .comma else none

mutual
/-- Function `base(s)`. -/
def base (E : Env) : Nat → state → Option (te_expr × state)
  | 0, _ => none
  | fuel + 1, s =>
    if TYPE_MASK s.type = TOK_NUMBER then
      some (constant_node s.u.getValue, next_token E s)
    else if TYPE_MASK s.type = TOK_VARIABLE then
      some (variable_node s.u.getIvar, next_token E s)
    else if TYPE_MASK s.type = TE_FUNCTION0 then
      let ret := function_node s.type s.u.getFunction s.context
      let s1 := next_token E s
      if s1.type = TOK_OPEN then
        let s2 := next_token E s1
        if s2.type ≠ TOK_CLOSE then some (ret, s2.set_error)
        else some (ret, next_token E s2)
      else some (ret, s1)
    else if TYPE_MASK s.type = TE_FUNCTION1 then
      let ret := function_node s.type s.u.getFunction s.context
      match power E fuel (next_token E s) with
      | none => none
      | some (p, s1) => some (ret.set_parameter 0 p, s1)
    else if TE_FUNCTION2 ≤ TYPE_MASK s.type ∧ TYPE_MASK s.type ≤ TE_FUNCTION7 then
      let arity := ARITY s.type
      let ret := function_node s.type s.u.getFunction s.context
      let s1 := next_token E s
      if s1.type ≠ TOK_OPEN then some (ret, s1.set_error)
      else
        match base_args E (expr E fuel) arity 0 ret s1 with
        | none => none
        | some (ret1, i, s2) =>
          if s2.type ≠ TOK_CLOSE ∨ i ≠ arity - 1 then some (ret1, s2.set_error)
          else some (ret1, next_token E s2)
    else if TYPE_MASK s.type = TOK_OPEN then
      match list E fuel (next_token E s) with
      | none => none
      | some (ret, s1) =>
        if s1.type ≠ TOK_CLOSE then some (ret, s1.set_error)
        else some (ret, next_token E s1)
    else
      some ((new_expr 0 none).set_value E.nan, s.set_error)

/-- Function `power(s)`. -/
def power (E : Env) : Nat → state → Option (te_expr × state)
  | 0, _ => none
  | fuel + 1, s =>
    match power_signs E fuel s 1 with
    | none => none
    | some (s1, sign) =>
      if sign = 1 then base E fuel s1
      else
        match base E fuel s1 with
        | none => none
        | some (b, s2) =>
          some (negate_node b, s2)

/-- Function `factor(s)` of the default configuration (`TE_POW_FROM_RIGHT` is not defined). -/
def factor (E : Env) : Nat → state → Option (te_expr × state)
  | 0, _ => none
  | fuel + 1, s =>
    match power E fuel s with
    | none => none
    | some (ret, s1) => binary_loop E factor_op (power E fuel) fuel ret s1

/-- Function `term(s)`. -/
def term (E : Env) : Nat → state → Option (te_expr × state)
  | 0, _ => none
  | fuel + 1, s =>
    match factor E fuel s with
    | none => none
    | some (ret, s1) => binary_loop E term_op (factor E fuel) fuel ret s1

/-- Function `expr(s)`. -/
def expr (E : Env) : Nat → state → Option (te_expr × state)
  | 0, _ => none
  | fuel + 1, s =>
    match term E fuel s with
    | none => none
    | some (ret, s1) => binary_loop E expr_op (term E fuel) fuel ret s1

/-- Function `list(s)`. -/
def list (E : Env) : Nat → state → Option (te_expr × state)
  | 0, _ => none
  | fuel + 1, s =>
    match expr E fuel s with
    | none => none
    | some (ret, s1) => binary_loop E list_op (expr E fuel) fuel ret s1
end

/-! ## Builtin callables -/

/-- The running product of `fac`, `for (i = 1; i <= ua; i++)`, with `k`
iterations left; `none` is the early `return INFINITY`. -/
def fac_loop : Nat → Nat → Nat → Option Nat
  | 0, _, result => some result
  | k + 1, i, result =>
    if i > ULONG_MAX / result then none
    else fac_loop k (i + 1) ((result * i) % (ULONG_MAX + 1))

/-- Function `fac(a)`. -/
def fac (E : Env) (a : ℚ) : ℚ :=
  if a < 0 then E.nan
  else if a > (UINT_MAX : ℚ) then E.inf
  else
    match fac_loop ⌊a⌋₊ 1 1 with
    | none => E.inf
    | some result => (result : ℚ)

/-- The loop of `ncr`, `for (i = 1; i <= ur; i++)`, with `k` iterations left;
`none` is the early `return INFINITY`. -/
def ncr_loop (un ur : Nat) : Nat → Nat → Nat → Option Nat
  | 0, _, result => some result
  | k + 1, i, result =>
    if result > ULONG_MAX / (un - ur + i) then none
    else ncr_loop un ur k (i + 1) (((result * (un - ur + i)) % (ULONG_MAX + 1)) / i)

/-- The number `e` of low bits that a `double` cannot hold of the number `n`,
counted up from `e` in at most `k` steps: the least `e` with `n < 2 ^ (53 + e)`. -/
def dropped_bits (n : Nat) : Nat → Nat → Nat
  | 0, e => e
  | k + 1, e => if n < 2 ^ (53 + e) then e else dropped_bits n k (e + 1)

/-- The conversion of an `unsigned long` to `double`, as in `return result;` of
`ncr`: a number below `2 ^ 53` is kept, a larger one is rounded to the nearest
number with 53 significant bits, a tie going to the even one.  An
`unsigned long` has 64 bits, so that at most 11 bits are dropped. -/
def to_double (n : Nat) : Nat :=
  if n < 2 ^ 53 then n
  else
    let e := dropped_bits n 11 0
    let q := n / 2 ^ e
    let r := n % 2 ^ e
    if r < 2 ^ (e - 1) then q * 2 ^ e
    else if 2 ^ (e - 1) < r then (q + 1) * 2 ^ e
    else if q % 2 = 0 then q * 2 ^ e
    else (q + 1) * 2 ^ e

/-- Function `ncr(n, r)`.  The `unsigned long` result of the loop is converted
to `double` by `return result;`. -/
def ncr (E : Env) (n r : ℚ) : ℚ :=
  if n < 0 ∨ r < 0 ∨ n < r then E.nan
  else if n > (UINT_MAX : ℚ) ∨ r > (UINT_MAX : ℚ) then E.inf
  else
    let un := ⌊n⌋₊
    let ur := if ⌊r⌋₊ > un / 2 then un - ⌊r⌋₊ else ⌊r⌋₊
    match ncr_loop un ur ur 1 1 with
    | none => E.inf
    | some result => (to_double result : ℚ)

/-- Function `npr(n, r)`. -/
def npr (E : Env) (n r : ℚ) : ℚ := ncr E n r * fac E r

/-- Function `myround(x)`. -/
def myround (x : ℚ) : ℚ := (⌊x + 0.5⌋ : ℚ)

/-- Function `myrandom()`, on three successive results of `rand`, from a fixed
state of the generator.  `myrandom_in` runs it in the state of the program. -/
def myrandom (E : Env) : ℚ :=
  let nrm : ℚ := 1 / (1 + E.RAND_MAX)
  let f := nrm * E.rand 0
  let f1 := nrm * E.rand 1
  let f2 := nrm * E.rand 2
  f + nrm * (f1 + nrm * f2)

/-- The array `df` after a callable wrote nothing: `double df[7] = { 0 }`. -/
def df0 : Nat → ℚ := fun _ => 0

/-- The array `df` after `g[0] = a`. -/
def df1 (a : ℚ) : Nat → ℚ := Function.update df0 0 a

/-- The array `df` after `g[0] = a; g[1] = b`. -/
def df2 (a b : ℚ) : Nat → ℚ := Function.update (Function.update df0 0 a) 1 b

/-- The call `((double(*)(void *, const double *, double *))n->function)(context, x, df)`
of `te_eval2`: the value returned and the array `df` afterwards, for each
callable of `tinyexpr.c` as its body computes them.  `fac` takes its `double`
argument by value; it is modelled as receiving `x[0]`.  The arithmetic is that
of `ℚ`, exact, with `a / 0 = 0`: it is the arithmetic of the doubles where the
results are finite.  `call_double` computes the operators, `pow` and `sqrt`
with the infinities and `NaN`, and `call_in` runs `random` and the caller's
functions in the state of the program. -/
def call (E : Env) (f : Fn) (context : Nat) (x : Nat → ℚ) : ℚ × (Nat → ℚ) :=
  match f with
  | .pi => (3.14159265358979323846, df0)
  | .e => (2.71828182845904523536, df0)
  | .fac => (fac E (x 0), df0)
  | .te_wrapped_fabs =>
    if x 0 = 0 then (0, df1 0)
    else if x 0 < 0 then (-(x 0), df1 (-1))
    else (x 0, df1 1)
  | .te_wrapped_acos => (E.acos (x 0), df1 (-1 / E.sqrt (1 - x 0 * x 0)))
  | .te_wrapped_asin => (E.asin (x 0), df1 (1 / E.sqrt (1 - x 0 * x 0)))
  | .te_wrapped_atan => (E.atan (x 0), df1 (1 / (1 + x 0 * x 0)))
  | .te_wrapped_atan2 =>
    let d := 1 / (x 0 * x 0 + x 1 * x 1)
    (E.atan2 (x 0) (x 1), df2 (x 0 * d) (-(x 1) * d))
  | .te_wrapped_ceil => ((⌈x 0⌉ : ℚ), df0)
  | .te_wrapped_cos => (E.cos (x 0), df1 (-(E.sin (x 0))))
  | .te_wrapped_cosh => (E.cosh (x 0), df1 (E.sinh (x 0)))
  | .te_wrapped_exp => (E.exp (x 0), df1 (E.exp (x 0)))
  | .te_wrapped_floor => ((⌊x 0⌋ : ℚ), df0)
  | .te_wrapped_fmod => (E.fmod (x 0) (x 1), df2 1 (-(E.fmod (x 0) (x 1))))
  | .te_wrapped_log => (E.log (x 0), df1 (1 / x 0))
  | .te_wrapped_log10 => (E.log10 (x 0), df1 (1 / (E.log 10 * x 0)))
  | .te_wrapped_ncr => (ncr E (x 0) (x 1), df0)
  | .te_wrapped_npr => (npr E (x 0) (x 1), df0)
  | .te_wrapped_pow =>
    let r := E.pow (x 0) (x 1)
    (r, df2 (x 1 / x 0 * r) (r * E.log (x 0)))
  | .te_wrapped_random => (myrandom E, df0)
  | .te_wrapped_myround => (myround (x 0), df0)
  | .te_wrapped_sign =>
    if 0 = x 0 then (0, df0) else if x 0 > 0 then (1, df0) else (-1, df0)
  | .te_wrapped_sin => (E.sin (x 0), df1 (E.cos (x 0)))
  | .te_wrapped_sinh => (E.sinh (x 0), df1 (E.cosh (x 0)))
  | .te_wrapped_sqrt => (E.sqrt (x 0), df1 (0.5 / E.sqrt (x 0)))
  | .te_wrapped_tan => (E.tan (x 0), df1 (1 / (E.cos (x 0) * E.cos (x 0))))
  | .te_wrapped_tanh => (E.tanh (x 0), df1 (1 / (E.cosh (x 0) * E.cosh (x 0))))
  | .add => (x 0 + x 1, df2 1 1)
  | .sub => (x 0 - x 1, df2 1 (-1))
  | .mul => (x 0 * x 1, df2 (x 1) (x 0))
  | .divide =>
    let r := 1 / x 1
    (x 0 * r, df2 r (-(x 0) * r * r))
  | .negate => (-(x 0), df1 (-1))
  | .comma => (x 1, df2 0 1)
  | .user a => E.user a context x

/-! ## Evaluator -/

/-- The loop `for(j = 0; j < n; ++j){ g[j] = 0; }`. -/
def zero_fill (g : Nat → ℚ) : Nat → (Nat → ℚ)
  | 0 => g
  | n + 1 => Function.update (zero_fill g n) n 0

/-- The loop `for(j = 0; j < n; ++j){ g[j] += a*g1[j]; }`. -/
def add_scaled (a : ℚ) (g1 : Nat → ℚ) (g : Nat → ℚ) : Nat → (Nat → ℚ)
  | 0 => g
  | n + 1 =>
    Function.update (add_scaled a g1 g n) n (add_scaled a g1 g n n + a * g1 n)

/-- The loop `for(i = 0; i < m; ++i){ if(0 != df[i]){ ... } g1 += expr->nvar; }`
over the gradient vectors of the children, from child `i` on. -/
def accumulate (df : Nat → ℚ) (nvar : Nat) : List (Nat → ℚ) → Nat → (Nat → ℚ) → (Nat → ℚ)
  | [], _, g => g
  | g1 :: rest, i, g =>
    accumulate df nvar rest (i + 1) (if 0 ≠ df i then add_scaled (df i) g1 g nvar else g)

/-- The array `x` of argument values; entries the loop did not store are not
read by a callable of the node's arity. -/
def args (xs : List ℚ) : Nat → ℚ := fun i => xs.getD i 0

/-- The case `TE_VARIABLE` of `te_eval2`,
`g[expr->idx[n->ivar]] = 1; return val[n->ivar];`, which dereferences `g` and
`val`. -/
def te_eval2_variable (expr : te_expression) (u : te_union) (val g : Option (Nat → ℚ)) :
    Option (ℚ × Option (Nat → ℚ)) :=
  match g, val with
  | some ga, some va =>
    some (va u.getIvar.toNat, some (Function.update ga (expr.idx.getD u.getIvar.toNat 0) 1))
  | _, _ => none

/-- The end of the function case of `te_eval2`, after the children were
evaluated: the call of the node's callable on the values `x` of the children,
then `for(j = 0; j < expr->nvar; ++j){ g[j] = 0; }` and the accumulation of the
children's gradient vectors into `g`.  The array `g` is dereferenced only when
`expr->nvar` is not 0. -/
def te_eval2_combine (E : Env) (expr : te_expression) (u : te_union) (context : Nat)
    (children : List (ℚ × (Nat → ℚ))) (g : Option (Nat → ℚ)) : Option (ℚ × Option (Nat → ℚ)) :=
  if expr.nvar = 0 then
    some ((call E u.getFunction context (args (children.map Prod.fst))).1, g)
  else
    match g with
    | none => none
    | some ga =>
      some ((call E u.getFunction context (args (children.map Prod.fst))).1,
        some (accumulate (call E u.getFunction context (args (children.map Prod.fst))).2
          expr.nvar (children.map Prod.snd) 0 (zero_fill ga expr.nvar)))

mutual
/-- Function `te_eval2(expr, n, val, g)`: the value returned and the array `g`
afterwards. -/
def te_eval2 (E : Env) (expr : te_expression) :
    te_expr → Option (Nat → ℚ) → Option (Nat → ℚ) → Option (ℚ × Option (Nat → ℚ))
  | .null, _, g => some (E.nan, g)
  | .mk type u parameters context, val, g =>
    if TYPE_MASK type = TE_CONSTANT then some (u.getValue, g)
    else if TYPE_MASK type = TE_VARIABLE then te_eval2_variable expr u val g
    else if TE_FUNCTION0 ≤ TYPE_MASK type ∧ TYPE_MASK type ≤ TE_FUNCTION7 then
      match te_eval2_parameters E expr parameters (ARITY type) val with
      | none => none
      | some children => te_eval2_combine E expr u context children g
    else some (E.nan, g)

/-- The first loop of the function case of `te_eval2` over the slots
`parameters[i]`, with `k = m - i` iterations left: each child is evaluated
into its own zeroed gradient vector; the result lists, for each child, its
value and its gradient vector.  A slot beyond the list is a null pointer, on
which `te_eval2` returns `NAN`. -/
def te_eval2_parameters (E : Env) (expr : te_expression) :
    List te_expr → Nat → Option (Nat → ℚ) → Option (List (ℚ × (Nat → ℚ)))
  | _, 0, _ => some []
  | [], k + 1, _ => some (List.replicate (k + 1) (E.nan, fun _ => 0))
  | p :: ps, k + 1, val =>
    match te_eval2 E expr p val (some (fun _ => 0)) with
    | none => none
    | some (x, g1) =>
      match te_eval2_parameters E expr ps k val with
      | none => none
      | some rest => some ((x, g1.getD (fun _ => 0)) :: rest)
end

/-- Function `te_eval(expr, val, g)`. -/
def te_eval (E : Env) (expr : te_expression) (val g : Option (Nat → ℚ)) :
    Option (ℚ × Option (Nat → ℚ)) :=
  te_eval2 E expr expr.root val g

/-! ## Optimizer -/

mutual
/-- Function `optimize(expr, n)`: the node `n` after the in-place update. -/
def optimize (E : Env) (expr : te_expression) : te_expr → Option te_expr
  | .null => none
  | .mk type u parameters context =>
    if type = TE_CONSTANT then some (.mk type u parameters context)
    else if type = TE_VARIABLE then some (.mk type u parameters context)
    else if IS_PURE type then
      match optimize_parameters E expr parameters (ARITY type) with
      | none => none
      | some (ps, known) =>
        if known then
          match te_eval2 E expr (.mk type u ps context) none (some (fun _ => 0)) with
          | none => none
          | some (value, _) => some (.mk TE_CONSTANT (.value value) [] context)
        else some (.mk type u ps context)
    else some (.mk type u parameters context)

/-- The loop `for (i = 0; i < arity; ++i)` of `optimize` over the slots
`parameters[i]`, with `k = arity - i` iterations left: the slots afterwards and
the flag `known`. -/
def optimize_parameters (E : Env) (expr : te_expression) :
    List te_expr → Nat → Option (List te_expr × Bool)
  | ps, 0 => some (ps, true)
  | [], _ + 1 => none
  | p :: ps, k + 1 =>
    match optimize E expr p with
    | none => none
    | some p1 =>
      match optimize_parameters E expr ps k with
      | none => none
      | some (ps1, known) => some (p1 :: ps1, if p1.type ≠ TE_CONSTANT then false else known)
end

/-! ## Compilation -/

/-- The loop of `te_compile` that numbers the variables,
`if(TE_VARIABLE == variables[i].type){ ret->idx[i] = ret->nvar++; }else{ ret->idx[i] = 0; }`:
the entries of `idx` and the final `nvar`, from the count `nvar` on. -/
def index_variables : List te_variable → Nat → List Nat × Nat
  | [], nvar => ([], nvar)
  | v :: rest, nvar =>
    if TE_VARIABLE = v.type then
      ((nvar :: (index_variables rest (nvar + 1)).1), (index_variables rest (nvar + 1)).2)
    else
      ((0 :: (index_variables rest nvar).1), (index_variables rest nvar).2)

/-- The `te_expression` that `te_compile` allocates for the tree `root`, with
`nvar` and `idx` as its loop over the bindings leaves them. -/
def new_expression (bindings : List te_variable) (root : te_expr) : te_expression :=
  { root := root, nvar := (index_variables bindings 0).2, idx := (index_variables bindings 0).1 }

/-- The fuel that `te_compile` hands to `list`: six levels of calls for every
character of the text, and six more. -/
def compile_fuel (expression : List Char) : Nat := 6 * expression.length + 6

/-- The `state s` of `te_compile` after `s.start = s.next = expression;
s.lookup = variables;`.  The other members are not initialised; `next_token`
sets them before they are read. -/
def initial_state (expression : List Char) (bindings : List te_variable) : state :=
  { start := expression, next := expression, type := TOK_NULL, u := .value 0,
    context := 0, lookup := bindings }

/-- The parse run by `te_compile`, `next_token(&s); te_expr *root = list(&s);`:
the tree and the state afterwards. -/
def parse (E : Env) (expression : List Char) (bindings : List te_variable) :
    Option (te_expr × state) :=
  list E (compile_fuel expression) (next_token E (initial_state expression bindings))

/-- Function `te_compile(expression, var_count, variables, error)`, with
`bindings` the `var_count` entries of the array `variables`: the pointer
returned (`none` is `NULL`) and the value stored in `*error`. -/
def te_compile (E : Env) (expression : List Char) (bindings : List te_variable) :
    Option (Option te_expression × Nat) :=
  match parse E expression bindings with
  | none => none
  | some (root, s) =>
    if s.type ≠ TOK_END then
      let error := s.start.length - s.next.length
      some (none, if error = 0 then 1 else error)
    else
      match optimize E (new_expression bindings root) root with
      | none => none
      | some root1 => some (some (new_expression bindings root1), 0)

/-! ## A concrete environment -/

/-- The number written by a list of decimal digits. -/
def digits_value (ds : List Char) : Nat :=
  ds.foldl (fun acc c => 10 * acc + (c.toNat - '0'.toNat)) 0

/-- The exponent part `e`, `e+` or `e-` followed by digits of a decimal
literal: the exponent and the number of characters it takes, both 0 when no
digit follows. -/
def strtod_exponent (t : List Char) : Int × Nat :=
  match t with
  | [] => (0, 0)
  | c :: r =>
    if c = 'e' ∨ c = 'E' then
      match r with
      | '+' :: r1 =>
        if (r1.takeWhile is_digit).length = 0 then (0, 0)
        else ((digits_value (r1.takeWhile is_digit) : Int), 2 + (r1.takeWhile is_digit).length)
      | '-' :: r1 =>
        if (r1.takeWhile is_digit).length = 0 then (0, 0)
        else (-(digits_value (r1.takeWhile is_digit) : Int), 2 + (r1.takeWhile is_digit).length)
      | _ =>
        if (r.takeWhile is_digit).length = 0 then (0, 0)
        else ((digits_value (r.takeWhile is_digit) : Int), 1 + (r.takeWhile is_digit).length)
    else (0, 0)

/-- The exact value `m * 10 ^ e` of a decimal literal. -/
def decimal_value (m : Nat) (e : Int) : ℚ :=
  if 0 ≤ e then (m : ℚ) * 10 ^ e.toNat else (m : ℚ) / 10 ^ (-e).toNat

/-- The C library's `strtod` on a text that starts with a digit or a point,
for decimal literals (digits, an optional point and digits, an optional
exponent) and with their exact value: the value and the number of characters
consumed, `(0, 0)` when the text holds no digit. -/
def strtod_decimal (t : List Char) : ℚ × Nat :=
  let ip := t.takeWhile is_digit
  let r1 := t.dropWhile is_digit
  let fp := match r1 with
    | '.' :: r => r.takeWhile is_digit
    | _ => []
  let dot := match r1 with
    | '.' :: _ => 1
    | _ => 0
  let r2 := match r1 with
    | '.' :: r => r.dropWhile is_digit
    | _ => r1
  if ip.length + fp.length = 0 then (0, 0)
  else
    (decimal_value (digits_value (ip ++ fp)) ((strtod_exponent r2).1 - fp.length),
      ip.length + dot + fp.length + (strtod_exponent r2).2)

/-- An exact power for the arguments used below: `a ^ n` for a natural `n`,
and the values `100 ^ (1/2) = 10` and `100 ^ (-1/2) = 1/10`. -/
def pow_exact (a b : ℚ) : ℚ :=
  if b = 1 / 2 ∧ a = 100 then 10
  else if b = -1 / 2 ∧ a = 100 then 1 / 10
  else a ^ ⌊b⌋₊

/-- An environment with `strtod_decimal`, `pow_exact`, a caller's function
`sum2` at address 2 that adds its two arguments and writes no gradient, and
constant results elsewhere. -/
def exactEnv : Env :=
  { strtod := strtod_decimal, nan := 0, inf := 0,
    acos := fun _ => 0, asin := fun _ => 0, atan := fun _ => 0, atan2 := fun _ _ => 0,
    cos := fun _ => 0, cosh := fun _ => 0, exp := fun _ => 0, fmod := fun _ _ => 0,
    log := fun _ => 0, log10 := fun _ => 0, pow := pow_exact, sin := fun _ => 0,
    sinh := fun _ => 0, sqrt := fun _ => 0, tan := fun _ => 0, tanh := fun _ => 0,
    rand := fun _ => 0, RAND_MAX := 32767,
    user := fun a _ x => if a = 2 then (x 0 + x 1, df0) else (0, df0) }

/-- A variable binding written `{name}`. -/
def variable_binding (name : String) : te_variable :=
  { name := name.toList, address := .user 0, type := TE_VARIABLE, context := 0 }

/-! ## Predicates used by the theorems -/

/-- The weight of the current token in the termination measure: 0 for a number,
the end of the text and an error, 1 for every token that took a character. -/
def weight (t : Nat) : Nat :=
  if t = TOK_NUMBER ∨ t = TOK_END ∨ t = TOK_ERROR then 0 else 1

/-- The termination measure of the parser: the characters left at the cursor,
plus the weight of the token already read. -/
def state.measure (s : state) : Nat := s.next.length + weight s.type

/-- A parser step returns on the state `s` and does not increase the measure. -/
def returns_on (sub : state → Option (te_expr × state)) (s : state) : Prop :=
  ∃ r s1, sub s = some (r, s1) ∧ s1.measure ≤ s.measure

/-- The current token is one that `next_token` or the parser can leave in the
state: its type is a token code or a function type, and the union holds the
member that goes with the type. -/
def token_ok (s : state) : Prop :=
  (s.type < 32 ∨ (TE_FUNCTION0 ≤ TYPE_MASK s.type ∧ TYPE_MASK s.type ≤ TE_FUNCTION7)) ∧
  (s.type = TOK_NUMBER → ∃ v, s.u = .value v) ∧
  (s.type = TOK_VARIABLE → ∃ i : Nat, s.u = .ivar (i : Int) ∧
      ∃ v, s.lookup.get? i = some v ∧ TYPE_MASK v.type = TE_VARIABLE) ∧
  ((TE_FUNCTION0 ≤ TYPE_MASK s.type ∧ TYPE_MASK s.type ≤ TE_FUNCTION7) → ∃ f, s.u = .function f) ∧
  (s.type = TOK_INFIX → ∃ f, s.u = .function f)


mutual
/-- Decidable equality of trees. -/
def te_expr.decEq : (a b : te_expr) → Decidable (a = b)
  | .null, .null => isTrue rfl
  | .null, .mk _ _ _ _ => isFalse (by simp)
  | .mk _ _ _ _, .null => isFalse (by simp)
  | .mk t u ps c, .mk t1 u1 ps1 c1 =>
    if h1 : t = t1 then
      if h2 : u = u1 then
        if h4 : c = c1 then
          match te_expr.decEqList ps ps1 with
          | isTrue h3 => isTrue (by rw [h1, h2, h3, h4])
          | isFalse h3 => isFalse (by intro h; injection h with _ _ h _; exact h3 h)
        else isFalse (by intro h; injection h with _ _ _ h; exact h4 h)
      else isFalse (by intro h; injection h with _ h _ _; exact h2 h)
    else isFalse (by intro h; injection h with h _ _ _; exact h1 h)

/-- Decidable equality of lists of trees. -/
def te_expr.decEqList : (a b : List te_expr) → Decidable (a = b)
  | [], [] => isTrue rfl
  | [], _ :: _ => isFalse (by simp)
  | _ :: _, [] => isFalse (by simp)
  | p :: ps, q :: qs =>
    match te_expr.decEq p q with
    | isTrue h1 =>
      match te_expr.decEqList ps qs with
      | isTrue h2 => isTrue (by rw [h1, h2])
      | isFalse h2 => isFalse (by intro h; injection h with _ h; exact h2 h)
    | isFalse h1 => isFalse (by intro h; injection h with h _; exact h1 h)
end

instance : DecidableEq te_expr := te_expr.decEq

deriving instance DecidableEq for te_expression

/-- The union holds the member `value`. -/
def te_union.is_value : te_union → Bool
  | .value _ => true
  | _ => false

/-- The union holds the member `function`. -/
def te_union.is_function : te_union → Bool
  | .function _ => true
  | _ => false

/-- The union holds the member `ivar`, and it is the position of a binding of
kind variable in the list `lookup`. -/
def te_union.is_variable (lookup : List te_variable) : te_union → Bool
  | .ivar i =>
    decide (0 ≤ i) &&
    (match lookup.get? i.toNat with
     | some v => decide (TYPE_MASK v.type = TE_VARIABLE)
     | none => false)
  | _ => false

mutual
/-- Well-formedness of a tree against the caller's binding list `lookup`: a
constant node holds a value, a variable node holds an index of a binding of
kind variable, a function node holds a callable and exactly `ARITY(type)`
children, all present and well formed.  The null pointer and the placeholder
of the fallback of `base` (type 0 with a value) are not well formed. -/
def well_formed (lookup : List te_variable) : te_expr → Bool
  | .null => false
  | .mk type u parameters _ =>
    if type = TE_CONSTANT then u.is_value && parameters.isEmpty
    else if type = TE_VARIABLE then u.is_variable lookup && parameters.isEmpty
    else
      decide (TE_FUNCTION0 ≤ TYPE_MASK type ∧ TYPE_MASK type ≤ TE_FUNCTION7) &&
      u.is_function && well_formed_parameters lookup parameters (ARITY type)

/-- The list holds exactly `k` children, all well formed. -/
def well_formed_parameters (lookup : List te_variable) : List te_expr → Nat → Bool
  | [], 0 => true
  | p :: ps, k + 1 => well_formed lookup p && well_formed_parameters lookup ps k
  | [], _ + 1 => false
  | _ :: _, 0 => false
end

/-- The postcondition of a parser function entered in state `s` with the
binding list `lk`: the token left is well formed, the bindings and the text
are unchanged, the cursor has not moved back, and the tree is well formed
unless the state is in error. -/
def parse_ok (lk : List te_variable) (s : state) (r : te_expr) (s1 : state) : Prop :=
  token_ok s1 ∧ s1.lookup = lk ∧ s1.start = s.start ∧ s1.next <:+ s.next ∧
  (s1.type ≠ TOK_ERROR → well_formed lk r = true)

/-- The parser step `sub` meets `parse_ok` on every well-formed state. -/
def sound (lk : List te_variable) (sub : state → Option (te_expr × state)) : Prop :=
  ∀ s r s1, token_ok s → s.lookup = lk → sub s = some (r, s1) → parse_ok lk s r s1



/-- The parser step `sub1` returns whatever the parser step `sub` returns. -/
def extends_step (sub sub1 : state → Option (te_expr × state)) : Prop :=
  ∀ s r, sub s = some r → sub1 s = some r

/-- The parser function `p`, entered in state `s`, returns the tree `r` and
leaves the state `s1`, for some amount of fuel (and then for every larger
amount: see `parses_mono`). -/
def parses (p : Nat → state → Option (te_expr × state)) (s : state) (r : te_expr)
    (s1 : state) : Prop :=
  ∃ fuel, p fuel s = some (r, s1)



/-! ## Specification of the parse trees -/

/-- The operands that follow a first operand at one level of the grammar: as
long as the current token is an operator of the level (`cond`), the operator
and the tree that `sub` parses after it, in the order of the text; and the
state after the last operand. -/
def operands (E : Env) (cond : state → Option Fn) (sub : state → Option (te_expr × state)) :
    Nat → state → Option (List (Fn × te_expr) × state)
  | 0, _ => none
  | fuel + 1, s =>
    match cond s with
    | none => some ([], s)
    | some t =>
      match sub (next_token E s) with
      | none => none
      | some (r, s1) =>
        match operands E cond sub fuel s1 with
        | none => none
        | some (rest, s2) => some ((t, r) :: rest, s2)

/-- The left-nested tree `op(n-1)(... op2(op1(t1, t2), t3) ..., tn)` of a first
operand `t1` and the operands `(op1, t2), ..., (op(n-1), tn)` that follow. -/
def left_nested (t1 : te_expr) (rest : List (Fn × te_expr)) : te_expr :=
  rest.foldl (fun acc p => binary_node p.1 acc p.2) t1

/-- The unary signs written before a base: the callables `add` and `sub` of the
sign tokens, in the order of the text, and the state at the base. -/
def sign_tokens (E : Env) : Nat → state → Option (List Fn × state)
  | 0, _ => none
  | fuel + 1, s =>
    if s.type = TOK_INFIX ∧ (s.u.getFunction = .add ∨ s.u.getFunction = .sub) then
      match sign_tokens E fuel (next_token E s) with
      | none => none
      | some (signs, s1) => some (s.u.getFunction :: signs, s1)
    else some ([], s)

/-- The precedence level of the operator in the current token, lowest first,
and its callable: 0 for `,`, 1 for `+` and `-`, 2 for `*`, `/` and `%`, 3 for
`^`; `none` for a token that is no binary operator. -/
def operator_level (s : state) : Option (Nat × Fn) :=
  if s.type = TOK_SEP then some (0, .comma)
  else if s.type = TOK_INFIX then
    if s.u.getFunction = .add ∨ s.u.getFunction = .sub then some (1, s.u.getFunction)
    else if s.u.getFunction = .mul ∨ s.u.getFunction = .divide
        ∨ s.u.getFunction = .te_wrapped_fmod then some (2, s.u.getFunction)
    else if s.u.getFunction = .te_wrapped_pow then some (3, s.u.getFunction)
    else none
  else none

/-- The value that `te_eval` returns on the compiled text `text`, for the
bindings `bindings` and the values `val`; `none` when the text does not
compile. -/
def value_of (E : Env) (text : String) (bindings : List te_variable) (val : Nat → ℚ) :
    Option ℚ :=
  (te_compile E text.toList bindings).bind (fun r => r.1.bind (fun ex =>
    (te_eval E ex (some val) (some (fun _ => 0))).map Prod.fst))

/-- The tree that the parser builds for the text `text`, before `optimize`;
`none` when the parse ends in an error or before the end of the text. -/
def tree_of (E : Env) (text : String) (bindings : List te_variable) : Option te_expr :=
  (parse E text.toList bindings).bind (fun p => if p.2.type = TOK_END then some p.1 else none)



/-- The state of the tokenizer on the text `text` without bindings, when
`rest` is left at the cursor and the current token has the type `type` and the
union `u`. -/
def token_state (text rest : String) (type : Nat) (u : te_union) : state :=
  { start := text.toList, next := rest.toList, type := type, u := u, context := 0, lookup := [] }

/-! ## Values of the C library used by the witnesses -/

/-- The C library's `sqrt` at the argument used by the witnesses:
`sqrt(100) = 10`. -/
def sqrt_table (x : ℚ) : ℚ := if x = 100 then 10 else 0

/-- The C library's `sin` at the argument used by the witnesses:
`sin(-0.5) = -0.479425538604203`. -/
def sin_table (x : ℚ) : ℚ := if x = -1 / 2 then -479425538604203 / 1000000000000000 else 0

/-- The C library's `asin` at the argument used by the witnesses:
`asin(-0.479425538604203) = -0.5`. -/
def asin_table (x : ℚ) : ℚ := if x = -479425538604203 / 1000000000000000 then -1 / 2 else 0

/-- The environment `exactEnv` with the values `sqrt_table`, `sin_table` and
`asin_table` of the C library. -/
def tableEnv : Env :=
  { exactEnv with sqrt := sqrt_table, sin := sin_table, asin := asin_table }

/-- A binding of the caller's function at address `address`, of the type
`type`, without context. -/
def function_binding (name : String) (address : Nat) (type : Nat) : te_variable :=
  { name := name.toList, address := .user address, type := type, context := 0 }



/-! ## The tokens consumed by a parse -/

/-- The token in `s` is one that the parser consumes on its own: a number, a
variable, an operator or sign, a function of arity 1, or a function of arity 0
(after which a `(` must be followed by `)`). -/
def plain_token (E : Env) (s : state) : Prop :=
  TYPE_MASK s.type = TOK_NUMBER ∨ TYPE_MASK s.type = TOK_VARIABLE ∨ s.type = TOK_INFIX ∨
  TYPE_MASK s.type = TE_FUNCTION1 ∨
  (TYPE_MASK s.type = TE_FUNCTION0 ∧
    ((next_token E s).type = TOK_OPEN → (next_token E (next_token E s)).type = TOK_CLOSE))

/-- The run of tokens `consumes E s c s1`: from the token in `s` up to, and
without, the token in `s1`, the tokens are plain tokens, separators, groups
`( ... )` and calls `f ( ... )` of a function `f` of arity 2 to 7 whose
parentheses hold exactly `ARITY - 1` separators outside of inner parentheses;
`c` counts the separators of the run outside of parentheses. -/
inductive consumes (E : Env) : state → Nat → state → Prop
  | done (s : state) : consumes E s 0 s
  | token (s s1 : state) (c : Nat) : plain_token E s → consumes E (next_token E s) c s1 →
      consumes E s c s1
  | separator (s s1 : state) (c : Nat) : s.type = TOK_SEP → consumes E (next_token E s) c s1 →
      consumes E s (c + 1) s1
  | group (s s1 s2 : state) (c1 c : Nat) : TYPE_MASK s.type = TOK_OPEN →
      consumes E (next_token E s) c1 s1 → s1.type = TOK_CLOSE →
      consumes E (next_token E s1) c s2 → consumes E s c s2
  | call (s s1 s2 : state) (c : Nat) :
      (TE_FUNCTION2 ≤ TYPE_MASK s.type ∧ TYPE_MASK s.type ≤ TE_FUNCTION7) →
      (next_token E s).type = TOK_OPEN →
      consumes E (next_token E (next_token E s)) (ARITY s.type - 1) s1 → s1.type = TOK_CLOSE →
      consumes E (next_token E s1) c s2 → consumes E s c s2

/-- The postcondition of a level below `list`: a result without error has
consumed a run of tokens without separators outside of parentheses. -/
def consumes_level (E : Env) (sub : state → Option (te_expr × state)) : Prop :=
  ∀ s r s1, sub s = some (r, s1) → s1.type ≠ TOK_ERROR → consumes E s 0 s1

/-- The change of the nesting depth of parentheses made by a token of the type
`t`: 1 for `(`, -1 for `)`. -/
def paren_weight (t : Nat) : Int :=
  if TYPE_MASK t = TOK_OPEN then 1 else if t = TOK_CLOSE then -1 else 0

/-- The nesting depth of parentheses after the `k` tokens that start with the
token in `s`. -/
def depth (E : Env) (s : state) : Nat → Int
  | 0 => 0
  | k + 1 => paren_weight s.type + depth E (next_token E s) k

/-- What holds of every token that a parse that succeeds has consumed: it is
no error and not the end of the text; after a function of arity 0 a `(` is
followed by `)`; a function of arity 2 to 7 is followed by `(`, a run of
tokens with exactly `ARITY - 1` separators outside of inner parentheses, and
`)`. -/
def consumed_ok (E : Env) (s : state) : Prop :=
  s.type ≠ TOK_ERROR ∧ s.type ≠ TOK_END ∧
  (TYPE_MASK s.type = TE_FUNCTION0 → (next_token E s).type = TOK_OPEN →
    (next_token E (next_token E s)).type = TOK_CLOSE) ∧
  ((TE_FUNCTION2 ≤ TYPE_MASK s.type ∧ TYPE_MASK s.type ≤ TE_FUNCTION7) →
    (next_token E s).type = TOK_OPEN ∧
    ∃ s1, consumes E (next_token E (next_token E s)) (ARITY s.type - 1) s1 ∧
      s1.type = TOK_CLOSE)

/-- The run of `k` tokens from the token in `s` leads to the token in `s1`,
every token of the run meets `consumed_ok`, and the run changes the nesting
depth by `d`. -/
def runs (E : Env) (s : state) (k : Nat) (d : Int) (s1 : state) : Prop :=
  s1 = (next_token E)^[k] s ∧ (∀ j, j < k → consumed_ok E ((next_token E)^[j] s)) ∧
  depth E s k = d



/-! ## Expressions without variables or impure functions -/

mutual
/-- The tree references no variable and every function node in it carries
`TE_FLAG_PURE` (the nodes of operators always do). -/
def foldable : te_expr → Bool
  | .null => false
  | .mk type _ parameters _ =>
    if type = TE_CONSTANT then true
    else if type = TE_VARIABLE then false
    else IS_PURE type && foldable_parameters parameters

/-- Every tree of the list is `foldable`. -/
def foldable_parameters : List te_expr → Bool
  | [] => true
  | p :: ps => foldable p && foldable_parameters ps
end



/-! ## Names -/

/-- The C string held by an array of characters: the characters before the
first terminator. -/
def cstring (a : List Char) : List Char := a.takeWhile (fun c => c != '\x00')

/-- The bindings of `test_dynamic`: the variables `x` and `f`, and the caller's
functions `sum0` to `sum7` at the addresses 10 to 17. -/
def test_lookup : List te_variable :=
  [ variable_binding "x", variable_binding "f",
    function_binding "sum0" 10 TE_FUNCTION0, function_binding "sum1" 11 TE_FUNCTION1,
    function_binding "sum2" 12 TE_FUNCTION2, function_binding "sum3" 13 TE_FUNCTION3,
    function_binding "sum4" 14 TE_FUNCTION4, function_binding "sum5" 15 TE_FUNCTION5,
    function_binding "sum6" 16 TE_FUNCTION6, function_binding "sum7" 17 TE_FUNCTION7 ]

/-- The functions `sum0` to `sum7` of the tests, at the addresses 10 to 17:
`sum0` returns 6, `sum1` returns `x[0] * 2`, `sumN` adds its `N` arguments. -/
def test_sum (a : Nat) (x : Nat → ℚ) : ℚ :=
  if a = 10 then 6
  else if a = 11 then x 0 * 2
  else if 12 ≤ a ∧ a ≤ 17 then ((List.range (a - 10)).map x).sum
  else 0

/-- The environment `tableEnv` with the functions of the tests. -/
def testEnv : Env :=
  { tableEnv with user := fun a _ x => (test_sum a x, df0) }



/-- The state after the tokenizer has read an identifier at the cursor of `s`:
the cursor is behind the identifier, and the token has the type `type`, the
union `u` and the context `context`. -/
def identifier_token (s : state) (type : Nat) (u : te_union) (context : Nat) : state :=
  { s with next := s.next.dropWhile is_ident, type := type, u := u, context := context }



/-- The state `s` with the cursor at `rest` and the token type `type`. -/
def symbol_token (s : state) (rest : List Char) (type : Nat) : state :=
  { s with next := rest, type := type }

/-- The state `s` moved to the text `start`, with `next` at the cursor. -/
def state.move (s : state) (start next : List Char) : state :=
  { s with start := start, next := next }



/-- The identifier `name` resolves to the row `v`: `v` is the first binding of
the list `bindings` with that name, or no binding has the name and `v` is the
builtin of that name. -/
def resolves (bindings : List te_variable) (name : List Char) (v : te_variable) : Prop :=
  (∃ pre post, bindings = pre ++ v :: post ∧ (∀ w ∈ pre, cstring w.name ≠ name) ∧
    cstring v.name = name) ∨
  ((∀ w ∈ bindings, cstring w.name ≠ name) ∧ v ∈ functions ∧ v.name = name)

/-- The text `name` is an identifier: a lower-case letter followed by
characters of `[a-z0-9_]`. -/
def identifier (name : List Char) : Prop :=
  (∃ c rest, name = c :: rest ∧ is_lower c = true) ∧ ∀ c ∈ name, is_ident c = true



/-- The arguments written after the token in `s` (a `(` or a `,`): one tree
parsed by `sub` after the token and, as long as a `,` follows, one more; `s1`
holds the token after the last argument, which is no `,`. -/
inductive arguments (E : Env) (sub : state → Option (te_expr × state)) :
    state → List te_expr → state → Prop
  | last (s s1 : state) (a : te_expr) : sub (next_token E s) = some (a, s1) →
      s1.type ≠ TOK_SEP → arguments E sub s [a] s1
  | more (s s1 s2 : state) (a : te_expr) (rest : List te_expr) :
      sub (next_token E s) = some (a, s1) → s1.type = TOK_SEP →
      arguments E sub s1 rest s2 → arguments E sub s (a :: rest) s2



/-! ## Texts followed by a parenthesis -/

/-- What the C library's `strtod` is assumed to do on a text that starts with
a digit or a point: it consumes no more than the text, and a parenthesis `c`
appended to the text changes neither the value nor the number of characters
consumed. -/
def strtod_stable (E : Env) (c : Char) : Prop :=
  ∀ (d : Char) (t : List Char), (is_digit d || d == '.') = true →
    E.strtod (d :: t ++ [c]) = E.strtod (d :: t) ∧ (E.strtod (d :: t)).2 ≤ (d :: t).length

/-- The token type of a parenthesis: `TOK_OPEN` for `(`, `TOK_CLOSE` otherwise. -/
def paren_type (c : Char) : Nat := if c = '(' then TOK_OPEN else TOK_CLOSE

/-! ## The remainder of the C library -/

/-- The C library's `trunc`: the integer part of `x`, rounded toward zero. -/
def trunc (x : ℚ) : ℤ := if 0 ≤ x then ⌊x⌋ else ⌈x⌉

/-- The C library's `fmod(a, b)` for a divisor `b` other than 0, with its exact
value `a - trunc(a / b) * b`. -/
def fmod_exact (a b : ℚ) : ℚ := a - (trunc (a / b) : ℚ) * b

/-- The environment `exactEnv` with the remainder `fmod_exact` of the C library. -/
def fmodEnv : Env := { exactEnv with fmod := fmod_exact }

/-! ## The parser of the alternate configuration `TE_POW_FROM_RIGHT` -/

/-- The node reached from `n` by following `parameters[1]` `d` times, updated
in place by `f`.  The pointer `insertion` of `factor` designates such a node of
the tree `ret`: the power node built last. -/
def update_right (f : te_expr → te_expr) : Nat → te_expr → te_expr
  | 0, n => f n
  | _ + 1, .null => .null
  | d + 1, .mk t u ps c => .mk t u (ps.set 1 (update_right f d (ps.getD 1 .null))) c

/-- The statements `insert = NEW_EXPR(TE_FUNCTION2 | TE_FLAG_PURE,
insertion->parameters[1], p); insert->function = t; insertion->parameters[1] = insert;`
of `factor`, on the node `insertion`. -/
def insert_power (t : Fn) (p : te_expr) (insertion : te_expr) : te_expr :=
  insertion.set_parameter 1 (binary_node t (insertion.parameters.getD 1 .null) p)

/-- The loop of `factor` when `TE_POW_FROM_RIGHT` is defined,
`while (s->type == TOK_INFIX && (s->function == te_wrapped_pow))`.  The pointer
`insertion` is `none` when null, and `some d` when it designates the node
reached from `ret` by following `parameters[1]` `d` times.  The argument `sub`
is `power`. -/
def factor_from_right_loop (E : Env) (sub : state → Option (te_expr × state)) :
    Nat → te_expr → Option Nat → state → Option (te_expr × state)
  | 0, _, _, _ => none
  | fuel + 1, ret, insertion, s =>
    if s.type = TOK_INFIX ∧ s.u.getFunction = .te_wrapped_pow then
      match sub (next_token E s) with
      | none => none
      | some (p, s1) =>
        match insertion with
        | some d =>
          factor_from_right_loop E sub fuel (update_right (insert_power s.u.getFunction p) d ret)
            (some (d + 1)) s1
        | none =>
          factor_from_right_loop E sub fuel (binary_node s.u.getFunction ret p) (some 0) s1
    else some (ret, s)

/-- The test `ret->type == (TE_FUNCTION1 | TE_FLAG_PURE) && ret->function == negate`
of `factor` when `TE_POW_FROM_RIGHT` is defined. -/
def is_negate (ret : te_expr) : Bool :=
  decide (ret.type = TE_FUNCTION1 ||| TE_FLAG_PURE) && decide (ret.u.getFunction = .negate)

mutual
/-- Function `base(s)`, calling the parser of the configuration `TE_POW_FROM_RIGHT`. -/
def base_from_right (E : Env) : Nat → state → Option (te_expr × state)
  | 0, _ => none
  | fuel + 1, s =>
    if TYPE_MASK s.type = TOK_NUMBER then
      some (constant_node s.u.getValue, next_token E s)
    else if TYPE_MASK s.type = TOK_VARIABLE then
      some (variable_node s.u.getIvar, next_token E s)
    else if TYPE_MASK s.type = TE_FUNCTION0 then
      let ret := function_node s.type s.u.getFunction s.context
      let s1 := next_token E s
      if s1.type = TOK_OPEN then
        let s2 := next_token E s1
        if s2.type ≠ TOK_CLOSE then some (ret, s2.set_error)
        else some (ret, next_token E s2)
      else some (ret, s1)
    else if TYPE_MASK s.type = TE_FUNCTION1 then
      let ret := function_node s.type s.u.getFunction s.context
      match power_from_right E fuel (next_token E s) with
      | none => none
      | some (p, s1) => some (ret.set_parameter 0 p, s1)
    else if TE_FUNCTION2 ≤ TYPE_MASK s.type ∧ TYPE_MASK s.type ≤ TE_FUNCTION7 then
      let arity := ARITY s.type
      let ret := function_node s.type s.u.getFunction s.context
      let s1 := next_token E s
      if s1.type ≠ TOK_OPEN then some (ret, s1.set_error)
      else
        match base_args E (expr_from_right E fuel) arity 0 ret s1 with
        | none => none
        | some (ret1, i, s2) =>
          if s2.type ≠ TOK_CLOSE ∨ i ≠ arity - 1 then some (ret1, s2.set_error)
          else some (ret1, next_token E s2)
    else if TYPE_MASK s.type = TOK_OPEN then
      match list_from_right E fuel (next_token E s) with
      | none => none
      | some (ret, s1) =>
        if s1.type ≠ TOK_CLOSE then some (ret, s1.set_error)
        else some (ret, next_token E s1)
    else
      some ((new_expr 0 none).set_value E.nan, s.set_error)

/-- Function `power(s)`, calling the parser of the configuration `TE_POW_FROM_RIGHT`. -/
def power_from_right (E : Env) : Nat → state → Option (te_expr × state)
  | 0, _ => none
  | fuel + 1, s =>
    match power_signs E fuel s 1 with
    | none => none
    | some (s1, sign) =>
      if sign = 1 then base_from_right E fuel s1
      else
        match base_from_right E fuel s1 with
        | none => none
        | some (b, s2) =>
          some (negate_node b, s2)

/-- Function `factor(s)` of the configuration in which `TE_POW_FROM_RIGHT` is
defined: a `negate` node returned by `power` is taken off (`neg = 1`), the
operands of `^` are nested to the right, and the negation is put back around
the whole chain. -/
def factor_from_right (E : Env) : Nat → state → Option (te_expr × state)
  | 0, _ => none
  | fuel + 1, s =>
    match power_from_right E fuel s with
    | none => none
    | some (ret, s1) =>
      if is_negate ret then
        match factor_from_right_loop E (power_from_right E fuel) fuel
            (ret.parameters.getD 0 .null) none s1 with
        | none => none
        | some (ret1, s2) => some (negate_node ret1, s2)
      else factor_from_right_loop E (power_from_right E fuel) fuel ret none s1

/-- Function `term(s)`, calling the parser of the configuration `TE_POW_FROM_RIGHT`. -/
def term_from_right (E : Env) : Nat → state → Option (te_expr × state)
  | 0, _ => none
  | fuel + 1, s =>
    match factor_from_right E fuel s with
    | none => none
    | some (ret, s1) => binary_loop E term_op (factor_from_right E fuel) fuel ret s1

/-- Function `expr(s)`, calling the parser of the configuration `TE_POW_FROM_RIGHT`. -/
def expr_from_right (E : Env) : Nat → state → Option (te_expr × state)
  | 0, _ => none
  | fuel + 1, s =>
    match term_from_right E fuel s with
    | none => none
    | some (ret, s1) => binary_loop E expr_op (term_from_right E fuel) fuel ret s1

/-- Function `list(s)`, calling the parser of the configuration `TE_POW_FROM_RIGHT`. -/
def list_from_right (E : Env) : Nat → state → Option (te_expr × state)
  | 0, _ => none
  | fuel + 1, s =>
    match expr_from_right E fuel s with
    | none => none
    | some (ret, s1) => binary_loop E list_op (expr_from_right E fuel) fuel ret s1
end

/-- The parse run by `te_compile` in the configuration `TE_POW_FROM_RIGHT`. -/
def parse_from_right (E : Env) (expression : List Char) (bindings : List te_variable) :
    Option (te_expr × state) :=
  list_from_right E (compile_fuel expression) (next_token E (initial_state expression bindings))

/-- Function `te_compile` in the configuration `TE_POW_FROM_RIGHT`. -/
def te_compile_from_right (E : Env) (expression : List Char) (bindings : List te_variable) :
    Option (Option te_expression × Nat) :=
  match parse_from_right E expression bindings with
  | none => none
  | some (root, s) =>
    if s.type ≠ TOK_END then
      let error := s.start.length - s.next.length
      some (none, if error = 0 then 1 else error)
    else
      match optimize E (new_expression bindings root) root with
      | none => none
      | some root1 => some (some (new_expression bindings root1), 0)

/-- The tree that the parser of the configuration `TE_POW_FROM_RIGHT` builds
for the text `text`, before `optimize`; `none` when the parse ends in an error
or before the end of the text. -/
def tree_from_right (E : Env) (text : String) (bindings : List te_variable) : Option te_expr :=
  (parse_from_right E text.toList bindings).bind
    (fun p => if p.2.type = TOK_END then some p.1 else none)

/-- The value that `te_eval` returns on the text `text` compiled in the
configuration `TE_POW_FROM_RIGHT`, for the bindings `bindings` and the values
`val`; `none` when the text does not compile. -/
def value_from_right (E : Env) (text : String) (bindings : List te_variable) (val : Nat → ℚ) :
    Option ℚ :=
  (te_compile_from_right E text.toList bindings).bind (fun r => r.1.bind (fun ex =>
    (te_eval E ex (some val) (some (fun _ => 0))).map Prod.fst))

/-! ## Texts enclosed in parentheses -/

/-- The state of the tokenizer on the text `start`, which ends with the text
at the cursor of `s` followed by `)`, at the token at which `s` is on its own
text: the same token with the `)` more at the cursor, and the token `)` where
`s` is at the end of its text. -/
def state.close (s : state) (start : List Char) : state :=
  if s.type = TOK_END then symbol_token (s.move start []) [] TOK_CLOSE
  else s.move start (s.next ++ [')'])

/-- The parser step `sub` does on a text followed by `)` what it does on the
text itself, when it returns there without error: it returns the same tree, in
the corresponding state. -/
def closes (start : List Char) (sub : state → Option (te_expr × state)) : Prop :=
  ∀ s r s1, '\x00' ∉ s.next → sub s = some (r, s1) → s1.type ≠ TOK_ERROR →
    sub (s.close start) = some (r, s1.close start) ∧ '\x00' ∉ s1.next

/-! ## The calls of the tokenizer made by a parse -/

/-- The state `s1` is reached from the state `s` by `k` calls of `next_token`,
none of them made while the token is `TOK_ERROR`, followed or not by the
assignment `s->type = TOK_ERROR`. -/
def follows (E : Env) (s s1 : state) : Prop :=
  ∃ k, (s1 = (next_token E)^[k] s ∨ s1 = ((next_token E)^[k] s).set_error) ∧
    ∀ j, j < k → ((next_token E)^[j] s).type ≠ TOK_ERROR

/-! ## Doubles with the special values of IEEE arithmetic -/

/-- A `double` with the special values of IEEE arithmetic: a finite number
(held exactly: rounding, overflow and the sign of zero are not modelled), an
infinity, or `NaN`. -/
inductive double where
  | finite (q : ℚ)
  | inf
  | neg_inf
  | nan
  deriving DecidableEq

/-- The negation `-a` of doubles. -/
def double.neg : double → double
  | .finite a => .finite (-a)
  | .inf => .neg_inf
  | .neg_inf => .inf
  | .nan => .nan

/-- The sum `a + b` of doubles: `inf + (-inf)` is `NaN`. -/
def double.add : double → double → double
  | .nan, _ => .nan
  | _, .nan => .nan
  | .finite a, .finite b => .finite (a + b)
  | .finite _, .inf => .inf
  | .finite _, .neg_inf => .neg_inf
  | .inf, .finite _ => .inf
  | .inf, .inf => .inf
  | .inf, .neg_inf => .nan
  | .neg_inf, .finite _ => .neg_inf
  | .neg_inf, .inf => .nan
  | .neg_inf, .neg_inf => .neg_inf

/-- The infinity of the sign of `a`, and `NaN` for `a = 0`: the product of `a`
and `inf`. -/
def double.signed_inf (a : ℚ) : double :=
  if a = 0 then .nan else if 0 < a then .inf else .neg_inf

/-- The product `a * b` of doubles: `0 * inf` is `NaN`. -/
def double.mul : double → double → double
  | .nan, _ => .nan
  | _, .nan => .nan
  | .finite a, .finite b => .finite (a * b)
  | .finite a, .inf => double.signed_inf a
  | .finite a, .neg_inf => double.signed_inf (-a)
  | .inf, .finite b => double.signed_inf b
  | .inf, .inf => .inf
  | .inf, .neg_inf => .neg_inf
  | .neg_inf, .finite b => double.signed_inf (-b)
  | .neg_inf, .inf => .neg_inf
  | .neg_inf, .neg_inf => .inf

/-- The quotient `a / b` of doubles: a finite number other than 0 divided by 0
is an infinity, `0 / 0` and `inf / inf` are `NaN`. -/
def double.div : double → double → double
  | .nan, _ => .nan
  | _, .nan => .nan
  | .finite a, .finite b => if b = 0 then double.signed_inf a else .finite (a / b)
  | .finite _, .inf => .finite 0
  | .finite _, .neg_inf => .finite 0
  | .inf, .finite b => if 0 ≤ b then .inf else .neg_inf
  | .neg_inf, .finite b => if 0 ≤ b then .neg_inf else .inf
  | .inf, .inf => .nan
  | .inf, .neg_inf => .nan
  | .neg_inf, .inf => .nan
  | .neg_inf, .neg_inf => .nan

/-- The test `0 != a` of doubles, which holds of `NaN` and of the infinities. -/
def double.nonzero (a : double) : Bool := a != .finite 0

/-- The type `te_fun2` of the callables, `double (*)(void *, const double *, double *)`:
from the context and the array `x` of arguments, the value returned and the
array `df` of local gradients afterwards (entries not written are 0). -/
def te_fun2 : Type := Nat → (Nat → double) → double × (Nat → double)

/-- The array `df` of doubles after `g[0] = a`. -/
def double_df1 (a : double) : Nat → double := Function.update (fun _ => .finite 0) 0 a

/-- The array `df` of doubles after `g[0] = a; g[1] = b`. -/
def double_df2 (a b : double) : Nat → double :=
  Function.update (Function.update (fun _ => .finite 0) 0 a) 1 b

/-- The part of the machine that `te_eval2` runs on: the sum `a + b` and the
product `a * b` of its doubles, and the callable behind each function
pointer. -/
structure Machine where
  add : double → double → double
  mul : double → double → double
  callable : Fn → te_fun2

/-- The callables of the operators, `te_wrapped_pow` and `te_wrapped_sqrt`,
over doubles, as their bodies compute them; `sqrt`, `pow` and `log` are the
functions of the C library and `other` stands for the remaining callables. -/
def call_double (sqrt : double → double) (pow : double → double → double)
    (log : double → double) (other : Fn → te_fun2) : Fn → te_fun2
  | .add, _, x => ((x 0).add (x 1), double_df2 (.finite 1) (.finite 1))
  | .sub, _, x => ((x 0).add (x 1).neg, double_df2 (.finite 1) (.finite (-1)))
  | .mul, _, x => ((x 0).mul (x 1), double_df2 (x 1) (x 0))
  | .divide, _, x =>
    ((x 0).mul ((double.finite 1).div (x 1)),
      double_df2 ((double.finite 1).div (x 1))
        (((x 0).neg.mul ((double.finite 1).div (x 1))).mul ((double.finite 1).div (x 1))))
  | .negate, _, x => ((x 0).neg, double_df1 (.finite (-1)))
  | .comma, _, x => (x 1, double_df2 (.finite 0) (.finite 1))
  | .te_wrapped_pow, _, x =>
    (pow (x 0) (x 1),
      double_df2 (((x 1).div (x 0)).mul (pow (x 0) (x 1))) ((pow (x 0) (x 1)).mul (log (x 0))))
  | .te_wrapped_sqrt, _, x => (sqrt (x 0), double_df1 ((double.finite (1 / 2)).div (sqrt (x 0))))
  | f, p, x => other f p x

/-- The C library's `sqrt` on doubles, at the arguments used by the theorems:
`sqrt(0) = 0` and `sqrt(100) = 10`. -/
def sqrt_double (x : double) : double :=
  if x = .finite 0 then .finite 0 else if x = .finite 100 then .finite 10 else .nan

/-- The C library's `pow` on doubles, at the arguments used by the theorems:
a finite base to the power of a natural number. -/
def pow_double : double → double → double
  | .finite a, .finite b => if b = (⌊b⌋₊ : ℚ) then .finite (a ^ ⌊b⌋₊) else .nan
  | _, _ => .nan

/-- The C library's `log` on doubles, at the arguments used by the theorems:
`log(1) = 0`, and for `log(3)` the rational 1.0986122886681098, which differs
from the double by less than a unit in its last place. -/
def log_double (x : double) : double :=
  if x = .finite 1 then .finite 0
  else if x = .finite 3 then .finite (10986122886681098 / 10000000000000000) else .nan

/-- A machine with the special values of IEEE arithmetic, whose callables are
those of `call_double` with `sqrt_double`, `pow_double` and `log_double`; the
remaining callables, which the texts of the theorems do not call, return
`NaN`. -/
def ieee : Machine :=
  { add := double.add, mul := double.mul,
    callable := call_double sqrt_double pow_double log_double
      (fun _ _ _ => (.nan, fun _ => .finite 0)) }

/-! ## The evaluator over doubles -/

/-- The loop `for(j = 0; j < n; ++j){ g[j] = 0; }`, over doubles. -/
def zero_fill_double (g : Nat → double) : Nat → (Nat → double)
  | 0 => g
  | n + 1 => Function.update (zero_fill_double g n) n (.finite 0)

/-- The loop `for(j = 0; j < n; ++j){ g[j] += a*g1[j]; }`, over doubles. -/
def add_scaled_double (M : Machine) (a : double) (g1 : Nat → double) (g : Nat → double) :
    Nat → (Nat → double)
  | 0 => g
  | n + 1 =>
    Function.update (add_scaled_double M a g1 g n) n
      (M.add (add_scaled_double M a g1 g n n) (M.mul a (g1 n)))

/-- The loop `for(i = 0; i < m; ++i){ if(0 != df[i]){ ... } g1 += expr->nvar; }`
over the gradient vectors of the children, from child `i` on, over doubles. -/
def accumulate_double (M : Machine) (df : Nat → double) (nvar : Nat) :
    List (Nat → double) → Nat → (Nat → double) → (Nat → double)
  | [], _, g => g
  | g1 :: rest, i, g =>
    accumulate_double M df nvar rest (i + 1)
      (if (df i).nonzero then add_scaled_double M (df i) g1 g nvar else g)

/-- The case `TE_VARIABLE` of `te_eval2`, over doubles. -/
def te_eval2_variable_double (expr : te_expression) (u : te_union)
    (val g : Option (Nat → double)) : Option (double × Option (Nat → double)) :=
  match g, val with
  | some ga, some va =>
    some (va u.getIvar.toNat,
      some (Function.update ga (expr.idx.getD u.getIvar.toNat 0) (.finite 1)))
  | _, _ => none

/-- The end of the function case of `te_eval2`, over doubles, after the
children were evaluated: the call of the node's callable, then
`for(j = 0; j < expr->nvar; ++j){ g[j] = 0; }` and the accumulation of the
children's gradient vectors into `g`. -/
def te_eval2_combine_double (M : Machine) (expr : te_expression) (u : te_union)
    (context : Nat) (children : List (double × (Nat → double))) (g : Option (Nat → double)) :
    Option (double × Option (Nat → double)) :=
  if expr.nvar = 0 then
    some ((M.callable u.getFunction context
      (fun i => (children.map Prod.fst).getD i (.finite 0))).1, g)
  else
    match g with
    | none => none
    | some ga =>
      some ((M.callable u.getFunction context
          (fun i => (children.map Prod.fst).getD i (.finite 0))).1,
        some (accumulate_double M
          (M.callable u.getFunction context
            (fun i => (children.map Prod.fst).getD i (.finite 0))).2
          expr.nvar (children.map Prod.snd) 0 (zero_fill_double ga expr.nvar)))

mutual
/-- Function `te_eval2(expr, n, val, g)` over doubles, on the machine `M`:
the value returned and the array `g` afterwards. -/
def te_eval2_double (M : Machine) (expr : te_expression) :
    te_expr → Option (Nat → double) → Option (Nat → double) →
      Option (double × Option (Nat → double))
  | .null, _, g => some (.nan, g)
  | .mk type u parameters context, val, g =>
    if TYPE_MASK type = TE_CONSTANT then some (.finite u.getValue, g)
    else if TYPE_MASK type = TE_VARIABLE then te_eval2_variable_double expr u val g
    else if TE_FUNCTION0 ≤ TYPE_MASK type ∧ TYPE_MASK type ≤ TE_FUNCTION7 then
      match te_eval2_parameters_double M expr parameters (ARITY type) val with
      | none => none
      | some children => te_eval2_combine_double M expr u context children g
    else some (.nan, g)

/-- The first loop of the function case of `te_eval2` over the slots
`parameters[i]`, over doubles, with `k = m - i` iterations left. -/
def te_eval2_parameters_double (M : Machine) (expr : te_expression) :
    List te_expr → Nat → Option (Nat → double) → Option (List (double × (Nat → double)))
  | _, 0, _ => some []
  | [], k + 1, _ => some (List.replicate (k + 1) (.nan, fun _ => .finite 0))
  | p :: ps, k + 1, val =>
    match te_eval2_double M expr p val (some (fun _ => .finite 0)) with
    | none => none
    | some (x, g1) =>
      match te_eval2_parameters_double M expr ps k val with
      | none => none
      | some rest => some ((x, g1.getD (fun _ => .finite 0)) :: rest)
end

/-- Function `te_eval(expr, val, g)` over doubles. -/
def te_eval_double (M : Machine) (expr : te_expression) (val g : Option (Nat → double)) :
    Option (double × Option (Nat → double)) :=
  te_eval2_double M expr expr.root val g

/-- The sum, in the order of `i`, of `df[i] * childGrad[i][j]` over the
children `i`, from child `i` on, whose local gradient `df[i]` is not 0, added
to `acc`. -/
def nonzero_terms (M : Machine) (df : Nat → double) (j : Nat) :
    List (Nat → double) → Nat → double → double
  | [], _, acc => acc
  | g1 :: rest, i, acc =>
    nonzero_terms M df j rest (i + 1)
      (if (df i).nonzero then M.add acc (M.mul (df i) (g1 j)) else acc)

/-- The sum, in the order of `i`, of `df[i] * childGrad[i][j]` over all the
children, from child `i` on, added to `acc`. -/
def all_terms (M : Machine) (df : Nat → double) (j : Nat) :
    List (Nat → double) → Nat → double → double
  | [], _, acc => acc
  | g1 :: rest, i, acc => all_terms M df j rest (i + 1) (M.add acc (M.mul (df i) (g1 j)))

/-! ## Callables with hidden state -/

/-- The code that is not a function of its arguments: the C library's `rand`,
which returns a number and advances the state of its generator, and the
caller's functions, which may read and change the state `S` of the program
(`user a context x` is the function at address `a`). -/
structure World (S : Type) where
  rand : S → ℚ × S
  user : Nat → Nat → (Nat → ℚ) → S → (ℚ × (Nat → ℚ)) × S

/-- Function `myrandom()`, which calls `rand` three times: the value returned
and the state afterwards. -/
def myrandom_in {S : Type} (E : Env) (W : World S) (σ : S) : ℚ × S :=
  let nrm : ℚ := 1 / (1 + E.RAND_MAX)
  let f := nrm * (W.rand σ).1
  let f1 := nrm * (W.rand (W.rand σ).2).1
  let f2 := nrm * (W.rand (W.rand (W.rand σ).2).2).1
  (f + nrm * (f1 + nrm * f2), (W.rand (W.rand (W.rand σ).2).2).2)

/-- The call of a callable in the state `σ`: the value returned, the array
`df`, and the state afterwards.  `te_wrapped_random` and the caller's
functions run in the state; the other callables of `tinyexpr.c` are functions
of their arguments and leave the state. -/
def call_in {S : Type} (E : Env) (W : World S) (f : Fn) (context : Nat) (x : Nat → ℚ)
    (σ : S) : (ℚ × (Nat → ℚ)) × S :=
  match f with
  | .te_wrapped_random => (((myrandom_in E W σ).1, df0), (myrandom_in E W σ).2)
  | .user a => W.user a context x σ
  | f => (call E f context x, σ)

/-- The end of the function case of `te_eval2`, after the children were
evaluated, with the call of the node's callable made in the state `σ`. -/
def te_eval2_combine_in {S : Type} (E : Env) (W : World S) (expr : te_expression)
    (u : te_union) (context : Nat) (children : List (ℚ × (Nat → ℚ))) (g : Option (Nat → ℚ))
    (σ : S) : Option ((ℚ × Option (Nat → ℚ)) × S) :=
  if expr.nvar = 0 then
    some (((call_in E W u.getFunction context (args (children.map Prod.fst)) σ).1.1, g),
      (call_in E W u.getFunction context (args (children.map Prod.fst)) σ).2)
  else
    match g with
    | none => none
    | some ga =>
      some (((call_in E W u.getFunction context (args (children.map Prod.fst)) σ).1.1,
        some (accumulate (call_in E W u.getFunction context (args (children.map Prod.fst)) σ).1.2
          expr.nvar (children.map Prod.snd) 0 (zero_fill ga expr.nvar))),
        (call_in E W u.getFunction context (args (children.map Prod.fst)) σ).2)

mutual
/-- Function `te_eval2(expr, n, val, g)` run in the state `σ` of the program:
the value returned, the array `g` and the state afterwards.  The children are
evaluated in the order of their slots, then the callable of the node is
called. -/
def te_eval2_in {S : Type} (E : Env) (W : World S) (expr : te_expression) :
    te_expr → Option (Nat → ℚ) → Option (Nat → ℚ) → S →
      Option ((ℚ × Option (Nat → ℚ)) × S)
  | .null, _, g, σ => some ((E.nan, g), σ)
  | .mk type u parameters context, val, g, σ =>
    if TYPE_MASK type = TE_CONSTANT then some ((u.getValue, g), σ)
    else if TYPE_MASK type = TE_VARIABLE then
      (te_eval2_variable expr u val g).map (fun r => (r, σ))
    else if TE_FUNCTION0 ≤ TYPE_MASK type ∧ TYPE_MASK type ≤ TE_FUNCTION7 then
      match te_eval2_parameters_in E W expr parameters (ARITY type) val σ with
      | none => none
      | some (children, σ1) => te_eval2_combine_in E W expr u context children g σ1
    else some ((E.nan, g), σ)

/-- The first loop of the function case of `te_eval2` over the slots
`parameters[i]`, run in the state `σ`, with `k = m - i` iterations left. -/
def te_eval2_parameters_in {S : Type} (E : Env) (W : World S) (expr : te_expression) :
    List te_expr → Nat → Option (Nat → ℚ) → S → Option (List (ℚ × (Nat → ℚ)) × S)
  | _, 0, _, σ => some ([], σ)
  | [], k + 1, _, σ => some (List.replicate (k + 1) (E.nan, fun _ => 0), σ)
  | p :: ps, k + 1, val, σ =>
    match te_eval2_in E W expr p val (some (fun _ => 0)) σ with
    | none => none
    | some ((x, g1), σ1) =>
      match te_eval2_parameters_in E W expr ps k val σ1 with
      | none => none
      | some (rest, σ2) => some ((x, g1.getD (fun _ => 0)) :: rest, σ2)
end

/-- Function `te_eval(expr, val, g)` run in the state `σ` of the program. -/
def te_eval_in {S : Type} (E : Env) (W : World S) (expr : te_expression)
    (val g : Option (Nat → ℚ)) (σ : S) : Option ((ℚ × Option (Nat → ℚ)) × S) :=
  te_eval2_in E W expr expr.root val g σ

mutual
/-- Function `optimize(expr, n)` run in the state `σ` of the program, at compile
time: the node `n` after the in-place update, and the state afterwards. -/
def optimize_in {S : Type} (E : Env) (W : World S) (expr : te_expression) :
    te_expr → S → Option (te_expr × S)
  | .null, _ => none
  | .mk type u parameters context, σ =>
    if type = TE_CONSTANT then some (.mk type u parameters context, σ)
    else if type = TE_VARIABLE then some (.mk type u parameters context, σ)
    else if IS_PURE type then
      match optimize_parameters_in E W expr parameters (ARITY type) σ with
      | none => none
      | some (ps, known, σ1) =>
        if known then
          match te_eval2_in E W expr (.mk type u ps context) none (some (fun _ => 0)) σ1 with
          | none => none
          | some ((value, _), σ2) => some (.mk TE_CONSTANT (.value value) [] context, σ2)
        else some (.mk type u ps context, σ1)
    else some (.mk type u parameters context, σ)

/-- The loop `for (i = 0; i < arity; ++i)` of `optimize` over the slots
`parameters[i]`, run in the state `σ`, with `k = arity - i` iterations left: the
slots afterwards, the flag `known` and the state afterwards. -/
def optimize_parameters_in {S : Type} (E : Env) (W : World S) (expr : te_expression) :
    List te_expr → Nat → S → Option (List te_expr × Bool × S)
  | ps, 0, σ => some (ps, true, σ)
  | [], _ + 1, _ => none
  | p :: ps, k + 1, σ =>
    match optimize_in E W expr p σ with
    | none => none
    | some (p1, σ1) =>
      match optimize_parameters_in E W expr ps k σ1 with
      | none => none
      | some (ps1, known, σ2) =>
        some (p1 :: ps1, if p1.type ≠ TE_CONSTANT then false else known, σ2)
end

/-- Function `te_compile(expression, var_count, variables, error)` run in the
state `σ` of the program: the pointer returned, the value stored in `*error`,
and the state afterwards. -/
def te_compile_in {S : Type} (E : Env) (W : World S) (expression : List Char)
    (bindings : List te_variable) (σ : S) : Option ((Option te_expression × Nat) × S) :=
  match parse E expression bindings with
  | none => none
  | some (root, s) =>
    if s.type ≠ TOK_END then
      let error := s.start.length - s.next.length
      some ((none, if error = 0 then 1 else error), σ)
    else
      match optimize_in E W (new_expression bindings root) root σ with
      | none => none
      | some (root1, σ1) => some ((some (new_expression bindings root1), 0), σ1)

/-- What a caller observes of a call of `te_eval`: the value returned and the
state of the program afterwards. -/
def outcome {S : Type} (r : (ℚ × Option (Nat → ℚ)) × S) : ℚ × S := (r.1.1, r.2)

/-- The values of the children and the state of the program after the loop of
`te_eval2` over the children. -/
def outcomes {S : Type} (r : List (ℚ × (Nat → ℚ)) × S) : List ℚ × S :=
  (r.1.map Prod.fst, r.2)

/-- The callable `f`, called with the context `context`, is a deterministic
function of its arguments: its value and its local gradient depend on the
arguments only, and the call leaves the state of the program. -/
def deterministic {S : Type} (E : Env) (W : World S) (f : Fn) (context : Nat) : Prop :=
  ∃ r : (Nat → ℚ) → ℚ × (Nat → ℚ), ∀ (x : Nat → ℚ) (σ : S),
    call_in E W f context x σ = (r x, σ)

mutual
/-- Every function node of the tree that carries `TE_FLAG_PURE` has a callable
that is a deterministic function of its arguments. -/
def pure_deterministic {S : Type} (E : Env) (W : World S) : te_expr → Prop
  | .null => True
  | .mk type u parameters context =>
    (IS_PURE type = true → deterministic E W u.getFunction context) ∧
    pure_deterministic_parameters E W parameters

/-- Every tree of the list is `pure_deterministic`. -/
def pure_deterministic_parameters {S : Type} (E : Env) (W : World S) : List te_expr → Prop
  | [] => True
  | p :: ps => pure_deterministic E W p ∧ pure_deterministic_parameters E W ps
end

/-- A world whose state is a counter: `rand` and every function of the caller
return the count and advance it. -/
def counter_world : World Nat :=
  { rand := fun k => ((k : ℚ), k + 1), user := fun _ _ _ k => (((k : ℚ), df0), k + 1) }

/-! ## The tokenizer makes progress -/

theorem functions_mask : ∀ v ∈ functions,
    TE_FUNCTION0 ≤ TYPE_MASK v.type ∧ TYPE_MASK v.type ≤ TE_FUNCTION7 := by
  decide

theorem find_builtin_loop_mem (name : List Char) (len : Nat) :
    ∀ (fuel : Nat) (imin imax : Int) (v : te_variable), 0 ≤ imin → imax < functions.length →
      find_builtin_loop name len fuel imin imax = some v → v ∈ functions := by
  intro fuel
  induction fuel with
  | zero => intro imin imax v _ _ h; simp [find_builtin_loop] at h
  | succ fuel ih =>
    intro imin imax v h0 h1 h
    rw [find_builtin_loop] at h
    split at h
    · rename_i hle
      have hi0 : 0 ≤ imin + (imax - imin) / 2 := by omega
      have hi1 : imin + (imax - imin) / 2 ≤ imax := by omega
      have hidx : (imin + (imax - imin) / 2).toNat < functions.length := by omega
      simp only [] at h
      split_ifs at h
      all_goals first
        | (injection h with h
           rw [← h, List.getD_eq_getElem _ _ hidx]
           exact List.getElem_mem _)
        | exact ih _ _ v (by omega) h1 h
        | exact ih _ _ v h0 (by omega) h
    · simp at h

theorem find_builtin_mem (name : List Char) (len : Nat) (v : te_variable)
    (h : find_builtin name len = some v) : v ∈ functions :=
  find_builtin_loop_mem name len _ _ _ v (le_refl 0) (by simp) h

theorem find_lookup_from_get (name : List Char) (len : Nat) :
    ∀ (l : List te_variable) (k i : Nat) (v : te_variable),
      find_lookup_from name len l k = some (i, v) → k ≤ i ∧ l.get? (i - k) = some v := by
  intro l
  induction l with
  | nil => intro k i v h; simp [find_lookup_from] at h
  | cons a l ih =>
    intro k i v h
    rw [find_lookup_from] at h
    split at h
    · injection h with h
      injection h with h1 h2
      subst h1; subst h2
      simp
    · obtain ⟨h1, h2⟩ := ih (k + 1) i v h
      refine ⟨by omega, ?_⟩
      have : i - k = (i - (k + 1)) + 1 := by omega
      rw [this]
      simpa using h2

theorem TYPE_MASK_eq (t : Nat) : TYPE_MASK t = t % 32 := by
  have := Nat.and_pow_two_sub_one_eq_mod t 5
  simpa [TYPE_MASK] using this

theorem and_eight (t : Nat) : t &&& 8 = if t / 8 % 2 = 1 then 8 else 0 := by
  have h := Nat.two_pow_and t 3
  rw [Nat.and_comm] at h
  have h2 : t.testBit 3 = decide (t / 2 ^ 3 % 2 = 1) := Nat.testBit_to_div_mod
  norm_num at h h2
  rw [h, h2]
  split_ifs <;> simp_all

theorem and_thirty_two (t : Nat) : t &&& 32 = if t / 32 % 2 = 1 then 32 else 0 := by
  have h := Nat.two_pow_and t 5
  rw [Nat.and_comm] at h
  have h2 : t.testBit 5 = decide (t / 2 ^ 5 % 2 = 1) := Nat.testBit_to_div_mod
  norm_num at h h2
  rw [h, h2]
  split_ifs <;> simp_all

theorem ARITY_eq (t : Nat) : ARITY t = if t / 8 % 2 = 1 then t % 8 else 0 := by
  have h7 := Nat.and_pow_two_sub_one_eq_mod t 3
  norm_num at h7
  unfold ARITY TE_FUNCTION0
  rw [and_eight, h7]
  split_ifs <;> simp_all

theorem IS_PURE_eq (t : Nat) : IS_PURE t = decide (t / 32 % 2 = 1) := by
  unfold IS_PURE TE_FLAG_PURE
  rw [and_thirty_two]
  split_ifs <;> simp_all

theorem is_lower_ident (c : Char) (h : is_lower c = true) : is_ident c = true := by
  simp [is_ident, h]

theorem weight_le_one (t : Nat) : weight t ≤ 1 := by
  unfold weight; split <;> omega

theorem token_ok_simple (s : state) (t : Nat) (ht : t = TOK_NULL ∨ t = TOK_ERROR ∨ t = TOK_END ∨
    t = TOK_SEP ∨ t = TOK_OPEN ∨ t = TOK_CLOSE) : token_ok { s with type := t } := by
  rcases ht with h | h | h | h | h | h <;> subst h <;>
    simp [token_ok, TOK_ERROR, TOK_NUMBER, TOK_VARIABLE, TOK_INFIX, TOK_NULL, TOK_END,
      TOK_OPEN, TOK_CLOSE, TOK_SEP, TE_FUNCTION7, TE_FUNCTION0, TYPE_MASK_eq]

theorem token_ok_operator (s : state) (f : Fn) :
    token_ok { s with type := TOK_INFIX, u := .function f } := by
  simp [token_ok, TOK_NUMBER, TOK_VARIABLE, TOK_INFIX, TE_FUNCTION7, TE_FUNCTION0, TYPE_MASK_eq]

theorem token_ok_set_error (s : state) : token_ok s.set_error :=
  token_ok_simple s _ (Or.inr (Or.inl rfl))

theorem next_token_symbol_spec (s : state) (c : Char) (hs : s.type = TOK_NULL) :
    token_ok (next_token_symbol s c) ∧
    (next_token_symbol s c).next = s.next ∧
    (next_token_symbol s c).start = s.start ∧
    (next_token_symbol s c).lookup = s.lookup := by
  have hs1 : s = { s with type := TOK_NULL } := by rw [← hs]
  unfold next_token_symbol
  by_cases h : c = '+'
  · rw [if_pos h]; exact ⟨token_ok_operator s _, rfl, rfl, rfl⟩
  rw [if_neg h]; clear h
  by_cases h : c = '-'
  · rw [if_pos h]; exact ⟨token_ok_operator s _, rfl, rfl, rfl⟩
  rw [if_neg h]; clear h
  by_cases h : c = '*'
  · rw [if_pos h]; exact ⟨token_ok_operator s _, rfl, rfl, rfl⟩
  rw [if_neg h]; clear h
  by_cases h : c = '/'
  · rw [if_pos h]; exact ⟨token_ok_operator s _, rfl, rfl, rfl⟩
  rw [if_neg h]; clear h
  by_cases h : c = '^'
  · rw [if_pos h]; exact ⟨token_ok_operator s _, rfl, rfl, rfl⟩
  rw [if_neg h]; clear h
  by_cases h : c = '%'
  · rw [if_pos h]; exact ⟨token_ok_operator s _, rfl, rfl, rfl⟩
  rw [if_neg h]; clear h
  by_cases h : c = '('
  · rw [if_pos h]; exact ⟨token_ok_simple s _ (by simp), rfl, rfl, rfl⟩
  rw [if_neg h]; clear h
  by_cases h : c = ')'
  · rw [if_pos h]; exact ⟨token_ok_simple s _ (by simp), rfl, rfl, rfl⟩
  rw [if_neg h]; clear h
  by_cases h : c = ','
  · rw [if_pos h]; exact ⟨token_ok_simple s _ (by simp), rfl, rfl, rfl⟩
  rw [if_neg h]; clear h
  by_cases h : c = ' ' ∨ c = '\t' ∨ c = '\n' ∨ c = '\r'
  · rw [if_pos h]
    refine ⟨?_, rfl, rfl, rfl⟩
    rw [hs1]; exact token_ok_simple s _ (by simp)
  rw [if_neg h]
  exact ⟨token_ok_simple s _ (by simp), rfl, rfl, rfl⟩

theorem next_token_identifier_spec (s : state) (hs : s.type = TOK_NULL) :
    token_ok (next_token_identifier s) ∧
    (next_token_identifier s).next = s.next.dropWhile is_ident ∧
    (next_token_identifier s).start = s.start ∧
    (next_token_identifier s).lookup = s.lookup := by
  unfold next_token_identifier
  simp only []
  split
  · simp [token_ok, TOK_ERROR, TOK_NUMBER, TOK_VARIABLE, TOK_INFIX, TE_FUNCTION7, TE_FUNCTION0,
      TYPE_MASK_eq]
  · rename_i i v hvar
    split_ifs with hv hf
    · refine ⟨⟨?_, ?_, ?_, ?_, ?_⟩, rfl, rfl, rfl⟩
      · simp [TOK_VARIABLE, TE_FUNCTION7]
      · simp [TOK_VARIABLE, TOK_NUMBER]
      · intro _
        refine ⟨i, rfl, v, ?_, hv⟩
        split at hvar
        · rename_i w hw
          injection hvar with hvar
          subst hvar
          have := find_lookup_from_get _ _ _ _ _ _ hw
          simpa using this.2
        · rename_i hw
          simp only [Option.map_eq_some'] at hvar
          obtain ⟨a, ha, hai⟩ := hvar
          injection hai with _ hav
          subst hav
          have := (functions_mask a (find_builtin_mem _ _ _ ha)).1
          rw [hv] at this
          simp [TE_VARIABLE, TE_FUNCTION0] at this
      · simp [TOK_VARIABLE, TE_FUNCTION7, TE_FUNCTION0, TYPE_MASK_eq]
      · simp [TOK_VARIABLE, TOK_INFIX]
    · refine ⟨⟨Or.inr hf, ?_, ?_, fun _ => ⟨_, rfl⟩, fun _ => ⟨_, rfl⟩⟩, rfl, rfl, rfl⟩
      · intro h; simp only [] at h; rw [h] at hf
        simp [TOK_NUMBER, TE_FUNCTION7, TE_FUNCTION0, TYPE_MASK_eq] at hf
      · intro h; simp only [] at h; rw [h] at hf
        simp [TOK_VARIABLE, TE_FUNCTION7, TE_FUNCTION0, TYPE_MASK_eq] at hf
    · refine ⟨?_, rfl, rfl, rfl⟩
      simp [token_ok, hs, TOK_NUMBER, TOK_VARIABLE, TOK_INFIX, TOK_NULL, TE_FUNCTION7,
        TE_FUNCTION0, TYPE_MASK_eq]

/-- One iteration of the tokenizer loop: the token is well formed and the text
left, plus the weight of the token, fits in the text before. -/
theorem next_token_step_spec (E : Env) (s : state) (hs : s.type = TOK_NULL) :
    token_ok (next_token_step E s) ∧
    (next_token_step E s).next.length + weight (next_token_step E s).type ≤ s.next.length ∧
    (next_token_step E s).start = s.start ∧
    (next_token_step E s).lookup = s.lookup ∧
    (next_token_step E s).next <:+ s.next := by
  unfold next_token_step
  split
  · rename_i hnext
    simp [token_ok, weight, TOK_END, TOK_NUMBER, TOK_VARIABLE, TOK_INFIX, TE_FUNCTION7,
      TE_FUNCTION0, TYPE_MASK_eq, hnext]
  · rename_i c rest hnext
    have hlen : s.next.length = rest.length + 1 := by rw [hnext]; simp
    by_cases h0 : c = '\x00'
    · rw [if_pos h0]
      simp [token_ok, weight, TOK_END, TOK_NUMBER, TOK_VARIABLE, TOK_INFIX, TE_FUNCTION7,
        TE_FUNCTION0, TYPE_MASK_eq, hnext]
    rw [if_neg h0]
    by_cases h1 : (is_digit c || c == '.') = true
    · rw [if_pos h1]
      refine ⟨?_, ?_, rfl, rfl, List.drop_suffix _ _⟩
      · simp [token_ok, TOK_NUMBER, TOK_VARIABLE, TOK_INFIX, TE_FUNCTION7, TE_FUNCTION0,
          TYPE_MASK_eq]
      · simp [weight]
    rw [if_neg h1]
    by_cases h2 : is_lower c = true
    · rw [if_pos h2]
      obtain ⟨a1, a2, a3, a4⟩ := next_token_identifier_spec s hs
      have hd : (s.next.dropWhile is_ident).length ≤ rest.length := by
        rw [hnext, List.dropWhile_cons_of_pos (is_lower_ident c h2)]
        exact (List.dropWhile_suffix _).length_le
      refine ⟨a1, ?_, a3, a4, ?_⟩
      · rw [a2]
        have := weight_le_one (next_token_identifier s).type
        omega
      · rw [a2]; exact List.dropWhile_suffix _
    rw [if_neg h2]
    obtain ⟨a1, a2, a3, a4⟩ := next_token_symbol_spec { s with next := rest } c hs
    refine ⟨a1, ?_, a3, a4, ?_⟩
    · rw [a2]
      have := weight_le_one (next_token_symbol { s with next := rest } c).type
      simp only []
      omega
    · rw [a2, hnext]; exact List.suffix_cons _ _

theorem weight_null : weight TOK_NULL = 1 := by decide

/-- What every result of the tokenizer loop satisfies when the fuel exceeds the
text that is left. -/
theorem next_token_loop_spec (E : Env) : ∀ (fuel : Nat) (s : state), s.next.length < fuel →
    s.type = TOK_NULL →
    token_ok (next_token_loop E fuel s) ∧
    (next_token_loop E fuel s).type ≠ TOK_NULL ∧
    (next_token_loop E fuel s).next.length + weight (next_token_loop E fuel s).type
      ≤ s.next.length ∧
    (next_token_loop E fuel s).start = s.start ∧
    (next_token_loop E fuel s).lookup = s.lookup ∧
    (next_token_loop E fuel s).next <:+ s.next := by
  intro fuel
  induction fuel with
  | zero => intro s h; omega
  | succ fuel ih =>
    intro s hlen hs
    obtain ⟨a1, a2, a3, a4, a5⟩ := next_token_step_spec E s hs
    rw [next_token_loop]
    split_ifs with hn
    · rw [hn, weight_null] at a2
      obtain ⟨b1, b2, b3, b4, b5, b6⟩ := ih (next_token_step E s) (by omega) hn
      exact ⟨b1, b2, by omega, b4.trans a3, b5.trans a4, b6.trans a5⟩
    · exact ⟨a1, hn, a2, a3, a4, a5⟩

/-- The token read by `next_token`: it is well formed, it is not `TOK_NULL`,
and the text left plus the weight of the token fits in the text before. -/
theorem next_token_spec (E : Env) (s : state) :
    token_ok (next_token E s) ∧
    (next_token E s).type ≠ TOK_NULL ∧
    (next_token E s).next.length + weight (next_token E s).type ≤ s.next.length ∧
    (next_token E s).start = s.start ∧
    (next_token E s).lookup = s.lookup ∧
    (next_token E s).next <:+ s.next :=
  next_token_loop_spec E _ { s with type := TOK_NULL } (Nat.lt_succ_self _) rfl

/-! ## The parser terminates -/

theorem measure_next_token_le (E : Env) (s : state) :
    (next_token E s).measure ≤ s.next.length :=
  (next_token_spec E s).2.2.1

theorem measure_next_token (E : Env) (s : state) : (next_token E s).measure ≤ s.measure := by
  have := measure_next_token_le E s
  unfold state.measure at *
  omega

theorem measure_next_token_lt (E : Env) (s : state) (h : weight s.type = 1) :
    (next_token E s).measure < s.measure := by
  have := measure_next_token_le E s
  unfold state.measure at *
  omega

theorem measure_set_error (s : state) : s.set_error.measure ≤ s.measure := by
  simp [state.measure, state.set_error, weight]

theorem weight_of_mask (t : Nat) (h : TE_FUNCTION0 ≤ TYPE_MASK t ∧ TYPE_MASK t ≤ TE_FUNCTION7) :
    weight t = 1 := by
  rw [TYPE_MASK_eq] at h
  unfold weight
  rw [if_neg]
  simp only [TOK_NUMBER, TOK_END, TOK_ERROR, TE_FUNCTION7, TE_FUNCTION0] at *
  omega

theorem weight_of_mask_open (t : Nat) (h : TYPE_MASK t = TOK_OPEN) : weight t = 1 := by
  rw [TYPE_MASK_eq] at h
  unfold weight
  rw [if_neg]
  simp only [TOK_NUMBER, TOK_END, TOK_ERROR, TOK_OPEN, TE_FUNCTION7] at *
  omega

theorem weight_operator (t : Nat) (h : t = TOK_INFIX ∨ t = TOK_SEP ∨ t = TOK_OPEN) :
    weight t = 1 := by
  rcases h with h | h | h <;> subst h <;> decide

theorem power_signs_returns (E : Env) : ∀ (fuel : Nat) (s : state) (sign : Int),
    s.measure < fuel →
    ∃ s1 sign1, power_signs E fuel s sign = some (s1, sign1) ∧ s1.measure ≤ s.measure := by
  intro fuel
  induction fuel with
  | zero => intro s sign h; omega
  | succ fuel ih =>
    intro s sign h
    rw [power_signs]
    by_cases hc : s.type = TOK_INFIX ∧ (s.u.getFunction = .add ∨ s.u.getFunction = .sub)
    · rw [if_pos hc]
      have hlt := measure_next_token_lt E s (weight_operator _ (Or.inl hc.1))
      obtain ⟨s1, sign1, h1, h2⟩ := ih (next_token E s)
        (if s.u.getFunction = .sub then -sign else sign) (by omega)
      exact ⟨s1, sign1, h1, by omega⟩
    · rw [if_neg hc]
      exact ⟨s, sign, rfl, le_refl _⟩

theorem binary_loop_returns (E : Env) (cond : state → Option Fn)
    (sub : state → Option (te_expr × state))
    (hcond : ∀ s t, cond s = some t → weight s.type = 1) :
    ∀ (fuel : Nat) (ret : te_expr) (s : state),
      (∀ s1, s1.measure < s.measure → returns_on sub s1) → s.measure < fuel →
      returns_on (binary_loop E cond sub fuel ret) s := by
  intro fuel
  induction fuel with
  | zero => intro ret s _ h; omega
  | succ fuel ih =>
    intro ret s hsub h
    unfold returns_on
    rw [binary_loop]
    split
    · exact ⟨ret, s, rfl, le_refl _⟩
    · rename_i t ht
      have hlt := measure_next_token_lt E s (hcond s t ht)
      obtain ⟨r, s1, h1, h2⟩ := hsub _ hlt
      rw [h1]
      simp only []
      obtain ⟨r2, s2, h3, h4⟩ := ih (binary_node t ret r)
        s1 (fun s' hs' => hsub s' (by omega)) (by omega)
      exact ⟨r2, s2, h3, by omega⟩

theorem base_args_returns (E : Env) (sub : state → Option (te_expr × state)) :
    ∀ (k i : Nat) (ret : te_expr) (s : state), weight s.type = 1 →
      (∀ s1, s1.measure < s.measure → returns_on sub s1) →
      ∃ ret1 i1 s1, base_args E sub k i ret s = some (ret1, i1, s1) ∧ s1.measure ≤ s.measure := by
  intro k
  induction k with
  | zero => intro i ret s _ _; exact ⟨ret, i, s, rfl, le_refl _⟩
  | succ k ih =>
    intro i ret s hw hsub
    rw [base_args]
    have hlt := measure_next_token_lt E s hw
    obtain ⟨r, s1, h1, h2⟩ := hsub _ hlt
    rw [h1]
    simp only []
    split_ifs with hsep
    · exact ⟨_, _, _, rfl, by omega⟩
    · have hs1 : s1.type = TOK_SEP := by simpa using hsep
      obtain ⟨ret1, i1, s2, h3, h4⟩ := ih (i + 1) (ret.set_parameter i r) s1
        (weight_operator _ (Or.inr (Or.inl hs1))) (fun s' hs' => hsub s' (by omega))
      exact ⟨ret1, i1, s2, h3, by omega⟩

theorem op_weight_factor (s : state) (t : Fn) (h : factor_op s = some t) : weight s.type = 1 := by
  unfold factor_op at h
  split_ifs at h with hc
  exact weight_operator _ (Or.inl hc.1)

theorem op_weight_term (s : state) (t : Fn) (h : term_op s = some t) : weight s.type = 1 := by
  unfold term_op at h
  split_ifs at h with hc
  exact weight_operator _ (Or.inl hc.1)

theorem op_weight_expr (s : state) (t : Fn) (h : expr_op s = some t) : weight s.type = 1 := by
  unfold expr_op at h
  split_ifs at h with hc
  exact weight_operator _ (Or.inl hc.1)

theorem op_weight_list (s : state) (t : Fn) (h : list_op s = some t) : weight s.type = 1 := by
  unfold list_op at h
  split_ifs at h with hc
  exact weight_operator _ (Or.inr (Or.inl hc))

/-! ### The cases of `base` -/

theorem base_number (E : Env) (fuel : Nat) (s : state) (h : TYPE_MASK s.type = TOK_NUMBER) :
    base E (fuel + 1) s
      = some (constant_node s.u.getValue, next_token E s) := by
  rw [base, if_pos h]

theorem base_variable (E : Env) (fuel : Nat) (s : state) (h : TYPE_MASK s.type = TOK_VARIABLE) :
    base E (fuel + 1) s
      = some (variable_node s.u.getIvar, next_token E s) := by
  rw [base, if_neg (by rw [h]; decide), if_pos h]

theorem base_function0 (E : Env) (fuel : Nat) (s : state) (h : TYPE_MASK s.type = TE_FUNCTION0) :
    base E (fuel + 1) s
      = if (next_token E s).type = TOK_OPEN then
          if (next_token E (next_token E s)).type ≠ TOK_CLOSE then
            some (function_node s.type s.u.getFunction s.context,
              (next_token E (next_token E s)).set_error)
          else
            some (function_node s.type s.u.getFunction s.context,
              next_token E (next_token E (next_token E s)))
        else
          some (function_node s.type s.u.getFunction s.context,
            next_token E s) := by
  rw [base, if_neg (by rw [h]; decide), if_neg (by rw [h]; decide), if_pos h]

theorem base_function1 (E : Env) (fuel : Nat) (s : state) (h : TYPE_MASK s.type = TE_FUNCTION1) :
    base E (fuel + 1) s
      = match power E fuel (next_token E s) with
        | none => none
        | some (p, s1) =>
          some ((function_node s.type s.u.getFunction s.context).set_parameter 0 p, s1) := by
  rw [base, if_neg (by rw [h]; decide), if_neg (by rw [h]; decide), if_neg (by rw [h]; decide),
    if_pos h]

theorem base_function_n (E : Env) (fuel : Nat) (s : state)
    (h : TE_FUNCTION2 ≤ TYPE_MASK s.type ∧ TYPE_MASK s.type ≤ TE_FUNCTION7) :
    base E (fuel + 1) s
      = if (next_token E s).type ≠ TOK_OPEN then
          some (function_node s.type s.u.getFunction s.context,
            (next_token E s).set_error)
        else
          match base_args E (expr E fuel) (ARITY s.type) 0
              (function_node s.type s.u.getFunction s.context)
              (next_token E s) with
          | none => none
          | some (ret1, i, s2) =>
            if s2.type ≠ TOK_CLOSE ∨ i ≠ ARITY s.type - 1 then some (ret1, s2.set_error)
            else some (ret1, next_token E s2) := by
  have h1 := h.1
  have h2 := h.2
  simp only [TE_FUNCTION2, TE_FUNCTION7] at h1 h2
  rw [base, if_neg (by simp only [TOK_NUMBER, TE_FUNCTION7]; omega),
    if_neg (by simp only [TOK_VARIABLE, TE_FUNCTION7]; omega),
    if_neg (by simp only [TE_FUNCTION0]; omega), if_neg (by simp only [TE_FUNCTION1]; omega),
    if_pos h]

theorem base_open (E : Env) (fuel : Nat) (s : state) (h : TYPE_MASK s.type = TOK_OPEN) :
    base E (fuel + 1) s
      = match list E fuel (next_token E s) with
        | none => none
        | some (ret, s1) =>
          if s1.type ≠ TOK_CLOSE then some (ret, s1.set_error)
          else some (ret, next_token E s1) := by
  rw [base, if_neg (by rw [h]; decide), if_neg (by rw [h]; decide), if_neg (by rw [h]; decide),
    if_neg (by rw [h]; decide), if_neg (by rw [h]; decide), if_pos h]

theorem base_default (E : Env) (fuel : Nat) (s : state)
    (h1 : TYPE_MASK s.type ≠ TOK_NUMBER) (h2 : TYPE_MASK s.type ≠ TOK_VARIABLE)
    (h3 : ¬ (TE_FUNCTION0 ≤ TYPE_MASK s.type ∧ TYPE_MASK s.type ≤ TE_FUNCTION7))
    (h4 : TYPE_MASK s.type ≠ TOK_OPEN) :
    base E (fuel + 1) s = some ((new_expr 0 none).set_value E.nan, s.set_error) := by
  simp only [TE_FUNCTION0, TE_FUNCTION7] at h3
  rw [base, if_neg h1, if_neg h2, if_neg (by simp only [TE_FUNCTION0]; omega),
    if_neg (by simp only [TE_FUNCTION1]; omega),
    if_neg (by simp only [TE_FUNCTION2, TE_FUNCTION7]; omega), if_neg h4]

/-- The seven cases of the `switch` of `base`. -/
theorem base_cases (t : Nat) :
    TYPE_MASK t = TOK_NUMBER ∨ TYPE_MASK t = TOK_VARIABLE ∨ TYPE_MASK t = TE_FUNCTION0 ∨
    TYPE_MASK t = TE_FUNCTION1 ∨ (TE_FUNCTION2 ≤ TYPE_MASK t ∧ TYPE_MASK t ≤ TE_FUNCTION7) ∨
    TYPE_MASK t = TOK_OPEN ∨
    (TYPE_MASK t ≠ TOK_NUMBER ∧ TYPE_MASK t ≠ TOK_VARIABLE ∧
      ¬ (TE_FUNCTION0 ≤ TYPE_MASK t ∧ TYPE_MASK t ≤ TE_FUNCTION7) ∧ TYPE_MASK t ≠ TOK_OPEN) := by
  simp only [TOK_NUMBER, TOK_VARIABLE, TOK_OPEN, TE_FUNCTION0, TE_FUNCTION1, TE_FUNCTION2,
    TE_FUNCTION7]
  omega

/-- Every level of the parser returns when its fuel covers six calls for each
unit of the measure, plus its own depth above `base`. -/
theorem parser_returns (E : Env) : ∀ (fuel : Nat),
    (∀ s, 6 * s.measure + 1 ≤ fuel → returns_on (base E fuel) s) ∧
    (∀ s, 6 * s.measure + 2 ≤ fuel → returns_on (power E fuel) s) ∧
    (∀ s, 6 * s.measure + 3 ≤ fuel → returns_on (factor E fuel) s) ∧
    (∀ s, 6 * s.measure + 4 ≤ fuel → returns_on (term E fuel) s) ∧
    (∀ s, 6 * s.measure + 5 ≤ fuel → returns_on (expr E fuel) s) ∧
    (∀ s, 6 * s.measure + 6 ≤ fuel → returns_on (list E fuel) s) := by
  intro fuel
  induction fuel with
  | zero =>
    refine ⟨?_, ?_, ?_, ?_, ?_, ?_⟩ <;> intro s h <;> omega
  | succ fuel ih =>
    obtain ⟨ihb, ihp, ihf, iht, ihe, ihl⟩ := ih
    refine ⟨?_, ?_, ?_, ?_, ?_, ?_⟩
    · -- base
      intro s h
      unfold returns_on
      rcases base_cases s.type with h1 | h1 | h1 | h1 | h1 | h1 | ⟨h1, h2, h3, h4⟩
      · rw [base_number E fuel s h1]; exact ⟨_, _, rfl, measure_next_token E s⟩
      · rw [base_variable E fuel s h1]; exact ⟨_, _, rfl, measure_next_token E s⟩
      · rw [base_function0 E fuel s h1]
        split_ifs
        · exact ⟨_, _, rfl, le_trans (measure_set_error _)
            (le_trans (measure_next_token E _) (measure_next_token E s))⟩
        · exact ⟨_, _, rfl, le_trans (measure_next_token E _)
            (le_trans (measure_next_token E _) (measure_next_token E s))⟩
        · exact ⟨_, _, rfl, measure_next_token E s⟩
      · rw [base_function1 E fuel s h1]
        have hw : weight s.type = 1 := weight_of_mask _ (by rw [h1]; decide)
        have hlt := measure_next_token_lt E s hw
        obtain ⟨r, s1, e1, e2⟩ := ihp (next_token E s) (by omega)
        rw [e1]
        exact ⟨_, _, rfl, by omega⟩
      · rw [base_function_n E fuel s h1]
        have hw : weight s.type = 1 := weight_of_mask _ ⟨le_trans (by decide) h1.1, h1.2⟩
        have hlt := measure_next_token_lt E s hw
        by_cases hopen : (next_token E s).type = TOK_OPEN
        · rw [if_neg (by simpa using hopen)]
          obtain ⟨ret1, i1, s2, e1, e2⟩ := base_args_returns E (expr E fuel) (ARITY s.type) 0
            (function_node s.type s.u.getFunction s.context)
            (next_token E s) (weight_operator _ (Or.inr (Or.inr hopen)))
            (fun s' hs' => ihe s' (by omega))
          rw [e1]
          simp only []
          split_ifs
          · exact ⟨_, _, rfl, le_trans (measure_set_error _) (by omega)⟩
          · exact ⟨_, _, rfl, le_trans (measure_next_token E _) (by omega)⟩
        · rw [if_pos hopen]
          exact ⟨_, _, rfl, le_trans (measure_set_error _) (measure_next_token E s)⟩
      · rw [base_open E fuel s h1]
        have hw : weight s.type = 1 := weight_of_mask_open _ h1
        have hlt := measure_next_token_lt E s hw
        obtain ⟨r, s1, e1, e2⟩ := ihl (next_token E s) (by omega)
        rw [e1]
        simp only []
        split_ifs
        · exact ⟨_, _, rfl, le_trans (measure_set_error _) (by omega)⟩
        · exact ⟨_, _, rfl, le_trans (measure_next_token E _) (by omega)⟩
      · rw [base_default E fuel s h1 h2 h3 h4]
        exact ⟨_, _, rfl, measure_set_error s⟩
    · -- power
      intro s h
      unfold returns_on
      rw [power]
      obtain ⟨s1, sign1, e1, e2⟩ := power_signs_returns E fuel s 1 (by omega)
      rw [e1]
      simp only []
      obtain ⟨r, s2, e3, e4⟩ := ihb s1 (by omega)
      rw [e3]
      split_ifs
      · exact ⟨_, _, rfl, by omega⟩
      · exact ⟨_, _, rfl, by omega⟩
    · intro s h
      unfold returns_on
      rw [factor]
      obtain ⟨r, s1, e1, e2⟩ := ihp s (by omega)
      rw [e1]
      simp only []
      obtain ⟨r2, s2, e3, e4⟩ := binary_loop_returns E factor_op (power E fuel) op_weight_factor
        fuel r s1 (fun s' hs' => ihp s' (by omega)) (by omega)
      exact ⟨r2, s2, e3, by omega⟩
    · intro s h
      unfold returns_on
      rw [term]
      obtain ⟨r, s1, e1, e2⟩ := ihf s (by omega)
      rw [e1]
      simp only []
      obtain ⟨r2, s2, e3, e4⟩ := binary_loop_returns E term_op (factor E fuel) op_weight_term
        fuel r s1 (fun s' hs' => ihf s' (by omega)) (by omega)
      exact ⟨r2, s2, e3, by omega⟩
    · intro s h
      unfold returns_on
      rw [expr]
      obtain ⟨r, s1, e1, e2⟩ := iht s (by omega)
      rw [e1]
      simp only []
      obtain ⟨r2, s2, e3, e4⟩ := binary_loop_returns E expr_op (term E fuel) op_weight_expr
        fuel r s1 (fun s' hs' => iht s' (by omega)) (by omega)
      exact ⟨r2, s2, e3, by omega⟩
    · intro s h
      unfold returns_on
      rw [list]
      obtain ⟨r, s1, e1, e2⟩ := ihe s (by omega)
      rw [e1]
      simp only []
      obtain ⟨r2, s2, e3, e4⟩ := binary_loop_returns E list_op (expr E fuel) op_weight_list
        fuel r s1 (fun s' hs' => ihe s' (by omega)) (by omega)
      exact ⟨r2, s2, e3, by omega⟩

/-! ## The parser builds well-formed trees -/

theorem well_formed_parameters_iff (lk : List te_variable) : ∀ (ps : List te_expr) (k : Nat),
    well_formed_parameters lk ps k = true ↔
      ps.length = k ∧ ∀ p ∈ ps, well_formed lk p = true := by
  intro ps
  induction ps with
  | nil => intro k; cases k <;> simp [well_formed_parameters]
  | cons p ps ih =>
    intro k
    cases k with
    | zero => simp [well_formed_parameters]
    | succ k => simp [well_formed_parameters, ih k]; tauto

theorem ARITY_of_mask (t : Nat) (h : TE_FUNCTION0 ≤ TYPE_MASK t ∧ TYPE_MASK t ≤ TE_FUNCTION7) :
    ARITY t = TYPE_MASK t - 8 := by
  rw [TYPE_MASK_eq] at *
  rw [ARITY_eq]
  simp only [TE_FUNCTION0, TE_FUNCTION7] at h
  split_ifs <;> omega

theorem ARITY_constant : ARITY TE_CONSTANT = 0 := by decide
theorem ARITY_variable : ARITY TE_VARIABLE = 0 := by decide
theorem ARITY_binary : ARITY 42 = 2 := by decide
theorem ARITY_unary : ARITY 41 = 1 := by decide

theorem well_formed_constant (lk : List te_variable) (v : ℚ) :
    well_formed lk (constant_node v) = true := by
  simp [constant_node, new_expr, ARITY_constant, te_expr.set_value, well_formed, te_union.is_value]

theorem well_formed_variable (lk : List te_variable) (i : Nat) (v : te_variable)
    (h : lk.get? i = some v) (hv : TYPE_MASK v.type = TE_VARIABLE) :
    well_formed lk (variable_node (i : Int)) = true := by
  simp [variable_node, new_expr, ARITY_variable, te_expr.set_ivar, well_formed, TE_VARIABLE, TE_CONSTANT,
    te_union.is_variable]
  simp at h
  rw [h]
  exact ⟨by simpa [TE_VARIABLE] using hv, by decide⟩

theorem type_ne_of_mask (t : Nat) (h : TE_FUNCTION0 ≤ TYPE_MASK t ∧ TYPE_MASK t ≤ TE_FUNCTION7) :
    t ≠ TE_CONSTANT ∧ t ≠ TE_VARIABLE := by
  rw [TYPE_MASK_eq] at h
  simp only [TE_FUNCTION0, TE_FUNCTION7, TE_CONSTANT, TE_VARIABLE] at *
  omega

theorem well_formed_call (lk : List te_variable) (t : Nat) (f : Fn) (ps : List te_expr) (c : Nat)
    (h : TE_FUNCTION0 ≤ TYPE_MASK t ∧ TYPE_MASK t ≤ TE_FUNCTION7)
    (hl : ps.length = ARITY t) (hp : ∀ p ∈ ps, well_formed lk p = true) :
    well_formed lk (.mk t (.function f) ps c) = true := by
  rw [well_formed, if_neg (type_ne_of_mask t h).1, if_neg (type_ne_of_mask t h).2]
  simp [h, te_union.is_function, (well_formed_parameters_iff lk ps (ARITY t)).2 ⟨hl, hp⟩]

theorem well_formed_binary (lk : List te_variable) (f : Fn) (a b : te_expr)
    (ha : well_formed lk a = true) (hb : well_formed lk b = true) :
    well_formed lk (binary_node f a b) = true := by
  have e : binary_node f a b
      = .mk 42 (.function f) [a, b] 0 := rfl
  rw [e]
  exact well_formed_call lk 42 f [a, b] 0 (by decide) (by rw [ARITY_binary]; rfl)
    (by simp [ha, hb])

theorem well_formed_negate (lk : List te_variable) (a : te_expr)
    (ha : well_formed lk a = true) :
    well_formed lk (negate_node a) = true := by
  have e : negate_node a
      = .mk 41 (.function .negate) [a] 0 := rfl
  rw [e]
  exact well_formed_call lk 41 .negate [a] 0 (by decide) (by rw [ARITY_unary]; rfl)
    (by simp [ha])

theorem next_token_ok (E : Env) (s : state) :
    token_ok (next_token E s) ∧ (next_token E s).lookup = s.lookup ∧
    (next_token E s).start = s.start ∧ (next_token E s).next <:+ s.next := by
  obtain ⟨a1, _, _, a4, a5, a6⟩ := next_token_spec E s
  exact ⟨a1, a5, a4, a6⟩

theorem parse_ok_next_token (E : Env) (lk : List te_variable) (s : state) (r : te_expr)
    (hl : s.lookup = lk) (hr : well_formed lk r = true) : parse_ok lk s r (next_token E s) := by
  obtain ⟨a1, a2, a3, a4⟩ := next_token_ok E s
  exact ⟨a1, a2.trans hl, a3, a4, fun _ => hr⟩

theorem set_error_type (s : state) : s.set_error.type = TOK_ERROR := rfl

theorem parse_ok_set_error (lk : List te_variable) (s s1 : state) (r : te_expr)
    (hl : s1.lookup = lk) (hs : s1.start = s.start) (hn : s1.next <:+ s.next) :
    parse_ok lk s r s1.set_error :=
  ⟨token_ok_set_error s1, hl, hs, hn, fun h => absurd (set_error_type s1) h⟩

theorem power_signs_sound (E : Env) : ∀ (fuel : Nat) (s : state) (sign : Int) (s1 : state)
    (sign1 : Int), token_ok s → power_signs E fuel s sign = some (s1, sign1) →
    token_ok s1 ∧ s1.lookup = s.lookup ∧ s1.start = s.start ∧ s1.next <:+ s.next := by
  intro fuel
  induction fuel with
  | zero => intro s sign s1 sign1 _ h; simp [power_signs] at h
  | succ fuel ih =>
    intro s sign s1 sign1 hs h
    rw [power_signs] at h
    by_cases hc : s.type = TOK_INFIX ∧ (s.u.getFunction = .add ∨ s.u.getFunction = .sub)
    · rw [if_pos hc] at h
      obtain ⟨a1, a2, a3, a4⟩ := next_token_ok E s
      obtain ⟨b1, b2, b3, b4⟩ := ih _ _ _ _ a1 h
      exact ⟨b1, b2.trans a2, b3.trans a3, b4.trans a4⟩
    · rw [if_neg hc] at h
      injection h with h
      injection h with h1 h2
      subst h1
      exact ⟨hs, rfl, rfl, List.suffix_refl _⟩

theorem binary_loop_sound (E : Env) (lk : List te_variable) (cond : state → Option Fn)
    (sub : state → Option (te_expr × state)) (hsub : sound lk sub)
    (hcond : ∀ s t, cond s = some t → s.type ≠ TOK_ERROR) :
    ∀ (fuel : Nat) (ret : te_expr) (s : state) (r : te_expr) (s1 : state),
      token_ok s → s.lookup = lk → (s.type ≠ TOK_ERROR → well_formed lk ret = true) →
      binary_loop E cond sub fuel ret s = some (r, s1) → parse_ok lk s r s1 := by
  intro fuel
  induction fuel with
  | zero => intro ret s r s1 _ _ _ h; simp [binary_loop] at h
  | succ fuel ih =>
    intro ret s r s1 hs hl hret h
    rw [binary_loop] at h
    split at h
    · injection h with h
      injection h with h1 h2
      subst h1; subst h2
      exact ⟨hs, hl, rfl, List.suffix_refl _, hret⟩
    · rename_i t ht
      split at h
      · simp at h
      · rename_i r2 s2 hr2
        obtain ⟨a1, a2, a3, a4⟩ := next_token_ok E s
        obtain ⟨b1, b2, b3, b4, b5⟩ := hsub _ _ _ a1 (a2.trans hl) hr2
        obtain ⟨c1, c2, c3, c4, c5⟩ := ih _ s2 r s1 b1 b2
          (fun hne => well_formed_binary lk t ret r2 (hret (hcond s t ht)) (b5 hne)) h
        exact ⟨c1, c2, c3.trans (b3.trans a3), c4.trans (b4.trans a4), c5⟩

theorem set_parameter_append (t : Nat) (u : te_union) (c : Nat) (done rest : List te_expr)
    (q p : te_expr) :
    (te_expr.mk t u (done ++ q :: rest) c).set_parameter done.length p
      = .mk t u ((done ++ [p]) ++ rest) c := by
  simp [te_expr.set_parameter]

theorem base_args_sound (E : Env) (lk : List te_variable)
    (sub : state → Option (te_expr × state)) (hsub : sound lk sub) :
    ∀ (k i : Nat) (t : Nat) (u : te_union) (c : Nat) (done : List te_expr) (s : state)
      (ret1 : te_expr) (i1 : Nat) (s2 : state),
      token_ok s → s.lookup = lk → done.length = i → (∀ p ∈ done, well_formed lk p = true) →
      base_args E sub k i (.mk t u (done ++ List.replicate k .null) c) s = some (ret1, i1, s2) →
      token_ok s2 ∧ s2.lookup = lk ∧ s2.start = s.start ∧ s2.next <:+ s.next ∧
      (s2.type ≠ TOK_ERROR → i1 + 1 = i + k →
        ∃ done1, ret1 = .mk t u done1 c ∧ done1.length = i + k ∧
          ∀ p ∈ done1, well_formed lk p = true) := by
  intro k
  induction k with
  | zero =>
    intro i t u c done s ret1 i1 s2 hs hl _ _ h
    simp only [base_args] at h
    injection h with h
    injection h with h1 h2
    injection h2 with h2 h3
    subst h3; subst h2
    exact ⟨hs, hl, rfl, List.suffix_refl _, fun _ hi => by omega⟩
  | succ k ih =>
    intro i t u c done s ret1 i1 s2 hs hl hdl hdw h
    rw [base_args] at h
    split at h
    · simp at h
    · rename_i p s1 hp
      obtain ⟨a1, a2, a3, a4⟩ := next_token_ok E s
      obtain ⟨b1, b2, b3, b4, b5⟩ := hsub _ _ _ a1 (a2.trans hl) hp
      have hset : (te_expr.mk t u (done ++ List.replicate (k + 1) .null) c).set_parameter i p
          = .mk t u ((done ++ [p]) ++ List.replicate k .null) c := by
        rw [List.replicate_succ, ← hdl]
        exact set_parameter_append t u c done _ _ p
      rw [hset] at h
      by_cases hsep : s1.type ≠ TOK_SEP
      · rw [if_pos hsep] at h
        injection h with h
        injection h with h1 h2
        injection h2 with h2 h3
        subst h3; subst h2
        refine ⟨b1, b2, b3.trans a3, b4.trans a4, fun hne hi => ?_⟩
        have hk : k = 0 := by omega
        subst hk
        refine ⟨done ++ [p], by rw [← h1]; simp, by simp [hdl], ?_⟩
        intro q hq
        rcases List.mem_append.1 hq with hq | hq
        · exact hdw q hq
        · simp at hq; subst hq; exact b5 hne
      · rw [if_neg hsep] at h
        have hs1 : s1.type = TOK_SEP := by simpa using hsep
        have hne : s1.type ≠ TOK_ERROR := by rw [hs1]; decide
        obtain ⟨c1, c2, c3, c4, c5⟩ := ih (i + 1) t u c (done ++ [p]) s1 ret1 i1 s2 b1 b2
          (by simp [hdl]) (by
            intro q hq
            rcases List.mem_append.1 hq with hq | hq
            · exact hdw q hq
            · simp at hq; subst hq; exact b5 hne) h
        refine ⟨c1, c2, c3.trans (b3.trans a3), c4.trans (b4.trans a4), fun hne2 hi => ?_⟩
        obtain ⟨d, d1, d2, d3⟩ := c5 hne2 (by omega)
        exact ⟨d, d1, by omega, d3⟩

theorem op_not_error_factor (s : state) (t : Fn) (h : factor_op s = some t) :
    s.type ≠ TOK_ERROR := by
  unfold factor_op at h
  split_ifs at h with hc
  rw [hc.1]; decide

theorem op_not_error_term (s : state) (t : Fn) (h : term_op s = some t) :
    s.type ≠ TOK_ERROR := by
  unfold term_op at h
  split_ifs at h with hc
  rw [hc.1]; decide

theorem op_not_error_expr (s : state) (t : Fn) (h : expr_op s = some t) :
    s.type ≠ TOK_ERROR := by
  unfold expr_op at h
  split_ifs at h with hc
  rw [hc.1]; decide

theorem op_not_error_list (s : state) (t : Fn) (h : list_op s = some t) :
    s.type ≠ TOK_ERROR := by
  unfold list_op at h
  split_ifs at h with hc
  rw [hc]; decide

theorem token_type_of_mask (s : state) (hs : token_ok s) (t : Nat)
    (h8 : ¬ (TE_FUNCTION0 ≤ t ∧ t ≤ TE_FUNCTION7)) (h : TYPE_MASK s.type = t) : s.type = t := by
  rcases hs.1 with h1 | h1
  · rw [TYPE_MASK_eq, Nat.mod_eq_of_lt h1] at h; exact h
  · rw [h] at h1; exact absurd h1 h8

theorem new_function_node (t : Nat) (f : Fn) (c : Nat) :
    function_node t f c = .mk t (.function f) (List.replicate (ARITY t) .null) c := rfl

/-- Every level of the parser meets `parse_ok`. -/
theorem parser_sound (E : Env) (lk : List te_variable) : ∀ (fuel : Nat),
    sound lk (base E fuel) ∧ sound lk (power E fuel) ∧ sound lk (factor E fuel) ∧
    sound lk (term E fuel) ∧ sound lk (expr E fuel) ∧ sound lk (list E fuel) := by
  intro fuel
  induction fuel with
  | zero =>
    refine ⟨?_, ?_, ?_, ?_, ?_, ?_⟩ <;> intro s r s1 _ _ h
    · simp [base] at h
    · simp [power] at h
    · simp [factor] at h
    · simp [term] at h
    · simp [expr] at h
    · simp [list] at h
  | succ fuel ih =>
    obtain ⟨ihb, ihp, ihf, iht, ihe, ihl⟩ := ih
    refine ⟨?_, ?_, ?_, ?_, ?_, ?_⟩
    · -- base
      intro s r s1 hs hl h
      obtain ⟨a1, a2, a3, a4⟩ := next_token_ok E s
      rcases base_cases s.type with h1 | h1 | h1 | h1 | h1 | h1 | ⟨h1, h2, h3, h4⟩
      · rw [base_number E fuel s h1] at h
        injection h with h; injection h with e1 e2
        subst e1; subst e2
        exact parse_ok_next_token E lk s _ hl (well_formed_constant lk _)
      · rw [base_variable E fuel s h1] at h
        injection h with h; injection h with e1 e2
        subst e1; subst e2
        have ht := token_type_of_mask s hs TOK_VARIABLE (by decide) h1
        obtain ⟨i, hi, v, hv1, hv2⟩ := hs.2.2.1 ht
        rw [hi]
        exact parse_ok_next_token E lk s _ hl
          (well_formed_variable lk i v (by rw [← hl]; exact hv1) hv2)
      · rw [base_function0 E fuel s h1] at h
        have hm : TE_FUNCTION0 ≤ TYPE_MASK s.type ∧ TYPE_MASK s.type ≤ TE_FUNCTION7 := by
          rw [h1]; decide
        have har : ARITY s.type = 0 := by rw [ARITY_of_mask _ hm, h1]; rfl
        have hw : well_formed lk
            (function_node s.type s.u.getFunction s.context)
            = true := by
          rw [new_function_node]
          exact well_formed_call lk _ _ _ _ hm (by simp) (by simp [har])
        obtain ⟨b1, b2, b3, b4⟩ := next_token_ok E (next_token E s)
        split_ifs at h
        · injection h with h; injection h with e1 e2
          subst e1; subst e2
          exact parse_ok_set_error lk s _ _ (b2.trans (a2.trans hl)) (b3.trans a3) (b4.trans a4)
        · injection h with h; injection h with e1 e2
          subst e1; subst e2
          obtain ⟨c1, c2, c3, c4⟩ := next_token_ok E (next_token E (next_token E s))
          exact ⟨c1, c2.trans (b2.trans (a2.trans hl)), c3.trans (b3.trans a3),
            c4.trans (b4.trans a4), fun _ => hw⟩
        · injection h with h; injection h with e1 e2
          subst e1; subst e2
          exact ⟨a1, a2.trans hl, a3, a4, fun _ => hw⟩
      · rw [base_function1 E fuel s h1] at h
        have hm : TE_FUNCTION0 ≤ TYPE_MASK s.type ∧ TYPE_MASK s.type ≤ TE_FUNCTION7 := by
          rw [h1]; decide
        have har : ARITY s.type = 1 := by rw [ARITY_of_mask _ hm, h1]; rfl
        split at h
        · simp at h
        · rename_i p s2 hp
          injection h with h; injection h with e1 e2
          subst e1; subst e2
          obtain ⟨b1, b2, b3, b4, b5⟩ := ihp _ _ _ a1 (a2.trans hl) hp
          refine ⟨b1, b2, b3.trans a3, b4.trans a4, fun hne => ?_⟩
          rw [new_function_node, har]
          exact well_formed_call lk _ _ _ _ hm (by simp [har])
            (by simp [te_expr.set_parameter]; exact b5 hne)
      · rw [base_function_n E fuel s h1] at h
        have hm : TE_FUNCTION0 ≤ TYPE_MASK s.type ∧ TYPE_MASK s.type ≤ TE_FUNCTION7 :=
          ⟨le_trans (by decide) h1.1, h1.2⟩
        have har : 2 ≤ ARITY s.type := by
          rw [ARITY_of_mask _ hm]
          have := h1.1
          simp only [TE_FUNCTION2] at this
          omega
        by_cases hopen : (next_token E s).type ≠ TOK_OPEN
        · rw [if_pos hopen] at h
          injection h with h; injection h with e1 e2
          subst e1; subst e2
          exact parse_ok_set_error lk s _ _ (a2.trans hl) a3 a4
        · rw [if_neg hopen, new_function_node] at h
          split at h
          · simp at h
          · rename_i ret1 i s2 hargs
            have hb := base_args_sound E lk (expr E fuel) ihe (ARITY s.type) 0 s.type
              (.function s.u.getFunction) s.context [] (next_token E s) ret1 i s2 a1
              (a2.trans hl) rfl (by simp) (by simpa using hargs)
            obtain ⟨b1, b2, b3, b4, b5⟩ := hb
            by_cases hclose : s2.type ≠ TOK_CLOSE ∨ i ≠ ARITY s.type - 1
            · rw [if_pos hclose] at h
              injection h with h; injection h with e1 e2
              subst e1; subst e2
              exact parse_ok_set_error lk s _ _ b2 (b3.trans a3) (b4.trans a4)
            · rw [if_neg hclose] at h
              injection h with h; injection h with e1 e2
              subst e1; subst e2
              have hc1 : s2.type = TOK_CLOSE := by
                by_contra hx; exact hclose (Or.inl hx)
              have hc2 : i = ARITY s.type - 1 := by
                by_contra hx; exact hclose (Or.inr hx)
              obtain ⟨d, d1, d2, d3⟩ := b5 (by rw [hc1]; decide) (by omega)
              obtain ⟨c1, c2, c3, c4⟩ := next_token_ok E s2
              refine ⟨c1, c2.trans b2, c3.trans (b3.trans a3), c4.trans (b4.trans a4),
                fun _ => ?_⟩
              rw [d1]
              exact well_formed_call lk _ _ _ _ hm (by omega) d3
      · rw [base_open E fuel s h1] at h
        split at h
        · simp at h
        · rename_i ret s2 hp
          obtain ⟨b1, b2, b3, b4, b5⟩ := ihl _ _ _ a1 (a2.trans hl) hp
          by_cases hclose : s2.type ≠ TOK_CLOSE
          · rw [if_pos hclose] at h
            injection h with h; injection h with e1 e2
            subst e1; subst e2
            exact parse_ok_set_error lk s _ _ b2 (b3.trans a3) (b4.trans a4)
          · rw [if_neg hclose] at h
            injection h with h; injection h with e1 e2
            subst e1; subst e2
            have hc1 : s2.type = TOK_CLOSE := by simpa using hclose
            obtain ⟨c1, c2, c3, c4⟩ := next_token_ok E s2
            exact ⟨c1, c2.trans b2, c3.trans (b3.trans a3), c4.trans (b4.trans a4),
              fun _ => b5 (by rw [hc1]; decide)⟩
      · rw [base_default E fuel s h1 h2 h3 h4] at h
        injection h with h; injection h with e1 e2
        subst e1; subst e2
        exact parse_ok_set_error lk s _ _ hl rfl (List.suffix_refl _)
    · -- power
      intro s r s1 hs hl h
      rw [power] at h
      split at h
      · simp at h
      · rename_i s2 sign hsg
        obtain ⟨a1, a2, a3, a4⟩ := power_signs_sound E fuel s 1 s2 sign hs hsg
        by_cases h1 : sign = 1
        · rw [if_pos h1] at h
          obtain ⟨b1, b2, b3, b4, b5⟩ := ihb _ _ _ a1 (a2.trans hl) h
          exact ⟨b1, b2, b3.trans a3, b4.trans a4, b5⟩
        · rw [if_neg h1] at h
          split at h
          · simp at h
          · rename_i b s3 hb
            injection h with h; injection h with e1 e2
            subst e1; subst e2
            obtain ⟨b1, b2, b3, b4, b5⟩ := ihb _ _ _ a1 (a2.trans hl) hb
            exact ⟨b1, b2, b3.trans a3, b4.trans a4, fun hne => well_formed_negate lk b (b5 hne)⟩
    · intro s r s1 hs hl h
      rw [factor] at h
      split at h
      · simp at h
      · rename_i ret s2 hp
        obtain ⟨b1, b2, b3, b4, b5⟩ := ihp _ _ _ hs hl hp
        obtain ⟨c1, c2, c3, c4, c5⟩ := binary_loop_sound E lk factor_op (power E fuel) ihp
          op_not_error_factor fuel ret s2 r s1 b1 b2 b5 h
        exact ⟨c1, c2, c3.trans b3, c4.trans b4, c5⟩
    · intro s r s1 hs hl h
      rw [term] at h
      split at h
      · simp at h
      · rename_i ret s2 hp
        obtain ⟨b1, b2, b3, b4, b5⟩ := ihf _ _ _ hs hl hp
        obtain ⟨c1, c2, c3, c4, c5⟩ := binary_loop_sound E lk term_op (factor E fuel) ihf
          op_not_error_term fuel ret s2 r s1 b1 b2 b5 h
        exact ⟨c1, c2, c3.trans b3, c4.trans b4, c5⟩
    · intro s r s1 hs hl h
      rw [expr] at h
      split at h
      · simp at h
      · rename_i ret s2 hp
        obtain ⟨b1, b2, b3, b4, b5⟩ := iht _ _ _ hs hl hp
        obtain ⟨c1, c2, c3, c4, c5⟩ := binary_loop_sound E lk expr_op (term E fuel) iht
          op_not_error_expr fuel ret s2 r s1 b1 b2 b5 h
        exact ⟨c1, c2, c3.trans b3, c4.trans b4, c5⟩
    · intro s r s1 hs hl h
      rw [list] at h
      split at h
      · simp at h
      · rename_i ret s2 hp
        obtain ⟨b1, b2, b3, b4, b5⟩ := ihe _ _ _ hs hl hp
        obtain ⟨c1, c2, c3, c4, c5⟩ := binary_loop_sound E lk list_op (expr E fuel) ihe
          op_not_error_list fuel ret s2 r s1 b1 b2 b5 h
        exact ⟨c1, c2, c3.trans b3, c4.trans b4, c5⟩

/-! ## The evaluator and the optimizer -/

/-- The value returned by `te_eval2` on a node, when a gradient array is given. -/
theorem te_eval2_value (E : Env) (expr : te_expression) (t : Nat) (u : te_union)
    (ps : List te_expr) (c : Nat) (val : Option (Nat → ℚ)) (ga : Nat → ℚ) :
    (te_eval2 E expr (.mk t u ps c) val (some ga)).map Prod.fst =
      if TYPE_MASK t = TE_CONSTANT then some u.getValue
      else if TYPE_MASK t = TE_VARIABLE then val.map (fun va => va u.getIvar.toNat)
      else if TE_FUNCTION0 ≤ TYPE_MASK t ∧ TYPE_MASK t ≤ TE_FUNCTION7 then
        ((te_eval2_parameters E expr ps (ARITY t) val).map (List.map Prod.fst)).map
          (fun xs => (call E u.getFunction c (args xs)).1)
      else some E.nan := by
  rw [te_eval2]
  by_cases h1 : TYPE_MASK t = TE_CONSTANT
  · rw [if_pos h1, if_pos h1]; rfl
  rw [if_neg h1, if_neg h1]
  by_cases h2 : TYPE_MASK t = TE_VARIABLE
  · rw [if_pos h2, if_pos h2]
    cases val <;> rfl
  rw [if_neg h2, if_neg h2]
  by_cases h3 : TE_FUNCTION0 ≤ TYPE_MASK t ∧ TYPE_MASK t ≤ TE_FUNCTION7
  · rw [if_pos h3, if_pos h3]
    cases hch : te_eval2_parameters E expr ps (ARITY t) val with
    | none => rfl
    | some ch =>
      simp only [te_eval2_combine]
      by_cases hn : expr.nvar = 0
      · rw [if_pos hn]; rfl
      · rw [if_neg hn]; rfl
  · rw [if_neg h3, if_neg h3]; rfl

theorem te_eval2_parameters_values_cons (E : Env) (expr : te_expression) (p : te_expr)
    (ps : List te_expr) (k : Nat) (val : Option (Nat → ℚ)) :
    (te_eval2_parameters E expr (p :: ps) (k + 1) val).map (List.map Prod.fst) =
      ((te_eval2 E expr p val (some (fun _ => 0))).map Prod.fst).bind (fun x =>
        ((te_eval2_parameters E expr ps k val).map (List.map Prod.fst)).map
          (fun rest => x :: rest)) := by
  rw [te_eval2_parameters]
  cases h1 : te_eval2 E expr p val (some (fun _ => 0)) with
  | none => rfl
  | some xg =>
    obtain ⟨x, g1⟩ := xg
    simp only []
    cases h2 : te_eval2_parameters E expr ps k val with
    | none => rfl
    | some rest => rfl

theorem te_eval2_parameters_zero (E : Env) (expr : te_expression) (ps : List te_expr)
    (val : Option (Nat → ℚ)) : te_eval2_parameters E expr ps 0 val = some [] := by
  cases ps <;> rw [te_eval2_parameters]

theorem te_eval2_constant_type (E : Env) (expr : te_expression) (p : te_expr)
    (h : p.type = TE_CONSTANT) (val : Option (Nat → ℚ)) (ga : Nat → ℚ) :
    (te_eval2 E expr p val (some ga)).map Prod.fst = some p.u.getValue := by
  cases p with
  | null => simp [te_expr.type, TE_CONSTANT] at h
  | mk t u ps c =>
    simp only [te_expr.type] at h
    rw [te_eval2_value, if_pos (by rw [h]; decide)]
    rfl

mutual
/-- The optimizer returns on every well-formed tree, with a well-formed tree. -/
theorem optimize_ok (E : Env) (expr : te_expression) (lk : List te_variable) :
    ∀ n : te_expr, well_formed lk n = true →
      ∃ n1, optimize E expr n = some n1 ∧ well_formed lk n1 = true
  | .null, h => by simp [well_formed] at h
  | .mk t u ps c, h => by
    rw [optimize]
    by_cases h1 : t = TE_CONSTANT
    · rw [if_pos h1]; exact ⟨_, rfl, h⟩
    rw [if_neg h1]
    by_cases h2 : t = TE_VARIABLE
    · rw [if_pos h2]; exact ⟨_, rfl, h⟩
    rw [if_neg h2]
    by_cases h3 : IS_PURE t = true
    · rw [if_pos h3]
      rw [well_formed, if_neg h1, if_neg h2] at h
      simp only [Bool.and_eq_true, decide_eq_true_eq] at h
      obtain ⟨⟨hm, hu⟩, hps⟩ := h
      obtain ⟨ps1, known, e1, e2, e3⟩ := optimize_parameters_ok E expr lk ps (ARITY t) hps
      rw [e1]
      simp only []
      by_cases hk : known = true
      · rw [if_pos hk]
        have hv := te_eval2_value E expr t u ps1 c none (fun _ => 0)
        rw [if_neg (by rw [TYPE_MASK_eq] at *; simp only [TE_CONSTANT, TE_FUNCTION0] at *; omega),
          if_neg (by rw [TYPE_MASK_eq] at *; simp only [TE_VARIABLE, TE_FUNCTION0] at *; omega),
          if_pos hm] at hv
        obtain ⟨xs, hxs⟩ := e3 hk
        rw [hxs] at hv
        cases hev : te_eval2 E expr (.mk t u ps1 c) none (some (fun _ => 0)) with
        | none => rw [hev] at hv; simp at hv
        | some vg =>
          obtain ⟨v, g1⟩ := vg
          simp only []
          exact ⟨_, rfl, by simp [well_formed, te_union.is_value]⟩
      · rw [if_neg hk]
        refine ⟨_, rfl, ?_⟩
        rw [well_formed, if_neg h1, if_neg h2]
        simp only [Bool.and_eq_true, decide_eq_true_eq]
        exact ⟨⟨hm, hu⟩, e2⟩
    · rw [if_neg h3]; exact ⟨_, rfl, h⟩

/-- The loop of the optimizer over well-formed children returns; when it sets
`known`, the children evaluate without any variable. -/
theorem optimize_parameters_ok (E : Env) (expr : te_expression) (lk : List te_variable) :
    ∀ (ps : List te_expr) (k : Nat), well_formed_parameters lk ps k = true →
      ∃ ps1 known, optimize_parameters E expr ps k = some (ps1, known) ∧
        well_formed_parameters lk ps1 k = true ∧
        (known = true → ∃ xs,
          (te_eval2_parameters E expr ps1 k none).map (List.map Prod.fst) = some xs)
  | [], 0, _ => ⟨[], true, by rw [optimize_parameters], by simp [well_formed_parameters],
      fun _ => ⟨[], by rw [te_eval2_parameters_zero]; rfl⟩⟩
  | [], _ + 1, h => by simp [well_formed_parameters] at h
  | _ :: _, 0, h => by simp [well_formed_parameters] at h
  | p :: ps, k + 1, h => by
    rw [well_formed_parameters, Bool.and_eq_true] at h
    obtain ⟨p1, e1, e2⟩ := optimize_ok E expr lk p h.1
    obtain ⟨ps1, known, e3, e4, e5⟩ := optimize_parameters_ok E expr lk ps k h.2
    rw [optimize_parameters, e1]
    simp only [e3]
    refine ⟨_, _, rfl, by rw [well_formed_parameters, e2, e4]; rfl, ?_⟩
    intro hk
    by_cases hc : p1.type ≠ TE_CONSTANT
    · rw [if_pos hc] at hk; simp at hk
    · rw [if_neg hc] at hk
      obtain ⟨xs, hxs⟩ := e5 hk
      refine ⟨p1.u.getValue :: xs, ?_⟩
      rw [te_eval2_parameters_values_cons,
        te_eval2_constant_type E expr p1 (by simpa using hc), hxs]
      rfl
end

/-! ## Compilation -/

/-- The parse run by `te_compile` returns and meets `parse_ok`. -/
theorem te_compile_parse (E : Env) (expression : List Char) (bindings : List te_variable) :
    ∃ root s,
      parse E expression bindings = some (root, s) ∧
      parse_ok bindings (next_token E (initial_state expression bindings)) root s := by
  have hm := measure_next_token_le E (initial_state expression bindings)
  obtain ⟨a1, a2, a3, a4⟩ := next_token_ok E (initial_state expression bindings)
  have hm2 : (initial_state expression bindings).next.length = expression.length := rfl
  obtain ⟨root, s, h1, _⟩ := (parser_returns E (compile_fuel expression)).2.2.2.2.2
    (next_token E (initial_state expression bindings)) (by unfold compile_fuel; omega)
  exact ⟨root, s, h1, (parser_sound E bindings (compile_fuel expression)).2.2.2.2.2 _ _ _ a1 a2 h1⟩

/-- C1. `te_compile` is all-or-nothing: for every text and every binding list
it returns, and it returns either an expression with `*error = 0`, or `NULL`
with `*error >= 1`. -/
theorem te_compile_all_or_nothing (E : Env) (expression : List Char)
    (bindings : List te_variable) :
    ∃ r, te_compile E expression bindings = some r ∧
      ((∃ ex, r.1 = some ex ∧ r.2 = 0) ∨ (r.1 = none ∧ 1 ≤ r.2)) := by
  obtain ⟨root, s, h1, h2⟩ := te_compile_parse E expression bindings
  unfold te_compile
  simp only [h1]
  by_cases hend : s.type ≠ TOK_END
  · rw [if_pos hend]
    refine ⟨_, rfl, Or.inr ⟨rfl, ?_⟩⟩
    simp only []
    split_ifs <;> omega
  · rw [if_neg hend]
    have he : s.type = TOK_END := by simpa using hend
    have hw := h2.2.2.2.2 (by rw [he]; decide)
    obtain ⟨n1, e1, _⟩ := optimize_ok E (new_expression bindings root) bindings root hw
    rw [e1]
    exact ⟨_, rfl, Or.inl ⟨_, rfl, rfl⟩⟩

/-! ## Constant folding preserves the value -/

theorem te_eval2_null (E : Env) (expr : te_expression) (val g : Option (Nat → ℚ)) :
    te_eval2 E expr .null val g = some (E.nan, g) := by
  rw [te_eval2]

mutual
/-- The value of the tree after `optimize` is the value of the tree before, for
every array of variable values. -/
theorem optimize_value (E : Env) (expr : te_expression) :
    ∀ (n n1 : te_expr), optimize E expr n = some n1 →
      ∀ (val : Option (Nat → ℚ)) (ga : Nat → ℚ),
        (te_eval2 E expr n1 val (some ga)).map Prod.fst
          = (te_eval2 E expr n val (some ga)).map Prod.fst
  | .null, n1, h => by simp [optimize] at h
  | .mk t u ps c, n1, h => by
    intro val ga
    rw [optimize] at h
    by_cases h1 : t = TE_CONSTANT
    · rw [if_pos h1] at h; injection h with h; rw [← h]
    rw [if_neg h1] at h
    by_cases h2 : t = TE_VARIABLE
    · rw [if_pos h2] at h; injection h with h; rw [← h]
    rw [if_neg h2] at h
    by_cases h3 : IS_PURE t = true
    · rw [if_pos h3] at h
      cases hop : optimize_parameters E expr ps (ARITY t) with
      | none => rw [hop] at h; simp at h
      | some pk =>
        obtain ⟨ps1, known⟩ := pk
        rw [hop] at h
        simp only [] at h
        obtain ⟨e1, e2⟩ := optimize_parameters_value E expr ps (ARITY t) ps1 known hop
        by_cases hk : known = true
        · rw [if_pos hk] at h
          cases hev : te_eval2 E expr (.mk t u ps1 c) none (some (fun _ => 0)) with
          | none => rw [hev] at h; simp at h
          | some vg =>
            obtain ⟨v, g1⟩ := vg
            rw [hev] at h
            simp only [] at h
            injection h with h
            rw [← h]
            have hv := te_eval2_value E expr t u ps1 c none (fun _ => 0)
            rw [hev] at hv
            rw [te_eval2_value E expr TE_CONSTANT (.value v) [] c val ga, if_pos (by decide),
              te_eval2_value E expr t u ps c val ga]
            by_cases m1 : TYPE_MASK t = TE_CONSTANT
            · rw [if_pos m1] at hv ⊢; exact hv
            rw [if_neg m1] at hv ⊢
            by_cases m2 : TYPE_MASK t = TE_VARIABLE
            · rw [if_pos m2] at hv; simp at hv
            rw [if_neg m2] at hv ⊢
            by_cases m3 : TE_FUNCTION0 ≤ TYPE_MASK t ∧ TYPE_MASK t ≤ TE_FUNCTION7
            · rw [if_pos m3] at hv ⊢
              rw [← e1 val, e2 hk val]
              exact hv
            · rw [if_neg m3] at hv ⊢; exact hv
        · rw [if_neg hk] at h
          injection h with h
          rw [← h, te_eval2_value, te_eval2_value, e1 val]
    · rw [if_neg h3] at h; injection h with h; rw [← h]

/-- The values of the children after the loop of `optimize` are the values
before; when the loop sets `known`, they do not depend on the variables. -/
theorem optimize_parameters_value (E : Env) (expr : te_expression) :
    ∀ (ps : List te_expr) (k : Nat) (ps1 : List te_expr) (known : Bool),
      optimize_parameters E expr ps k = some (ps1, known) →
      (∀ val : Option (Nat → ℚ),
        (te_eval2_parameters E expr ps1 k val).map (List.map Prod.fst)
          = (te_eval2_parameters E expr ps k val).map (List.map Prod.fst)) ∧
      (known = true → ∀ val : Option (Nat → ℚ),
        (te_eval2_parameters E expr ps1 k val).map (List.map Prod.fst)
          = (te_eval2_parameters E expr ps1 k none).map (List.map Prod.fst))
  | ps, 0, ps1, known, h => by
    constructor
    · intro val; rw [te_eval2_parameters_zero, te_eval2_parameters_zero]
    · intro _ val; rw [te_eval2_parameters_zero, te_eval2_parameters_zero]
  | [], k + 1, ps1, known, h => by rw [optimize_parameters] at h; simp at h
  | p :: ps, k + 1, ps1, known, h => by
    rw [optimize_parameters] at h
    cases hp : optimize E expr p with
    | none => rw [hp] at h; simp at h
    | some p1 =>
      rw [hp] at h
      simp only [] at h
      cases hps : optimize_parameters E expr ps k with
      | none => rw [hps] at h; simp at h
      | some pk =>
        obtain ⟨ps2, known2⟩ := pk
        rw [hps] at h
        simp only [] at h
        injection h with h
        injection h with h1 h2
        subst h1
        have hv := optimize_value E expr p p1 hp
        obtain ⟨e1, e2⟩ := optimize_parameters_value E expr ps k ps2 known2 hps
        constructor
        · intro val
          rw [te_eval2_parameters_values_cons, te_eval2_parameters_values_cons, hv val, e1 val]
        · intro hk val
          by_cases hc : p1.type ≠ TE_CONSTANT
          · rw [if_pos hc] at h2; rw [← h2] at hk; simp at hk
          · rw [if_neg hc] at h2
            rw [te_eval2_parameters_values_cons, te_eval2_parameters_values_cons,
              te_eval2_constant_type E expr p1 (by simpa using hc),
              te_eval2_constant_type E expr p1 (by simpa using hc),
              e2 (by rw [h2]; exact hk) val]
end

mutual
/-- The evaluator reads only `nvar` and `idx` of the compiled expression. -/
theorem te_eval2_expr_congr (E : Env) (e1 e2 : te_expression) (hn : e1.nvar = e2.nvar)
    (hi : e1.idx = e2.idx) :
    ∀ (n : te_expr) (val g : Option (Nat → ℚ)), te_eval2 E e1 n val g = te_eval2 E e2 n val g
  | .null, val, g => by rw [te_eval2, te_eval2]
  | .mk t u ps c, val, g => by
    rw [te_eval2, te_eval2, te_eval2_parameters_expr_congr E e1 e2 hn hi ps (ARITY t) val]
    simp only [te_eval2_variable, te_eval2_combine, hn, hi]

/-- The loop over the children reads only `nvar` and `idx` of the compiled expression. -/
theorem te_eval2_parameters_expr_congr (E : Env) (e1 e2 : te_expression)
    (hn : e1.nvar = e2.nvar) (hi : e1.idx = e2.idx) :
    ∀ (ps : List te_expr) (k : Nat) (val : Option (Nat → ℚ)),
      te_eval2_parameters E e1 ps k val = te_eval2_parameters E e2 ps k val
  | ps, 0, val => by rw [te_eval2_parameters_zero, te_eval2_parameters_zero]
  | [], k + 1, val => by
    rw [te_eval2_parameters, te_eval2_parameters]
  | p :: ps, k + 1, val => by
    rw [te_eval2_parameters, te_eval2_parameters, te_eval2_expr_congr E e1 e2 hn hi p,
      te_eval2_parameters_expr_congr E e1 e2 hn hi ps k val]
end

/-! ## The chain rule -/

theorem zero_fill_apply (g : Nat → ℚ) (n j : Nat) :
    zero_fill g n j = if j < n then 0 else g j := by
  induction n with
  | zero => simp [zero_fill]
  | succ n ih =>
    rw [zero_fill, Function.update_apply, ih]
    by_cases h1 : j = n
    · subst h1; simp
    · rw [if_neg h1]
      by_cases h2 : j < n
      · rw [if_pos h2, if_pos (by omega)]
      · rw [if_neg h2, if_neg (by omega)]

theorem add_scaled_apply (a : ℚ) (g1 g : Nat → ℚ) (n j : Nat) :
    add_scaled a g1 g n j = if j < n then g j + a * g1 j else g j := by
  induction n with
  | zero => simp [add_scaled]
  | succ n ih =>
    rw [add_scaled, Function.update_apply]
    by_cases h1 : j = n
    · subst h1; rw [if_pos rfl, ih]; simp
    · rw [if_neg h1, ih]
      by_cases h2 : j < n
      · rw [if_pos h2, if_pos (by omega)]
      · rw [if_neg h2, if_neg (by omega)]

theorem accumulate_apply (df : Nat → ℚ) (nvar : Nat) :
    ∀ (gs : List (Nat → ℚ)) (i : Nat) (g : Nat → ℚ) (j : Nat),
      accumulate df nvar gs i g j =
        if j < nvar then
          g j + ∑ k in Finset.range gs.length, df (i + k) * (gs.getD k (fun _ => 0)) j
        else g j := by
  intro gs
  induction gs with
  | nil => intro i g j; simp [accumulate]
  | cons g1 rest ih =>
    intro i g j
    rw [accumulate, ih]
    by_cases hj : j < nvar
    · rw [if_pos hj, if_pos hj, List.length_cons, Finset.sum_range_succ']
      have hs : ∑ k in Finset.range rest.length,
            df (i + 1 + k) * (rest.getD k (fun _ => 0)) j
          = ∑ k in Finset.range rest.length,
            df (i + (k + 1)) * ((g1 :: rest).getD (k + 1) (fun _ => 0)) j := by
        apply Finset.sum_congr rfl
        intro k _
        rw [show i + 1 + k = i + (k + 1) by omega]
        simp
      rw [hs]
      by_cases hd : 0 ≠ df i
      · rw [if_pos hd, add_scaled_apply, if_pos hj]
        simp
        ring
      · rw [if_neg hd]
        have hz : df i = 0 := by
          by_contra h; exact hd (Ne.symm h)
        simp [hz]
    · rw [if_neg hj, if_neg hj]
      by_cases hd : 0 ≠ df i
      · rw [if_pos hd, add_scaled_apply, if_neg hj]
      · rw [if_neg hd]

/-- With a gradient array, `te_eval2` returns with a gradient array. -/
theorem te_eval2_some_buffer (E : Env) (expr : te_expression) (n : te_expr)
    (val : Option (Nat → ℚ)) (ga : Nat → ℚ) (x : ℚ) (g1 : Option (Nat → ℚ))
    (h : te_eval2 E expr n val (some ga) = some (x, g1)) : ∃ gb, g1 = some gb := by
  cases n with
  | null =>
    rw [te_eval2] at h
    injection h with h; injection h with _ h
    exact ⟨ga, h.symm⟩
  | mk t u ps c =>
    rw [te_eval2] at h
    split_ifs at h
    · injection h with h; injection h with _ h
      exact ⟨ga, h.symm⟩
    · unfold te_eval2_variable at h
      cases val with
      | none => simp at h
      | some va =>
        simp only [] at h
        injection h with h; injection h with _ h
        exact ⟨_, h.symm⟩
    · cases hch : te_eval2_parameters E expr ps (ARITY t) val with
      | none => rw [hch] at h; simp at h
      | some ch =>
        rw [hch] at h
        simp only [te_eval2_combine] at h
        split_ifs at h
        · injection h with h; injection h with _ h
          exact ⟨ga, h.symm⟩
        · injection h with h; injection h with _ h
          exact ⟨_, h.symm⟩
    · injection h with h; injection h with _ h
      exact ⟨ga, h.symm⟩

/-- The list returned by the loop over the children holds, for each slot `i`,
the value and the gradient vector that `te_eval2` computes for `parameters[i]`
in a zeroed vector. -/
theorem te_eval2_parameters_spec (E : Env) (expr : te_expression) (val : Option (Nat → ℚ)) :
    ∀ (k : Nat) (ps : List te_expr) (children : List (ℚ × (Nat → ℚ))),
      te_eval2_parameters E expr ps k val = some children →
      children.length = k ∧
      ∀ i, i < k →
        te_eval2 E expr (ps.getD i .null) val (some (fun _ => 0))
          = some ((children.getD i (0, fun _ => 0)).1,
              some (children.getD i (0, fun _ => 0)).2) := by
  intro k
  induction k with
  | zero =>
    intro ps children h
    rw [te_eval2_parameters_zero] at h
    injection h with h
    subst h
    exact ⟨rfl, fun i hi => by omega⟩
  | succ k ih =>
    intro ps children h
    cases ps with
    | nil =>
      rw [te_eval2_parameters] at h
      injection h with h
      subst h
      refine ⟨by simp, fun i hi => ?_⟩
      rw [List.getD_nil, te_eval2_null, List.getD_eq_getElem _ _ (by simpa using hi)]
      simp
    | cons p ps =>
      rw [te_eval2_parameters] at h
      cases hp : te_eval2 E expr p val (some (fun _ => 0)) with
      | none => rw [hp] at h; simp at h
      | some xg =>
        obtain ⟨x, g1⟩ := xg
        rw [hp] at h
        simp only [] at h
        cases hr : te_eval2_parameters E expr ps k val with
        | none => rw [hr] at h; simp at h
        | some rest =>
          rw [hr] at h
          simp only [] at h
          injection h with h
          subst h
          obtain ⟨a1, a2⟩ := ih ps rest hr
          obtain ⟨gb, hgb⟩ := te_eval2_some_buffer E expr p val _ x g1 hp
          refine ⟨by simp [a1], fun i hi => ?_⟩
          cases i with
          | zero => simp [hp, hgb]
          | succ i =>
            have := a2 i (by omega)
            simpa using this

theorem te_eval2_constant_node (E : Env) (expr : te_expression) (v : ℚ)
    (val g : Option (Nat → ℚ)) : te_eval2 E expr (constant_node v) val g = some (v, g) := by
  have e : constant_node v = .mk 1 (.value v) [] 0 := rfl
  rw [e, te_eval2, if_pos (by decide)]
  rfl

theorem te_eval2_variable_node (E : Env) (expr : te_expression) (i : Int)
    (va ga : Nat → ℚ) :
    te_eval2 E expr (variable_node i) (some va) (some ga)
      = some (va i.toNat, some (Function.update ga (expr.idx.getD i.toNat 0) 1)) := by
  have e : variable_node i = .mk 0 (.ivar i) [] 0 := rfl
  rw [e, te_eval2, if_neg (by decide), if_pos (by decide)]
  rfl

theorem some_getD_of_isSome {α : Type} (o : Option α) (d : α) (h : o.isSome = true) :
    o = some (o.getD d) := by
  cases o with
  | none => simp at h
  | some a => rfl

/-! ## Variables, and the gradient array of `te_eval` -/

/-- What a successful `te_compile` did: the parse ended on `TOK_END` with a
well-formed tree `root`, and the expression returned holds the well-formed
result of `optimize` on it. -/
theorem te_compile_some (E : Env) (expression : List Char) (bindings : List te_variable)
    (ex : te_expression) (error : Nat)
    (h : te_compile E expression bindings = some (some ex, error)) :
    ∃ root s root1, parse E expression bindings = some (root, s) ∧ s.type = TOK_END ∧
      well_formed bindings root = true ∧
      optimize E (new_expression bindings root) root = some root1 ∧
      well_formed bindings root1 = true ∧ ex = new_expression bindings root1 ∧ error = 0 := by
  obtain ⟨root, s, h1, h2⟩ := te_compile_parse E expression bindings
  unfold te_compile at h
  simp only [h1] at h
  by_cases hend : s.type ≠ TOK_END
  · rw [if_pos hend] at h
    simp at h
  · rw [if_neg hend] at h
    have he : s.type = TOK_END := by simpa using hend
    have hw := h2.2.2.2.2 (by rw [he]; decide)
    obtain ⟨n1, e1, e2⟩ := optimize_ok E (new_expression bindings root) bindings root hw
    rw [e1] at h
    simp only [Option.some.injEq, Prod.mk.injEq] at h
    exact ⟨root, s, n1, h1, he, hw, e1, e2, h.1.symm, h.2.symm⟩

/-- C4 (what the code does). With the bindings `f` (a function) and `x` (a
variable), the text `x` compiles to a reference with `ivar = 1`, the position
of `x` in the binding list, while the dense slot of `x` is `idx[1] = 0` and
`nvar = 1`; evaluated on the values `val[0] = 10`, `val[1] = 20`, `te_eval`
returns `val[1] = 20`, not `val[0]`, and sets the gradient entry of slot 0. -/
theorem variable_value_read_at_binding_position :
    te_compile exactEnv "x".toList
        [{ name := "f".toList, address := .user 1, type := TE_FUNCTION1, context := 0 },
         variable_binding "x"]
      = some (some { root := variable_node 1, nvar := 1, idx := [0, 0] }, 0) ∧
    (te_eval exactEnv { root := variable_node 1, nvar := 1, idx := [0, 0] }
        (some (fun i => if i = 0 then 10 else 20)) (some (fun _ => 0))).map
      (fun v => (v.1, v.2.map (fun g => (g 0, g 1)))) = some (20, some (1, 0)) := by
  constructor <;> decide!

/-- C5 (what the code does). With the variables `x` and `y`, `te_eval` on the
compiled text `x` sets `g[0] = 1` and leaves `g[1]` as it was: from an array
that held 7 everywhere the gradient read back is (1, 7), not the basis vector
(1, 0). -/
theorem variable_gradient_keeps_other_entries :
    (te_compile exactEnv "x".toList [variable_binding "x", variable_binding "y"]).bind
      (fun r => r.1.bind (fun ex =>
        (te_eval exactEnv ex (some (fun i => if i = 0 then 2 else 3)) (some (fun _ => 7))).map
          (fun v => (v.1, v.2.map (fun g => (g 0, g 1))))))
      = some (2, some (1, 7)) := by
  decide!

theorem index_variables_none (bindings : List te_variable)
    (h : ∀ b ∈ bindings, TYPE_MASK b.type ≠ TE_VARIABLE) :
    ∀ k, (index_variables bindings k).2 = k := by
  induction bindings with
  | nil => intro k; rfl
  | cons b rest ih =>
    intro k
    have hb : ¬ TE_VARIABLE = b.type := by
      intro hb
      exact h b (List.mem_cons_self _ _) (by rw [← hb]; decide)
    rw [index_variables, if_neg hb]
    exact ih (fun b1 h1 => h b1 (List.mem_cons_of_mem _ h1)) k

mutual
/-- Without a binding of kind variable (so `nvar = 0`), `te_eval2` on a
well-formed tree returns and hands back the gradient pointer it was given. -/
theorem te_eval2_no_variable (E : Env) (expr : te_expression) (lk : List te_variable)
    (val : Option (Nat → ℚ)) (hn : expr.nvar = 0)
    (hlk : ∀ b ∈ lk, TYPE_MASK b.type ≠ TE_VARIABLE) :
    ∀ n : te_expr, well_formed lk n = true →
      ∃ v, ∀ g : Option (Nat → ℚ), te_eval2 E expr n val g = some (v, g)
  | .null, h => by simp [well_formed] at h
  | .mk t u ps c, h => by
    rw [well_formed] at h
    by_cases h1 : t = TE_CONSTANT
    · exact ⟨u.getValue, fun g => by rw [te_eval2, if_pos (by rw [h1]; decide)]⟩
    rw [if_neg h1] at h
    by_cases h2 : t = TE_VARIABLE
    · rw [if_pos h2] at h
      simp only [Bool.and_eq_true] at h
      cases u with
      | value v => simp [te_union.is_variable] at h
      | function f => simp [te_union.is_variable] at h
      | ivar i =>
        simp only [te_union.is_variable, Bool.and_eq_true, decide_eq_true_eq] at h
        obtain ⟨⟨_, hv⟩, _⟩ := h
        cases hg : lk.get? i.toNat with
        | none => rw [hg] at hv; simp at hv
        | some b =>
          rw [hg] at hv
          simp only [decide_eq_true_eq] at hv
          exact absurd hv (hlk b (List.get?_mem hg))
    rw [if_neg h2] at h
    simp only [Bool.and_eq_true, decide_eq_true_eq] at h
    obtain ⟨⟨hm, _⟩, hps⟩ := h
    obtain ⟨ch, hch⟩ := te_eval2_parameters_no_variable E expr lk val hn hlk ps (ARITY t) hps
    refine ⟨(call E u.getFunction c (args (ch.map Prod.fst))).1, fun g => ?_⟩
    rw [te_eval2,
      if_neg (by rw [TYPE_MASK_eq] at *; simp only [TE_CONSTANT, TE_FUNCTION0] at *; omega),
      if_neg (by rw [TYPE_MASK_eq] at *; simp only [TE_VARIABLE, TE_FUNCTION0] at *; omega),
      if_pos hm, hch]
    simp only [te_eval2_combine]
    rw [if_pos hn]

/-- Without a binding of kind variable, the loop over well-formed children returns. -/
theorem te_eval2_parameters_no_variable (E : Env) (expr : te_expression)
    (lk : List te_variable) (val : Option (Nat → ℚ)) (hn : expr.nvar = 0)
    (hlk : ∀ b ∈ lk, TYPE_MASK b.type ≠ TE_VARIABLE) :
    ∀ (ps : List te_expr) (k : Nat), well_formed_parameters lk ps k = true →
      ∃ ch, te_eval2_parameters E expr ps k val = some ch
  | [], 0, _ => ⟨[], by rw [te_eval2_parameters]⟩
  | [], _ + 1, h => by simp [well_formed_parameters] at h
  | _ :: _, 0, h => by simp [well_formed_parameters] at h
  | p :: ps, k + 1, h => by
    rw [well_formed_parameters, Bool.and_eq_true] at h
    obtain ⟨v, hv⟩ := te_eval2_no_variable E expr lk val hn hlk p h.1
    obtain ⟨ch, hch⟩ := te_eval2_parameters_no_variable E expr lk val hn hlk ps k h.2
    rw [te_eval2_parameters, hv, hch]
    exact ⟨_, rfl⟩
end

/-- C6 (the claim as stated fails). With the variable `x`, `te_eval` on the
compiled text `x` and on the compiled text `x+1`, called with no gradient
array, writes through the null pointer: the model returns the fault `none`,
while the same calls with a gradient array return the values 2 and 3. -/
theorem te_eval_without_gradient_faults :
    (te_compile exactEnv "x".toList [variable_binding "x"]).bind
      (fun r => r.1.map (fun ex =>
        ((te_eval exactEnv ex (some (fun _ => 2)) none).map Prod.fst,
         (te_eval exactEnv ex (some (fun _ => 2)) (some (fun _ => 0))).map Prod.fst)))
      = some (none, some 2) ∧
    (te_compile exactEnv "x+1".toList [variable_binding "x"]).bind
      (fun r => r.1.map (fun ex =>
        ((te_eval exactEnv ex (some (fun _ => 2)) none).map Prod.fst,
         (te_eval exactEnv ex (some (fun _ => 2)) (some (fun _ => 0))).map Prod.fst)))
      = some (none, some 3) := by
  constructor <;> decide!

/-- C6 (amended). For every expression compiled from a binding list without
any entry of kind variable, or folded to a constant at its root, and for every
array of variable values, `te_eval` called with no gradient array returns,
touches no gradient array, and returns the value that `te_eval` returns with a
gradient array, which it leaves as it was. -/
theorem te_eval_gradient_optional (E : Env) (expression : List Char)
    (bindings : List te_variable) (ex : te_expression) (val : Option (Nat → ℚ))
    (ga : Nat → ℚ)
    (hc : te_compile E expression bindings = some (some ex, 0))
    (hcase : (∀ b ∈ bindings, TYPE_MASK b.type ≠ TE_VARIABLE) ∨ ex.root.type = TE_CONSTANT) :
    ∃ v, te_eval E ex val none = some (v, none) ∧
      te_eval E ex val (some ga) = some (v, some ga) := by
  obtain ⟨root, s, root1, _, _, _, _, hw, hex, _⟩ := te_compile_some E expression bindings ex 0 hc
  unfold te_eval
  rcases hcase with hlk | hconst
  · have hn : ex.nvar = 0 := by
      rw [hex]
      exact index_variables_none bindings hlk 0
    obtain ⟨v, hv⟩ := te_eval2_no_variable E ex bindings val hn hlk ex.root
      (by rw [hex]; exact hw)
    exact ⟨v, hv none, hv (some ga)⟩
  · cases hr : ex.root with
    | null => rw [hr] at hconst; simp [te_expr.type, TE_CONSTANT] at hconst
    | mk t u ps c =>
      rw [hr] at hconst
      simp only [te_expr.type] at hconst
      refine ⟨u.getValue, ?_, ?_⟩ <;> rw [te_eval2, if_pos (by rw [hconst]; decide)]

/-- The hypotheses of `te_eval_gradient_optional` hold for the text `3-2-4`
compiled without bindings, and `te_eval` returns -3 with and without a
gradient array. -/
theorem te_eval_gradient_optional_witness :
    ∃ v, te_eval exactEnv (new_expression [] (constant_node (-3))) none none = some (v, none) ∧
      te_eval exactEnv (new_expression [] (constant_node (-3))) none (some (fun _ => 0))
        = some (v, some (fun _ => 0)) :=
  te_eval_gradient_optional exactEnv "3-2-4".toList [] (new_expression [] (constant_node (-3)))
    none (fun _ => 0) (by decide!) (Or.inl (by simp))

/-! ## The result of the parser does not depend on the fuel -/

theorem power_signs_mono (E : Env) : ∀ (fuel : Nat) (s : state) (sign : Int) (r : state × Int),
    power_signs E fuel s sign = some r → power_signs E (fuel + 1) s sign = some r := by
  intro fuel
  induction fuel with
  | zero => intro s sign r h; simp [power_signs] at h
  | succ fuel ih =>
    intro s sign r h
    rw [power_signs] at h ⊢
    by_cases hc : s.type = TOK_INFIX ∧ (s.u.getFunction = .add ∨ s.u.getFunction = .sub)
    · rw [if_pos hc] at h ⊢
      exact ih _ _ _ h
    · rw [if_neg hc] at h ⊢
      exact h

theorem binary_loop_mono (E : Env) (cond : state → Option Fn)
    (sub sub1 : state → Option (te_expr × state)) (hsub : extends_step sub sub1) :
    ∀ (fuel : Nat) (ret : te_expr) (s : state) (r : te_expr × state),
      binary_loop E cond sub fuel ret s = some r →
      binary_loop E cond sub1 (fuel + 1) ret s = some r := by
  intro fuel
  induction fuel with
  | zero => intro ret s r h; simp [binary_loop] at h
  | succ fuel ih =>
    intro ret s r h
    rw [binary_loop] at h ⊢
    cases hc : cond s with
    | none => rw [hc] at h; exact h
    | some t =>
      rw [hc] at h
      simp only [] at h ⊢
      cases hs : sub (next_token E s) with
      | none => rw [hs] at h; simp at h
      | some p =>
        obtain ⟨r2, s2⟩ := p
        rw [hs] at h
        rw [hsub _ _ hs]
        exact ih _ _ _ h

theorem base_args_mono (E : Env) (sub sub1 : state → Option (te_expr × state))
    (hsub : extends_step sub sub1) :
    ∀ (k i : Nat) (ret : te_expr) (s : state) (r : te_expr × Nat × state),
      base_args E sub k i ret s = some r → base_args E sub1 k i ret s = some r := by
  intro k
  induction k with
  | zero => intro i ret s r h; rw [base_args] at h ⊢; exact h
  | succ k ih =>
    intro i ret s r h
    rw [base_args] at h ⊢
    cases hs : sub (next_token E s) with
    | none => rw [hs] at h; simp at h
    | some p =>
      obtain ⟨r2, s2⟩ := p
      rw [hs] at h
      rw [hsub _ _ hs]
      simp only [] at h ⊢
      by_cases hsep : s2.type ≠ TOK_SEP
      · rw [if_pos hsep] at h ⊢; exact h
      · rw [if_neg hsep] at h ⊢; exact ih _ _ _ _ h

/-- One more unit of fuel does not change what a parser function returns. -/
theorem parser_mono (E : Env) : ∀ (fuel : Nat),
    extends_step (base E fuel) (base E (fuel + 1)) ∧
    extends_step (power E fuel) (power E (fuel + 1)) ∧
    extends_step (factor E fuel) (factor E (fuel + 1)) ∧
    extends_step (term E fuel) (term E (fuel + 1)) ∧
    extends_step (expr E fuel) (expr E (fuel + 1)) ∧
    extends_step (list E fuel) (list E (fuel + 1)) := by
  intro fuel
  induction fuel with
  | zero =>
    refine ⟨?_, ?_, ?_, ?_, ?_, ?_⟩ <;> intro s r h
    · simp [base] at h
    · simp [power] at h
    · simp [factor] at h
    · simp [term] at h
    · simp [expr] at h
    · simp [list] at h
  | succ fuel ih =>
    obtain ⟨ihb, ihp, ihf, iht, ihe, ihl⟩ := ih
    refine ⟨?_, ?_, ?_, ?_, ?_, ?_⟩
    · intro s r h
      rcases base_cases s.type with h1 | h1 | h1 | h1 | h1 | h1 | ⟨h1, h2, h3, h4⟩
      · rw [base_number E _ s h1] at h ⊢; exact h
      · rw [base_variable E _ s h1] at h ⊢; exact h
      · rw [base_function0 E _ s h1] at h ⊢; exact h
      · rw [base_function1 E _ s h1] at h ⊢
        cases hp : power E fuel (next_token E s) with
        | none => rw [hp] at h; simp at h
        | some p => rw [hp] at h; rw [ihp _ _ hp]; exact h
      · rw [base_function_n E _ s h1] at h ⊢
        by_cases hopen : (next_token E s).type ≠ TOK_OPEN
        · rw [if_pos hopen] at h ⊢; exact h
        · rw [if_neg hopen] at h ⊢
          cases ha : base_args E (expr E fuel) (ARITY s.type) 0
              (function_node s.type s.u.getFunction s.context) (next_token E s) with
          | none => rw [ha] at h; simp at h
          | some p =>
            rw [ha] at h
            rw [base_args_mono E _ _ ihe _ _ _ _ _ ha]
            exact h
      · rw [base_open E _ s h1] at h ⊢
        cases hp : list E fuel (next_token E s) with
        | none => rw [hp] at h; simp at h
        | some p => rw [hp] at h; rw [ihl _ _ hp]; exact h
      · rw [base_default E _ s h1 h2 h3 h4] at h ⊢; exact h
    · intro s r h
      rw [power] at h ⊢
      cases hs : power_signs E fuel s 1 with
      | none => rw [hs] at h; simp at h
      | some p =>
        obtain ⟨s1, sign⟩ := p
        rw [hs] at h
        rw [power_signs_mono E _ _ _ _ hs]
        simp only [] at h ⊢
        by_cases h1 : sign = 1
        · rw [if_pos h1] at h ⊢; exact ihb _ _ h
        · rw [if_neg h1] at h ⊢
          cases hb : base E fuel s1 with
          | none => rw [hb] at h; simp at h
          | some q => rw [hb] at h; rw [ihb _ _ hb]; exact h
    · intro s r h
      rw [factor] at h ⊢
      cases hp : power E fuel s with
      | none => rw [hp] at h; simp at h
      | some p =>
        rw [hp] at h; rw [ihp _ _ hp]
        exact binary_loop_mono E _ _ _ ihp _ _ _ _ h
    · intro s r h
      rw [term] at h ⊢
      cases hp : factor E fuel s with
      | none => rw [hp] at h; simp at h
      | some p =>
        rw [hp] at h; rw [ihf _ _ hp]
        exact binary_loop_mono E _ _ _ ihf _ _ _ _ h
    · intro s r h
      rw [expr] at h ⊢
      cases hp : term E fuel s with
      | none => rw [hp] at h; simp at h
      | some p =>
        rw [hp] at h; rw [iht _ _ hp]
        exact binary_loop_mono E _ _ _ iht _ _ _ _ h
    · intro s r h
      rw [list] at h ⊢
      cases hp : expr E fuel s with
      | none => rw [hp] at h; simp at h
      | some p =>
        rw [hp] at h; rw [ihe _ _ hp]
        exact binary_loop_mono E _ _ _ ihe _ _ _ _ h

theorem extends_step_le (p : Nat → state → Option (te_expr × state))
    (h : ∀ fuel, extends_step (p fuel) (p (fuel + 1))) (fuel fuel1 : Nat) (hle : fuel ≤ fuel1) :
    extends_step (p fuel) (p fuel1) := by
  induction fuel1 with
  | zero =>
    have : fuel = 0 := by omega
    subst this
    exact fun s r hs => hs
  | succ n ih =>
    by_cases hn : fuel ≤ n
    · exact fun s r hs => h n s r (ih hn s r hs)
    · have : fuel = n + 1 := by omega
      subst this
      exact fun s r hs => hs

theorem base_le (E : Env) (fuel fuel1 : Nat) (hle : fuel ≤ fuel1) :
    extends_step (base E fuel) (base E fuel1) :=
  extends_step_le (base E) (fun f => (parser_mono E f).1) fuel fuel1 hle

theorem power_le (E : Env) (fuel fuel1 : Nat) (hle : fuel ≤ fuel1) :
    extends_step (power E fuel) (power E fuel1) :=
  extends_step_le (power E) (fun f => (parser_mono E f).2.1) fuel fuel1 hle

theorem factor_le (E : Env) (fuel fuel1 : Nat) (hle : fuel ≤ fuel1) :
    extends_step (factor E fuel) (factor E fuel1) :=
  extends_step_le (factor E) (fun f => (parser_mono E f).2.2.1) fuel fuel1 hle

theorem term_le (E : Env) (fuel fuel1 : Nat) (hle : fuel ≤ fuel1) :
    extends_step (term E fuel) (term E fuel1) :=
  extends_step_le (term E) (fun f => (parser_mono E f).2.2.2.1) fuel fuel1 hle

theorem expr_le (E : Env) (fuel fuel1 : Nat) (hle : fuel ≤ fuel1) :
    extends_step (expr E fuel) (expr E fuel1) :=
  extends_step_le (expr E) (fun f => (parser_mono E f).2.2.2.2.1) fuel fuel1 hle

theorem list_le (E : Env) (fuel fuel1 : Nat) (hle : fuel ≤ fuel1) :
    extends_step (list E fuel) (list E fuel1) :=
  extends_step_le (list E) (fun f => (parser_mono E f).2.2.2.2.2) fuel fuel1 hle

/-- The result of a parser function is unique: it does not depend on the fuel. -/
theorem parses_unique (p : Nat → state → Option (te_expr × state))
    (h : ∀ fuel, extends_step (p fuel) (p (fuel + 1))) (s : state) (r r1 : te_expr)
    (s1 s2 : state) (h1 : parses p s r s1) (h2 : parses p s r1 s2) : r = r1 ∧ s1 = s2 := by
  obtain ⟨f1, e1⟩ := h1
  obtain ⟨f2, e2⟩ := h2
  have a1 := extends_step_le p h f1 (max f1 f2) (le_max_left _ _) _ _ e1
  have a2 := extends_step_le p h f2 (max f1 f2) (le_max_right _ _) _ _ e2
  rw [a1] at a2
  injection a2 with a2
  injection a2 with a3 a4
  exact ⟨a3, a4⟩

/-! ## Associativity and unary signs -/

theorem binary_loop_left_nested (E : Env) (cond : state → Option Fn)
    (sub : state → Option (te_expr × state)) :
    ∀ (fuel : Nat) (ret : te_expr) (s : state),
      binary_loop E cond sub fuel ret s
        = (operands E cond sub fuel s).map (fun q => (left_nested ret q.1, q.2)) := by
  intro fuel
  induction fuel with
  | zero => intro ret s; rfl
  | succ fuel ih =>
    intro ret s
    rw [binary_loop, operands]
    cases hc : cond s with
    | none => rfl
    | some t =>
      simp only []
      cases hs : sub (next_token E s) with
      | none => rfl
      | some p =>
        obtain ⟨r, s1⟩ := p
        simp only []
        rw [ih]
        cases ho : operands E cond sub fuel s1 with
        | none => rfl
        | some q => rfl

/-- C7. Binary `+ -` and `* / %` are left-associative: the tree that `expr`
(resp. `term`) builds is the left-nested tree of its first operand and of the
operands that follow, each parsed by `term` (resp. `factor`) after an operator
of the level; in a left-nested tree the last operator is at the root and its
left child is the left-nested tree of all operands before.  Witnesses: the
trees of `3-2-4`, `3/2/4`, `3*2*4` and their values -3, 0.375 and 24. -/
theorem left_associative (E : Env) (fuel : Nat) (s : state) :
    expr E (fuel + 1) s
      = (term E fuel s).bind (fun p =>
          (operands E expr_op (term E fuel) fuel p.2).map
            (fun q => (left_nested p.1 q.1, q.2))) ∧
    term E (fuel + 1) s
      = (factor E fuel s).bind (fun p =>
          (operands E term_op (factor E fuel) fuel p.2).map
            (fun q => (left_nested p.1 q.1, q.2))) ∧
    (∀ (t1 : te_expr) (rest : List (Fn × te_expr)) (op : Fn) (tn : te_expr),
      left_nested t1 (rest ++ [(op, tn)]) = binary_node op (left_nested t1 rest) tn) ∧
    (∀ t1 op1 t2 op2 t3, left_nested t1 [(op1, t2), (op2, t3)]
      = binary_node op2 (binary_node op1 t1 t2) t3) ∧
    tree_of exactEnv "3-2-4" []
      = some (binary_node .sub (binary_node .sub (constant_node 3) (constant_node 2))
          (constant_node 4)) ∧
    tree_of exactEnv "3/2/4" []
      = some (binary_node .divide (binary_node .divide (constant_node 3) (constant_node 2))
          (constant_node 4)) ∧
    tree_of exactEnv "3*2*4" []
      = some (binary_node .mul (binary_node .mul (constant_node 3) (constant_node 2))
          (constant_node 4)) ∧
    value_of exactEnv "3-2-4" [] (fun _ => 0) = some (-3) ∧
    value_of exactEnv "3/2/4" [] (fun _ => 0) = some 0.375 ∧
    value_of exactEnv "3*2*4" [] (fun _ => 0) = some 24 := by
  refine ⟨?_, ?_, ?_, ?_, by decide!, by decide!, by decide!, by decide!, by decide!,
    by decide!⟩
  · rw [expr]
    cases h : term E fuel s with
    | none => rfl
    | some p => exact binary_loop_left_nested E _ _ _ _ _
  · rw [term]
    cases h : factor E fuel s with
    | none => rfl
    | some p => exact binary_loop_left_nested E _ _ _ _ _
  · intro t1 rest op tn
    simp [left_nested]
  · intro t1 op1 t2 op2 t3
    rfl

theorem power_signs_sign_tokens (E : Env) : ∀ (fuel : Nat) (s : state) (sign : Int),
    power_signs E fuel s sign
      = (sign_tokens E fuel s).map
          (fun p => (p.2, if p.1.count .sub % 2 = 0 then sign else -sign)) := by
  intro fuel
  induction fuel with
  | zero => intro s sign; rfl
  | succ fuel ih =>
    intro s sign
    rw [power_signs, sign_tokens]
    by_cases hc : s.type = TOK_INFIX ∧ (s.u.getFunction = .add ∨ s.u.getFunction = .sub)
    · rw [if_pos hc, if_pos hc, ih]
      cases hs : sign_tokens E fuel (next_token E s) with
      | none => rfl
      | some p =>
        obtain ⟨signs, s1⟩ := p
        simp only [Option.map_some', Option.some.injEq, Prod.mk.injEq, true_and]
        by_cases hsub : s.u.getFunction = .sub
        · rw [if_pos hsub, hsub, List.count_cons_self]
          by_cases he : List.count Fn.sub signs % 2 = 0
          · rw [if_pos he, if_neg (by omega)]
          · rw [if_neg he, if_pos (by omega)]; simp
        · rw [if_neg hsub, List.count_cons_of_ne (fun h => hsub h.symm)]
    · rw [if_neg hc, if_neg hc]
      simp

/-- C10. Unary sign folding: for the signs written before a base, `power`
returns the tree of the base unchanged when the number of `-` among them is
even, and one `negate` node over the tree of the base when it is odd, so never
more than one such node.  Witnesses: `100^--.5+1` is 11 and `100^---.5+1` is
1.1. -/
theorem unary_sign_folding (E : Env) (fuel : Nat) (s : state) :
    power E (fuel + 1) s
      = (sign_tokens E fuel s).bind (fun p =>
          (base E fuel p.2).map (fun q =>
            (if p.1.count .sub % 2 = 0 then q.1 else negate_node q.1, q.2))) ∧
    (∀ b : te_expr, negate_node b
      = .mk (TE_FUNCTION1 ||| TE_FLAG_PURE) (.function .negate) [b] 0) ∧
    ARITY (TE_FUNCTION1 ||| TE_FLAG_PURE) = 1 ∧ IS_PURE (TE_FUNCTION1 ||| TE_FLAG_PURE) = true ∧
    tree_of exactEnv "--.5" [] = some (constant_node 0.5) ∧
    tree_of exactEnv "---.5" [] = some (negate_node (constant_node 0.5)) ∧
    tree_of exactEnv "+-+-+.5" [] = some (constant_node 0.5) ∧
    value_of exactEnv "100^--.5+1" [] (fun _ => 0) = some 11 ∧
    value_of exactEnv "100^---.5+1" [] (fun _ => 0) = some 1.1 := by
  refine ⟨?_, fun b => rfl, by decide, by decide, by decide!, by decide!, by decide!,
    by decide!, by decide!⟩
  rw [power, power_signs_sign_tokens]
  cases hs : sign_tokens E fuel s with
  | none => rfl
  | some p =>
    obtain ⟨signs, s1⟩ := p
    simp only [Option.map_some', Option.some_bind]
    by_cases he : List.count Fn.sub signs % 2 = 0
    · rw [if_pos he, if_pos rfl]
      cases hb : base E fuel s1 with
      | none => rfl
      | some q => simp [he]
    · rw [if_neg he, if_neg (by decide)]
      cases hb : base E fuel s1 with
      | none => rfl
      | some q => simp [he]

/-! ## Precedence -/

theorem operator_level_none (s : state) (h : operator_level s = none) :
    list_op s = none ∧ expr_op s = none ∧ term_op s = none ∧ factor_op s = none := by
  unfold operator_level at h
  unfold list_op expr_op term_op factor_op
  by_cases h1 : s.type = TOK_SEP
  · rw [if_pos h1] at h; simp at h
  rw [if_neg h1] at h
  by_cases h2 : s.type = TOK_INFIX
  · rw [if_pos h2] at h
    by_cases h3 : s.u.getFunction = .add ∨ s.u.getFunction = .sub
    · rw [if_pos h3] at h; simp at h
    rw [if_neg h3] at h
    by_cases h4 : s.u.getFunction = .mul ∨ s.u.getFunction = .divide
        ∨ s.u.getFunction = .te_wrapped_fmod
    · rw [if_pos h4] at h; simp at h
    rw [if_neg h4] at h
    by_cases h5 : s.u.getFunction = .te_wrapped_pow
    · rw [if_pos h5] at h; simp at h
    exact ⟨if_neg h1, if_neg (fun hc => h3 hc.2), if_neg (fun hc => h4 hc.2),
      if_neg (fun hc => h5 hc.2)⟩
  · exact ⟨if_neg h1, if_neg (fun hc => h2 hc.1), if_neg (fun hc => h2 hc.1),
      if_neg (fun hc => h2 hc.1)⟩

theorem operator_level_some (s : state) (l : Nat) (f : Fn) (h : operator_level s = some (l, f)) :
    (l = 0 ∧ list_op s = some f ∧ expr_op s = none ∧ term_op s = none ∧ factor_op s = none) ∨
    (l = 1 ∧ list_op s = none ∧ expr_op s = some f ∧ term_op s = none ∧ factor_op s = none) ∨
    (l = 2 ∧ list_op s = none ∧ expr_op s = none ∧ term_op s = some f ∧ factor_op s = none) ∨
    (l = 3 ∧ list_op s = none ∧ expr_op s = none ∧ term_op s = none ∧ factor_op s = some f) := by
  unfold operator_level at h
  unfold list_op expr_op term_op factor_op
  by_cases h1 : s.type = TOK_SEP
  · rw [if_pos h1] at h
    simp only [Option.some.injEq, Prod.mk.injEq] at h
    obtain ⟨hl, hf⟩ := h
    subst hl; subst hf
    left
    have h2 : ¬ s.type = TOK_INFIX := by rw [h1]; decide
    exact ⟨rfl, if_pos h1, if_neg (fun hc => h2 hc.1), if_neg (fun hc => h2 hc.1),
      if_neg (fun hc => h2 hc.1)⟩
  rw [if_neg h1] at h
  by_cases h2 : s.type = TOK_INFIX
  · rw [if_pos h2] at h
    right
    by_cases h3 : s.u.getFunction = .add ∨ s.u.getFunction = .sub
    · rw [if_pos h3] at h
      simp only [Option.some.injEq, Prod.mk.injEq] at h
      obtain ⟨hl, hf⟩ := h
      subst hl; subst hf
      left
      have e1 : ¬ (s.u.getFunction = .mul ∨ s.u.getFunction = .divide
          ∨ s.u.getFunction = .te_wrapped_fmod) := by
        rcases h3 with h3 | h3 <;> rw [h3] <;> decide
      have e2 : ¬ s.u.getFunction = .te_wrapped_pow := by
        rcases h3 with h3 | h3 <;> rw [h3] <;> decide
      exact ⟨rfl, if_neg h1, if_pos ⟨h2, h3⟩, if_neg (fun hc => e1 hc.2),
        if_neg (fun hc => e2 hc.2)⟩
    rw [if_neg h3] at h
    by_cases h4 : s.u.getFunction = .mul ∨ s.u.getFunction = .divide
        ∨ s.u.getFunction = .te_wrapped_fmod
    · rw [if_pos h4] at h
      simp only [Option.some.injEq, Prod.mk.injEq] at h
      obtain ⟨hl, hf⟩ := h
      subst hl; subst hf
      right; left
      have e2 : ¬ s.u.getFunction = .te_wrapped_pow := by
        rcases h4 with h4 | h4 | h4 <;> rw [h4] <;> decide
      exact ⟨rfl, if_neg h1, if_neg (fun hc => h3 hc.2), if_pos ⟨h2, h4⟩,
        if_neg (fun hc => e2 hc.2)⟩
    rw [if_neg h4] at h
    by_cases h5 : s.u.getFunction = .te_wrapped_pow
    · rw [if_pos h5] at h
      simp only [Option.some.injEq, Prod.mk.injEq] at h
      obtain ⟨hl, hf⟩ := h
      subst hl; subst hf
      right; right
      exact ⟨rfl, if_neg h1, if_neg (fun hc => h3 hc.2), if_neg (fun hc => h4 hc.2),
        if_pos ⟨h2, h5⟩⟩
    · rw [if_neg h5] at h; simp at h
  · rw [if_neg h2] at h; simp at h

/-- Precedence of two operators between three operands, at one amount of fuel. -/
theorem precedence_fuel (E : Env) (n : Nat) (s0 s1 s2 s3 : state) (a b c : te_expr)
    (l1 l2 : Nat) (f1 f2 : Fn)
    (ha : power E (n + 3) s0 = some (a, s1)) (h1 : operator_level s1 = some (l1, f1))
    (hb : power E (n + 3) (next_token E s1) = some (b, s2))
    (h2 : operator_level s2 = some (l2, f2))
    (hc : power E (n + 3) (next_token E s2) = some (c, s3)) (h3 : operator_level s3 = none) :
    list E (n + 7) s0
      = some (if l1 < l2 then binary_node f1 a (binary_node f2 b c)
              else binary_node f2 (binary_node f1 a b) c, s3) := by
  obtain ⟨z1, z2, z3, z4⟩ := operator_level_none s3 h3
  rcases operator_level_some s1 l1 f1 h1 with ⟨x0, x1, x2, x3, x4⟩ | ⟨x0, x1, x2, x3, x4⟩ |
      ⟨x0, x1, x2, x3, x4⟩ | ⟨x0, x1, x2, x3, x4⟩ <;>
    rcases operator_level_some s2 l2 f2 h2 with ⟨y0, y1, y2, y3, y4⟩ | ⟨y0, y1, y2, y3, y4⟩ |
      ⟨y0, y1, y2, y3, y4⟩ | ⟨y0, y1, y2, y3, y4⟩ <;>
    subst x0 <;> subst y0 <;>
    simp [list, expr, term, factor, binary_loop, ha, hb, hc, x1, x2, x3, x4, y1, y2, y3, y4,
      z1, z2, z3, z4]

/-- One operator between two operands, at one amount of fuel. -/
theorem one_operator_fuel (E : Env) (n : Nat) (s0 s1 s2 : state) (a b : te_expr)
    (l1 : Nat) (f1 : Fn)
    (ha : power E (n + 2) s0 = some (a, s1)) (h1 : operator_level s1 = some (l1, f1))
    (hb : power E (n + 2) (next_token E s1) = some (b, s2))
    (h2 : operator_level s2 = none) :
    list E (n + 6) s0 = some (binary_node f1 a b, s2) := by
  obtain ⟨z1, z2, z3, z4⟩ := operator_level_none s2 h2
  rcases operator_level_some s1 l1 f1 h1 with ⟨x0, x1, x2, x3, x4⟩ | ⟨x0, x1, x2, x3, x4⟩ |
      ⟨x0, x1, x2, x3, x4⟩ | ⟨x0, x1, x2, x3, x4⟩ <;>
    simp [list, expr, term, factor, binary_loop, ha, hb, x1, x2, x3, x4, z1, z2, z3, z4]

/-- An operand that no operator follows, at one amount of fuel. -/
theorem single_operand_fuel (E : Env) (n : Nat) (s0 s1 : state) (a : te_expr)
    (ha : power E (n + 1) s0 = some (a, s1)) (h1 : operator_level s1 = none) :
    list E (n + 5) s0 = some (a, s1) := by
  obtain ⟨z1, z2, z3, z4⟩ := operator_level_none s1 h1
  simp [list, expr, term, factor, binary_loop, ha, z1, z2, z3, z4]

theorem operator_level_close (s : state) (h : s.type = TOK_CLOSE) : operator_level s = none := by
  unfold operator_level
  rw [if_neg (by rw [h]; decide), if_neg (by rw [h]; decide)]

theorem operator_level_end (s : state) (h : s.type = TOK_END) : operator_level s = none := by
  unfold operator_level
  rw [if_neg (by rw [h]; decide), if_neg (by rw [h]; decide)]

/-- C8. Precedence: for operands `a`, `b`, `c` that `power` parses, joined by
two binary operators of levels `l1` and `l2` (0 for `,`, 1 for `+ -`, 2 for
`* / %`, 3 for `^`) and followed by no operator, `list` builds
`op1(a, op2(b, c))` when the second operator binds tighter (`l1 < l2`) and
`op2(op1(a, b), c)` otherwise.  So `a+b*c` is `add(a, mul(b, c))`, `a*b+c` is
`add(mul(a, b), c)`, `a*b^c` is `mul(a, pow(b, c))`, `a^b*c` is
`mul(pow(a, b), c)` and `a,b+c` is `comma(a, add(b, c))`, as the trees of these
texts over variables show.  Witnesses: `10^5*5e-5` is 5, `100^.5+1` is 11,
`1,2+1` is 3. -/
theorem precedence (E : Env) (s0 s1 s2 s3 : state) (a b c : te_expr) (l1 l2 : Nat)
    (f1 f2 : Fn)
    (ha : parses (power E) s0 a s1) (h1 : operator_level s1 = some (l1, f1))
    (hb : parses (power E) (next_token E s1) b s2) (h2 : operator_level s2 = some (l2, f2))
    (hc : parses (power E) (next_token E s2) c s3) (h3 : operator_level s3 = none) :
    parses (list E) s0
      (if l1 < l2 then binary_node f1 a (binary_node f2 b c)
       else binary_node f2 (binary_node f1 a b) c) s3 ∧
    tree_of exactEnv "a+b*c" [variable_binding "a", variable_binding "b", variable_binding "c"]
      = some (binary_node .add (variable_node 0)
          (binary_node .mul (variable_node 1) (variable_node 2))) ∧
    tree_of exactEnv "a*b+c" [variable_binding "a", variable_binding "b", variable_binding "c"]
      = some (binary_node .add (binary_node .mul (variable_node 0) (variable_node 1))
          (variable_node 2)) ∧
    tree_of exactEnv "a*b^c" [variable_binding "a", variable_binding "b", variable_binding "c"]
      = some (binary_node .mul (variable_node 0)
          (binary_node .te_wrapped_pow (variable_node 1) (variable_node 2))) ∧
    tree_of exactEnv "a^b*c" [variable_binding "a", variable_binding "b", variable_binding "c"]
      = some (binary_node .mul (binary_node .te_wrapped_pow (variable_node 0) (variable_node 1))
          (variable_node 2)) ∧
    tree_of exactEnv "a,b+c" [variable_binding "a", variable_binding "b", variable_binding "c"]
      = some (binary_node .comma (variable_node 0)
          (binary_node .add (variable_node 1) (variable_node 2))) ∧
    value_of exactEnv "10^5*5e-5" [] (fun _ => 0) = some 5 ∧
    value_of exactEnv "100^.5+1" [] (fun _ => 0) = some 11 ∧
    value_of exactEnv "1,2+1" [] (fun _ => 0) = some 3 := by
  refine ⟨?_, by decide!, by decide!, by decide!, by decide!, by decide!, by decide!,
    by decide!, by decide!⟩
  obtain ⟨fa, ea⟩ := ha
  obtain ⟨fb, eb⟩ := hb
  obtain ⟨fc, ec⟩ := hc
  refine ⟨max fa (max fb fc) + 7, ?_⟩
  exact precedence_fuel E (max fa (max fb fc)) s0 s1 s2 s3 a b c l1 l2 f1 f2
    (power_le E fa _ (by omega) _ _ ea) h1
    (power_le E fb _ (by omega) _ _ eb) h2
    (power_le E fc _ (by omega) _ _ ec) h3

/-- The hypotheses of `precedence` hold on the text `1+2*3`, which parses to
`add(1, mul(2, 3))`. -/
theorem precedence_witness :
    parses (list exactEnv) (token_state "1+2*3" "+2*3" TOK_NUMBER (.value 1))
      (binary_node .add (constant_node 1) (binary_node .mul (constant_node 2) (constant_node 3)))
      (token_state "1+2*3" "" TOK_END (.value 3)) := by
  have h := (precedence exactEnv (token_state "1+2*3" "+2*3" TOK_NUMBER (.value 1))
    (token_state "1+2*3" "2*3" TOK_INFIX (.function .add))
    (token_state "1+2*3" "3" TOK_INFIX (.function .mul))
    (token_state "1+2*3" "" TOK_END (.value 3))
    (constant_node 1) (constant_node 2) (constant_node 3) 1 2 .add .mul
    ⟨3, by decide!⟩ (by decide) ⟨3, by decide!⟩ (by decide) ⟨3, by decide!⟩ (by decide)).1
  rw [if_pos (by decide)] at h
  exact h

/-! ## Exponentiation and unary minus -/

theorem operator_level_factor (s : state) (f : Fn) (h : factor_op s = some f) :
    operator_level s = some (3, f) := by
  unfold factor_op at h
  by_cases hc : s.type = TOK_INFIX ∧ s.u.getFunction = .te_wrapped_pow
  · rw [if_pos hc] at h
    injection h with h
    unfold operator_level
    rw [if_neg (by rw [hc.1]; decide), if_pos hc.1, if_neg (by rw [hc.2]; decide),
      if_neg (by rw [hc.2]; decide), if_pos hc.2, h]
  · rw [if_neg hc] at h; simp at h

theorem power_signs_stop (E : Env) (fuel : Nat) (s : state) (sign : Int)
    (h : expr_op s = none) : power_signs E (fuel + 1) s sign = some (s, sign) := by
  unfold expr_op at h
  rw [power_signs]
  by_cases hc : s.type = TOK_INFIX ∧ (s.u.getFunction = .add ∨ s.u.getFunction = .sub)
  · rw [if_pos hc] at h; simp at h
  · rw [if_neg hc]

/-- A base that no sign precedes is parsed by `power` as by `base`. -/
theorem power_unsigned_fuel (E : Env) (fuel : Nat) (s : state) (h : expr_op s = none) :
    power E (fuel + 2) s = base E (fuel + 1) s := by
  rw [power, power_signs_stop E fuel s 1 h]
  simp

/-- A base that one `-` precedes is parsed by `power` into a `negate` node. -/
theorem power_negate_fuel (E : Env) (fuel : Nat) (s0 s1 : state) (a : te_expr)
    (h0 : s0.type = TOK_INFIX ∧ s0.u.getFunction = .sub)
    (h1 : expr_op (next_token E s0) = none)
    (ha : base E (fuel + 2) (next_token E s0) = some (a, s1)) :
    power E (fuel + 3) s0 = some (negate_node a, s1) := by
  rw [power, power_signs, if_pos ⟨h0.1, Or.inr h0.2⟩, if_pos h0.2,
    power_signs_stop E fuel _ _ h1]
  simp [ha]

/-- A parenthesised list is parsed by `base`, and by `power`, into the tree of
the list. -/
theorem power_open_fuel (E : Env) (fuel : Nat) (s0 s1 : state) (r : te_expr)
    (h0 : s0.type = TOK_OPEN) (hl : list E fuel (next_token E s0) = some (r, s1))
    (h1 : s1.type = TOK_CLOSE) :
    base E (fuel + 1) s0 = some (r, next_token E s1) ∧
    power E (fuel + 2) s0 = some (r, next_token E s1) := by
  have hb : base E (fuel + 1) s0 = some (r, next_token E s1) := by
    rw [base_open E fuel s0 (by rw [h0]; decide), hl]
    simp [h1]
  refine ⟨hb, ?_⟩
  rw [power_unsigned_fuel E fuel s0 (by
    unfold expr_op
    rw [if_neg (fun hc => absurd (h0.symm.trans hc.1) (by decide))]), hb]

theorem pow_chain_fuel (E : Env) (n : Nat) (s0 s1 s2 s3 : state) (a b c : te_expr) (f1 f2 : Fn)
    (ha : power E (n + 3) s0 = some (a, s1)) (h1 : factor_op s1 = some f1)
    (hb : power E (n + 3) (next_token E s1) = some (b, s2)) (h2 : factor_op s2 = some f2)
    (hc : power E (n + 3) (next_token E s2) = some (c, s3)) (h3 : factor_op s3 = none) :
    factor E (n + 4) s0 = some (binary_node f2 (binary_node f1 a b) c, s3) := by
  simp [factor, binary_loop, ha, hb, hc, h1, h2, h3]

theorem pow_pair_fuel (E : Env) (n : Nat) (s0 s1 s2 : state) (a b : te_expr) (f1 : Fn)
    (ha : power E (n + 2) s0 = some (a, s1)) (h1 : factor_op s1 = some f1)
    (hb : power E (n + 2) (next_token E s1) = some (b, s2)) (h2 : factor_op s2 = none) :
    factor E (n + 3) s0 = some (binary_node f1 a b, s2) := by
  simp [factor, binary_loop, ha, hb, h1, h2]

/-- C9. In the default configuration exponentiation is left-associative and
unary minus binds tighter than `^`.  For operands `a`, `b`, `c`: the text
`a^b^c` and the text `(a^b)^c` are both parsed by `factor` into
`pow(pow(a, b), c)`, and the text `-a^b` and the text `(-a)^b` are both parsed
into `pow(negate(a), b)`.  Witnesses: `2^3^4` and `(2^3)^4` have one tree and
the value 4096, `-2^2` is 4, `-a^b` and `(-a)^b` have one tree, and so have
`-a^-b` and `(-a)^(-b)`. -/
theorem power_left_associative_minus_first :
    (∀ (E : Env) (s0 s1 s2 s3 : state) (a b c : te_expr) (f1 f2 : Fn),
      parses (power E) s0 a s1 → factor_op s1 = some f1 →
      parses (power E) (next_token E s1) b s2 → factor_op s2 = some f2 →
      parses (power E) (next_token E s2) c s3 → factor_op s3 = none →
      parses (factor E) s0 (binary_node f2 (binary_node f1 a b) c) s3) ∧
    (∀ (E : Env) (s0 s1 s2 s3 : state) (a b c : te_expr) (f1 f2 : Fn),
      s0.type = TOK_OPEN →
      parses (power E) (next_token E s0) a s1 → factor_op s1 = some f1 →
      parses (power E) (next_token E s1) b s2 → s2.type = TOK_CLOSE →
      factor_op (next_token E s2) = some f2 →
      parses (power E) (next_token E (next_token E s2)) c s3 → factor_op s3 = none →
      parses (factor E) s0 (binary_node f2 (binary_node f1 a b) c) s3) ∧
    (∀ (E : Env) (s0 s1 s2 : state) (a b : te_expr) (f : Fn),
      (s0.type = TOK_INFIX ∧ s0.u.getFunction = .sub) → expr_op (next_token E s0) = none →
      parses (base E) (next_token E s0) a s1 → factor_op s1 = some f →
      parses (power E) (next_token E s1) b s2 → factor_op s2 = none →
      parses (factor E) s0 (binary_node f (negate_node a) b) s2) ∧
    (∀ (E : Env) (s0 s1 s2 : state) (a b : te_expr) (f : Fn),
      s0.type = TOK_OPEN →
      ((next_token E s0).type = TOK_INFIX ∧ (next_token E s0).u.getFunction = .sub) →
      expr_op (next_token E (next_token E s0)) = none →
      parses (base E) (next_token E (next_token E s0)) a s1 → s1.type = TOK_CLOSE →
      factor_op (next_token E s1) = some f →
      parses (power E) (next_token E (next_token E s1)) b s2 → factor_op s2 = none →
      parses (factor E) s0 (binary_node f (negate_node a) b) s2) ∧
    (∀ s f, factor_op s = some f → f = .te_wrapped_pow) ∧
    tree_of exactEnv "2^3^4" []
      = some (binary_node .te_wrapped_pow
          (binary_node .te_wrapped_pow (constant_node 2) (constant_node 3)) (constant_node 4)) ∧
    tree_of exactEnv "2^3^4" [] = tree_of exactEnv "(2^3)^4" [] ∧
    tree_of exactEnv "-a^b" [variable_binding "a", variable_binding "b"]
      = some (binary_node .te_wrapped_pow (negate_node (variable_node 0)) (variable_node 1)) ∧
    tree_of exactEnv "-a^b" [variable_binding "a", variable_binding "b"]
      = tree_of exactEnv "(-a)^b" [variable_binding "a", variable_binding "b"] ∧
    tree_of exactEnv "-a^-b" [variable_binding "a", variable_binding "b"]
      = tree_of exactEnv "(-a)^(-b)" [variable_binding "a", variable_binding "b"] ∧
    value_of exactEnv "2^3^4" [] (fun _ => 0) = some 4096 ∧
    value_of exactEnv "-2^2" [] (fun _ => 0) = some 4 := by
  refine ⟨?_, ?_, ?_, ?_, ?_, by decide!, by decide!, by decide!, by decide!, by decide!,
    by decide!, by decide!⟩
  · intro E s0 s1 s2 s3 a b c f1 f2 ⟨fa, ea⟩ h1 ⟨fb, eb⟩ h2 ⟨fc, ec⟩ h3
    exact ⟨max fa (max fb fc) + 4, pow_chain_fuel E (max fa (max fb fc)) s0 s1 s2 s3 a b c f1 f2
      (power_le E fa _ (by omega) _ _ ea) h1 (power_le E fb _ (by omega) _ _ eb) h2
      (power_le E fc _ (by omega) _ _ ec) h3⟩
  · intro E s0 s1 s2 s3 a b c f1 f2 h0 ⟨fa, ea⟩ h1 ⟨fb, eb⟩ h2 h2f ⟨fc, ec⟩ h3
    have hl := one_operator_fuel E (max fa (max fb fc)) (next_token E s0) s1 s2 a b 3 f1
      (power_le E fa _ (by omega) _ _ ea) (operator_level_factor s1 f1 h1)
      (power_le E fb _ (by omega) _ _ eb) (operator_level_close s2 h2)
    have hp := (power_open_fuel E _ s0 s2 _ h0 hl h2).2
    refine ⟨max fa (max fb fc) + 9, ?_⟩
    have hc := power_le E fc (max fa (max fb fc) + 8) (by omega) _ _ ec
    simp [factor, binary_loop, hp, hc, h2f, h3]
  · intro E s0 s1 s2 a b f h0 h1 ⟨fa, ea⟩ hf ⟨fb, eb⟩ h2
    have hp := power_negate_fuel E (max fa fb) s0 s1 a h0 h1 (base_le E fa _ (by omega) _ _ ea)
    exact ⟨max fa fb + 4, pow_pair_fuel E (max fa fb + 1) s0 s1 s2 _ b f hp hf
      (power_le E fb _ (by omega) _ _ eb) h2⟩
  · intro E s0 s1 s2 a b f h0 h0m h1 ⟨fa, ea⟩ hcl hf ⟨fb, eb⟩ h2
    have hn := power_negate_fuel E (max fa fb) (next_token E s0) s1 a h0m h1
      (base_le E fa _ (by omega) _ _ ea)
    have hl := single_operand_fuel E (max fa fb + 2) (next_token E s0) s1 _ hn
      (operator_level_close s1 hcl)
    have hp := (power_open_fuel E _ s0 s1 _ h0 hl hcl).2
    refine ⟨max fa fb + 10, ?_⟩
    have hb := power_le E fb (max fa fb + 9) (by omega) _ _ eb
    simp [factor, binary_loop, hp, hb, hf, h2]
  · intro s f h
    unfold factor_op at h
    split_ifs at h with hc
    injection h with h
    rw [← h, hc.2]

/-- The hypotheses of the third part of `power_left_associative_minus_first`
hold on the text `-2^2`, which parses to `pow(negate(2), 2)`. -/
theorem power_left_associative_minus_first_witness :
    parses (factor exactEnv) (token_state "-2^2" "2^2" TOK_INFIX (.function .sub))
      (binary_node .te_wrapped_pow (negate_node (constant_node 2)) (constant_node 2))
      (token_state "-2^2" "" TOK_END (.value 2)) :=
  power_left_associative_minus_first.2.2.1 exactEnv
    (token_state "-2^2" "2^2" TOK_INFIX (.function .sub))
    (token_state "-2^2" "2" TOK_INFIX (.function .te_wrapped_pow))
    (token_state "-2^2" "" TOK_END (.value 2))
    (constant_node 2) (constant_node 2) .te_wrapped_pow
    (by decide) (by decide!) ⟨1, by decide!⟩ (by decide) ⟨3, by decide!⟩ (by decide)

/-! ## The comma operator -/

mutual
/-- With an array of values and a gradient array, `te_eval2` returns on every tree. -/
theorem te_eval2_total (E : Env) (expr : te_expression) (va : Nat → ℚ) :
    ∀ (n : te_expr) (ga : Nat → ℚ),
      ∃ v g1, te_eval2 E expr n (some va) (some ga) = some (v, some g1)
  | .null, ga => ⟨E.nan, ga, by rw [te_eval2]⟩
  | .mk t u ps c, ga => by
    rw [te_eval2]
    by_cases h1 : TYPE_MASK t = TE_CONSTANT
    · rw [if_pos h1]; exact ⟨_, _, rfl⟩
    rw [if_neg h1]
    by_cases h2 : TYPE_MASK t = TE_VARIABLE
    · rw [if_pos h2]; exact ⟨_, _, rfl⟩
    rw [if_neg h2]
    by_cases h3 : TE_FUNCTION0 ≤ TYPE_MASK t ∧ TYPE_MASK t ≤ TE_FUNCTION7
    · rw [if_pos h3]
      obtain ⟨ch, hch⟩ := te_eval2_parameters_total E expr va ps (ARITY t)
      rw [hch]
      simp only [te_eval2_combine]
      by_cases hn : expr.nvar = 0
      · rw [if_pos hn]; exact ⟨_, _, rfl⟩
      · rw [if_neg hn]; exact ⟨_, _, rfl⟩
    · rw [if_neg h3]; exact ⟨_, _, rfl⟩

/-- With an array of values, the loop over the children returns. -/
theorem te_eval2_parameters_total (E : Env) (expr : te_expression) (va : Nat → ℚ) :
    ∀ (ps : List te_expr) (k : Nat), ∃ ch, te_eval2_parameters E expr ps k (some va) = some ch
  | ps, 0 => ⟨[], te_eval2_parameters_zero E expr ps _⟩
  | [], k + 1 => ⟨_, by rw [te_eval2_parameters]⟩
  | p :: ps, k + 1 => by
    obtain ⟨v, g1, hp⟩ := te_eval2_total E expr va p (fun _ => 0)
    obtain ⟨ch, hch⟩ := te_eval2_parameters_total E expr va ps k
    rw [te_eval2_parameters, hp, hch]
    exact ⟨_, rfl⟩
end

/-- The evaluation of a node of an operator, from the evaluation of its two
children in zeroed gradient vectors. -/
theorem te_eval2_binary_node (E : Env) (expr : te_expression) (f : Fn) (a b : te_expr)
    (val : Option (Nat → ℚ)) (ga : Nat → ℚ) (xa xb : ℚ) (g1 g2 : Nat → ℚ)
    (ha : te_eval2 E expr a val (some (fun _ => 0)) = some (xa, some g1))
    (hb : te_eval2 E expr b val (some (fun _ => 0)) = some (xb, some g2)) :
    te_eval2 E expr (binary_node f a b) val (some ga)
      = some ((call E f 0 (args [xa, xb])).1,
          some (if expr.nvar = 0 then ga
                else accumulate (call E f 0 (args [xa, xb])).2 expr.nvar [g1, g2] 0
                  (zero_fill ga expr.nvar))) := by
  have e : binary_node f a b = .mk 42 (.function f) [a, b] 0 := rfl
  have h2 : ARITY 42 = 2 := by decide
  rw [e, te_eval2, if_neg (by decide), if_neg (by decide), if_pos (by decide), h2,
    te_eval2_parameters, ha]
  simp only []
  rw [te_eval2_parameters, hb]
  simp only []
  rw [te_eval2_parameters_zero]
  simp only [te_eval2_combine, te_union.getFunction, List.map, Option.getD]
  by_cases hn : expr.nvar = 0
  · rw [if_pos hn, if_pos hn]
  · rw [if_neg hn, if_neg hn]

/-- The operators collected by the loop of `list` are all `comma`. -/
theorem operands_list_op (E : Env) (sub : state → Option (te_expr × state)) :
    ∀ (fuel : Nat) (s : state) (rest : List (Fn × te_expr)) (s1 : state),
      operands E list_op sub fuel s = some (rest, s1) →
      (∀ p ∈ rest, p.1 = Fn.comma) ∧ s1.type ≠ TOK_SEP := by
  intro fuel
  induction fuel with
  | zero => intro s rest s1 h; simp [operands] at h
  | succ fuel ih =>
    intro s rest s1 h
    rw [operands] at h
    by_cases hs : s.type = TOK_SEP
    · have hc : list_op s = some .comma := by unfold list_op; rw [if_pos hs]
      rw [hc] at h
      simp only [] at h
      cases hsub : sub (next_token E s) with
      | none => rw [hsub] at h; simp at h
      | some p =>
        obtain ⟨r, s2⟩ := p
        rw [hsub] at h
        simp only [] at h
        cases ho : operands E list_op sub fuel s2 with
        | none => rw [ho] at h; simp at h
        | some q =>
          obtain ⟨rest1, s3⟩ := q
          rw [ho] at h
          simp only [Option.some.injEq, Prod.mk.injEq] at h
          obtain ⟨h1, h2⟩ := h
          obtain ⟨i1, i2⟩ := ih s2 rest1 s3 ho
          subst h1; subst h2
          refine ⟨fun p hp => ?_, i2⟩
          rcases List.mem_cons.1 hp with hp | hp
          · rw [hp]
          · exact i1 p hp
    · have hc : list_op s = none := by unfold list_op; rw [if_neg hs]
      rw [hc] at h
      simp only [Option.some.injEq, Prod.mk.injEq] at h
      obtain ⟨h1, h2⟩ := h
      subst h1; subst h2
      exact ⟨fun p hp => by simp at hp, hs⟩

/-- C11. Comma is a binary operator whose result is its rightmost operand.
The tree that `list` builds, at top level (`parse`) and inside parentheses
(`base` on `(`), is the left-nested tree of the operands parsed by `expr`,
joined by `comma`; the callable `comma` returns `x[1]` with the local gradient
`[0, 1]`; so `te_eval2` on the list `e1, ..., en` returns the value of `en`
and leaves, in every slot below `nvar`, the gradient of `en`.  Witnesses:
`1,2` is 2, `1+1,2+2,2+1` is 3, `-(1,(2,3))` is -3, and `x*x,x*y` at `x = 2`,
`y = 3` is 6 with gradient (3, 2). -/
theorem comma_returns_rightmost :
    (∀ (E : Env) (fuel : Nat) (s : state),
      list E (fuel + 1) s
        = (expr E fuel s).bind (fun p =>
            (operands E list_op (expr E fuel) fuel p.2).map
              (fun q => (left_nested p.1 q.1, q.2)))) ∧
    (∀ (E : Env) (sub : state → Option (te_expr × state)) (fuel : Nat) (s s1 : state)
      (rest : List (Fn × te_expr)),
      operands E list_op sub fuel s = some (rest, s1) → ∀ p ∈ rest, p.1 = Fn.comma) ∧
    (∀ (E : Env) (expression : List Char) (bindings : List te_variable),
      parse E expression bindings
        = list E (compile_fuel expression)
            (next_token E (initial_state expression bindings))) ∧
    (∀ (E : Env) (fuel : Nat) (s : state), TYPE_MASK s.type = TOK_OPEN →
      base E (fuel + 1) s
        = (list E fuel (next_token E s)).map (fun p =>
            (p.1, if p.2.type ≠ TOK_CLOSE then p.2.set_error else next_token E p.2))) ∧
    (∀ (E : Env) (c : Nat) (x : Nat → ℚ),
      (call E .comma c x).1 = x 1 ∧ (call E .comma c x).2 0 = 0 ∧ (call E .comma c x).2 1 = 1) ∧
    (∀ (E : Env) (ex : te_expression) (t1 : te_expr) (rest : List (Fn × te_expr))
      (tn : te_expr) (va ga : Nat → ℚ),
      ∃ v gn g1,
        te_eval2 E ex tn (some va) (some (fun _ => 0)) = some (v, some gn) ∧
        te_eval2 E ex (left_nested t1 (rest ++ [(Fn.comma, tn)])) (some va) (some ga)
          = some (v, some g1) ∧
        (∀ j, j < ex.nvar → g1 j = gn j) ∧ (∀ j, ex.nvar ≤ j → g1 j = ga j)) ∧
    value_of exactEnv "1,2" [] (fun _ => 0) = some 2 ∧
    value_of exactEnv "1+1,2+2,2+1" [] (fun _ => 0) = some 3 ∧
    value_of exactEnv "-(1,(2,3))" [] (fun _ => 0) = some (-3) ∧
    (te_compile exactEnv "x*x,x*y".toList [variable_binding "x", variable_binding "y"]).bind
      (fun r => r.1.bind (fun ex =>
        (te_eval exactEnv ex (some (fun i => if i = 0 then 2 else 3)) (some (fun _ => 0))).map
          (fun v => (v.1, v.2.map (fun g => (g 0, g 1))))))
      = some (6, some (3, 2)) := by
  refine ⟨?_, ?_, fun _ _ _ => rfl, ?_, ?_, ?_, by decide!, by decide!, by decide!, by decide!⟩
  · intro E fuel s
    rw [list]
    cases h : expr E fuel s with
    | none => rfl
    | some p => exact binary_loop_left_nested E _ _ _ _ _
  · intro E sub fuel s s1 rest h
    exact (operands_list_op E sub fuel s rest s1 h).1
  · intro E fuel s h
    rw [base_open E fuel s h]
    cases hl : list E fuel (next_token E s) with
    | none => rfl
    | some p =>
      obtain ⟨r, s1⟩ := p
      simp only [Option.map_some']
      by_cases hc : s1.type ≠ TOK_CLOSE
      · rw [if_pos hc, if_pos hc]
      · rw [if_neg hc, if_neg hc]
  · intro E c x
    refine ⟨rfl, ?_, ?_⟩ <;> simp [call, df2, df0, Function.update]
  · intro E ex t1 rest tn va ga
    obtain ⟨xa, g0, ha⟩ := te_eval2_total E ex va (left_nested t1 rest) (fun _ => 0)
    obtain ⟨v, gn, hb⟩ := te_eval2_total E ex va tn (fun _ => 0)
    have e : left_nested t1 (rest ++ [(Fn.comma, tn)])
        = binary_node .comma (left_nested t1 rest) tn := by simp [left_nested]
    have hd0 : (call E .comma 0 (args [xa, v])).2 0 = 0 := by
      simp [call, df2, df0, Function.update]
    have hd1 : (call E .comma 0 (args [xa, v])).2 1 = 1 := by
      simp [call, df2, df0, Function.update]
    have h := te_eval2_binary_node E ex .comma (left_nested t1 rest) tn (some va) ga xa v g0 gn
      ha hb
    rw [← e] at h
    have hv : (call E .comma 0 (args [xa, v])).1 = v := rfl
    rw [hv] at h
    refine ⟨v, gn, _, hb, h, ?_, ?_⟩
    · intro j hj
      rw [if_neg (by omega), accumulate_apply, if_pos hj, zero_fill_apply, if_pos hj]
      simp [Finset.sum_range_succ, hd0, hd1]
    · intro j hj
      by_cases hn : ex.nvar = 0
      · rw [if_pos hn]
      · rw [if_neg hn, accumulate_apply, if_neg (by omega), zero_fill_apply, if_neg (by omega)]

/-- The hypothesis of the second part of `comma_returns_rightmost` holds on the
text `1,2`: after the first operand the loop of `list` collects the operand
`2` with the operator `comma`. -/
theorem comma_returns_rightmost_witness :
    ∀ p ∈ [(Fn.comma, constant_node 2)], p.1 = Fn.comma :=
  comma_returns_rightmost.2.1 exactEnv (expr exactEnv 6) 6
    (token_state "1,2" "2" TOK_SEP (.value 1)) (token_state "1,2" "" TOK_END (.value 2))
    [(Fn.comma, constant_node 2)] (by decide!)

/-! ## Functions of one argument -/

theorem expr_op_of_mask (s : state) (h : TYPE_MASK s.type ≠ TOK_INFIX) : expr_op s = none := by
  unfold expr_op
  rw [if_neg (fun hc => h (by rw [hc.1]; decide))]

/-- A token of a function of arity 1 is parsed by `base`, and by `power`, into
the node of the function over what `power` parses after it. -/
theorem function1_fuel (E : Env) (fuel : Nat) (s0 s1 : state) (x : te_expr)
    (h0 : TYPE_MASK s0.type = TE_FUNCTION1)
    (hx : power E fuel (next_token E s0) = some (x, s1)) :
    base E (fuel + 1) s0
      = some ((function_node s0.type s0.u.getFunction s0.context).set_parameter 0 x, s1) ∧
    power E (fuel + 2) s0
      = some ((function_node s0.type s0.u.getFunction s0.context).set_parameter 0 x, s1) := by
  have hb : base E (fuel + 1) s0
      = some ((function_node s0.type s0.u.getFunction s0.context).set_parameter 0 x, s1) := by
    rw [base_function1 E fuel s0 h0, hx]
  refine ⟨hb, ?_⟩
  rw [power_unsigned_fuel E fuel s0 (expr_op_of_mask s0 (by rw [h0]; decide)), hb]

/-- The node that `base` builds for a function of arity 1 has the argument as
its one child. -/
theorem function1_node (t : Nat) (f : Fn) (c : Nat) (x : te_expr)
    (h : TYPE_MASK t = TE_FUNCTION1) :
    (function_node t f c).set_parameter 0 x = .mk t (.function f) [x] c := by
  have ha : ARITY t = 1 := by
    rw [ARITY_of_mask t (by rw [h]; decide), h]
    rfl
  rw [new_function_node, ha]
  rfl

/-- C12. A function of arity 1 written without parentheses takes the operand
that `power` parses after it (signs and a base) as its argument, so the
application binds tighter than every binary operator: for a token `f` of
arity 1, `f x op y` is parsed into `op(f(x), y)` for every binary operator
`op`, `f -x` into `f(negate(x))` and `f g x` into `f(g(x))`.  Witnesses: the
trees of `sqrt x + y`, `sqrt x * y`, `sqrt x ^ y`, `sqrt -x`, `sqrt abs x`, and
the values 17 of `sqrt 100 + 7`, 70 of `sqrt 100 * 7` and -0.5 of
`asin sin -0.5`. -/
theorem function1_takes_power_operand :
    (∀ (E : Env) (fuel : Nat) (s : state), TYPE_MASK s.type = TE_FUNCTION1 →
      base E (fuel + 1) s
        = (power E fuel (next_token E s)).map (fun p =>
            (te_expr.mk s.type (.function s.u.getFunction) [p.1] s.context, p.2))) ∧
    (∀ (E : Env) (s0 s1 s2 : state) (x y : te_expr) (l : Nat) (op : Fn),
      TYPE_MASK s0.type = TE_FUNCTION1 →
      parses (power E) (next_token E s0) x s1 → operator_level s1 = some (l, op) →
      parses (power E) (next_token E s1) y s2 → operator_level s2 = none →
      parses (list E) s0
        (binary_node op (.mk s0.type (.function s0.u.getFunction) [x] s0.context) y) s2) ∧
    (∀ (E : Env) (s0 s1 : state) (x : te_expr),
      TYPE_MASK s0.type = TE_FUNCTION1 →
      ((next_token E s0).type = TOK_INFIX ∧ (next_token E s0).u.getFunction = .sub) →
      expr_op (next_token E (next_token E s0)) = none →
      parses (base E) (next_token E (next_token E s0)) x s1 →
      parses (base E) s0
        (.mk s0.type (.function s0.u.getFunction) [negate_node x] s0.context) s1) ∧
    (∀ (E : Env) (s0 s1 : state) (x : te_expr),
      TYPE_MASK s0.type = TE_FUNCTION1 → TYPE_MASK (next_token E s0).type = TE_FUNCTION1 →
      parses (power E) (next_token E (next_token E s0)) x s1 →
      parses (base E) s0
        (.mk s0.type (.function s0.u.getFunction)
          [.mk (next_token E s0).type (.function (next_token E s0).u.getFunction) [x]
            (next_token E s0).context] s0.context) s1) ∧
    tree_of exactEnv "sqrt x + y" [variable_binding "x", variable_binding "y"]
      = some (binary_node .add
          (.mk (TE_FUNCTION1 ||| TE_FLAG_PURE) (.function .te_wrapped_sqrt) [variable_node 0] 0)
          (variable_node 1)) ∧
    tree_of exactEnv "sqrt x * y" [variable_binding "x", variable_binding "y"]
      = some (binary_node .mul
          (.mk (TE_FUNCTION1 ||| TE_FLAG_PURE) (.function .te_wrapped_sqrt) [variable_node 0] 0)
          (variable_node 1)) ∧
    tree_of exactEnv "sqrt x ^ y" [variable_binding "x", variable_binding "y"]
      = some (binary_node .te_wrapped_pow
          (.mk (TE_FUNCTION1 ||| TE_FLAG_PURE) (.function .te_wrapped_sqrt) [variable_node 0] 0)
          (variable_node 1)) ∧
    tree_of exactEnv "sqrt -x" [variable_binding "x"]
      = some (.mk (TE_FUNCTION1 ||| TE_FLAG_PURE) (.function .te_wrapped_sqrt)
          [negate_node (variable_node 0)] 0) ∧
    tree_of exactEnv "sqrt abs x" [variable_binding "x"]
      = some (.mk (TE_FUNCTION1 ||| TE_FLAG_PURE) (.function .te_wrapped_sqrt)
          [.mk (TE_FUNCTION1 ||| TE_FLAG_PURE) (.function .te_wrapped_fabs)
            [variable_node 0] 0] 0) ∧
    value_of tableEnv "sqrt 100 + 7" [] (fun _ => 0) = some 17 ∧
    value_of tableEnv "sqrt 100 * 7" [] (fun _ => 0) = some 70 ∧
    value_of tableEnv "asin sin -0.5" [] (fun _ => 0) = some (-0.5) := by
  refine ⟨?_, ?_, ?_, ?_, by decide!, by decide!, by decide!, by decide!, by decide!,
    by decide!, by decide!, by decide!⟩
  · intro E fuel s h
    rw [base_function1 E fuel s h]
    cases hp : power E fuel (next_token E s) with
    | none => rfl
    | some p =>
      obtain ⟨x, s1⟩ := p
      simp only [Option.map_some']
      rw [function1_node _ _ _ _ h]
  · intro E s0 s1 s2 x y l op h0 ⟨fx, ex⟩ h1 ⟨fy, ey⟩ h2
    have hf := (function1_fuel E (max fx fy) s0 s1 x h0 (power_le E fx _ (by omega) _ _ ex)).2
    rw [function1_node _ _ _ _ h0] at hf
    exact ⟨max fx fy + 6, one_operator_fuel E (max fx fy) s0 s1 s2 _ y l op hf h1
      (power_le E fy _ (by omega) _ _ ey) h2⟩
  · intro E s0 s1 x h0 hm h1 ⟨fx, ex⟩
    have hn := power_negate_fuel E fx (next_token E s0) s1 x hm h1
      (base_le E fx _ (by omega) _ _ ex)
    have hf := (function1_fuel E (fx + 3) s0 s1 _ h0 hn).1
    rw [function1_node _ _ _ _ h0] at hf
    exact ⟨_, hf⟩
  · intro E s0 s1 x h0 h1 ⟨fx, ex⟩
    have hg := (function1_fuel E fx (next_token E s0) s1 x h1 ex).2
    have hf := (function1_fuel E (fx + 2) s0 s1 _ h0 hg).1
    rw [function1_node _ _ _ _ h0, function1_node _ _ _ _ h1] at hf
    exact ⟨_, hf⟩

/-- The hypotheses of the second part of `function1_takes_power_operand` hold
on the text `sqrt 100 + 7`, which parses to `add(sqrt(100), 7)`. -/
theorem function1_takes_power_operand_witness :
    parses (list exactEnv)
      (token_state "sqrt 100 + 7" " 100 + 7" (TE_FUNCTION1 ||| TE_FLAG_PURE)
        (.function .te_wrapped_sqrt))
      (binary_node .add
        (.mk (TE_FUNCTION1 ||| TE_FLAG_PURE) (.function .te_wrapped_sqrt) [constant_node 100] 0)
        (constant_node 7))
      (token_state "sqrt 100 + 7" "" TOK_END (.value 7)) :=
  function1_takes_power_operand.2.1 exactEnv
    (token_state "sqrt 100 + 7" " 100 + 7" (TE_FUNCTION1 ||| TE_FLAG_PURE)
      (.function .te_wrapped_sqrt))
    (token_state "sqrt 100 + 7" " 7" TOK_INFIX (.function .add))
    (token_state "sqrt 100 + 7" "" TOK_END (.value 7))
    (constant_node 100) (constant_node 7) 1 .add
    (by decide) ⟨3, by decide!⟩ (by decide) ⟨3, by decide!⟩ (by decide)

/-! ## The tokens consumed by a parse that succeeds -/

theorem consumes_trans (E : Env) (s s1 s2 : state) (c1 c2 : Nat)
    (h1 : consumes E s c1 s1) (h2 : consumes E s1 c2 s2) : consumes E s (c1 + c2) s2 := by
  induction h1 with
  | done s => rw [Nat.zero_add]; exact h2
  | token s s1 c hp _ ih => exact consumes.token s s2 _ hp (ih h2)
  | separator s s1 c hs _ ih =>
    have e : c + 1 + c2 = (c + c2) + 1 := by omega
    rw [e]
    exact consumes.separator s s2 _ hs (ih h2)
  | group s s1 s3 c1 c ho hin hc _ _ ih2 => exact consumes.group s s1 s2 c1 _ ho hin hc (ih2 h2)
  | call s s1 s3 c hm ho hin hc _ _ ih2 => exact consumes.call s s1 s2 _ hm ho hin hc (ih2 h2)

theorem consumes_one (E : Env) (s : state) (h : plain_token E s) :
    consumes E s 0 (next_token E s) :=
  consumes.token s _ 0 h (consumes.done _)

theorem consumes_then (E : Env) (s s1 s2 : state) (h1 : consumes E s 0 s1)
    (h2 : consumes E s1 0 s2) : consumes E s 0 s2 :=
  consumes_trans E s s1 s2 0 0 h1 h2

/-- The signs that `power` skips are plain tokens. -/
theorem power_signs_consumes (E : Env) : ∀ (fuel : Nat) (s : state) (sign : Int) (s1 : state)
    (sign1 : Int), power_signs E fuel s sign = some (s1, sign1) → consumes E s 0 s1 := by
  intro fuel
  induction fuel with
  | zero => intro s sign s1 sign1 h; simp [power_signs] at h
  | succ fuel ih =>
    intro s sign s1 sign1 h
    rw [power_signs] at h
    by_cases hc : s.type = TOK_INFIX ∧ (s.u.getFunction = .add ∨ s.u.getFunction = .sub)
    · rw [if_pos hc] at h
      exact consumes.token s s1 0 (Or.inr (Or.inr (Or.inl hc.1))) (ih _ _ _ _ h)
    · rw [if_neg hc] at h
      injection h with h; injection h with e1 e2
      subst e1
      exact consumes.done _

/-- The loop of `factor`, `term` and `expr` consumes operators and what `sub`
consumes. -/
theorem binary_loop_consumes (E : Env) (cond : state → Option Fn)
    (sub : state → Option (te_expr × state))
    (hcond : ∀ s t, cond s = some t → s.type = TOK_INFIX)
    (hsub : ∀ s r s1, sub s = some (r, s1) → s1.type ≠ TOK_ERROR → consumes E s 0 s1) :
    ∀ (fuel : Nat) (ret : te_expr) (s : state) (r : te_expr) (s1 : state),
      binary_loop E cond sub fuel ret s = some (r, s1) → s1.type ≠ TOK_ERROR →
      consumes E s 0 s1 := by
  intro fuel
  induction fuel with
  | zero => intro ret s r s1 h; simp [binary_loop] at h
  | succ fuel ih =>
    intro ret s r s1 h hne
    rw [binary_loop] at h
    cases hc : cond s with
    | none =>
      rw [hc] at h
      injection h with h; injection h with e1 e2
      subst e2
      exact consumes.done _
    | some t =>
      rw [hc] at h
      simp only [] at h
      cases hs : sub (next_token E s) with
      | none => rw [hs] at h; simp at h
      | some p =>
        obtain ⟨r1, s2⟩ := p
        rw [hs] at h
        simp only [] at h
        have h2 : s2.type ≠ TOK_ERROR := by
          intro he
          cases fuel with
          | zero => simp [binary_loop] at h
          | succ fuel =>
            rw [binary_loop] at h
            cases hc2 : cond s2 with
            | none =>
              rw [hc2] at h
              injection h with h; injection h with e1 e2
              subst e2
              exact hne he
            | some t2 =>
              have := hcond s2 t2 hc2
              rw [he] at this
              exact absurd this (by decide)
        exact consumes.token s s1 0 (Or.inr (Or.inr (Or.inl (hcond s t hc))))
          (consumes_then E _ s2 s1 (hsub _ _ _ hs h2) (ih _ _ _ _ h hne))

/-- The loop of `list` consumes separators and what `expr` consumes. -/
theorem list_loop_consumes (E : Env) (sub : state → Option (te_expr × state))
    (hsub : ∀ s r s1, sub s = some (r, s1) → s1.type ≠ TOK_ERROR → consumes E s 0 s1) :
    ∀ (fuel : Nat) (ret : te_expr) (s : state) (r : te_expr) (s1 : state),
      binary_loop E list_op sub fuel ret s = some (r, s1) → s1.type ≠ TOK_ERROR →
      ∃ c, consumes E s c s1 := by
  intro fuel
  induction fuel with
  | zero => intro ret s r s1 h; simp [binary_loop] at h
  | succ fuel ih =>
    intro ret s r s1 h hne
    rw [binary_loop] at h
    cases hc : list_op s with
    | none =>
      rw [hc] at h
      injection h with h; injection h with e1 e2
      subst e2
      exact ⟨0, consumes.done _⟩
    | some t =>
      rw [hc] at h
      simp only [] at h
      have hsep : s.type = TOK_SEP := by
        unfold list_op at hc
        by_contra hx
        rw [if_neg hx] at hc
        simp at hc
      cases hs : sub (next_token E s) with
      | none => rw [hs] at h; simp at h
      | some p =>
        obtain ⟨r1, s2⟩ := p
        rw [hs] at h
        simp only [] at h
        have h2 : s2.type ≠ TOK_ERROR := by
          intro he
          cases fuel with
          | zero => simp [binary_loop] at h
          | succ fuel =>
            rw [binary_loop] at h
            have hc2 : list_op s2 = none := by
              unfold list_op
              rw [if_neg (by rw [he]; decide)]
            rw [hc2] at h
            injection h with h; injection h with e1 e2
            subst e2
            exact hne he
        obtain ⟨c, hrest⟩ := ih _ _ _ _ h hne
        refine ⟨(0 + c) + 1, consumes.separator s s1 _ hsep ?_⟩
        exact consumes_trans E _ s2 s1 0 c (hsub _ _ _ hs h2) hrest

/-- The argument loop of `base`, when it ends on `)`, has consumed the
arguments and `i1 - i` separators between them. -/
theorem base_args_consumes (E : Env) (sub : state → Option (te_expr × state))
    (hsub : ∀ s r s1, sub s = some (r, s1) → s1.type ≠ TOK_ERROR → consumes E s 0 s1) :
    ∀ (k i : Nat) (ret : te_expr) (s : state) (ret1 : te_expr) (i1 : Nat) (s2 : state),
      base_args E sub (k + 1) i ret s = some (ret1, i1, s2) → s2.type = TOK_CLOSE →
      i ≤ i1 ∧ consumes E (next_token E s) (i1 - i) s2 := by
  intro k
  induction k with
  | zero =>
    intro i ret s ret1 i1 s2 h hcl
    rw [base_args] at h
    cases hs : sub (next_token E s) with
    | none => rw [hs] at h; simp at h
    | some p =>
      obtain ⟨p, s1⟩ := p
      rw [hs] at h
      simp only [] at h
      by_cases hsep : s1.type ≠ TOK_SEP
      · rw [if_pos hsep] at h
        injection h with h; injection h with e1 h; injection h with e2 e3
        subst e2; subst e3
        rw [Nat.sub_self]
        exact ⟨le_refl _, hsub _ _ _ hs (by rw [hcl]; decide)⟩
      · rw [if_neg hsep, base_args] at h
        injection h with h; injection h with e1 h; injection h with e2 e3
        subst e3
        rw [hcl] at hsep
        exact absurd (by decide) hsep
  | succ k ih =>
    intro i ret s ret1 i1 s2 h hcl
    rw [base_args] at h
    cases hs : sub (next_token E s) with
    | none => rw [hs] at h; simp at h
    | some p =>
      obtain ⟨p, s1⟩ := p
      rw [hs] at h
      simp only [] at h
      by_cases hsep : s1.type ≠ TOK_SEP
      · rw [if_pos hsep] at h
        injection h with h; injection h with e1 h; injection h with e2 e3
        subst e2; subst e3
        rw [Nat.sub_self]
        exact ⟨le_refl _, hsub _ _ _ hs (by rw [hcl]; decide)⟩
      · rw [if_neg hsep] at h
        have hs1 : s1.type = TOK_SEP := by
          by_contra hx; exact hsep hx
        obtain ⟨hle, hrest⟩ := ih _ _ _ _ _ _ h hcl
        refine ⟨by omega, ?_⟩
        have hfirst := hsub _ _ _ hs (by rw [hs1]; decide)
        have e : i1 - i = 0 + ((i1 - (i + 1)) + 1) := by omega
        rw [e]
        exact consumes_trans E _ s1 s2 0 _ hfirst (consumes.separator s1 s2 _ hs1 hrest)

/-- Every level of the parser, when it returns without error, has consumed a
run of tokens that `consumes` describes. -/
theorem parser_consumes (E : Env) : ∀ (fuel : Nat),
    consumes_level E (base E fuel) ∧ consumes_level E (power E fuel) ∧
    consumes_level E (factor E fuel) ∧ consumes_level E (term E fuel) ∧
    consumes_level E (expr E fuel) ∧
    (∀ s r s1, list E fuel s = some (r, s1) → s1.type ≠ TOK_ERROR → ∃ c, consumes E s c s1) := by
  intro fuel
  induction fuel with
  | zero =>
    refine ⟨?_, ?_, ?_, ?_, ?_, ?_⟩ <;> intro s r s1 h
    · simp [base] at h
    · simp [power] at h
    · simp [factor] at h
    · simp [term] at h
    · simp [expr] at h
    · simp [list] at h
  | succ fuel ih =>
    obtain ⟨ihb, ihp, ihf, iht, ihe, ihl⟩ := ih
    refine ⟨?_, ?_, ?_, ?_, ?_, ?_⟩
    · -- base
      intro s r s1 h hne
      rcases base_cases s.type with h1 | h1 | h1 | h1 | h1 | h1 | ⟨h1, h2, h3, h4⟩
      · rw [base_number E fuel s h1] at h
        injection h with h; injection h with e1 e2
        subst e2
        exact consumes_one E s (Or.inl h1)
      · rw [base_variable E fuel s h1] at h
        injection h with h; injection h with e1 e2
        subst e2
        exact consumes_one E s (Or.inr (Or.inl h1))
      · rw [base_function0 E fuel s h1] at h
        by_cases ho : (next_token E s).type = TOK_OPEN
        · rw [if_pos ho] at h
          by_cases hc : (next_token E (next_token E s)).type ≠ TOK_CLOSE
          · rw [if_pos hc] at h
            injection h with h; injection h with e1 e2
            subst e2
            exact absurd rfl hne
          · rw [if_neg hc] at h
            injection h with h; injection h with e1 e2
            subst e2
            have hc1 : (next_token E (next_token E s)).type = TOK_CLOSE := by
              by_contra hx; exact hc hx
            exact consumes.token s _ 0 (Or.inr (Or.inr (Or.inr (Or.inr ⟨h1, fun _ => hc1⟩))))
              (consumes.group _ _ _ 0 0 (by rw [ho]; decide) (consumes.done _) hc1
                (consumes.done _))
        · rw [if_neg ho] at h
          injection h with h; injection h with e1 e2
          subst e2
          exact consumes_one E s (Or.inr (Or.inr (Or.inr (Or.inr ⟨h1, fun hx => absurd hx ho⟩))))
      · rw [base_function1 E fuel s h1] at h
        cases hp : power E fuel (next_token E s) with
        | none => rw [hp] at h; simp at h
        | some p =>
          obtain ⟨p, s2⟩ := p
          rw [hp] at h
          injection h with h; injection h with e1 e2
          subst e2
          exact consumes.token s _ 0 (Or.inr (Or.inr (Or.inr (Or.inl h1)))) (ihp _ _ _ hp hne)
      · rw [base_function_n E fuel s h1] at h
        have hm : TE_FUNCTION0 ≤ TYPE_MASK s.type ∧ TYPE_MASK s.type ≤ TE_FUNCTION7 :=
          ⟨le_trans (by decide) h1.1, h1.2⟩
        have har : 2 ≤ ARITY s.type := by
          rw [ARITY_of_mask _ hm]
          have := h1.1
          simp only [TE_FUNCTION2] at this
          omega
        by_cases hopen : (next_token E s).type ≠ TOK_OPEN
        · rw [if_pos hopen] at h
          injection h with h; injection h with e1 e2
          subst e2
          exact absurd rfl hne
        · rw [if_neg hopen] at h
          have ho : (next_token E s).type = TOK_OPEN := by
            by_contra hx; exact hopen hx
          cases hargs : base_args E (expr E fuel) (ARITY s.type) 0
              (function_node s.type s.u.getFunction s.context) (next_token E s) with
          | none => rw [hargs] at h; simp at h
          | some q =>
            obtain ⟨ret1, i, s2⟩ := q
            rw [hargs] at h
            simp only [] at h
            by_cases hclose : s2.type ≠ TOK_CLOSE ∨ i ≠ ARITY s.type - 1
            · rw [if_pos hclose] at h
              injection h with h; injection h with e1 e2
              subst e2
              exact absurd rfl hne
            · rw [if_neg hclose] at h
              injection h with h; injection h with e1 e2
              subst e2
              have hc1 : s2.type = TOK_CLOSE := by
                by_contra hx; exact hclose (Or.inl hx)
              have hc2 : i = ARITY s.type - 1 := by
                by_contra hx; exact hclose (Or.inr hx)
              obtain ⟨k, hk⟩ : ∃ k, ARITY s.type = k + 1 := ⟨ARITY s.type - 1, by omega⟩
              rw [hk] at hargs
              obtain ⟨_, hrun⟩ := base_args_consumes E (expr E fuel) ihe k 0 _ _ _ _ _ hargs hc1
              rw [Nat.sub_zero, hc2] at hrun
              exact consumes.call s s2 _ 0 h1 ho hrun hc1 (consumes.done _)
      · rw [base_open E fuel s h1] at h
        cases hl : list E fuel (next_token E s) with
        | none => rw [hl] at h; simp at h
        | some p =>
          obtain ⟨ret, s2⟩ := p
          rw [hl] at h
          simp only [] at h
          by_cases hclose : s2.type ≠ TOK_CLOSE
          · rw [if_pos hclose] at h
            injection h with h; injection h with e1 e2
            subst e2
            exact absurd rfl hne
          · rw [if_neg hclose] at h
            injection h with h; injection h with e1 e2
            subst e2
            have hc1 : s2.type = TOK_CLOSE := by
              by_contra hx; exact hclose hx
            obtain ⟨c, hin⟩ := ihl _ _ _ hl (by rw [hc1]; decide)
            exact consumes.group s s2 _ c 0 h1 hin hc1 (consumes.done _)
      · rw [base_default E fuel s h1 h2 h3 h4] at h
        injection h with h; injection h with e1 e2
        subst e2
        exact absurd rfl hne
    · -- power
      intro s r s1 h hne
      rw [power] at h
      cases hsg : power_signs E fuel s 1 with
      | none => rw [hsg] at h; simp at h
      | some q =>
        obtain ⟨s2, sign⟩ := q
        rw [hsg] at h
        simp only [] at h
        have hsigns := power_signs_consumes E fuel s 1 s2 sign hsg
        by_cases h1 : sign = 1
        · rw [if_pos h1] at h
          exact consumes_then E s s2 s1 hsigns (ihb _ _ _ h hne)
        · rw [if_neg h1] at h
          cases hb : base E fuel s2 with
          | none => rw [hb] at h; simp at h
          | some q =>
            obtain ⟨b, s3⟩ := q
            rw [hb] at h
            injection h with h; injection h with e1 e2
            subst e2
            exact consumes_then E s s2 _ hsigns (ihb _ _ _ hb hne)
    · intro s r s1 h hne
      rw [factor] at h
      cases hp : power E fuel s with
      | none => rw [hp] at h; simp at h
      | some q =>
        obtain ⟨ret, s2⟩ := q
        rw [hp] at h
        simp only [] at h
        have h2 : s2.type ≠ TOK_ERROR := by
          intro he
          cases fuel with
          | zero => simp [binary_loop] at h
          | succ fuel =>
            have hnone : factor_op s2 = none := by
              cases hc2 : factor_op s2 with
              | none => rfl
              | some t2 => exact absurd he (op_not_error_factor s2 t2 hc2)
            rw [binary_loop, hnone] at h
            injection h with h; injection h with e1 e2
            subst e2
            exact hne he
        exact consumes_then E s s2 s1 (ihp _ _ _ hp h2)
          (binary_loop_consumes E factor_op _ (fun s t hc => by
            unfold factor_op at hc
            by_contra hx
            rw [if_neg (fun hh => hx hh.1)] at hc
            simp at hc) ihp fuel ret s2 r s1 h hne)
    · intro s r s1 h hne
      rw [term] at h
      cases hp : factor E fuel s with
      | none => rw [hp] at h; simp at h
      | some q =>
        obtain ⟨ret, s2⟩ := q
        rw [hp] at h
        simp only [] at h
        have h2 : s2.type ≠ TOK_ERROR := by
          intro he
          cases fuel with
          | zero => simp [binary_loop] at h
          | succ fuel =>
            have hnone : term_op s2 = none := by
              cases hc2 : term_op s2 with
              | none => rfl
              | some t2 => exact absurd he (op_not_error_term s2 t2 hc2)
            rw [binary_loop, hnone] at h
            injection h with h; injection h with e1 e2
            subst e2
            exact hne he
        exact consumes_then E s s2 s1 (ihf _ _ _ hp h2)
          (binary_loop_consumes E term_op _ (fun s t hc => by
            unfold term_op at hc
            by_contra hx
            rw [if_neg (fun hh => hx hh.1)] at hc
            simp at hc) ihf fuel ret s2 r s1 h hne)
    · intro s r s1 h hne
      rw [expr] at h
      cases hp : term E fuel s with
      | none => rw [hp] at h; simp at h
      | some q =>
        obtain ⟨ret, s2⟩ := q
        rw [hp] at h
        simp only [] at h
        have h2 : s2.type ≠ TOK_ERROR := by
          intro he
          cases fuel with
          | zero => simp [binary_loop] at h
          | succ fuel =>
            have hnone : expr_op s2 = none := by
              cases hc2 : expr_op s2 with
              | none => rfl
              | some t2 => exact absurd he (op_not_error_expr s2 t2 hc2)
            rw [binary_loop, hnone] at h
            injection h with h; injection h with e1 e2
            subst e2
            exact hne he
        exact consumes_then E s s2 s1 (iht _ _ _ hp h2)
          (binary_loop_consumes E expr_op _ (fun s t hc => by
            unfold expr_op at hc
            by_contra hx
            rw [if_neg (fun hh => hx hh.1)] at hc
            simp at hc) iht fuel ret s2 r s1 h hne)
    · intro s r s1 h hne
      rw [list] at h
      cases hp : expr E fuel s with
      | none => rw [hp] at h; simp at h
      | some q =>
        obtain ⟨ret, s2⟩ := q
        rw [hp] at h
        simp only [] at h
        have h2 : s2.type ≠ TOK_ERROR := by
          intro he
          cases fuel with
          | zero => simp [binary_loop] at h
          | succ fuel =>
            rw [binary_loop, (by unfold list_op; rw [if_neg (by rw [he]; decide)] :
              list_op s2 = none)] at h
            injection h with h; injection h with e1 e2
            subst e2
            exact hne he
        obtain ⟨c, hrest⟩ := list_loop_consumes E _ ihe fuel ret s2 r s1 h hne
        exact ⟨0 + c, consumes_trans E s s2 s1 0 c (ihe _ _ _ hp h2) hrest⟩

/-! ## Runs of tokens -/

theorem type_of_mask_ne (t m : Nat) (h : TYPE_MASK t ≠ m) (hm : m < 32) : t ≠ m := by
  intro e
  rw [TYPE_MASK_eq, e] at h
  exact h (Nat.mod_eq_of_lt hm)

theorem consumed_ok_simple (E : Env) (s : state) (h1 : TYPE_MASK s.type ≠ TOK_ERROR)
    (h2 : TYPE_MASK s.type ≠ TOK_END) (h3 : TYPE_MASK s.type ≠ TE_FUNCTION0)
    (h4 : ¬ (TE_FUNCTION2 ≤ TYPE_MASK s.type ∧ TYPE_MASK s.type ≤ TE_FUNCTION7)) :
    consumed_ok E s :=
  ⟨type_of_mask_ne _ _ h1 (by decide), type_of_mask_ne _ _ h2 (by decide),
    fun h => absurd h h3, fun h => absurd h h4⟩

theorem consumed_ok_type (E : Env) (s : state) (t : Nat) (h : s.type = t)
    (ht : t = TOK_SEP ∨ t = TOK_OPEN ∨ t = TOK_CLOSE ∨ t = TOK_INFIX) : consumed_ok E s := by
  apply consumed_ok_simple <;> rw [h] <;> rcases ht with e | e | e | e <;> rw [e] <;> decide

theorem consumed_ok_plain (E : Env) (s : state) (h : plain_token E s) : consumed_ok E s := by
  rcases h with h | h | h | h | ⟨h, hl⟩
  · apply consumed_ok_simple <;> rw [h] <;> decide
  · apply consumed_ok_simple <;> rw [h] <;> decide
  · exact consumed_ok_type E s _ h (Or.inr (Or.inr (Or.inr rfl)))
  · apply consumed_ok_simple <;> rw [h] <;> decide
  · exact ⟨type_of_mask_ne _ _ (by rw [h]; decide) (by decide),
      type_of_mask_ne _ _ (by rw [h]; decide) (by decide), fun _ => hl,
      fun hx => absurd hx (by rw [h]; decide)⟩

theorem paren_weight_plain (E : Env) (s : state) (h : plain_token E s) :
    paren_weight s.type = 0 := by
  unfold paren_weight
  rcases h with h | h | h | h | ⟨h, _⟩
  · rw [if_neg (by rw [h]; decide), if_neg (type_of_mask_ne _ _ (by rw [h]; decide) (by decide))]
  · rw [if_neg (by rw [h]; decide), if_neg (type_of_mask_ne _ _ (by rw [h]; decide) (by decide))]
  · rw [h]; decide
  · rw [if_neg (by rw [h]; decide), if_neg (type_of_mask_ne _ _ (by rw [h]; decide) (by decide))]
  · rw [if_neg (by rw [h]; decide), if_neg (type_of_mask_ne _ _ (by rw [h]; decide) (by decide))]

theorem paren_weight_call (s : state)
    (h : TE_FUNCTION2 ≤ TYPE_MASK s.type ∧ TYPE_MASK s.type ≤ TE_FUNCTION7) :
    paren_weight s.type = 0 := by
  unfold paren_weight
  rw [if_neg (by intro e; rw [e] at h; exact absurd h (by decide)),
    if_neg (by intro e; rw [e] at h; exact absurd h (by decide))]

theorem paren_weight_open (s : state) (h : TYPE_MASK s.type = TOK_OPEN) :
    paren_weight s.type = 1 := by
  unfold paren_weight
  rw [if_pos h]

theorem runs_zero (E : Env) (s : state) : runs E s 0 0 s :=
  ⟨rfl, fun j hj => absurd hj (Nat.not_lt_zero j), rfl⟩

theorem runs_step (E : Env) (s s1 : state) (k : Nat) (d : Int) (hs : consumed_ok E s)
    (h : runs E (next_token E s) k d s1) : runs E s (k + 1) (paren_weight s.type + d) s1 := by
  obtain ⟨h1, h2, h3⟩ := h
  refine ⟨by rw [Function.iterate_succ_apply]; exact h1, fun j hj => ?_, by rw [depth, h3]⟩
  cases j with
  | zero => exact hs
  | succ j =>
    rw [Function.iterate_succ_apply]
    exact h2 j (by omega)

theorem runs_trans (E : Env) : ∀ (k1 : Nat) (s s1 s2 : state) (k2 : Nat) (d1 d2 : Int),
    runs E s k1 d1 s1 → runs E s1 k2 d2 s2 → runs E s (k1 + k2) (d1 + d2) s2 := by
  intro k1
  induction k1 with
  | zero =>
    intro s s1 s2 k2 d1 d2 h1 h2
    obtain ⟨a1, _, a3⟩ := h1
    simp only [Function.iterate_zero, id_eq] at a1
    subst a1
    simp only [depth] at a3
    subst a3
    rw [Nat.zero_add, zero_add]
    exact h2
  | succ k1 ih =>
    intro s s1 s2 k2 d1 d2 h1 h2
    obtain ⟨a1, a2, a3⟩ := h1
    rw [Function.iterate_succ_apply] at a1
    rw [depth] at a3
    have hrest : runs E (next_token E s) k1 (depth E (next_token E s) k1) s1 :=
      ⟨a1, fun j hj => by
        have := a2 (j + 1) (by omega)
        rw [Function.iterate_succ_apply] at this
        exact this, rfl⟩
    have h := runs_step E s s2 _ _ (a2 0 (by omega)) (ih _ _ _ _ _ _ hrest h2)
    have e1 : k1 + 1 + k2 = k1 + k2 + 1 := by omega
    have e2 : d1 + d2 = paren_weight s.type + (depth E (next_token E s) k1 + d2) := by
      rw [← a3]; ring
    rw [e1, e2]
    exact h

/-- A run that `consumes` describes is a run of tokens that meet `consumed_ok`,
with balanced parentheses. -/
theorem consumes_runs (E : Env) (s s1 : state) (c : Nat) (h : consumes E s c s1) :
    ∃ k, runs E s k 0 s1 := by
  induction h with
  | done s => exact ⟨0, runs_zero E s⟩
  | token s s1 c hp _ ih =>
    obtain ⟨k, hk⟩ := ih
    have h := runs_step E s s1 k 0 (consumed_ok_plain E s hp) hk
    rw [paren_weight_plain E s hp] at h
    exact ⟨k + 1, h⟩
  | separator s s1 c hs _ ih =>
    obtain ⟨k, hk⟩ := ih
    have h := runs_step E s s1 k 0 (consumed_ok_type E s _ hs (Or.inl rfl)) hk
    have hw : paren_weight s.type = 0 := by rw [hs]; decide
    rw [hw] at h
    exact ⟨k + 1, h⟩
  | group s s1 s2 c1 c ho _ hc _ ih1 ih2 =>
    obtain ⟨k1, hk1⟩ := ih1
    obtain ⟨k2, hk2⟩ := ih2
    have hw : paren_weight s1.type = -1 := by rw [hc]; decide
    have h2 := runs_step E s1 s2 k2 0 (consumed_ok_type E s1 _ hc (Or.inr (Or.inr (Or.inl rfl))))
      hk2
    rw [hw] at h2
    have h3 := runs_trans E k1 _ s1 s2 _ _ _ hk1 h2
    have hs : consumed_ok E s :=
      consumed_ok_simple E s (by rw [ho]; decide) (by rw [ho]; decide) (by rw [ho]; decide)
        (by rw [ho]; decide)
    have h4 := runs_step E s s2 _ _ hs h3
    rw [paren_weight_open s ho] at h4
    exact ⟨_, h4⟩
  | call s s1 s2 c hm ho hin hc _ ih1 ih2 =>
    obtain ⟨k1, hk1⟩ := ih1
    obtain ⟨k2, hk2⟩ := ih2
    have hw : paren_weight s1.type = -1 := by rw [hc]; decide
    have h2 := runs_step E s1 s2 k2 0 (consumed_ok_type E s1 _ hc (Or.inr (Or.inr (Or.inl rfl))))
      hk2
    rw [hw] at h2
    have h3 := runs_trans E k1 _ s1 s2 _ _ _ hk1 h2
    have h4 := runs_step E (next_token E s) s2 _ _
      (consumed_ok_type E _ _ ho (Or.inr (Or.inl rfl))) h3
    rw [paren_weight_open _ (by rw [ho]; decide)] at h4
    have hs : consumed_ok E s :=
      ⟨fun e => by rw [e] at hm; exact absurd hm (by decide),
        fun e => by rw [e] at hm; exact absurd hm (by decide),
        fun e => by rw [e] at hm; exact absurd hm (by decide),
        fun _ => ⟨ho, s1, hin, hc⟩⟩
    have h5 := runs_step E s s2 _ _ hs h4
    rw [paren_weight_call s hm] at h5
    exact ⟨_, h5⟩

/-! ## Evaluation of the tokenizer -/

theorem is_lower_not_number (c : Char) (h : is_lower c = true) :
    c ≠ '\x00' ∧ (is_digit c || c == '.') = false := by
  simp only [is_lower, Bool.and_eq_true, decide_eq_true_eq] at h
  refine ⟨?_, ?_⟩
  · intro e
    rw [e] at h
    exact absurd h.1 (by decide)
  · simp only [is_digit, Bool.or_eq_false_iff, Bool.and_eq_false_iff, decide_eq_false_iff_not,
      beq_eq_false_iff_ne]
    refine ⟨Or.inr (fun h9 => absurd (le_trans h.1 h9) (by decide)), ?_⟩
    intro e
    rw [e] at h
    exact absurd h.1 (by decide)

/-- The tokenizer loop stops after the first iteration that sets the type. -/
theorem next_token_loop_stop (E : Env) (fuel : Nat) (s : state)
    (h : (next_token_step E s).type ≠ TOK_NULL) :
    next_token_loop E (fuel + 1) s = next_token_step E s := by
  rw [next_token_loop, if_neg h]

/-- At the end of the text the token is `TOK_END` and the cursor stays. -/
theorem next_token_end (E : Env) (s : state) (h : s.next = []) :
    next_token E s = { s with type := TOK_END } := by
  unfold next_token
  have e : next_token_step E { s with type := TOK_NULL } = { s with type := TOK_END } := by
    unfold next_token_step
    simp only [h]
  rw [next_token_loop_stop E _ _ (by rw [e]; exact (by decide : TOK_END ≠ TOK_NULL)), e]

/-- On a text that starts with a lower-case letter, the token is the one set
by the lookup of the identifier, when the lookup sets one. -/
theorem next_token_lower (E : Env) (s : state) (c : Char) (rest : List Char)
    (h : s.next = c :: rest) (hc : is_lower c = true)
    (hn : (next_token_identifier { s with type := TOK_NULL }).type ≠ TOK_NULL) :
    next_token E s = next_token_identifier { s with type := TOK_NULL } := by
  unfold next_token
  obtain ⟨h0, h1⟩ := is_lower_not_number c hc
  have e : next_token_step E { s with type := TOK_NULL }
      = next_token_identifier { s with type := TOK_NULL } := by
    unfold next_token_step
    simp only [h]
    rw [if_neg h0, h1, if_neg (by decide), if_pos hc]
  rw [next_token_loop_stop E _ _ (by rw [e]; exact hn), e]

/-! ## The builtin `random` -/

/-- The tokens of the text `random`: the function token of the table row, then
the end of the text. -/
theorem random_tokens (E : Env) :
    next_token E (initial_state "random".toList [])
      = token_state "random" "" (TE_FUNCTION0 ||| TE_FLAG_PURE) (.function .te_wrapped_random) ∧
    next_token E
        (token_state "random" "" (TE_FUNCTION0 ||| TE_FLAG_PURE) (.function .te_wrapped_random))
      = token_state "random" "" TOK_END (.function .te_wrapped_random) := by
  constructor
  · rw [next_token_lower E _ 'r' "andom".toList rfl (by decide) (by decide)]
    decide
  · rw [next_token_end E _ rfl]
    rfl

/-- The parse of the text `random`. -/
theorem random_parse (E : Env) :
    parse E "random".toList []
      = some (.mk (TE_FUNCTION0 ||| TE_FLAG_PURE) (.function .te_wrapped_random) [] 0,
          token_state "random" "" TOK_END (.function .te_wrapped_random)) := by
  obtain ⟨h1, h2⟩ := random_tokens E
  unfold parse
  rw [h1]
  have hb := base_function0 E 36
    (token_state "random" "" (TE_FUNCTION0 ||| TE_FLAG_PURE) (.function .te_wrapped_random))
    (by decide)
  rw [h2, if_neg (by decide)] at hb
  have hp := power_unsigned_fuel E 36 _ (expr_op_of_mask
    (token_state "random" "" (TE_FUNCTION0 ||| TE_FLAG_PURE) (.function .te_wrapped_random))
    (by decide))
  rw [hb] at hp
  exact single_operand_fuel E 37 _ _ _ hp (by decide)

/-- C20 (what the code does). The row of `random` in the table `functions`
carries `TE_FLAG_PURE`, as every row does, so the node that the parser builds
for `random` is flagged pure and `optimize` folds it: for every environment,
`te_compile` on the text `random` returns an expression whose root is the
constant `myrandom()` drawn at compile time, and `te_eval` on it returns that
constant, in every environment and without a call.  The texts `random()` and
`random+1` are folded to a constant in the same way. -/
theorem random_is_folded (E : Env) :
    builtin "random" .te_wrapped_random (TE_FUNCTION0 ||| TE_FLAG_PURE) ∈ functions ∧
    (∀ v ∈ functions, IS_PURE v.type = true) ∧
    (parse E "random".toList []).map Prod.fst
      = some (.mk (TE_FUNCTION0 ||| TE_FLAG_PURE) (.function .te_wrapped_random) [] 0) ∧
    IS_PURE (TE_FUNCTION0 ||| TE_FLAG_PURE) = true ∧
    te_compile E "random".toList []
      = some (some (new_expression [] (.mk TE_CONSTANT (.value (myrandom E)) [] 0)), 0) ∧
    (∀ (E1 : Env) (val g : Option (Nat → ℚ)),
      te_eval E1 (new_expression [] (.mk TE_CONSTANT (.value (myrandom E)) [] 0)) val g
        = some (myrandom E, g)) ∧
    (te_compile exactEnv "random()".toList []).map (fun r => r.1.map (fun ex => ex.root.type))
      = some (some TE_CONSTANT) ∧
    (te_compile exactEnv "random+1".toList []).map (fun r => r.1.map (fun ex => ex.root.type))
      = some (some TE_CONSTANT) := by
  refine ⟨by decide, by decide, ?_, by decide, ?_, ?_, by decide!, by decide!⟩
  · rw [random_parse E]; rfl
  · unfold te_compile
    rw [random_parse E]
    simp only []
    rw [if_neg (by decide)]
    rfl
  · intro E1 val g
    unfold te_eval
    have e : (new_expression [] (.mk TE_CONSTANT (.value (myrandom E)) [] 0)).root
        = .mk TE_CONSTANT (.value (myrandom E)) [] 0 := rfl
    rw [e, te_eval2, if_pos (by decide)]
    rfl

/-! ## Constant folding of expressions without variables -/

mutual
/-- On a tree without variables or impure functions, `optimize` leaves a
constant node. -/
theorem optimize_foldable (E : Env) (expr : te_expression) :
    ∀ (n n1 : te_expr), foldable n = true → optimize E expr n = some n1 →
      n1.type = TE_CONSTANT
  | .null, n1, hf, _ => by simp [foldable] at hf
  | .mk t u ps c, n1, hf, h => by
    rw [optimize] at h
    rw [foldable] at hf
    by_cases h1 : t = TE_CONSTANT
    · rw [if_pos h1] at h
      injection h with h
      rw [← h]
      exact h1
    rw [if_neg h1] at h hf
    by_cases h2 : t = TE_VARIABLE
    · rw [if_pos h2] at hf
      simp at hf
    rw [if_neg h2] at h hf
    rw [Bool.and_eq_true] at hf
    rw [if_pos hf.1] at h
    cases hp : optimize_parameters E expr ps (ARITY t) with
    | none => rw [hp] at h; simp at h
    | some q =>
      obtain ⟨ps1, known⟩ := q
      rw [hp] at h
      simp only [] at h
      have hk := optimize_parameters_foldable E expr ps (ARITY t) ps1 known hf.2 hp
      rw [hk] at h
      simp only [if_true] at h
      cases hv : te_eval2 E expr (.mk t u ps1 c) none (some (fun _ => 0)) with
      | none => rw [hv] at h; simp at h
      | some w =>
        rw [hv] at h
        injection h with h
        rw [← h]
        rfl

/-- On a list of trees without variables or impure functions, the loop of
`optimize` sets `known`. -/
theorem optimize_parameters_foldable (E : Env) (expr : te_expression) :
    ∀ (ps : List te_expr) (k : Nat) (ps1 : List te_expr) (known : Bool),
      foldable_parameters ps = true → optimize_parameters E expr ps k = some (ps1, known) →
      known = true
  | ps, 0, ps1, known, _, h => by
    rw [optimize_parameters] at h
    injection h with h; injection h with _ h
    exact h.symm
  | [], k + 1, ps1, known, _, h => by simp [optimize_parameters] at h
  | p :: ps, k + 1, ps1, known, hf, h => by
    rw [foldable_parameters, Bool.and_eq_true] at hf
    rw [optimize_parameters] at h
    cases hp : optimize E expr p with
    | none => rw [hp] at h; simp at h
    | some p1 =>
      rw [hp] at h
      simp only [] at h
      cases hr : optimize_parameters E expr ps k with
      | none => rw [hr] at h; simp at h
      | some q =>
        obtain ⟨ps2, known2⟩ := q
        rw [hr] at h
        simp only [] at h
        injection h with h; injection h with _ h
        rw [← h, if_neg (by simp [optimize_foldable E expr p p1 hf.1 hp])]
        exact optimize_parameters_foldable E expr ps k ps2 known2 hf.2 hr
end

theorem char_toNat_sub_ne (a b : Char) (h : a ≠ b) : (a.toNat : Int) - (b.toNat : Int) ≠ 0 := by
  intro e
  apply h
  apply Char.ext
  apply UInt32.ext
  have : a.toNat = b.toNat := by omega
  exact this

theorem char_toNat_ne_zero (c : Char) (h : c ≠ '\x00') : c.toNat ≠ 0 := by
  intro e
  have h1 := char_toNat_sub_ne c '\x00' h
  have h2 : ('\x00' : Char).toNat = 0 := rfl
  rw [h2, e] at h1
  exact h1 rfl

theorem cstring_nil : cstring [] = [] := rfl

theorem cstring_cons (c : Char) (a : List Char) :
    cstring (c :: a) = if c = '\x00' then [] else c :: cstring a := by
  unfold cstring
  by_cases h : c = '\x00'
  · rw [if_pos h, List.takeWhile_cons_of_neg (by simp [h])]
  · rw [if_neg h, List.takeWhile_cons_of_pos (by simp [h])]

theorem cstring_of_no_nul (a : List Char) (h : ∀ c ∈ a, c ≠ '\x00') : cstring a = a := by
  unfold cstring
  rw [List.takeWhile_eq_self_iff]
  intro c hc
  simp [h c hc]

/-- The function `strncmp` returns 0 exactly when the two C strings agree on
their first `n` characters. -/
theorem strncmp_eq_zero : ∀ (n : Nat) (a b : List Char),
    strncmp a b n = 0 ↔ (cstring a).take n = (cstring b).take n := by
  intro n
  induction n with
  | zero => intro a b; simp [strncmp]
  | succ n ih =>
    intro a b
    rw [strncmp]
    cases a with
    | nil =>
      cases b with
      | nil => simp [cstring_nil]
      | cons cb b =>
        by_cases hb : cb = '\x00'
        · simp [cstring_nil, cstring_cons, hb]
        · have hb1 : ¬ '\x00' = cb := fun e => hb e.symm
          simp [cstring_nil, cstring_cons, hb, hb1, char_toNat_ne_zero cb hb]
    | cons ca a =>
      cases b with
      | nil =>
        by_cases ha : ca = '\x00'
        · simp [cstring_nil, cstring_cons, ha]
        · simp [cstring_nil, cstring_cons, ha, char_toNat_ne_zero ca ha]
      | cons cb b =>
        by_cases hab : ca = cb
        · subst hab
          by_cases ha : ca = '\x00'
          · simp [cstring_cons, ha]
          · simp [cstring_cons, ha, ih a b]
        · have := char_toNat_sub_ne _ _ hab
          by_cases ha : ca = '\x00'
          · by_cases hb : cb = '\x00'
            · exact absurd (ha.trans hb.symm) hab
            · have hb1 : ¬ '\x00' = cb := fun e => hb e.symm
              rw [ha] at this
              simp [cstring_cons, ha, hb, char_toNat_ne_zero cb hb]
              exact hb1
          · by_cases hb : cb = '\x00'
            · simp [cstring_cons, ha, hb, hab, this, char_toNat_ne_zero ca ha]
            · simp [cstring_cons, ha, hb, hab, this]

/-- The test of `find_lookup` and of `find_builtin` on a row, for an identifier
`name` of the length `len`: `strncmp(name, row, len) == 0 && row[len] == '\0'`
holds exactly when the row's name is the identifier. -/
theorem name_match : ∀ (name v : List Char), (∀ c ∈ name, c ≠ '\x00') →
    ((strncmp name v name.length = 0 ∧ v.getD name.length '\x00' = '\x00') ↔ cstring v = name) := by
  intro name
  induction name with
  | nil =>
    intro v _
    cases v with
    | nil => simp [strncmp, cstring_nil]
    | cons b v =>
      by_cases hb : b = '\x00'
      · simp [strncmp, cstring_cons, hb]
      · simp [strncmp, cstring_cons, hb]
  | cons a name ih =>
    intro v hn
    have ha : a ≠ '\x00' := hn a (List.mem_cons_self _ _)
    have hn1 : ∀ c ∈ name, c ≠ '\x00' := fun c hc => hn c (List.mem_cons_of_mem _ hc)
    cases v with
    | nil =>
      simp [strncmp, cstring_nil, ha, char_toNat_ne_zero a ha]
    | cons b v =>
      by_cases hab : a = b
      · subst hab
        have := ih v hn1
        simp only [List.length_cons, strncmp, List.headD_cons, ne_eq, not_true_eq_false,
          if_false, if_neg ha, List.tail_cons, List.getD_cons_succ, cstring_cons,
          List.cons.injEq, true_and]
        exact this
      · have h1 := char_toNat_sub_ne _ _ hab
        by_cases hb : b = '\x00'
        · simp [strncmp, cstring_cons, hab, hb, h1, ha, char_toNat_ne_zero a ha]
        · simp [strncmp, cstring_cons, hab, hb, h1]
          exact fun e => absurd e.symm hab

/-- The characters of an identifier are not the terminator. -/
theorem is_ident_ne_nul (c : Char) (h : is_ident c = true) : c ≠ '\x00' := by
  intro e
  rw [e] at h
  exact absurd h (by decide)

theorem takeWhile_is_ident_ne_nul (t : List Char) : ∀ c ∈ t.takeWhile is_ident, c ≠ '\x00' :=
  fun c hc => is_ident_ne_nul c (List.mem_takeWhile_imp hc)

/-- The scan of `find_lookup` returns the first binding whose name is the
identifier. -/
theorem find_lookup_from_first (name : List Char) (hn : ∀ c ∈ name, c ≠ '\x00') :
    ∀ (pre : List te_variable) (v : te_variable) (post : List te_variable) (k : Nat),
      (∀ w ∈ pre, cstring w.name ≠ name) → cstring v.name = name →
      find_lookup_from name name.length (pre ++ v :: post) k = some (k + pre.length, v) := by
  intro pre
  induction pre with
  | nil =>
    intro v post k _ hv
    rw [List.nil_append, find_lookup_from, if_pos ((name_match name v.name hn).2 hv)]
    rfl
  | cons w pre ih =>
    intro v post k hpre hv
    rw [List.cons_append, find_lookup_from,
      if_neg (fun h => hpre w (List.mem_cons_self _ _) ((name_match name w.name hn).1 h)),
      ih v post (k + 1) (fun x hx => hpre x (List.mem_cons_of_mem _ hx)) hv]
    simp only [List.length_cons, Option.some.injEq, Prod.mk.injEq, and_true]
    omega

/-- The scan of `find_lookup` finds nothing when no binding has the name. -/
theorem find_lookup_from_none (name : List Char) (hn : ∀ c ∈ name, c ≠ '\x00') :
    ∀ (l : List te_variable) (k : Nat), (∀ w ∈ l, cstring w.name ≠ name) →
      find_lookup_from name name.length l k = none := by
  intro l
  induction l with
  | nil => intro k _; rfl
  | cons w l ih =>
    intro k h
    rw [find_lookup_from,
      if_neg (fun hm => h w (List.mem_cons_self _ _) ((name_match name w.name hn).1 hm))]
    exact ih (k + 1) (fun x hx => h x (List.mem_cons_of_mem _ hx))

/-- What the scan of `find_lookup` returns has the name of the identifier, and
no binding before it has. -/
theorem find_lookup_from_some (name : List Char) (hn : ∀ c ∈ name, c ≠ '\x00') :
    ∀ (l : List te_variable) (k i : Nat) (v : te_variable),
      find_lookup_from name name.length l k = some (i, v) →
      cstring v.name = name ∧ k ≤ i ∧ l.get? (i - k) = some v ∧
      ∀ j, j < i - k → ∀ w, l.get? j = some w → cstring w.name ≠ name := by
  intro l
  induction l with
  | nil => intro k i v h; simp [find_lookup_from] at h
  | cons w l ih =>
    intro k i v h
    rw [find_lookup_from] at h
    by_cases hm : strncmp name w.name name.length = 0 ∧ w.name.getD name.length '\x00' = '\x00'
    · rw [if_pos hm] at h
      injection h with h; injection h with e1 e2
      subst e1; subst e2
      refine ⟨(name_match name w.name hn).1 hm, le_refl _, by simp, fun j hj => by omega⟩
    · rw [if_neg hm] at h
      obtain ⟨a1, a2, a3, a4⟩ := ih (k + 1) i v h
      refine ⟨a1, by omega, ?_, ?_⟩
      · have e : i - k = (i - (k + 1)) + 1 := by omega
        rw [e, List.get?_cons_succ]
        exact a3
      · intro j hj x hx
        cases j with
        | zero =>
          simp only [List.get?_cons_zero, Option.some.injEq] at hx
          subst hx
          exact fun e => hm ((name_match name _ hn).2 e)
        | succ j =>
          rw [List.get?_cons_succ] at hx
          exact a4 j (by omega) x hx

/-! ## The search of the builtin table -/

/-- The binary search returns a row only when the row passes the test
`strncmp(name, row, len) == 0 && row[len] == '\0'`. -/
theorem find_builtin_loop_match (name : List Char) (len : Nat) :
    ∀ (fuel : Nat) (imin imax : Int) (v : te_variable),
      find_builtin_loop name len fuel imin imax = some v →
      strncmp name v.name len = 0 ∧ v.name.getD len '\x00' = '\x00' := by
  intro fuel
  induction fuel with
  | zero => intro imin imax v h; simp [find_builtin_loop] at h
  | succ fuel ih =>
    intro imin imax v h
    rw [find_builtin_loop] at h
    by_cases hi : imax ≥ imin
    · rw [if_pos hi] at h
      simp only [] at h
      by_cases hc : strncmp name (functions.getD (imin + (imax - imin) / 2).toNat
          (builtin "" (.user 0) 0)).name len = 0
      · rw [if_pos hc] at h
        by_cases hz : (0 : Int) - (((functions.getD (imin + (imax - imin) / 2).toNat
            (builtin "" (.user 0) 0)).name.getD len '\x00').toNat : Int) = 0
        · rw [if_pos hz] at h
          injection h with h
          subst h
          refine ⟨hc, ?_⟩
          by_contra hx
          exact char_toNat_ne_zero _ hx (by omega)
        · rw [if_neg hz] at h
          split_ifs at h
          · exact ih _ _ _ h
          · exact ih _ _ _ h
      · rw [if_neg hc, if_neg hc] at h
        split_ifs at h
        · exact ih _ _ _ h
        · exact ih _ _ _ h
    · rw [if_neg hi] at h
      simp at h

/-- The names of the table hold no terminator. -/
theorem functions_cstring : ∀ v ∈ functions, cstring v.name = v.name := by decide

/-- The binary search finds every row of the table by its name. -/
theorem find_builtin_rows : ∀ v ∈ functions, find_builtin v.name v.name.length = some v := by
  decide

/-- The binary search of `find_builtin` returns the row of the table whose
name is the identifier, and nothing when there is none. -/
theorem find_builtin_iff (name : List Char) (hn : ∀ c ∈ name, c ≠ '\x00') (v : te_variable) :
    find_builtin name name.length = some v ↔ v ∈ functions ∧ v.name = name := by
  constructor
  · intro h
    have hm := find_builtin_mem name name.length v h
    have hc := (name_match name v.name hn).1 (find_builtin_loop_match name name.length _ _ _ v h)
    rw [functions_cstring v hm] at hc
    exact ⟨hm, hc⟩
  · intro h
    rw [← h.2]
    exact find_builtin_rows v h.1

theorem find_builtin_none (name : List Char) (hn : ∀ c ∈ name, c ≠ '\x00')
    (h : ∀ v ∈ functions, v.name ≠ name) : find_builtin name name.length = none := by
  cases hf : find_builtin name name.length with
  | none => rfl
  | some v =>
    have := (find_builtin_iff name hn v).1 hf
    exact absurd this.2 (h v this.1)

/-! ## The end of the text, and the tokens of a text that compiles -/

theorem next_token_symbol_type (s : state) (c : Char) :
    (next_token_symbol s c).type = TOK_INFIX ∨ (next_token_symbol s c).type = TOK_OPEN ∨
    (next_token_symbol s c).type = TOK_CLOSE ∨ (next_token_symbol s c).type = TOK_SEP ∨
    (next_token_symbol s c).type = TOK_ERROR ∨ (next_token_symbol s c).type = s.type := by
  unfold next_token_symbol
  by_cases h : c = '+'
  · rw [if_pos h]; exact Or.inl rfl
  rw [if_neg h]; clear h
  by_cases h : c = '-'
  · rw [if_pos h]; exact Or.inl rfl
  rw [if_neg h]; clear h
  by_cases h : c = '*'
  · rw [if_pos h]; exact Or.inl rfl
  rw [if_neg h]; clear h
  by_cases h : c = '/'
  · rw [if_pos h]; exact Or.inl rfl
  rw [if_neg h]; clear h
  by_cases h : c = '^'
  · rw [if_pos h]; exact Or.inl rfl
  rw [if_neg h]; clear h
  by_cases h : c = '%'
  · rw [if_pos h]; exact Or.inl rfl
  rw [if_neg h]; clear h
  by_cases h : c = '('
  · rw [if_pos h]; exact Or.inr (Or.inl rfl)
  rw [if_neg h]; clear h
  by_cases h : c = ')'
  · rw [if_pos h]; exact Or.inr (Or.inr (Or.inl rfl))
  rw [if_neg h]; clear h
  by_cases h : c = ','
  · rw [if_pos h]; exact Or.inr (Or.inr (Or.inr (Or.inl rfl)))
  rw [if_neg h]; clear h
  by_cases h : c = ' ' ∨ c = '\t' ∨ c = '\n' ∨ c = '\r'
  · rw [if_pos h]; exact Or.inr (Or.inr (Or.inr (Or.inr (Or.inr rfl))))
  rw [if_neg h]
  exact Or.inr (Or.inr (Or.inr (Or.inr (Or.inl rfl))))

theorem next_token_identifier_type (s : state) :
    (next_token_identifier s).type = TOK_ERROR ∨ (next_token_identifier s).type = TOK_VARIABLE ∨
    (TE_FUNCTION0 ≤ TYPE_MASK (next_token_identifier s).type ∧
      TYPE_MASK (next_token_identifier s).type ≤ TE_FUNCTION7) ∨
    (next_token_identifier s).type = s.type := by
  unfold next_token_identifier
  simp only []
  split
  · exact Or.inl rfl
  · rename_i i v hvar
    by_cases hv : TYPE_MASK v.type = TE_VARIABLE
    · rw [if_pos hv]; exact Or.inr (Or.inl rfl)
    · rw [if_neg hv]
      by_cases hf : TE_FUNCTION0 ≤ TYPE_MASK v.type ∧ TYPE_MASK v.type ≤ TE_FUNCTION7
      · rw [if_pos hf]; exact Or.inr (Or.inr (Or.inl hf))
      · rw [if_neg hf]; exact Or.inr (Or.inr (Or.inr rfl))

/-- An iteration of the tokenizer loop sets `TOK_END` only at the end of the
text, and leaves the cursor there. -/
theorem next_token_step_end (E : Env) (s : state) (hs : s.type = TOK_NULL)
    (h : (next_token_step E s).type = TOK_END) :
    (s.next = [] ∨ ∃ rest, s.next = '\x00' :: rest) ∧
    (next_token_step E s).next = s.next := by
  unfold next_token_step at h ⊢
  split at h
  · rename_i hnext
    rw [hnext]
    exact ⟨Or.inl rfl, rfl⟩
  · rename_i c rest hnext
    rw [hnext]
    by_cases h0 : c = '\x00'
    · rw [if_pos h0]
      exact ⟨Or.inr ⟨rest, by rw [h0]⟩, rfl⟩
    rw [if_neg h0] at h
    by_cases h1 : (is_digit c || c == '.') = true
    · rw [if_pos h1] at h
      exact absurd h (by decide : TOK_NUMBER ≠ TOK_END)
    rw [if_neg h1] at h
    by_cases h2 : is_lower c = true
    · rw [if_pos h2] at h
      rcases next_token_identifier_type s with e | e | e | e
      · rw [e] at h; exact absurd h (by decide)
      · rw [e] at h; exact absurd h (by decide)
      · rw [h] at e; exact absurd e (by decide)
      · rw [e, hs] at h; exact absurd h (by decide)
    rw [if_neg h2] at h
    rcases next_token_symbol_type { s with next := rest } c with e | e | e | e | e | e
    · rw [e] at h; exact absurd h (by decide)
    · rw [e] at h; exact absurd h (by decide)
    · rw [e] at h; exact absurd h (by decide)
    · rw [e] at h; exact absurd h (by decide)
    · rw [e] at h; exact absurd h (by decide)
    · rw [e] at h
      simp only [] at h
      rw [hs] at h; exact absurd h (by decide)

theorem next_token_loop_end (E : Env) : ∀ (fuel : Nat) (s : state), s.type = TOK_NULL →
    (next_token_loop E fuel s).type = TOK_END →
    (next_token_loop E fuel s).next = [] ∨
      ∃ rest, (next_token_loop E fuel s).next = '\x00' :: rest := by
  intro fuel
  induction fuel with
  | zero =>
    intro s hs h
    rw [next_token_loop, hs] at h
    exact absurd h (by decide)
  | succ fuel ih =>
    intro s hs h
    rw [next_token_loop] at h ⊢
    by_cases hn : (next_token_step E s).type = TOK_NULL
    · rw [if_pos hn] at h ⊢
      exact ih _ hn h
    · rw [if_neg hn] at h ⊢
      obtain ⟨a1, a2⟩ := next_token_step_end E s hs h
      rw [a2]
      exact a1

/-- At the end of the text (an empty text, or a terminator) the token is
`TOK_END` and the cursor stays. -/
theorem next_token_at_end (E : Env) (s : state) (h : s.next = [] ∨ ∃ rest, s.next = '\x00' :: rest) :
    next_token E s = { s with type := TOK_END } := by
  unfold next_token
  have e : next_token_step E { s with type := TOK_NULL } = { s with type := TOK_END } := by
    unfold next_token_step
    rcases h with h | ⟨rest, h⟩
    · simp only [h]
    · simp only [h, if_true]
  rw [next_token_loop_stop E _ _ (by rw [e]; exact (by decide : TOK_END ≠ TOK_NULL)), e]

/-- After the token `TOK_END`, every token is `TOK_END`. -/
theorem next_token_end_fixed (E : Env) (s : state) (h : (next_token E s).type = TOK_END) :
    next_token E (next_token E s) = next_token E s := by
  have hn := next_token_loop_end E _ { s with type := TOK_NULL } rfl h
  rw [next_token_at_end E (next_token E s) hn]
  cases hs : next_token E s with
  | mk st nx ty u cx lk =>
    rw [hs] at h
    simp only [] at h
    subst h
    rfl

theorem iterate_end_fixed (E : Env) (s : state) (h : (next_token E s).type = TOK_END) :
    ∀ j, (next_token E)^[j] (next_token E s) = next_token E s := by
  intro j
  induction j with
  | zero => rfl
  | succ j ih => rw [Function.iterate_succ_apply, next_token_end_fixed E s h, ih]

theorem iterate_after_end (E : Env) (s : state) (k : Nat)
    (h : ((next_token E)^[k] (next_token E s)).type = TOK_END) :
    ∀ j, k ≤ j → (next_token E)^[j] (next_token E s) = (next_token E)^[k] (next_token E s) := by
  intro j hj
  have e : (next_token E)^[k] (next_token E s) = next_token E ((next_token E)^[k] s) := by
    rw [← Function.iterate_succ_apply, Function.iterate_succ_apply']
  obtain ⟨d, hd⟩ : ∃ d, j = d + k := ⟨j - k, by omega⟩
  rw [hd, Function.iterate_add_apply, e]
  rw [e] at h
  exact iterate_end_fixed E _ h d

/-- When `te_compile` returns an expression, the parse has consumed a run of
tokens with balanced parentheses that ends at the token `TOK_END`. -/
theorem te_compile_runs (E : Env) (expression : List Char) (bindings : List te_variable)
    (ex : te_expression) (h : te_compile E expression bindings = some (some ex, 0)) :
    ∃ k, runs E (next_token E (initial_state expression bindings)) k 0
        ((next_token E)^[k] (next_token E (initial_state expression bindings))) ∧
      ((next_token E)^[k] (next_token E (initial_state expression bindings))).type = TOK_END := by
  obtain ⟨root, s, _, hp, hend, _⟩ := te_compile_some E expression bindings ex 0 h
  obtain ⟨c, hc⟩ := (parser_consumes E (compile_fuel expression)).2.2.2.2.2 _ root s hp
    (by rw [hend]; decide)
  obtain ⟨k, hk⟩ := consumes_runs E _ s c hc
  have e := hk.1
  subst e
  exact ⟨k, hk, hend⟩

/-- When `te_compile` returns an expression, every token of the text is the
end of the text or meets `consumed_ok`: none is `TOK_ERROR`, and every function
token is followed by what its arity requires. -/
theorem te_compile_tokens (E : Env) (expression : List Char) (bindings : List te_variable)
    (ex : te_expression) (h : te_compile E expression bindings = some (some ex, 0)) (j : Nat) :
    ((next_token E)^[j] (next_token E (initial_state expression bindings))).type = TOK_END ∨
    consumed_ok E ((next_token E)^[j] (next_token E (initial_state expression bindings))) := by
  obtain ⟨k, hk, hend⟩ := te_compile_runs E expression bindings ex h
  by_cases hj : j < k
  · exact Or.inr (hk.2.1 j hj)
  · left
    rw [iterate_after_end E _ k hend j (by omega)]
    exact hend

/-- A text with a token `TOK_ERROR` does not compile. -/
theorem te_compile_error_token (E : Env) (expression : List Char)
    (bindings : List te_variable) (j : Nat)
    (h : ((next_token E)^[j] (next_token E (initial_state expression bindings))).type = TOK_ERROR) :
    ∃ e, te_compile E expression bindings = some (none, e) ∧ 1 ≤ e := by
  obtain ⟨root, s, h1, h2⟩ := te_compile_parse E expression bindings
  by_cases hend : s.type ≠ TOK_END
  · refine ⟨_, by unfold te_compile; simp only [h1]; rw [if_pos hend], ?_⟩
    split_ifs <;> omega
  · exfalso
    have he : s.type = TOK_END := by
      by_contra hx; exact hend hx
    have hw := h2.2.2.2.2 (by rw [he]; decide)
    obtain ⟨n1, e1, _⟩ := optimize_ok E (new_expression bindings root) bindings root hw
    have hc : te_compile E expression bindings = some (some (new_expression bindings n1), 0) := by
      unfold te_compile
      simp only [h1]
      rw [if_neg hend, e1]
    rcases te_compile_tokens E expression bindings _ hc j with ht | ht
    · rw [h] at ht; exact absurd ht (by decide)
    · exact ht.1 h

/-! ## The token of an identifier -/

/-- An identifier that is the name of no binding and of no builtin gives the
token `TOK_ERROR`. -/
theorem next_token_unknown (E : Env) (s : state) (c : Char) (rest : List Char)
    (h : s.next = c :: rest) (hc : is_lower c = true)
    (h1 : ∀ w ∈ s.lookup, cstring w.name ≠ s.next.takeWhile is_ident)
    (h2 : ∀ v ∈ functions, v.name ≠ s.next.takeWhile is_ident) :
    next_token E s = identifier_token s TOK_ERROR s.u s.context := by
  have e : next_token_identifier { s with type := TOK_NULL }
      = identifier_token s TOK_ERROR s.u s.context := by
    unfold next_token_identifier find_lookup
    simp only []
    rw [find_lookup_from_none _ (takeWhile_is_ident_ne_nul _) _ _ h1,
      find_builtin_none _ (takeWhile_is_ident_ne_nul _) h2]
    rfl
  rw [next_token_lower E s c rest h hc (by rw [e]; exact (by decide : TOK_ERROR ≠ TOK_NULL)), e]

/-- An identifier that is the name of a binding gives the token of the first
binding of that name: `TOK_VARIABLE` with the position of the binding for a
variable; the type, the callable and the context of the binding for a
function. -/
theorem next_token_binding (E : Env) (s : state) (c : Char) (rest : List Char)
    (pre : List te_variable) (v : te_variable) (post : List te_variable)
    (h : s.next = c :: rest) (hc : is_lower c = true) (hl : s.lookup = pre ++ v :: post)
    (h1 : ∀ w ∈ pre, cstring w.name ≠ s.next.takeWhile is_ident)
    (h2 : cstring v.name = s.next.takeWhile is_ident) :
    (TYPE_MASK v.type = TE_VARIABLE →
      next_token E s = identifier_token s TOK_VARIABLE (.ivar pre.length) s.context) ∧
    ((TE_FUNCTION0 ≤ TYPE_MASK v.type ∧ TYPE_MASK v.type ≤ TE_FUNCTION7) →
      next_token E s = identifier_token s v.type (.function v.address) v.context) := by
  have hf : find_lookup_from (s.next.takeWhile is_ident) (s.next.takeWhile is_ident).length
      s.lookup 0 = some (pre.length, v) := by
    rw [hl, find_lookup_from_first _ (takeWhile_is_ident_ne_nul _) pre v post 0 h1 h2,
      Nat.zero_add]
  constructor
  · intro hv
    have e : next_token_identifier { s with type := TOK_NULL }
        = identifier_token s TOK_VARIABLE (.ivar pre.length) s.context := by
      unfold next_token_identifier find_lookup
      simp only []
      rw [hf]
      simp only []
      rw [if_pos hv]
      rfl
    rw [next_token_lower E s c rest h hc (by rw [e]; exact (by decide : TOK_VARIABLE ≠ TOK_NULL)),
      e]
  · intro hv
    have hv0 : TYPE_MASK v.type ≠ TE_VARIABLE := by
      intro e0; rw [e0] at hv; exact absurd hv (by decide)
    have e : next_token_identifier { s with type := TOK_NULL }
        = identifier_token s v.type (.function v.address) v.context := by
      unfold next_token_identifier find_lookup
      simp only []
      rw [hf]
      simp only []
      rw [if_neg hv0, if_pos hv]
      rfl
    have hne : v.type ≠ TOK_NULL := by
      intro e0; rw [e0] at hv; exact absurd hv (by decide)
    rw [next_token_lower E s c rest h hc (by rw [e]; exact hne), e]

/-- An identifier that is the name of no binding and of a builtin gives the
token of the row of the builtin. -/
theorem next_token_builtin (E : Env) (s : state) (c : Char) (rest : List Char)
    (v : te_variable) (h : s.next = c :: rest) (hc : is_lower c = true)
    (h1 : ∀ w ∈ s.lookup, cstring w.name ≠ s.next.takeWhile is_ident)
    (hv : v ∈ functions) (h2 : v.name = s.next.takeWhile is_ident) :
    next_token E s = identifier_token s v.type (.function v.address) v.context := by
  have hm := functions_mask v hv
  have hv0 : TYPE_MASK v.type ≠ TE_VARIABLE := by
    intro e0; rw [e0] at hm; exact absurd hm (by decide)
  have e : next_token_identifier { s with type := TOK_NULL }
      = identifier_token s v.type (.function v.address) v.context := by
    unfold next_token_identifier find_lookup
    simp only []
    rw [find_lookup_from_none _ (takeWhile_is_ident_ne_nul _) _ _ h1,
      (find_builtin_iff _ (takeWhile_is_ident_ne_nul _) v).2 ⟨hv, h2⟩]
    simp only [Option.map_some']
    rw [if_neg hv0, if_pos hm]
    rfl
  have hne : v.type ≠ TOK_NULL := by
    intro e0; rw [e0] at hm; exact absurd hm (by decide)
  rw [next_token_lower E s c rest h hc (by rw [e]; exact hne), e]

/-- C15. Name resolution is by exact match of the whole name.  The test
`strncmp(name, row, len) == 0 && row[len] == '\0'` holds exactly when the name
of the row is the identifier; `find_builtin` returns the row of that name for
every one of the 27 names of the table, which is strictly sorted, and nothing
for every other identifier; an identifier that is the name of no binding and
of no builtin gives the token `TOK_ERROR`, and a text with such a token does
not compile.  Witnesses: `si` and `sinn` are no builtins, and `si x`, `tes`,
`sinn x`, `xx*y^3` do not compile with the variables `x`, `y`, `test`, while
`sin x` and `test` do. -/
theorem exact_name_match :
    (∀ (name row : List Char), (∀ c ∈ name, c ≠ '\x00') →
      ((strncmp name row name.length = 0 ∧ row.getD name.length '\x00' = '\x00')
        ↔ cstring row = name)) ∧
    (∀ (name : List Char) (v : te_variable), (∀ c ∈ name, c ≠ '\x00') →
      (find_builtin name name.length = some v ↔ v ∈ functions ∧ v.name = name)) ∧
    (∀ (name : List Char), (∀ c ∈ name, c ≠ '\x00') → (∀ v ∈ functions, v.name ≠ name) →
      find_builtin name name.length = none) ∧
    functions.length = 27 ∧
    List.Pairwise (fun a b : te_variable => a.name < b.name) functions ∧
    (∀ (E : Env) (s : state) (c : Char) (rest : List Char),
      s.next = c :: rest → is_lower c = true →
      (∀ w ∈ s.lookup, cstring w.name ≠ s.next.takeWhile is_ident) →
      (∀ v ∈ functions, v.name ≠ s.next.takeWhile is_ident) →
      next_token E s = identifier_token s TOK_ERROR s.u s.context) ∧
    (∀ (E : Env) (expression : List Char) (bindings : List te_variable) (j : Nat),
      ((next_token E)^[j] (next_token E (initial_state expression bindings))).type = TOK_ERROR →
      ∃ e, te_compile E expression bindings = some (none, e) ∧ 1 ≤ e) ∧
    find_builtin "si".toList 2 = none ∧ find_builtin "sinn".toList 4 = none ∧
    (find_builtin "sin".toList 3).map (fun v => v.address) = some .te_wrapped_sin ∧
    (["si x", "tes", "sinn x", "xx*y^3"].map (fun text =>
      (te_compile exactEnv text.toList
        [variable_binding "x", variable_binding "y", variable_binding "test"]).map
          (fun r => (r.1.isSome, r.2))))
      = [some (false, 2), some (false, 3), some (false, 4), some (false, 2)] ∧
    (["sin x", "test"].map (fun text =>
      (te_compile exactEnv text.toList
        [variable_binding "x", variable_binding "y", variable_binding "test"]).map
          (fun r => (r.1.isSome, r.2))))
      = [some (true, 0), some (true, 0)] := by
  refine ⟨name_match, fun name v hn => find_builtin_iff name hn v, find_builtin_none,
    by decide, by decide, next_token_unknown, te_compile_error_token, by decide, by decide,
    by decide, by decide!, by decide!⟩

/-- The hypotheses of the parts of `exact_name_match` on tokens hold on the
text `si x` with the variable `x`: the identifier `si` gives the token
`TOK_ERROR`, and the text does not compile. -/
theorem exact_name_match_witness :
    next_token exactEnv (initial_state "si x".toList [variable_binding "x"])
      = identifier_token (initial_state "si x".toList [variable_binding "x"]) TOK_ERROR
          (.value 0) 0 ∧
    ∃ e, te_compile exactEnv "si x".toList [variable_binding "x"] = some (none, e) ∧ 1 ≤ e :=
  ⟨exact_name_match.2.2.2.2.2.1 exactEnv (initial_state "si x".toList [variable_binding "x"])
      's' "i x".toList rfl (by decide) (by decide) (by decide),
    exact_name_match.2.2.2.2.2.2.1 exactEnv "si x".toList [variable_binding "x"] 0 (by decide)⟩

/-- C16. Caller bindings shadow builtins and the first match wins: an
identifier that is the name of one or more bindings gives the token of the
first binding of that name in the list, whether or not a builtin has the name:
`TOK_VARIABLE` with the position of the binding for a variable, and the type
(with its flags), the callable and the context of the binding for a function.
The token is the one of the builtin only when no binding has the name.
Witnesses: `pi` bound to the caller's `sum0` evaluates to 6, `sin` bound as a
variable evaluates to its value, and of two bindings `x` the first is
taken. -/
theorem bindings_shadow_builtins :
    (∀ (E : Env) (s : state) (c : Char) (rest : List Char)
      (pre : List te_variable) (v : te_variable) (post : List te_variable),
      s.next = c :: rest → is_lower c = true → s.lookup = pre ++ v :: post →
      (∀ w ∈ pre, cstring w.name ≠ s.next.takeWhile is_ident) →
      cstring v.name = s.next.takeWhile is_ident →
      (TYPE_MASK v.type = TE_VARIABLE →
        next_token E s = identifier_token s TOK_VARIABLE (.ivar pre.length) s.context) ∧
      ((TE_FUNCTION0 ≤ TYPE_MASK v.type ∧ TYPE_MASK v.type ≤ TE_FUNCTION7) →
        next_token E s = identifier_token s v.type (.function v.address) v.context)) ∧
    (∀ (name : List Char) (l : List te_variable) (i : Nat) (v : te_variable),
      (∀ c ∈ name, c ≠ '\x00') → find_lookup_from name name.length l 0 = some (i, v) →
      cstring v.name = name ∧ l.get? i = some v ∧
      ∀ j, j < i → ∀ w, l.get? j = some w → cstring w.name ≠ name) ∧
    (∀ (E : Env) (s : state) (c : Char) (rest : List Char) (v : te_variable),
      s.next = c :: rest → is_lower c = true →
      (∀ w ∈ s.lookup, cstring w.name ≠ s.next.takeWhile is_ident) →
      v ∈ functions → v.name = s.next.takeWhile is_ident →
      next_token E s = identifier_token s v.type (.function v.address) v.context) ∧
    value_of testEnv "pi" [function_binding "pi" 10 TE_FUNCTION0] (fun _ => 0) = some 6 ∧
    value_of testEnv "pi" [] (fun _ => 0) = some 3.14159265358979323846 ∧
    value_of testEnv "sin" [variable_binding "sin"] (fun _ => 7) = some 7 ∧
    value_of testEnv "x" [function_binding "x" 10 TE_FUNCTION0, variable_binding "x"]
      (fun _ => 7) = some 6 ∧
    value_of testEnv "x" [variable_binding "y", variable_binding "x",
      function_binding "x" 10 TE_FUNCTION0] (fun i => if i = 1 then 7 else 3) = some 7 := by
  refine ⟨next_token_binding, ?_, next_token_builtin, by decide!, by decide!, by decide!,
    by decide!, by decide!⟩
  intro name l i v hn h
  obtain ⟨a1, _, a3, a4⟩ := find_lookup_from_some name hn l 0 i v h
  exact ⟨a1, a3, a4⟩

/-- The hypotheses of the first part of `bindings_shadow_builtins` hold on the
text `pi` with the binding of `pi` to the caller's function at address 10: the
token is the one of the binding, not of the builtin. -/
theorem bindings_shadow_builtins_witness :
    next_token testEnv (initial_state "pi".toList [function_binding "pi" 10 TE_FUNCTION0])
      = identifier_token (initial_state "pi".toList [function_binding "pi" 10 TE_FUNCTION0])
          TE_FUNCTION0 (.function (.user 10)) 0 :=
  (bindings_shadow_builtins.1 testEnv
    (initial_state "pi".toList [function_binding "pi" 10 TE_FUNCTION0]) 'p' "i".toList []
    (function_binding "pi" 10 TE_FUNCTION0) [] rfl (by decide) rfl (by decide) (by decide)).2
    (by decide)

/-! ## The error offset -/

/-- C17. When the parse run by `te_compile` ends in a state `s` whose token is
not `TOK_END`, `te_compile` fails, and the offset it reports is the distance of
the cursor of `s` from the start of the text, the number of characters
consumed, with 0 replaced by 1.  Witnesses, without bindings: the offsets of
the texts of `test_syntax`, 1 for the empty text, 2 for `1+`, `1)` and `(1`,
3 for `1**1`, 4 for `1*2(+4`, 1 for `a+5` and `A+5`, 3 for `1^^5` and 8 for
`sin(cos5`. -/
theorem error_offset (E : Env) (expression : List Char) (bindings : List te_variable)
    (root : te_expr) (s : state) (hparse : parse E expression bindings = some (root, s))
    (hend : s.type ≠ TOK_END) :
    (∃ consumed, expression = consumed ++ s.next ∧ s.start = expression ∧
      consumed.length = s.start.length - s.next.length ∧
      te_compile E expression bindings
        = some (none, if consumed.length = 0 then 1 else consumed.length)) ∧
    (["", "1+", "1)", "(1", "1**1", "1*2(+4", "1*2(1+4", "a+5", "A+5", "Aa+5", "1^^5", "1**5",
        "sin(cos5"].map (fun text =>
          (te_compile exactEnv text.toList []).map (fun r => (r.1.isSome, r.2))))
      = [some (false, 1), some (false, 2), some (false, 2), some (false, 2), some (false, 3),
          some (false, 4), some (false, 4), some (false, 1), some (false, 1), some (false, 1),
          some (false, 3), some (false, 3), some (false, 8)] := by
  refine ⟨?_, by decide!⟩
  obtain ⟨root0, s0, h1, h2⟩ := te_compile_parse E expression bindings
  rw [hparse] at h1
  injection h1 with h1
  injection h1 with e1 e2
  subst e1; subst e2
  obtain ⟨_, _, a3, a4⟩ := next_token_ok E (initial_state expression bindings)
  obtain ⟨_, _, b3, b4, _⟩ := h2
  have hs : s.start = expression := b3.trans a3
  obtain ⟨consumed, hc⟩ := b4.trans a4
  have hx : expression = consumed ++ s.next := hc.symm
  have hl : consumed.length = s.start.length - s.next.length := by
    rw [hs]
    have := congrArg List.length hx
    rw [List.length_append] at this
    omega
  refine ⟨consumed, hx, hs, hl, ?_⟩
  unfold te_compile
  simp only [hparse]
  rw [if_pos hend, hl]

/-- The hypotheses of `error_offset` hold for the text `1+`: the parse ends in
an error with the cursor behind the two characters. -/
theorem error_offset_witness :
    ∃ consumed, "1+".toList = consumed ++ [] ∧ "1+".toList = "1+".toList ∧
      consumed.length = 2 - 0 ∧
      te_compile exactEnv "1+".toList []
        = some (none, if consumed.length = 0 then 1 else consumed.length) :=
  (error_offset exactEnv "1+".toList []
    (binary_node .add (constant_node 1) (.mk 0 (.value 0) [] 0))
    (token_state "1+" "" TOK_ERROR (.function .add)) (by decide!) (by decide)).1

/-! ## Functions of arity 0 -/

theorem next_token_open (E : Env) (s : state) (rest : List Char) (h : s.next = '(' :: rest) :
    next_token E s = symbol_token s rest TOK_OPEN := by
  unfold next_token
  have e : next_token_step E { s with type := TOK_NULL } = symbol_token s rest TOK_OPEN := by
    unfold next_token_step
    simp only [h]
    rfl
  rw [next_token_loop_stop E _ _ (by rw [e]; exact (by decide : TOK_OPEN ≠ TOK_NULL)), e]

theorem next_token_close (E : Env) (s : state) (rest : List Char) (h : s.next = ')' :: rest) :
    next_token E s = symbol_token s rest TOK_CLOSE := by
  unfold next_token
  have e : next_token_step E { s with type := TOK_NULL } = symbol_token s rest TOK_CLOSE := by
    unfold next_token_step
    simp only [h]
    rfl
  rw [next_token_loop_stop E _ _ (by rw [e]; exact (by decide : TOK_CLOSE ≠ TOK_NULL)), e]

/-- A text that `te_compile` does not compile gets no expression and an
offset that is not 0. -/
theorem te_compile_fails (E : Env) (expression : List Char) (bindings : List te_variable)
    (h : ∀ ex, te_compile E expression bindings ≠ some (some ex, 0)) :
    ∃ e, te_compile E expression bindings = some (none, e) ∧ 1 ≤ e := by
  obtain ⟨root, s, h1, h2⟩ := te_compile_parse E expression bindings
  by_cases hend : s.type ≠ TOK_END
  · refine ⟨_, by unfold te_compile; simp only [h1]; rw [if_pos hend], ?_⟩
    split_ifs <;> omega
  · exfalso
    have he : s.type = TOK_END := by
      by_contra hx; exact hend hx
    have hw := h2.2.2.2.2 (by rw [he]; decide)
    obtain ⟨n1, e1, _⟩ := optimize_ok E (new_expression bindings root) bindings root hw
    apply h (new_expression bindings n1)
    unfold te_compile
    simp only [h1]
    rw [if_neg hend, e1]

/-- The lookup of an identifier reads the text only through the identifier. -/
theorem next_token_identifier_move (s : state) (start next : List Char)
    (h : next.takeWhile is_ident = s.next.takeWhile is_ident) :
    next_token_identifier (s.move start next)
      = (next_token_identifier s).move start (next.dropWhile is_ident) := by
  unfold next_token_identifier find_lookup state.move
  simp only [h]
  cases find_lookup_from (s.next.takeWhile is_ident) (s.next.takeWhile is_ident).length
      s.lookup 0 with
  | some w =>
    simp only []
    split_ifs <;> rfl
  | none =>
    simp only []
    cases find_builtin (s.next.takeWhile is_ident) (s.next.takeWhile is_ident).length with
    | none => rfl
    | some v =>
      simp only [Option.map_some']
      split_ifs <;> rfl

theorem takeWhile_append_stop (name tail : List Char) (hn : ∀ c ∈ name, is_ident c = true)
    (ht : ∀ c, tail.head? = some c → is_ident c = false) :
    (name ++ tail).takeWhile is_ident = name ∧ (name ++ tail).dropWhile is_ident = tail := by
  induction name with
  | nil =>
    cases tail with
    | nil => exact ⟨rfl, rfl⟩
    | cons c tail =>
      have := ht c rfl
      simp [List.takeWhile, List.dropWhile, this]
  | cons a name ih =>
    have ha := hn a (List.mem_cons_self _ _)
    obtain ⟨i1, i2⟩ := ih (fun c hc => hn c (List.mem_cons_of_mem _ hc))
    rw [List.cons_append, List.takeWhile_cons_of_pos ha, List.dropWhile_cons_of_pos ha, i1, i2]
    exact ⟨rfl, rfl⟩

/-- The token of an identifier that resolves to a function, at the start of a
text in which the identifier is followed by `tail`. -/
theorem next_token_resolved (E : Env) (bindings : List te_variable) (name tail : List Char)
    (v : te_variable) (hid : identifier name)
    (ht : ∀ c, tail.head? = some c → is_ident c = false)
    (hr : resolves bindings name v)
    (hv : TE_FUNCTION0 ≤ TYPE_MASK v.type ∧ TYPE_MASK v.type ≤ TE_FUNCTION7) :
    next_token E (initial_state (name ++ tail) bindings)
      = { start := name ++ tail, next := tail, type := v.type, u := .function v.address,
          context := v.context, lookup := bindings } := by
  obtain ⟨⟨c, rest, hc, hl⟩, hn⟩ := hid
  obtain ⟨t1, t2⟩ := takeWhile_append_stop name tail hn ht
  have hnext : (initial_state (name ++ tail) bindings).next = c :: (rest ++ tail) := by
    rw [hc]; rfl
  have htw : (initial_state (name ++ tail) bindings).next.takeWhile is_ident = name := t1
  have hres : identifier_token (initial_state (name ++ tail) bindings) v.type
      (.function v.address) v.context
      = { start := name ++ tail, next := tail, type := v.type, u := .function v.address,
          context := v.context, lookup := bindings } := by
    unfold identifier_token
    have : (initial_state (name ++ tail) bindings).next.dropWhile is_ident = tail := t2
    rw [this]
    rfl
  rcases hr with ⟨pre, post, h1, h2, h3⟩ | ⟨h1, h2, h3⟩
  · rw [(next_token_binding E _ c _ pre v post hnext hl h1 (by rw [htw]; exact h2)
      (by rw [htw]; exact h3)).2 hv, hres]
  · rw [next_token_builtin E _ c _ v hnext hl (by rw [htw]; exact h1) h2 (by rw [htw]; exact h3),
      hres]

/-- A token of a function of arity 0 that the end of the text follows. -/
theorem function0_fuel (E : Env) (n : Nat) (s0 : state) (h0 : TYPE_MASK s0.type = TE_FUNCTION0)
    (h1 : (next_token E s0).type = TOK_END) :
    list E (n + 6) s0
      = some (function_node s0.type s0.u.getFunction s0.context, next_token E s0) := by
  have hb := base_function0 E n s0 h0
  rw [if_neg (by rw [h1]; decide)] at hb
  have hp := power_unsigned_fuel E n s0 (expr_op_of_mask s0 (by rw [h0]; decide))
  rw [hb] at hp
  exact single_operand_fuel E (n + 1) s0 _ _ hp (operator_level_end _ h1)

/-- A token of a function of arity 0 that `(`, `)` and the end of the text
follow. -/
theorem function0_parens_fuel (E : Env) (n : Nat) (s0 : state)
    (h0 : TYPE_MASK s0.type = TE_FUNCTION0) (h1 : (next_token E s0).type = TOK_OPEN)
    (h2 : (next_token E (next_token E s0)).type = TOK_CLOSE)
    (h3 : (next_token E (next_token E (next_token E s0))).type = TOK_END) :
    list E (n + 6) s0
      = some (function_node s0.type s0.u.getFunction s0.context,
          next_token E (next_token E (next_token E s0))) := by
  have hb := base_function0 E n s0 h0
  rw [if_pos h1, if_neg (by rw [h2]; decide)] at hb
  have hp := power_unsigned_fuel E n s0 (expr_op_of_mask s0 (by rw [h0]; decide))
  rw [hb] at hp
  exact single_operand_fuel E (n + 1) s0 _ _ hp (operator_level_end _ h3)

/-- The parse of the text of an identifier that resolves to a function of
arity 0, and of the same text followed by `()`. -/
theorem function0_text (E : Env) (bindings : List te_variable) (name : List Char)
    (v : te_variable) (hid : identifier name) (hr : resolves bindings name v)
    (hv : TYPE_MASK v.type = TE_FUNCTION0) :
    (parse E name bindings).map Prod.fst = some (function_node v.type v.address v.context) ∧
    (parse E name bindings).map (fun p => p.2.type) = some TOK_END ∧
    (parse E (name ++ ['(', ')']) bindings).map Prod.fst
      = some (function_node v.type v.address v.context) ∧
    (parse E (name ++ ['(', ')']) bindings).map (fun p => p.2.type) = some TOK_END := by
  have hm : TE_FUNCTION0 ≤ TYPE_MASK v.type ∧ TYPE_MASK v.type ≤ TE_FUNCTION7 := by
    rw [hv]; decide
  have t1 := next_token_resolved E bindings name [] v hid (fun c hc => by simp at hc) hr hm
  have t2 := next_token_resolved E bindings name ['(', ')'] v hid
    (fun c hc => by
      simp only [List.head?_cons, Option.some.injEq] at hc
      rw [← hc]; decide) hr hm
  rw [List.append_nil] at t1
  have p1 : parse E name bindings = some (function_node v.type v.address v.context,
      next_token E (next_token E (initial_state name bindings))) := by
    unfold parse compile_fuel
    have h := function0_fuel E (6 * name.length) (next_token E (initial_state name bindings))
      (by rw [t1]; exact hv) (by rw [t1, next_token_end E _ rfl])
    rw [h, t1]
    rfl
  have e1 : next_token E (next_token E (initial_state (name ++ ['(', ')']) bindings))
      = symbol_token (next_token E (initial_state (name ++ ['(', ')']) bindings)) [')']
          TOK_OPEN := next_token_open E _ [')'] (by rw [t2])
  have e2 : next_token E (next_token E (next_token E
      (initial_state (name ++ ['(', ')']) bindings)))
      = symbol_token (next_token E (next_token E (initial_state (name ++ ['(', ')']) bindings)))
          [] TOK_CLOSE := next_token_close E _ [] (by rw [e1]; rfl)
  have e3 : (next_token E (next_token E (next_token E (next_token E
      (initial_state (name ++ ['(', ')']) bindings))))).type = TOK_END := by
    rw [next_token_end E _ (by rw [e2]; rfl)]
  have p2 : parse E (name ++ ['(', ')']) bindings
      = some (function_node v.type v.address v.context,
          next_token E (next_token E (next_token E (next_token E
            (initial_state (name ++ ['(', ')']) bindings))))) := by
    unfold parse compile_fuel
    have h := function0_parens_fuel E (6 * (name ++ ['(', ')']).length)
      (next_token E (initial_state (name ++ ['(', ')']) bindings))
      (by rw [t2]; exact hv) (by rw [e1]; rfl) (by rw [e2]; rfl) e3
    rw [h, t2]
    rfl
  refine ⟨by rw [p1]; rfl, ?_, by rw [p2]; rfl, by rw [p2]; exact congrArg some e3⟩
  rw [p1, t1, next_token_end E _ rfl]
  rfl

/-- After a parse that ends at the end of the text with the tree `root`, what
`te_compile` returns is read off `optimize` on `root`. -/
theorem te_compile_of_tree (E : Env) (expression : List Char) (bindings : List te_variable)
    (root : te_expr) (h1 : (parse E expression bindings).map Prod.fst = some root)
    (h2 : (parse E expression bindings).map (fun p => p.2.type) = some TOK_END) :
    te_compile E expression bindings
      = (optimize E (new_expression bindings root) root).map
          (fun r => (some (new_expression bindings r), 0)) := by
  unfold te_compile
  cases hp : parse E expression bindings with
  | none => rw [hp] at h1; simp at h1
  | some p =>
    obtain ⟨r, s⟩ := p
    rw [hp] at h1 h2
    simp only [Option.map_some', Option.some.injEq] at h1 h2
    subst h1
    simp only []
    rw [if_neg (by rw [h2]; exact fun h => h rfl)]
    cases optimize E (new_expression bindings r) r with
    | none => rfl
    | some r1 => rfl

/-- A parse that ends at the end of the text makes `te_compile` return an
expression. -/
theorem te_compile_succeeds (E : Env) (expression : List Char) (bindings : List te_variable)
    (h2 : (parse E expression bindings).map (fun p => p.2.type) = some TOK_END) :
    ∃ ex, te_compile E expression bindings = some (some ex, 0) := by
  obtain ⟨root, s, h1, hp⟩ := te_compile_parse E expression bindings
  rw [h1] at h2
  simp only [Option.map_some', Option.some.injEq] at h2
  have hw := hp.2.2.2.2 (by rw [h2]; decide)
  obtain ⟨n1, e1, _⟩ := optimize_ok E (new_expression bindings root) bindings root hw
  refine ⟨new_expression bindings n1, ?_⟩
  unfold te_compile
  simp only [h1]
  rw [if_neg (by rw [h2]; exact fun h => h rfl), e1]

/-- C14. A function of arity 0 takes an optional empty pair of parentheses.
On its token, `base` returns the node of the function without children, after
the token when no `(` follows, and after `(` `)` when they follow; when `(` and
a token other than `)` follow, `base` sets `TOK_ERROR`.  So for every
identifier `f` that resolves to a function of arity 0, the texts `f` and `f()`
parse to the same tree and `te_compile` returns the same on both; and a text
in which the token of such a function is followed by `(` and a token other than
`)` does not compile.  Witnesses: `sum0()+sum0` and `sum0+sum0()` evaluate to
12, and `sum0(`, `sum0(1)`, `sum0(x` do not compile. -/
theorem function0_parentheses :
    (∀ (E : Env) (fuel : Nat) (s : state), TYPE_MASK s.type = TE_FUNCTION0 →
      ARITY s.type = 0 ∧
      ((next_token E s).type ≠ TOK_OPEN →
        base E (fuel + 1) s
          = some (.mk s.type (.function s.u.getFunction) [] s.context, next_token E s)) ∧
      ((next_token E s).type = TOK_OPEN → (next_token E (next_token E s)).type = TOK_CLOSE →
        base E (fuel + 1) s
          = some (.mk s.type (.function s.u.getFunction) [] s.context,
              next_token E (next_token E (next_token E s)))) ∧
      ((next_token E s).type = TOK_OPEN → (next_token E (next_token E s)).type ≠ TOK_CLOSE →
        base E (fuel + 1) s
          = some (.mk s.type (.function s.u.getFunction) [] s.context,
              (next_token E (next_token E s)).set_error))) ∧
    (∀ (E : Env) (bindings : List te_variable) (name : List Char) (v : te_variable),
      identifier name → resolves bindings name v → TYPE_MASK v.type = TE_FUNCTION0 →
      (parse E name bindings).map Prod.fst
        = some (.mk v.type (.function v.address) [] v.context) ∧
      (parse E (name ++ ['(', ')']) bindings).map Prod.fst
        = some (.mk v.type (.function v.address) [] v.context) ∧
      te_compile E (name ++ ['(', ')']) bindings = te_compile E name bindings ∧
      ∃ ex, te_compile E name bindings = some (some ex, 0)) ∧
    (∀ (E : Env) (expression : List Char) (bindings : List te_variable) (j : Nat),
      TYPE_MASK ((next_token E)^[j] (next_token E (initial_state expression bindings))).type
        = TE_FUNCTION0 →
      ((next_token E)^[j + 1] (next_token E (initial_state expression bindings))).type
        = TOK_OPEN →
      ((next_token E)^[j + 2] (next_token E (initial_state expression bindings))).type
        ≠ TOK_CLOSE →
      ∃ e, te_compile E expression bindings = some (none, e) ∧ 1 ≤ e) ∧
    tree_of testEnv "sum0" test_lookup = some (.mk TE_FUNCTION0 (.function (.user 10)) [] 0) ∧
    tree_of testEnv "sum0()" test_lookup = tree_of testEnv "sum0" test_lookup ∧
    value_of testEnv "sum0()+sum0" test_lookup (fun i => if i = 0 then 2 else 5) = some 12 ∧
    value_of testEnv "sum0+sum0()" test_lookup (fun i => if i = 0 then 2 else 5) = some 12 ∧
    (["sum0(", "sum0(1)", "sum0(x", "sum0()"].map (fun text =>
      (te_compile testEnv text.toList test_lookup).map (fun r => (r.1.isSome, r.2))))
      = [some (false, 5), some (false, 6), some (false, 6), some (true, 0)] := by
  refine ⟨?_, ?_, ?_, by decide!, by decide!, by decide!, by decide!, by decide!⟩
  · intro E fuel s h
    have hm : TE_FUNCTION0 ≤ TYPE_MASK s.type ∧ TYPE_MASK s.type ≤ TE_FUNCTION7 := by
      rw [h]; decide
    have har : ARITY s.type = 0 := by rw [ARITY_of_mask _ hm, h]; rfl
    have hnode : function_node s.type s.u.getFunction s.context
        = .mk s.type (.function s.u.getFunction) [] s.context := by
      rw [new_function_node, har]; rfl
    have hb := base_function0 E fuel s h
    rw [hnode] at hb
    refine ⟨har, fun h1 => ?_, fun h1 h2 => ?_, fun h1 h2 => ?_⟩
    · rw [hb, if_neg h1]
    · rw [hb, if_pos h1, if_neg (fun hx => hx h2)]
    · rw [hb, if_pos h1, if_pos h2]
  · intro E bindings name v hid hr hv
    have hm : TE_FUNCTION0 ≤ TYPE_MASK v.type ∧ TYPE_MASK v.type ≤ TE_FUNCTION7 := by
      rw [hv]; decide
    have har : ARITY v.type = 0 := by rw [ARITY_of_mask _ hm, hv]; rfl
    have hnode : function_node v.type v.address v.context
        = .mk v.type (.function v.address) [] v.context := by
      rw [new_function_node, har]; rfl
    obtain ⟨a1, a2, a3, a4⟩ := function0_text E bindings name v hid hr hv
    rw [hnode] at a1 a3
    have c1 := te_compile_of_tree E name bindings _ a1 a2
    have c2 := te_compile_of_tree E (name ++ ['(', ')']) bindings _ a3 a4
    exact ⟨a1, a3, by rw [c1, c2], te_compile_succeeds E name bindings a2⟩
  · intro E expression bindings j h0 h1 h2
    apply te_compile_fails
    intro ex hex
    rcases te_compile_tokens E expression bindings ex hex j with ht | ht
    · rw [ht] at h0; exact absurd h0 (by decide)
    · rw [Function.iterate_succ_apply'] at h1 h2
      rw [Function.iterate_succ_apply'] at h2
      exact h2 (ht.2.2.1 h0 h1)

/-- The hypotheses of the second part of `function0_parentheses` hold for the
identifier `sum0` and the bindings of the tests: `sum0` and `sum0()` parse to
the same tree and compile to the same expression. -/
theorem function0_parentheses_witness :
    (parse testEnv "sum0".toList test_lookup).map Prod.fst
      = some (.mk TE_FUNCTION0 (.function (.user 10)) [] 0) ∧
    (parse testEnv ("sum0".toList ++ ['(', ')']) test_lookup).map Prod.fst
      = some (.mk TE_FUNCTION0 (.function (.user 10)) [] 0) ∧
    te_compile testEnv ("sum0".toList ++ ['(', ')']) test_lookup
      = te_compile testEnv "sum0".toList test_lookup ∧
    ∃ ex, te_compile testEnv "sum0".toList test_lookup = some (some ex, 0) :=
  function0_parentheses.2.1 testEnv test_lookup "sum0".toList
    (function_binding "sum0" 10 TE_FUNCTION0)
    ⟨⟨'s', "um0".toList, rfl, by decide⟩, by decide⟩
    (Or.inl ⟨[variable_binding "x", variable_binding "f"],
      [function_binding "sum1" 11 TE_FUNCTION1, function_binding "sum2" 12 TE_FUNCTION2,
        function_binding "sum3" 13 TE_FUNCTION3, function_binding "sum4" 14 TE_FUNCTION4,
        function_binding "sum5" 15 TE_FUNCTION5, function_binding "sum6" 16 TE_FUNCTION6,
        function_binding "sum7" 17 TE_FUNCTION7], rfl, by decide, by decide⟩)
    (by decide)

/-! ## Functions of arity 2 to 7 -/

theorem arguments_length (E : Env) (sub : state → Option (te_expr × state)) (s s2 : state)
    (args : List te_expr) (h : arguments E sub s args s2) : 1 ≤ args.length ∧ s2.type ≠ TOK_SEP := by
  induction h with
  | last s s1 a _ hs => exact ⟨by simp, hs⟩
  | more s s1 s2 a rest _ _ _ ih => exact ⟨by simp, ih.2⟩

theorem set_parameter_slot (t : Nat) (u : te_union) (c k : Nat) (done : List te_expr)
    (p : te_expr) :
    (te_expr.mk t u (done ++ List.replicate (k + 1) .null) c).set_parameter done.length p
      = .mk t u ((done ++ [p]) ++ List.replicate k .null) c := by
  rw [List.replicate_succ]
  exact set_parameter_append t u c done _ .null p

/-- The argument loop of `base` on a list of at most `k` arguments: it stores
them in the slots, in order, and stops after the last one. -/
theorem base_args_of_arguments (E : Env) (sub : state → Option (te_expr × state))
    (t : Nat) (u : te_union) (c : Nat) (s s2 : state) (args : List te_expr)
    (h : arguments E sub s args s2) :
    ∀ (k : Nat) (done : List te_expr), args.length ≤ k →
      base_args E sub k done.length (.mk t u (done ++ List.replicate k .null) c) s
        = some (.mk t u (done ++ args ++ List.replicate (k - args.length) .null) c,
            done.length + args.length - 1, s2) := by
  induction h with
  | last s s1 a hsub hs =>
    intro k done hk
    obtain ⟨k1, rfl⟩ : ∃ k1, k = k1 + 1 := ⟨k - 1, by simp at hk; omega⟩
    rw [base_args, hsub]
    simp only []
    rw [if_pos hs, set_parameter_slot]
    simp
  | more s s1 s2 a rest hsub hs _ ih =>
    intro k done hk
    obtain ⟨k1, rfl⟩ : ∃ k1, k = k1 + 1 := ⟨k - 1, by simp at hk; omega⟩
    rw [base_args, hsub]
    simp only []
    rw [if_neg (fun hx => hx hs), set_parameter_slot]
    have := ih k1 (done ++ [a]) (by simp at hk; omega)
    rw [List.length_append, List.length_singleton] at this
    rw [this]
    simp only [List.append_assoc, List.singleton_append, List.length_cons, Nat.add_sub_add_right,
      Option.some.injEq, Prod.mk.injEq, and_true, true_and]
    omega

/-- The argument loop of `base` on a list of more than `k` arguments: it stops
after `k` arguments, on the `,` that follows. -/
theorem base_args_too_many (E : Env) (sub : state → Option (te_expr × state))
    (s s2 : state) (args : List te_expr) (h : arguments E sub s args s2) :
    ∀ (k i : Nat) (ret : te_expr), 1 ≤ k → k < args.length →
      ∃ ret1 s1, base_args E sub k i ret s = some (ret1, i + k, s1) ∧ s1.type = TOK_SEP := by
  induction h with
  | last s s1 a hsub hs =>
    intro k i ret h1 h2
    simp at h2
    omega
  | more s s1 s2 a rest hsub hs _ ih =>
    intro k i ret h1 h2
    obtain ⟨k1, rfl⟩ : ∃ k1, k = k1 + 1 := ⟨k - 1, by omega⟩
    rw [base_args, hsub]
    simp only []
    rw [if_neg (fun hx => hx hs)]
    cases k1 with
    | zero =>
      rw [base_args]
      exact ⟨_, _, rfl, hs⟩
    | succ k2 =>
      obtain ⟨ret1, s3, h3, h4⟩ := ih (k2 + 1) (i + 1) (ret.set_parameter i a) (by omega)
        (by simp at h2; omega)
      refine ⟨ret1, s3, ?_, h4⟩
      rw [h3]
      simp only [Option.some.injEq, Prod.mk.injEq, true_and, and_true]
      omega

/-- The argument loop of `base`, when it ends on a token that is no `,`, has
parsed a list of arguments and stored them in the slots, in order. -/
theorem base_args_arguments (E : Env) (sub : state → Option (te_expr × state))
    (t : Nat) (u : te_union) (c : Nat) :
    ∀ (k : Nat) (done : List te_expr) (s : state) (ret1 : te_expr) (i1 : Nat) (s2 : state),
      base_args E sub (k + 1) done.length (.mk t u (done ++ List.replicate (k + 1) .null) c) s
        = some (ret1, i1, s2) → s2.type ≠ TOK_SEP →
      ∃ args, arguments E sub s args s2 ∧ args.length ≤ k + 1 ∧
        i1 + 1 = done.length + args.length ∧
        ret1 = .mk t u (done ++ args ++ List.replicate (k + 1 - args.length) .null) c := by
  intro k
  induction k with
  | zero =>
    intro done s ret1 i1 s2 h hne
    rw [base_args] at h
    cases hs : sub (next_token E s) with
    | none => rw [hs] at h; simp at h
    | some p =>
      obtain ⟨p, s1⟩ := p
      rw [hs] at h
      simp only [] at h
      by_cases hsep : s1.type ≠ TOK_SEP
      · rw [if_pos hsep, set_parameter_slot] at h
        injection h with h; injection h with e1 h; injection h with e2 e3
        subst e1; subst e2; subst e3
        exact ⟨[p], arguments.last s s1 p hs hsep, by simp, by simp, by simp⟩
      · rw [if_neg hsep, base_args] at h
        injection h with h; injection h with e1 h; injection h with e2 e3
        subst e3
        exact absurd hne hsep
  | succ k ih =>
    intro done s ret1 i1 s2 h hne
    rw [base_args] at h
    cases hs : sub (next_token E s) with
    | none => rw [hs] at h; simp at h
    | some p =>
      obtain ⟨p, s1⟩ := p
      rw [hs] at h
      simp only [] at h
      by_cases hsep : s1.type ≠ TOK_SEP
      · rw [if_pos hsep, set_parameter_slot] at h
        injection h with h; injection h with e1 h; injection h with e2 e3
        subst e1; subst e2; subst e3
        exact ⟨[p], arguments.last s s1 p hs hsep, by simp, by simp, by simp⟩
      · rw [if_neg hsep, set_parameter_slot] at h
        have hs1 : s1.type = TOK_SEP := by
          by_contra hx; exact hsep hx
        have hlen : (done ++ [p]).length = done.length + 1 := by simp
        rw [← hlen] at h
        obtain ⟨args, a1, a2, a3, a4⟩ := ih (done ++ [p]) s1 ret1 i1 s2 h hne
        refine ⟨p :: args, arguments.more s s1 s2 p args hs hs1 a1, by simp; omega,
          by simp at a3 ⊢; omega, ?_⟩
        rw [a4]
        simp

/-- The result of `base` on the token of a function of arity 2 to 7 that `(`
and a list of arguments follow. -/
theorem base_function_arguments (E : Env) (fuel : Nat) (s s2 : state) (args : List te_expr)
    (h : TE_FUNCTION2 ≤ TYPE_MASK s.type ∧ TYPE_MASK s.type ≤ TE_FUNCTION7)
    (ho : (next_token E s).type = TOK_OPEN)
    (ha : arguments E (expr E fuel) (next_token E s) args s2) :
    (args.length = ARITY s.type → s2.type = TOK_CLOSE →
      base E (fuel + 1) s
        = some (.mk s.type (.function s.u.getFunction) args s.context, next_token E s2)) ∧
    ((args.length ≠ ARITY s.type ∨ s2.type ≠ TOK_CLOSE) →
      ∃ r s1, base E (fuel + 1) s = some (r, s1) ∧ s1.type = TOK_ERROR) := by
  have hm : TE_FUNCTION0 ≤ TYPE_MASK s.type ∧ TYPE_MASK s.type ≤ TE_FUNCTION7 :=
    ⟨le_trans (by decide) h.1, h.2⟩
  have har : 2 ≤ ARITY s.type := by
    rw [ARITY_of_mask _ hm]
    have := h.1
    simp only [TE_FUNCTION2] at this
    omega
  obtain ⟨hlen, _⟩ := arguments_length E _ _ _ _ ha
  rw [base_function_n E fuel s h, if_neg (fun hx => hx ho), new_function_node]
  by_cases hk : args.length ≤ ARITY s.type
  · have hb := base_args_of_arguments E (expr E fuel) s.type (.function s.u.getFunction)
      s.context _ _ _ ha (ARITY s.type) [] hk
    simp only [List.length_nil, List.nil_append, Nat.zero_add] at hb
    rw [hb]
    simp only []
    constructor
    · intro h1 h2
      rw [if_neg (by rw [h2, h1]; simp), h1, Nat.sub_self]
      simp
    · intro h1
      rw [if_pos (by
        rcases h1 with h1 | h1
        · exact Or.inr (by omega)
        · exact Or.inl h1)]
      exact ⟨_, _, rfl, rfl⟩
  · obtain ⟨ret1, s1, hb, hs1⟩ := base_args_too_many E (expr E fuel) _ _ _ ha (ARITY s.type) 0
      (.mk s.type (.function s.u.getFunction) (List.replicate (ARITY s.type) .null) s.context)
      (by omega) (by omega)
    rw [hb]
    simp only []
    constructor
    · intro h1; omega
    · intro _
      rw [if_pos (Or.inl (by rw [hs1]; decide))]
      exact ⟨_, _, rfl, rfl⟩

/-- What `base` has parsed when it returns without error on the token of a
function of arity 2 to 7. -/
theorem base_function_success (E : Env) (fuel : Nat) (s : state) (r : te_expr) (s1 : state)
    (h : TE_FUNCTION2 ≤ TYPE_MASK s.type ∧ TYPE_MASK s.type ≤ TE_FUNCTION7)
    (hb : base E (fuel + 1) s = some (r, s1)) (hne : s1.type ≠ TOK_ERROR) :
    (next_token E s).type = TOK_OPEN ∧
    ∃ args s2, arguments E (expr E fuel) (next_token E s) args s2 ∧
      args.length = ARITY s.type ∧ s2.type = TOK_CLOSE ∧
      r = .mk s.type (.function s.u.getFunction) args s.context ∧ s1 = next_token E s2 := by
  have hm : TE_FUNCTION0 ≤ TYPE_MASK s.type ∧ TYPE_MASK s.type ≤ TE_FUNCTION7 :=
    ⟨le_trans (by decide) h.1, h.2⟩
  have har : 2 ≤ ARITY s.type := by
    rw [ARITY_of_mask _ hm]
    have := h.1
    simp only [TE_FUNCTION2] at this
    omega
  rw [base_function_n E fuel s h] at hb
  by_cases hopen : (next_token E s).type ≠ TOK_OPEN
  · rw [if_pos hopen] at hb
    injection hb with hb; injection hb with e1 e2
    subst e2
    exact absurd rfl hne
  · rw [if_neg hopen, new_function_node] at hb
    have ho : (next_token E s).type = TOK_OPEN := by
      by_contra hx; exact hopen hx
    refine ⟨ho, ?_⟩
    cases hargs : base_args E (expr E fuel) (ARITY s.type) 0
        (.mk s.type (.function s.u.getFunction) (List.replicate (ARITY s.type) .null) s.context)
        (next_token E s) with
    | none => rw [hargs] at hb; simp at hb
    | some q =>
      obtain ⟨ret1, i, s2⟩ := q
      rw [hargs] at hb
      simp only [] at hb
      by_cases hclose : s2.type ≠ TOK_CLOSE ∨ i ≠ ARITY s.type - 1
      · rw [if_pos hclose] at hb
        injection hb with hb; injection hb with e1 e2
        subst e2
        exact absurd rfl hne
      · rw [if_neg hclose] at hb
        injection hb with hb; injection hb with e1 e2
        have hc1 : s2.type = TOK_CLOSE := by
          by_contra hx; exact hclose (Or.inl hx)
        have hc2 : i = ARITY s.type - 1 := by
          by_contra hx; exact hclose (Or.inr hx)
        obtain ⟨k, hk⟩ : ∃ k, ARITY s.type = k + 1 := ⟨ARITY s.type - 1, by omega⟩
        rw [hk] at hargs
        obtain ⟨args, a1, a2, a3, a4⟩ := base_args_arguments E (expr E fuel) s.type
          (.function s.u.getFunction) s.context k [] (next_token E s) ret1 i s2
          (by simpa using hargs) (by rw [hc1]; decide)
        simp only [List.length_nil, Nat.zero_add] at a3
        have hlen : args.length = ARITY s.type := by omega
        refine ⟨args, s2, a1, hlen, hc1, ?_, e2.symm⟩
        rw [← e1, a4, ← hk, hlen, Nat.sub_self]
        simp

/-- C13. A function of arity `n` from 2 to 7 takes a parenthesised list of
exactly `n` arguments.  On its token, `base` returns without error only when
`(` follows, then a list of exactly `n = ARITY(type)` arguments, each parsed by
`expr` and separated by `,`, then `)`; the node returned then holds the `n`
trees of the arguments as its children, in order.  Without `(`, with fewer or
more than `n` arguments, or without `)` after them, `base` sets `TOK_ERROR`.
A text that compiles has, after every token of such a function, `(`, a run of
tokens with exactly `n - 1` separators outside of inner parentheses, and `)`.
Witnesses: `sum7(2,3,4,5,6,7,8)` is 35 (and `sum2` to `sum6` likewise), the
children of `sum3(x, 2, f)` are in order, and for every arity the texts with a
missing `(`, a missing `)`, one argument less or one more do not compile. -/
theorem function_arguments_exact :
    (∀ (E : Env) (fuel : Nat) (s : state) (r : te_expr) (s1 : state),
      (TE_FUNCTION2 ≤ TYPE_MASK s.type ∧ TYPE_MASK s.type ≤ TE_FUNCTION7) →
      base E (fuel + 1) s = some (r, s1) → s1.type ≠ TOK_ERROR →
      (2 ≤ ARITY s.type ∧ ARITY s.type ≤ 7) ∧ (next_token E s).type = TOK_OPEN ∧
      ∃ args s2, arguments E (expr E fuel) (next_token E s) args s2 ∧
        args.length = ARITY s.type ∧ s2.type = TOK_CLOSE ∧
        r = .mk s.type (.function s.u.getFunction) args s.context ∧ s1 = next_token E s2) ∧
    (∀ (E : Env) (fuel : Nat) (s s2 : state) (args : List te_expr),
      (TE_FUNCTION2 ≤ TYPE_MASK s.type ∧ TYPE_MASK s.type ≤ TE_FUNCTION7) →
      (next_token E s).type = TOK_OPEN →
      arguments E (expr E fuel) (next_token E s) args s2 →
      (args.length = ARITY s.type → s2.type = TOK_CLOSE →
        base E (fuel + 1) s
          = some (.mk s.type (.function s.u.getFunction) args s.context, next_token E s2)) ∧
      ((args.length ≠ ARITY s.type ∨ s2.type ≠ TOK_CLOSE) →
        ∃ r s1, base E (fuel + 1) s = some (r, s1) ∧ s1.type = TOK_ERROR)) ∧
    (∀ (E : Env) (fuel : Nat) (s : state),
      (TE_FUNCTION2 ≤ TYPE_MASK s.type ∧ TYPE_MASK s.type ≤ TE_FUNCTION7) →
      (next_token E s).type ≠ TOK_OPEN →
      ∃ r s1, base E (fuel + 1) s = some (r, s1) ∧ s1.type = TOK_ERROR) ∧
    (∀ (E : Env) (expression : List Char) (bindings : List te_variable) (ex : te_expression)
      (j : Nat),
      te_compile E expression bindings = some (some ex, 0) →
      (TE_FUNCTION2
          ≤ TYPE_MASK ((next_token E)^[j] (next_token E (initial_state expression bindings))).type ∧
        TYPE_MASK ((next_token E)^[j] (next_token E (initial_state expression bindings))).type
          ≤ TE_FUNCTION7) →
      ((next_token E)^[j + 1] (next_token E (initial_state expression bindings))).type
        = TOK_OPEN ∧
      ∃ s1, consumes E ((next_token E)^[j + 2] (next_token E (initial_state expression bindings)))
          (ARITY ((next_token E)^[j] (next_token E (initial_state expression bindings))).type - 1)
          s1 ∧
        s1.type = TOK_CLOSE) ∧
    (["sum2(2,3)", "sum3(2,3,4)", "sum4(2,3,4,5)", "sum5(2,3,4,5,6)", "sum6(2,3,4,5,6,7)",
        "sum7(2,3,4,5,6,7,8)"].map (fun text =>
          value_of testEnv text test_lookup (fun i => if i = 0 then 2 else 5)))
      = [some 5, some 9, some 14, some 20, some 27, some 35] ∧
    tree_of testEnv "sum3(x, 2, f)" test_lookup
      = some (.mk TE_FUNCTION3 (.function (.user 13))
          [variable_node 0, constant_node 2, variable_node 1] 0) ∧
    (["sum2(1)", "sum2(1,2,3)", "sum2 1,2", "sum2(1,2", "sum3(1,2)", "sum3(1,2,3,4)", "sum3 1",
        "sum3(1,2,3", "sum4(1,2,3)", "sum4(1,2,3,4,5)", "sum4", "sum4(1,2,3,4", "sum5(1,2,3,4)",
        "sum5(1,2,3,4,5,6)", "sum5 (", "sum5(1,2,3,4,5", "sum6(1,2,3,4,5)",
        "sum6(1,2,3,4,5,6,7)", "sum6 1", "sum6(1,2,3,4,5,6", "sum7(1,2,3,4,5,6)",
        "sum7(1,2,3,4,5,6,7,8)", "sum7 1", "sum7(1,2,3,4,5,6,7"].all (fun text =>
          decide ((te_compile testEnv text.toList test_lookup).map
            (fun r => (r.1.isSome, decide (1 ≤ r.2))) = some (false, true)))) = true := by
  refine ⟨?_, ?_, ?_, ?_, by decide!, by decide!, by decide!⟩
  · intro E fuel s r s1 h hb hne
    have hm : TE_FUNCTION0 ≤ TYPE_MASK s.type ∧ TYPE_MASK s.type ≤ TE_FUNCTION7 :=
      ⟨le_trans (by decide) h.1, h.2⟩
    have har : 2 ≤ ARITY s.type ∧ ARITY s.type ≤ 7 := by
      rw [ARITY_of_mask _ hm]
      have h1 := h.1
      have h2 := h.2
      simp only [TE_FUNCTION2, TE_FUNCTION7] at h1 h2
      omega
    exact ⟨har, base_function_success E fuel s r s1 h hb hne⟩
  · intro E fuel s s2 args h ho ha
    exact base_function_arguments E fuel s s2 args h ho ha
  · intro E fuel s h ho
    rw [base_function_n E fuel s h, if_pos ho]
    exact ⟨_, _, rfl, rfl⟩
  · intro E expression bindings ex j hc hm
    rcases te_compile_tokens E expression bindings ex hc j with ht | ht
    · rw [ht] at hm; exact absurd hm (by decide)
    · obtain ⟨h1, s1, h2, h3⟩ := ht.2.2.2 hm
      rw [Function.iterate_succ_apply', Function.iterate_succ_apply',
        Function.iterate_succ_apply']
      exact ⟨h1, s1, h2, h3⟩

/-- The hypotheses of the second part of `function_arguments_exact` hold on
the text `sum2(2,3)` with the bindings of the tests: the two arguments are
parsed in order and `base` returns the node of `sum2` over them. -/
theorem function_arguments_exact_witness :
    base testEnv 6
        { token_state "sum2(2,3)" "(2,3)" TE_FUNCTION2 (.function (.user 12)) with
          lookup := test_lookup }
      = some (.mk TE_FUNCTION2 (.function (.user 12)) [constant_node 2, constant_node 3] 0,
          { token_state "sum2(2,3)" "" TOK_END (.value 3) with lookup := test_lookup }) :=
  (function_arguments_exact.2.1 testEnv 5
    { token_state "sum2(2,3)" "(2,3)" TE_FUNCTION2 (.function (.user 12)) with
      lookup := test_lookup }
    { token_state "sum2(2,3)" "" TOK_CLOSE (.value 3) with lookup := test_lookup }
    [constant_node 2, constant_node 3] (by decide) (by decide!)
    (arguments.more _
      { token_state "sum2(2,3)" "3)" TOK_SEP (.value 2) with lookup := test_lookup } _ _ _
      (by decide!) (by decide)
      (arguments.last _ _ _ (by decide!) (by decide)))).1 (by decide) (by decide)

/-! ## The tokens of a text followed by a parenthesis -/

theorem next_token_symbol_move (s : state) (start next : List Char) (x : Char) :
    next_token_symbol (s.move start next) x = (next_token_symbol s x).move start next := by
  unfold next_token_symbol
  by_cases h : x = '+'
  · rw [if_pos h, if_pos h]; rfl
  rw [if_neg h, if_neg h]; clear h
  by_cases h : x = '-'
  · rw [if_pos h, if_pos h]; rfl
  rw [if_neg h, if_neg h]; clear h
  by_cases h : x = '*'
  · rw [if_pos h, if_pos h]; rfl
  rw [if_neg h, if_neg h]; clear h
  by_cases h : x = '/'
  · rw [if_pos h, if_pos h]; rfl
  rw [if_neg h, if_neg h]; clear h
  by_cases h : x = '^'
  · rw [if_pos h, if_pos h]; rfl
  rw [if_neg h, if_neg h]; clear h
  by_cases h : x = '%'
  · rw [if_pos h, if_pos h]; rfl
  rw [if_neg h, if_neg h]; clear h
  by_cases h : x = '('
  · rw [if_pos h, if_pos h]; rfl
  rw [if_neg h, if_neg h]; clear h
  by_cases h : x = ')'
  · rw [if_pos h, if_pos h]; rfl
  rw [if_neg h, if_neg h]; clear h
  by_cases h : x = ','
  · rw [if_pos h, if_pos h]; rfl
  rw [if_neg h, if_neg h]; clear h
  by_cases h : x = ' ' ∨ x = '\t' ∨ x = '\n' ∨ x = '\r'
  · rw [if_pos h, if_pos h]
  rw [if_neg h, if_neg h]
  rfl

theorem takeWhile_append_char (p : Char → Bool) (l : List Char) (c : Char) (hc : p c = false) :
    (l ++ [c]).takeWhile p = l.takeWhile p ∧ (l ++ [c]).dropWhile p = l.dropWhile p ++ [c] := by
  induction l with
  | nil => simp [List.takeWhile, List.dropWhile, hc]
  | cons a l ih =>
    by_cases ha : p a = true
    · rw [List.cons_append, List.takeWhile_cons_of_pos ha, List.takeWhile_cons_of_pos ha,
        List.dropWhile_cons_of_pos ha, List.dropWhile_cons_of_pos ha, ih.1, ih.2]
      exact ⟨rfl, rfl⟩
    · rw [List.cons_append, List.takeWhile_cons_of_neg ha, List.takeWhile_cons_of_neg ha,
        List.dropWhile_cons_of_neg ha, List.dropWhile_cons_of_neg ha]
      exact ⟨rfl, rfl⟩

theorem paren_not_ident (c : Char) (hc : c = '(' ∨ c = ')') :
    is_ident c = false ∧ is_lower c = false ∧ (is_digit c || c == '.') = false ∧ c ≠ '\x00' := by
  rcases hc with h | h <;> subst h <;> decide

/-- One iteration of the tokenizer loop on a text followed by the parenthesis
`c`: at the end of the text proper the token is the parenthesis; before it, the
iteration does what it does on the text proper. -/
theorem next_token_step_append (E : Env) (c : Char) (hc : c = '(' ∨ c = ')')
    (hE : strtod_stable E c) (s : state) (start : List Char) (hs : s.type = TOK_NULL)
    (h0 : '\x00' ∉ s.next) :
    (s.next = [] →
      next_token_step E (s.move start (s.next ++ [c]))
        = symbol_token (s.move start []) [] (paren_type c)) ∧
    (s.next ≠ [] →
      next_token_step E (s.move start (s.next ++ [c]))
        = (next_token_step E s).move start ((next_token_step E s).next ++ [c])) := by
  obtain ⟨p1, p2, p3, p4⟩ := paren_not_ident c hc
  constructor
  · intro hn
    rw [hn]
    unfold next_token_step
    simp only [state.move, List.nil_append]
    rw [if_neg p4, p3, if_neg (by decide), p2, if_neg (by decide)]
    rcases hc with h | h <;> subst h <;> rfl
  · intro hn
    cases hnext : s.next with
    | nil => exact absurd hnext hn
    | cons x rest =>
      have hx : x ≠ '\x00' := by
        intro e
        apply h0
        rw [hnext, e]
        exact List.mem_cons_self _ _
      have e1 : next_token_step E (s.move start (x :: rest ++ [c]))
          = if (is_digit x || x == '.') = true then
              { s.move start (x :: rest ++ [c]) with
                u := .value (E.strtod (x :: rest ++ [c])).1,
                next := (x :: rest ++ [c]).drop (E.strtod (x :: rest ++ [c])).2,
                type := TOK_NUMBER }
            else if is_lower x = true then next_token_identifier (s.move start (x :: rest ++ [c]))
            else next_token_symbol { s.move start (x :: rest ++ [c]) with next := rest ++ [c] } x := by
        unfold next_token_step
        simp only [state.move, List.cons_append]
        rw [if_neg hx]
      have e2 : next_token_step E s
          = if (is_digit x || x == '.') = true then
              { s with u := .value (E.strtod (x :: rest)).1,
                       next := (x :: rest).drop (E.strtod (x :: rest)).2, type := TOK_NUMBER }
            else if is_lower x = true then next_token_identifier s
            else next_token_symbol { s with next := rest } x := by
        unfold next_token_step
        simp only [hnext]
        rw [if_neg hx]
      rw [e1, e2]
      by_cases h1 : (is_digit x || x == '.') = true
      · rw [if_pos h1, if_pos h1]
        obtain ⟨a1, a2⟩ := hE x rest h1
        have ea : x :: rest ++ [c] = x :: (rest ++ [c]) := rfl
        rw [a1]
        simp only [state.move]
        rw [List.drop_append_of_le_length a2]
      · rw [if_neg h1, if_neg h1]
        by_cases h2 : is_lower x = true
        · rw [if_pos h2, if_pos h2]
          obtain ⟨b1, b2⟩ := takeWhile_append_char is_ident (x :: rest) c p1
          have hm := next_token_identifier_move s start (x :: rest ++ [c]) (by rw [b1, hnext])
          rw [hm, b2]
          have hd : (next_token_identifier s).next = (x :: rest).dropWhile is_ident := by
            rw [(next_token_identifier_spec s hs).2.1, hnext]
          rw [hd]
        · rw [if_neg h2, if_neg h2]
          have hm := next_token_symbol_move { s with next := rest } start (rest ++ [c]) x
          have hn2 : (next_token_symbol { s with next := rest } x).next = rest :=
            (next_token_symbol_spec { s with next := rest } x hs).2.1
          rw [hn2]
          exact hm

theorem not_mem_of_suffix (a b : List Char) (h : a <:+ b) (h0 : '\x00' ∉ b) : '\x00' ∉ a :=
  fun hx => h0 (h.subset hx)

/-- The tokenizer loop on a text followed by the parenthesis `c`: it returns
the token of the text proper, with the parenthesis still to read, or the
parenthesis when the text proper is at its end. -/
theorem next_token_loop_append (E : Env) (c : Char) (hc : c = '(' ∨ c = ')')
    (hE : strtod_stable E c) (start : List Char) :
    ∀ (fuel fuel1 : Nat) (s : state), s.type = TOK_NULL → '\x00' ∉ s.next →
      s.next.length < fuel → s.next.length + 1 < fuel1 →
      ((next_token_loop E fuel s).type ≠ TOK_END →
        next_token_loop E fuel1 (s.move start (s.next ++ [c]))
          = (next_token_loop E fuel s).move start ((next_token_loop E fuel s).next ++ [c])) ∧
      ((next_token_loop E fuel s).type = TOK_END →
        next_token_loop E fuel1 (s.move start (s.next ++ [c]))
          = symbol_token ((next_token_loop E fuel s).move start []) [] (paren_type c)) := by
  intro fuel
  induction fuel with
  | zero => intro fuel1 s _ _ h; omega
  | succ fuel ih =>
    intro fuel1 s hs h0 hf hf1
    obtain ⟨f1, rfl⟩ : ∃ f1, fuel1 = f1 + 1 := ⟨fuel1 - 1, by omega⟩
    obtain ⟨a1, a2⟩ := next_token_step_append E c hc hE s start hs h0
    have hp : paren_type c ≠ TOK_NULL := by
      unfold paren_type; split_ifs <;> decide
    by_cases hn : s.next = []
    · have e1 : next_token_step E s = { s with type := TOK_END } := by
        unfold next_token_step
        simp only [hn]
      have e2 : next_token_loop E (fuel + 1) s = { s with type := TOK_END } := by
        rw [next_token_loop_stop E fuel s (by rw [e1]; exact (by decide : TOK_END ≠ TOK_NULL)), e1]
      have e3 : next_token_loop E (f1 + 1) (s.move start (s.next ++ [c]))
          = symbol_token (s.move start []) [] (paren_type c) := by
        rw [next_token_loop_stop E f1 _ (by rw [a1 hn]; exact hp), a1 hn]
      rw [e2, e3]
      exact ⟨fun h => absurd rfl h, fun _ => rfl⟩
    · have hstep := a2 hn
      obtain ⟨b1, b2, b3, b4, b5⟩ := next_token_step_spec E s hs
      by_cases hnull : (next_token_step E s).type = TOK_NULL
      · have e2 : next_token_loop E (fuel + 1) s = next_token_loop E fuel (next_token_step E s) := by
          rw [next_token_loop, if_pos hnull]
        have e3 : next_token_loop E (f1 + 1) (s.move start (s.next ++ [c]))
            = next_token_loop E f1
                ((next_token_step E s).move start ((next_token_step E s).next ++ [c])) := by
          rw [next_token_loop, hstep, if_pos (by exact hnull)]
        rw [e2, e3]
        rw [hnull, weight_null] at b2
        exact ih f1 (next_token_step E s) hnull (not_mem_of_suffix _ _ b5 h0) (by omega) (by omega)
      · have e2 : next_token_loop E (fuel + 1) s = next_token_step E s :=
          next_token_loop_stop E fuel s hnull
        have e3 : next_token_loop E (f1 + 1) (s.move start (s.next ++ [c]))
            = (next_token_step E s).move start ((next_token_step E s).next ++ [c]) := by
          rw [next_token_loop_stop E f1 _ (by rw [hstep]; exact hnull), hstep]
        rw [e2, e3]
        refine ⟨fun _ => rfl, fun hend => ?_⟩
        rcases (next_token_step_end E s hs hend).1 with h | ⟨r, h⟩
        · exact absurd h hn
        · exfalso
          apply h0
          rw [h]
          exact List.mem_cons_self _ _

/-- The tokenizer on a text followed by the parenthesis `c`. -/
theorem next_token_append (E : Env) (c : Char) (hc : c = '(' ∨ c = ')')
    (hE : strtod_stable E c) (start : List Char) (s : state) (h0 : '\x00' ∉ s.next) :
    ((next_token E s).type ≠ TOK_END →
      next_token E (s.move start (s.next ++ [c]))
        = (next_token E s).move start ((next_token E s).next ++ [c])) ∧
    ((next_token E s).type = TOK_END →
      next_token E (s.move start (s.next ++ [c]))
        = symbol_token ((next_token E s).move start []) [] (paren_type c)) := by
  have h := next_token_loop_append E c hc hE start (s.next.length + 1)
    ((s.next ++ [c]).length + 1) { s with type := TOK_NULL } rfl h0 (by simp) (by simp)
  exact h

theorem iterate_next_suffix (E : Env) (s : state) : ∀ j, ((next_token E)^[j] s).next <:+ s.next := by
  intro j
  induction j with
  | zero => exact List.suffix_refl _
  | succ j ih =>
    rw [Function.iterate_succ_apply']
    exact (next_token_spec E _).2.2.2.2.2.trans ih

/-- The tokens of a text followed by the parenthesis `c` are the tokens of the
text proper, as long as these are not the end of the text. -/
theorem iterate_append (E : Env) (c : Char) (hc : c = '(' ∨ c = ')')
    (hE : strtod_stable E c) (start : List Char) (s : state) (h0 : '\x00' ∉ s.next) :
    ∀ j, (∀ i, 1 ≤ i → i ≤ j → ((next_token E)^[i] s).type ≠ TOK_END) →
      (next_token E)^[j] (s.move start (s.next ++ [c]))
        = ((next_token E)^[j] s).move start (((next_token E)^[j] s).next ++ [c]) := by
  intro j
  induction j with
  | zero => intro _; rfl
  | succ j ih =>
    intro h
    rw [Function.iterate_succ_apply', ih (fun i h1 h2 => h i h1 (by omega)),
      Function.iterate_succ_apply']
    exact (next_token_append E c hc hE start _
      (not_mem_of_suffix _ _ (iterate_next_suffix E s j) h0)).1
      (by
        have := h (j + 1) (by omega) (le_refl _)
        rw [Function.iterate_succ_apply'] at this
        exact this)

theorem depth_congr (E : Env) : ∀ (k : Nat) (s s1 : state),
    (∀ j, j < k → ((next_token E)^[j] s).type = ((next_token E)^[j] s1).type) →
    depth E s k = depth E s1 k := by
  intro k
  induction k with
  | zero => intro s s1 _; rfl
  | succ k ih =>
    intro s s1 h
    rw [depth, depth, ih (next_token E s) (next_token E s1) (fun j hj => by
      have := h (j + 1) (by omega)
      rw [Function.iterate_succ_apply, Function.iterate_succ_apply] at this
      exact this)]
    have := h 0 (by omega)
    simp only [Function.iterate_zero, id_eq] at this
    rw [this]

theorem depth_succ_last (E : Env) : ∀ (k : Nat) (s : state),
    depth E s (k + 1) = depth E s k + paren_weight ((next_token E)^[k] s).type := by
  intro k
  induction k with
  | zero => intro s; simp [depth]
  | succ k ih =>
    intro s
    rw [depth, ih (next_token E s), depth, Function.iterate_succ_apply]
    ring

theorem paren_weight_paren (c : Char) : paren_weight (paren_type c) ≠ 0 := by
  unfold paren_type
  split_ifs <;> decide

/-- A text that compiles does not compile any more when a parenthesis is
appended to it. -/
theorem te_compile_append_paren (E : Env) (c : Char) (hc : c = '(' ∨ c = ')')
    (hE : strtod_stable E c) (expression : List Char) (bindings : List te_variable)
    (ex : te_expression) (h0 : '\x00' ∉ expression)
    (h : te_compile E expression bindings = some (some ex, 0)) :
    ∀ ex1, te_compile E (expression ++ [c]) bindings ≠ some (some ex1, 0) := by
  intro ex1 h1
  obtain ⟨k, hk, hend⟩ := te_compile_runs E expression bindings ex h
  obtain ⟨k1, hk1, hend1⟩ := te_compile_runs E (expression ++ [c]) bindings ex1 h1
  have hinit : initial_state (expression ++ [c]) bindings
      = (initial_state expression bindings).move (expression ++ [c])
          ((initial_state expression bindings).next ++ [c]) := rfl
  rw [hinit] at hk1 hend1
  obtain ⟨_, hok, hd⟩ := hk
  obtain ⟨_, hok1, hd1⟩ := hk1
  simp only [← Function.iterate_succ_apply, Nat.succ_eq_add_one] at hok hok1 hend hend1
  have hA : ∀ i, 1 ≤ i → i ≤ k →
      ((next_token E)^[i] (initial_state expression bindings)).type ≠ TOK_END := by
    intro i h1 h2
    obtain ⟨j, rfl⟩ : ∃ j, i = j + 1 := ⟨i - 1, by omega⟩
    exact (hok j (by omega)).2.1
  have hB : ∀ i, i ≤ k →
      (next_token E)^[i] ((initial_state expression bindings).move (expression ++ [c])
          ((initial_state expression bindings).next ++ [c]))
        = ((next_token E)^[i] (initial_state expression bindings)).move (expression ++ [c])
            (((next_token E)^[i] (initial_state expression bindings)).next ++ [c]) :=
    fun i hi => iterate_append E c hc hE _ _ h0 i (fun j h1 h2 => hA j h1 (by omega))
  have hD : (next_token E)^[k + 1] ((initial_state expression bindings).move (expression ++ [c])
          ((initial_state expression bindings).next ++ [c]))
        = symbol_token (((next_token E)^[k + 1] (initial_state expression bindings)).move
            (expression ++ [c]) []) [] (paren_type c) := by
    rw [Function.iterate_succ_apply', hB k (le_refl _), Function.iterate_succ_apply']
    refine (next_token_append E c hc hE _ _
      (not_mem_of_suffix _ _ (iterate_next_suffix E _ k) h0)).2 ?_
    rw [← Function.iterate_succ_apply' (next_token E) k]
    exact hend
  have hp : paren_type c ≠ TOK_END := by
    unfold paren_type; split_ifs <;> decide
  have hEnd : ((next_token E)^[k + 2] ((initial_state expression bindings).move
      (expression ++ [c]) ((initial_state expression bindings).next ++ [c]))).type = TOK_END := by
    rw [Function.iterate_succ_apply', hD, next_token_end E _ rfl]
  have hk1 : k1 = k + 1 := by
    by_contra hne
    rcases Nat.lt_or_gt_of_ne hne with hlt | hgt
    · by_cases hkk : k1 + 1 ≤ k
      · have := hB (k1 + 1) hkk
        rw [this] at hend1
        exact hA (k1 + 1) (by omega) hkk hend1
      · have e : k1 + 1 = k + 1 := by omega
        rw [e, hD] at hend1
        exact hp hend1
    · exact (hok1 (k + 1) hgt).2.1 hEnd
  subst hk1
  rw [depth_succ_last] at hd1
  have hcongr := depth_congr E k
    (next_token E ((initial_state expression bindings).move (expression ++ [c])
      ((initial_state expression bindings).next ++ [c])))
    (next_token E (initial_state expression bindings)) (fun j hj => by
      rw [← Function.iterate_succ_apply, ← Function.iterate_succ_apply, hB (j + 1) (by omega)]
      rfl)
  rw [hcongr, hd, ← Function.iterate_succ_apply, hD, zero_add] at hd1
  exact paren_weight_paren c hd1

/-! ## The decimal `strtod` and a parenthesis after the text -/

theorem takeWhile_length_le (p : Char → Bool) (l : List Char) :
    (l.takeWhile p).length ≤ l.length := by
  induction l with
  | nil => simp
  | cons a l ih =>
    by_cases ha : p a = true
    · rw [List.takeWhile_cons_of_pos ha]
      simp only [List.length_cons]
      omega
    · rw [List.takeWhile_cons_of_neg ha]
      simp

theorem strtod_exponent_append (t : List Char) (c : Char) (hd : is_digit c = false)
    (h1 : c ≠ 'e') (h2 : c ≠ 'E') (h3 : c ≠ '+') (h4 : c ≠ '-') :
    strtod_exponent (t ++ [c]) = strtod_exponent t := by
  cases t with
  | nil => simp [strtod_exponent, h1, h2]
  | cons x r =>
    by_cases hx : x = 'e' ∨ x = 'E'
    · cases r with
      | nil =>
        simp only [List.cons_append, List.nil_append, strtod_exponent, if_pos hx]
        split
        · rename_i r1 heq
          injection heq with e1 e2
          exact absurd e1 h3
        · rename_i r1 heq
          injection heq with e1 e2
          exact absurd e1 h4
        · simp [List.takeWhile, hd]
      | cons y r1 =>
        have tw := (takeWhile_append_char is_digit r1 c hd).1
        have tw2 := (takeWhile_append_char is_digit (y :: r1) c hd).1
        by_cases hy1 : y = '+'
        · subst hy1
          simp only [List.cons_append, strtod_exponent, if_pos hx, tw]
        · by_cases hy2 : y = '-'
          · subst hy2
            simp only [List.cons_append, strtod_exponent, if_pos hx, tw]
          · rw [List.cons_append] at tw2
            have e1 : strtod_exponent (x :: y :: (r1 ++ [c]))
                = if ((y :: (r1 ++ [c])).takeWhile is_digit).length = 0 then (0, 0)
                  else ((digits_value ((y :: (r1 ++ [c])).takeWhile is_digit) : Int),
                    1 + ((y :: (r1 ++ [c])).takeWhile is_digit).length) := by
              rw [strtod_exponent, if_pos hx]
              · intro r2 heq; injection heq with e1 _; exact hy1 e1
              · intro r2 heq; injection heq with e1 _; exact hy2 e1
            have e2 : strtod_exponent (x :: y :: r1)
                = if ((y :: r1).takeWhile is_digit).length = 0 then (0, 0)
                  else ((digits_value ((y :: r1).takeWhile is_digit) : Int),
                    1 + ((y :: r1).takeWhile is_digit).length) := by
              rw [strtod_exponent, if_pos hx]
              · intro r2 heq; injection heq with e1 _; exact hy1 e1
              · intro r2 heq; injection heq with e1 _; exact hy2 e1
            show strtod_exponent (x :: y :: (r1 ++ [c])) = _
            rw [e1, e2, tw2]
    · simp only [List.cons_append, strtod_exponent, if_neg hx]

theorem strtod_exponent_length (t : List Char) : (strtod_exponent t).2 ≤ t.length := by
  cases t with
  | nil => simp [strtod_exponent]
  | cons x r =>
    by_cases hx : x = 'e' ∨ x = 'E'
    · cases r with
      | nil => simp [strtod_exponent, hx]
      | cons y r1 =>
        have l1 := takeWhile_length_le is_digit r1
        have l2 := takeWhile_length_le is_digit (y :: r1)
        simp only [List.length_cons] at l2 ⊢
        by_cases hy1 : y = '+'
        · subst hy1
          simp only [strtod_exponent, if_pos hx]
          split_ifs
          · simp
          · simp only []; omega
        · by_cases hy2 : y = '-'
          · subst hy2
            simp only [strtod_exponent, if_pos hx]
            split_ifs
            · simp
            · simp only []; omega
          · have e2 : strtod_exponent (x :: y :: r1)
                = if ((y :: r1).takeWhile is_digit).length = 0 then (0, 0)
                  else ((digits_value ((y :: r1).takeWhile is_digit) : Int),
                    1 + ((y :: r1).takeWhile is_digit).length) := by
              rw [strtod_exponent, if_pos hx]
              · intro r2 heq; injection heq with e1 _; exact hy1 e1
              · intro r2 heq; injection heq with e1 _; exact hy2 e1
            rw [e2]
            split_ifs
            · simp
            · simp only []; omega
    · simp [strtod_exponent, hx]

theorem strtod_match_default {α : Type} (y : Char) (r : List Char) (hy : y ≠ '.')
    (f : List Char → α) (g : List Char → α) :
    strtod_decimal.match_1 (fun _ => α) (y :: r) f g = g (y :: r) := by
  unfold strtod_decimal.match_1
  simp only []
  rw [dif_neg hy]

theorem strtod_match_nil {α : Type} (f : List Char → α) (g : List Char → α) :
    strtod_decimal.match_1 (fun _ => α) [] f g = g [] := rfl

theorem strtod_match_point {α : Type} (r : List Char) (f : List Char → α) (g : List Char → α) :
    strtod_decimal.match_1 (fun _ => α) ('.' :: r) f g = f r := rfl

theorem strtod_decimal_append (t : List Char) (c : Char) (hd : is_digit c = false)
    (h0 : c ≠ '.') (h1 : c ≠ 'e') (h2 : c ≠ 'E') (h3 : c ≠ '+') (h4 : c ≠ '-') :
    strtod_decimal (t ++ [c]) = strtod_decimal t := by
  obtain ⟨a1, a2⟩ := takeWhile_append_char is_digit t c hd
  unfold strtod_decimal
  simp only [a1, a2]
  cases hr : t.dropWhile is_digit with
  | nil =>
    have e := strtod_exponent_append [] c hd h1 h2 h3 h4
    simp only [List.nil_append] at e
    simp only [List.nil_append, strtod_match_default c [] h0, strtod_match_nil, e]
  | cons y r =>
    by_cases hy : y = '.'
    · subst hy
      obtain ⟨b1, b2⟩ := takeWhile_append_char is_digit r c hd
      simp only [List.cons_append, strtod_match_point, b1, b2,
        strtod_exponent_append (r.dropWhile is_digit) c hd h1 h2 h3 h4]
    · have e := strtod_exponent_append (y :: r) c hd h1 h2 h3 h4
      rw [List.cons_append] at e
      simp only [List.cons_append, strtod_match_default y _ hy, e]

theorem strtod_decimal_length (t : List Char) : (strtod_decimal t).2 ≤ t.length := by
  have hsplit : t.length = (t.takeWhile is_digit).length + (t.dropWhile is_digit).length := by
    conv_lhs => rw [← List.takeWhile_append_dropWhile is_digit t]
    rw [List.length_append]
  unfold strtod_decimal
  simp only []
  cases hr : t.dropWhile is_digit with
  | nil =>
    rw [hr] at hsplit
    simp only [List.length_nil, Nat.add_zero] at hsplit
    simp only [strtod_match_nil]
    split_ifs
    · simp
    · simp [strtod_exponent]
      omega
  | cons y r =>
    rw [hr] at hsplit
    simp only [List.length_cons] at hsplit
    by_cases hy : y = '.'
    · subst hy
      have hs2 : r.length = (r.takeWhile is_digit).length + (r.dropWhile is_digit).length := by
        conv_lhs => rw [← List.takeWhile_append_dropWhile is_digit r]
        rw [List.length_append]
      have he := strtod_exponent_length (r.dropWhile is_digit)
      simp only [strtod_match_point]
      split_ifs
      · simp
      · simp only []
        omega
    · have he := strtod_exponent_length (y :: r)
      simp only [List.length_cons] at he
      simp only [strtod_match_default y r hy]
      split_ifs
      · simp
      · simp only [List.length_nil]
        omega

/-- The decimal `strtod` of `exactEnv` meets `strtod_stable`. -/
theorem strtod_stable_exactEnv (c : Char) (hc : c = '(' ∨ c = ')') : strtod_stable exactEnv c := by
  intro d t _
  have hd : is_digit c = false ∧ c ≠ '.' ∧ c ≠ 'e' ∧ c ≠ 'E' ∧ c ≠ '+' ∧ c ≠ '-' := by
    rcases hc with h | h <;> subst h <;> decide
  obtain ⟨d1, d2, d3, d4, d5, d6⟩ := hd
  exact ⟨strtod_decimal_append (d :: t) c d1 d2 d3 d4 d5 d6, strtod_decimal_length (d :: t)⟩

/-- C18. Trailing input is an error.  When `list` returns at top level without
`TOK_ERROR` but the current token is not `TOK_END`, `te_compile` returns no
expression and an offset that is not 0.  So for every text that compiles, the
text followed by `)` and the text followed by `(` do not compile: the
parentheses of a text that compiles are balanced (here `strtod` is assumed not
to read a parenthesis nor past the end of the text, as the decimal `strtod` of
`exactEnv` does, and the text to hold no terminator).  Witnesses: on `1)` the
parse ends on `)` and on `1*2(1+4` on `(`, and neither compiles. -/
theorem trailing_input_fails :
    (∀ (E : Env) (expression : List Char) (bindings : List te_variable) (root : te_expr)
      (s : state),
      parse E expression bindings = some (root, s) → s.type ≠ TOK_ERROR → s.type ≠ TOK_END →
      ∃ e, te_compile E expression bindings = some (none, e) ∧ 1 ≤ e) ∧
    (∀ (E : Env) (c : Char) (expression : List Char) (bindings : List te_variable)
      (ex : te_expression),
      (c = '(' ∨ c = ')') → strtod_stable E c → '\x00' ∉ expression →
      te_compile E expression bindings = some (some ex, 0) →
      ∃ e, te_compile E (expression ++ [c]) bindings = some (none, e) ∧ 1 ≤ e) ∧
    (strtod_stable exactEnv '(' ∧ strtod_stable exactEnv ')') ∧
    (parse exactEnv "1)".toList []).map (fun p => (p.1, p.2.type))
      = some (constant_node 1, TOK_CLOSE) ∧
    te_compile exactEnv "1)".toList [] = some (none, 2) ∧
    (parse exactEnv "1*2(1+4".toList []).map (fun p => (p.1, p.2.type))
      = some (binary_node .mul (constant_node 1) (constant_node 2), TOK_OPEN) ∧
    te_compile exactEnv "1*2(1+4".toList [] = some (none, 4) := by
  refine ⟨?_, ?_, ⟨strtod_stable_exactEnv _ (Or.inl rfl), strtod_stable_exactEnv _ (Or.inr rfl)⟩,
    by decide!, by decide!, by decide!, by decide!⟩
  · intro E expression bindings root s hp _ hend
    refine ⟨_, by unfold te_compile; simp only [hp]; rw [if_pos hend], ?_⟩
    split_ifs <;> omega
  · intro E c expression bindings ex hc hE h0 h
    exact te_compile_fails E _ bindings
      (te_compile_append_paren E c hc hE expression bindings ex h0 h)

/-- The hypotheses of the second part of `trailing_input_fails` hold for the
text `1+2` and the parenthesis `)`: the text compiles, and `1+2)` does not. -/
theorem trailing_input_fails_witness :
    ∃ e, te_compile exactEnv ("1+2".toList ++ [')']) [] = some (none, e) ∧ 1 ≤ e :=
  trailing_input_fails.2.1 exactEnv ')' "1+2".toList []
    (new_expression [] (.mk TE_CONSTANT (.value 3) [] 0)) (Or.inr rfl)
    (strtod_stable_exactEnv _ (Or.inr rfl)) (by decide) (by decide!)

/-! ## The callables of the operators -/

/-- C22. Operator callables.  For all arguments `a`, `b` (and every context
pointer), over exact arithmetic: `add` returns `a + b` and writes the local
gradient `[1, 1]`; `sub` returns `a - b` and writes `[1, -1]`; `mul` returns
`a * b` and writes `[b, a]`; `divide`, for `b` other than 0, returns `a / b`
and writes `[1 / b, -a / b^2]`; `negate` returns `-a` and writes `[-1]`;
`comma` returns `b` and writes `[0, 1]`. -/
theorem operator_callables (E : Env) (p : Nat) (a b : ℚ) :
    ((call E .add p (args [a, b])).1 = a + b ∧
      (call E .add p (args [a, b])).2 0 = 1 ∧ (call E .add p (args [a, b])).2 1 = 1) ∧
    ((call E .sub p (args [a, b])).1 = a - b ∧
      (call E .sub p (args [a, b])).2 0 = 1 ∧ (call E .sub p (args [a, b])).2 1 = -1) ∧
    ((call E .mul p (args [a, b])).1 = a * b ∧
      (call E .mul p (args [a, b])).2 0 = b ∧ (call E .mul p (args [a, b])).2 1 = a) ∧
    (b ≠ 0 →
      (call E .divide p (args [a, b])).1 = a / b ∧
      (call E .divide p (args [a, b])).2 0 = 1 / b ∧
      (call E .divide p (args [a, b])).2 1 = -a / b ^ 2) ∧
    ((call E .negate p (args [a])).1 = -a ∧ (call E .negate p (args [a])).2 0 = -1) ∧
    ((call E .comma p (args [a, b])).1 = b ∧
      (call E .comma p (args [a, b])).2 0 = 0 ∧ (call E .comma p (args [a, b])).2 1 = 1) := by
  have e0 : args [a, b] 0 = a := rfl
  have e1 : args [a, b] 1 = b := rfl
  have e2 : args [a] 0 = a := rfl
  refine ⟨⟨?_, ?_, ?_⟩, ⟨?_, ?_, ?_⟩, ⟨?_, ?_, ?_⟩, ?_, ⟨?_, ?_⟩, ⟨?_, ?_, ?_⟩⟩
  · simp only [call, e0, e1]
  · simp [call, df2, df0]
  · simp [call, df2, df0]
  · simp only [call, e0, e1]
  · simp [call, df2, df0]
  · simp [call, df2, df0]
  · simp only [call, e0, e1]
  · simp [call, df2, df0, e1]
  · simp [call, df2, df0, e0]
  · intro hb
    refine ⟨?_, ?_, ?_⟩
    · simp only [call, e0, e1]; field_simp
    · simp [call, df2, df0, e1]
    · simp only [call, e0, e1, df2, Function.update_same]; field_simp; left; ring
  · simp only [call, e2]
  · simp [call, df1, df0]
  · simp only [call, e1]
  · simp [call, df2, df0]
  · simp [call, df2, df0]

/-- The hypothesis of `operator_callables` holds for `a = 6` and `b = 3`:
`divide` returns 2 and writes the local gradient `[1/3, -2/3]`. -/
theorem operator_callables_witness :
    (3 : ℚ) ≠ 0 ∧
    (call exactEnv .divide 0 (args [6, 3])).1 = 6 / 3 ∧
    (call exactEnv .divide 0 (args [6, 3])).2 0 = 1 / 3 ∧
    (call exactEnv .divide 0 (args [6, 3])).2 1 = -6 / 3 ^ 2 :=
  ⟨by norm_num, (operator_callables exactEnv 0 6 3).2.2.2.1 (by norm_num)⟩

/-- C28 (what the code does). The callable `te_wrapped_fmod` of the operator
`%` returns the remainder `r = fmod(a, b)` and writes the local gradient
`[1, -r]`: the second entry is the negated remainder, not the negated truncated
quotient.  For `a = 7`, `b = 2` the remainder is 1 and the truncated quotient
is 3; the callable writes `[1, -1]`, and `te_eval` on the text `a%b` returns
the value 1 with the gradient `[1, -1]`. -/
theorem fmod_gradient_is_remainder :
    (∀ (E : Env) (p : Nat) (a b : ℚ),
      (call E .te_wrapped_fmod p (args [a, b])).1 = E.fmod a b ∧
      (call E .te_wrapped_fmod p (args [a, b])).2 0 = 1 ∧
      (call E .te_wrapped_fmod p (args [a, b])).2 1 = -(E.fmod a b)) ∧
    fmod_exact 7 2 = 1 ∧ trunc (7 / 2) = 3 ∧
    (call fmodEnv .te_wrapped_fmod 0 (args [7, 2])).2 0 = 1 ∧
    (call fmodEnv .te_wrapped_fmod 0 (args [7, 2])).2 1 = -1 ∧
    (te_compile fmodEnv "a%b".toList [variable_binding "a", variable_binding "b"]).bind
      (fun r => r.1.bind (fun ex =>
        (te_eval fmodEnv ex (some (args [7, 2])) (some (fun _ => 0))).map
          (fun v => (v.1, v.2.map (fun g => (g 0, g 1))))))
      = some (1, some (1, -1)) := by
  refine ⟨?_, by decide!, by decide!, by decide!, by decide!, by decide!⟩
  intro E p a b
  have e0 : args [a, b] 0 = a := rfl
  have e1 : args [a, b] 1 = b := rfl
  refine ⟨?_, ?_, ?_⟩
  · simp only [call, e0, e1]
  · simp [call, df2, df0]
  · simp [call, df2, df0, e0, e1]

/-! ## Purity of the caller's functions -/

/-- A function node whose type lacks `TE_FLAG_PURE` is left as it is by `optimize`. -/
theorem optimize_impure (E : Env) (expr : te_expression) (t : Nat) (u : te_union)
    (ps : List te_expr) (c : Nat)
    (hm : TE_FUNCTION0 ≤ TYPE_MASK t ∧ TYPE_MASK t ≤ TE_FUNCTION7) (hp : IS_PURE t = false) :
    optimize E expr (.mk t u ps c) = some (.mk t u ps c) := by
  rw [optimize, if_neg (type_ne_of_mask t hm).1, if_neg (type_ne_of_mask t hm).2, hp]
  rfl

/-- The loop of `optimize` over constant nodes leaves them and sets `known`. -/
theorem optimize_parameters_constants (E : Env) (expr : te_expression) :
    ∀ xs : List ℚ, optimize_parameters E expr (xs.map constant_node) xs.length
      = some (xs.map constant_node, true)
  | [] => by rw [List.map_nil, List.length_nil, optimize_parameters]
  | x :: xs => by
    have e : optimize E expr (constant_node x) = some (constant_node x) := rfl
    rw [List.map_cons, List.length_cons, optimize_parameters, e]
    simp only []
    rw [optimize_parameters_constants E expr xs]
    rfl

/-- The children of a node that are constant nodes evaluate to their values. -/
theorem te_eval2_parameters_constants (E : Env) (expr : te_expression)
    (val : Option (Nat → ℚ)) :
    ∀ xs : List ℚ,
      (te_eval2_parameters E expr (xs.map constant_node) xs.length val).map (List.map Prod.fst)
        = some xs
  | [] => by rw [List.map_nil, List.length_nil, te_eval2_parameters_zero]; rfl
  | x :: xs => by
    rw [List.map_cons, List.length_cons, te_eval2_parameters_values_cons,
      te_eval2_constant_node, te_eval2_parameters_constants E expr val xs]
    rfl

/-- A function node that carries `TE_FLAG_PURE` and whose children are constant
nodes is replaced by the constant of its value. -/
theorem optimize_pure_constants (E : Env) (expr : te_expression) (t : Nat) (u : te_union)
    (xs : List ℚ) (c : Nat)
    (hm : TE_FUNCTION0 ≤ TYPE_MASK t ∧ TYPE_MASK t ≤ TE_FUNCTION7) (hp : IS_PURE t = true)
    (hl : xs.length = ARITY t) :
    optimize E expr (.mk t u (xs.map constant_node) c)
      = some (.mk TE_CONSTANT (.value (call E u.getFunction c (args xs)).1) [] c) := by
  rw [optimize, if_neg (type_ne_of_mask t hm).1, if_neg (type_ne_of_mask t hm).2, if_pos hp,
    ← hl, optimize_parameters_constants]
  simp only [if_true]
  have hv := te_eval2_value E expr t u (xs.map constant_node) c none (fun _ => 0)
  rw [if_neg (by rw [TYPE_MASK_eq] at *; simp only [TE_CONSTANT, TE_FUNCTION0] at *; omega),
    if_neg (by rw [TYPE_MASK_eq] at *; simp only [TE_VARIABLE, TE_FUNCTION0] at *; omega),
    if_pos hm, ← hl, te_eval2_parameters_constants] at hv
  cases hev : te_eval2 E expr (.mk t u (xs.map constant_node) c) none (some (fun _ => 0)) with
  | none => rw [hev] at hv; simp at hv
  | some vg =>
    obtain ⟨v, g1⟩ := vg
    rw [hev] at hv
    simp only [Option.map_some', Option.some.injEq] at hv
    simp only []
    rw [hv]

/-- Storing an argument leaves the type of the node. -/
theorem set_parameter_type (n : te_expr) (i : Nat) (p : te_expr) :
    (n.set_parameter i p).type = n.type := by
  cases n <;> rfl

/-- The argument loop of `base` leaves the type of the node. -/
theorem base_args_type (E : Env) (sub : state → Option (te_expr × state)) :
    ∀ (k i : Nat) (ret : te_expr) (s : state) (ret1 : te_expr) (j : Nat) (s1 : state),
      base_args E sub k i ret s = some (ret1, j, s1) → ret1.type = ret.type := by
  intro k
  induction k with
  | zero =>
    intro i ret s ret1 j s1 h
    rw [base_args] at h
    injection h with h; injection h with h _
    rw [h]
  | succ k ih =>
    intro i ret s ret1 j s1 h
    rw [base_args] at h
    cases hs : sub (next_token E s) with
    | none => rw [hs] at h; simp at h
    | some q =>
      obtain ⟨p, s2⟩ := q
      rw [hs] at h
      simp only [] at h
      by_cases hc : s2.type ≠ TOK_SEP
      · rw [if_pos hc] at h
        injection h with h; injection h with h _
        rw [← h, set_parameter_type]
      · rw [if_neg hc] at h
        rw [ih _ _ _ _ _ _ h, set_parameter_type]

/-- The node that `base` builds on the token of a function carries the type of
the token, flags included. -/
theorem base_function_type (E : Env) (fuel : Nat) (s : state) (r : te_expr) (s1 : state)
    (hm : TE_FUNCTION0 ≤ TYPE_MASK s.type ∧ TYPE_MASK s.type ≤ TE_FUNCTION7)
    (h : base E fuel s = some (r, s1)) : r.type = s.type := by
  cases fuel with
  | zero => simp [base] at h
  | succ fuel =>
    have hm1 := hm.1
    have hm2 := hm.2
    simp only [TE_FUNCTION0, TE_FUNCTION7] at hm1 hm2
    have hc : TYPE_MASK s.type = TE_FUNCTION0 ∨ TYPE_MASK s.type = TE_FUNCTION1 ∨
        (TE_FUNCTION2 ≤ TYPE_MASK s.type ∧ TYPE_MASK s.type ≤ TE_FUNCTION7) := by
      simp only [TE_FUNCTION0, TE_FUNCTION1, TE_FUNCTION2, TE_FUNCTION7]
      omega
    rcases hc with h0 | h1 | hn
    · rw [base_function0 E fuel s h0] at h
      split_ifs at h <;> (injection h with h; injection h with h _; rw [← h]; rfl)
    · rw [base_function1 E fuel s h1] at h
      cases hp : power E fuel (next_token E s) with
      | none => rw [hp] at h; simp at h
      | some q =>
        obtain ⟨p, s2⟩ := q
        rw [hp] at h
        simp only [] at h
        injection h with h; injection h with h _
        rw [← h, set_parameter_type]
        rfl
    · rw [base_function_n E fuel s hn] at h
      by_cases ho : (next_token E s).type ≠ TOK_OPEN
      · rw [if_pos ho] at h
        injection h with h; injection h with h _
        rw [← h]; rfl
      · rw [if_neg ho] at h
        cases ha : base_args E (expr E fuel) (ARITY s.type) 0
            (function_node s.type s.u.getFunction s.context) (next_token E s) with
        | none => rw [ha] at h; simp at h
        | some q =>
          obtain ⟨ret1, i, s2⟩ := q
          rw [ha] at h
          simp only [] at h
          have ht := base_args_type E _ _ _ _ _ _ _ _ ha
          split_ifs at h <;> (injection h with h; injection h with h _; rw [← h, ht]; rfl)

/-- C21 (counterexample). A binding declared with only its arity is not pure:
with the bindings of `test_dynamic`, where `sum1` has the type `TE_FUNCTION1`,
the text `sum1(5)` compiles to the call of `sum1` on the constant 5, a node
whose pure flag is not set, and not to a constant. -/
theorem declared_arity_only_is_impure :
    te_compile testEnv "sum1(5)".toList test_lookup
      = some (some (new_expression test_lookup
          (.mk TE_FUNCTION1 (.function (.user 11)) [constant_node 5] 0)), 0) ∧
    IS_PURE (te_expr.mk TE_FUNCTION1 (.function (.user 11)) [constant_node 5] 0).type = false ∧
    (te_expr.mk TE_FUNCTION1 (.function (.user 11)) [constant_node 5] 0).type ≠ TE_CONSTANT := by
  refine ⟨by decide!, by decide, by decide⟩

/-- An expression whose tree is a call on constants compiles to that call when
the type of the node lacks `TE_FLAG_PURE`, and to the constant of its value
when the type carries it. -/
theorem te_compile_call_on_constants (E : Env) (expression : List Char)
    (bindings : List te_variable) (t : Nat) (u : te_union) (xs : List ℚ) (c : Nat) (s : state)
    (hp : parse E expression bindings = some (.mk t u (xs.map constant_node) c, s))
    (hs : s.type = TOK_END)
    (hm : TE_FUNCTION0 ≤ TYPE_MASK t ∧ TYPE_MASK t ≤ TE_FUNCTION7) :
    (IS_PURE t = false →
      te_compile E expression bindings
        = some (some (new_expression bindings (.mk t u (xs.map constant_node) c)), 0)) ∧
    (IS_PURE t = true →
      te_compile E expression bindings
        = some (some (new_expression bindings
            (.mk TE_CONSTANT (.value (call E u.getFunction c (args xs)).1) [] c)), 0)) := by
  have hc := te_compile_of_tree E expression bindings (.mk t u (xs.map constant_node) c)
    (by rw [hp]; rfl) (by rw [hp]; simp [hs])
  constructor
  · intro hpure
    rw [hc, optimize_impure E _ t u _ c hm hpure]
    rfl
  · intro hpure
    obtain ⟨root, s1, h1, h2⟩ := te_compile_parse E expression bindings
    rw [hp] at h1
    injection h1 with h1; injection h1 with e1 e2
    subst e1; subst e2
    have hw := h2.2.2.2.2 (by rw [hs]; decide)
    rw [well_formed, if_neg (type_ne_of_mask t hm).1, if_neg (type_ne_of_mask t hm).2] at hw
    simp only [Bool.and_eq_true, decide_eq_true_eq] at hw
    have hl := ((well_formed_parameters_iff bindings _ _).mp hw.2).1
    rw [List.length_map] at hl
    rw [hc, optimize_pure_constants E _ t u xs c hm hpure hl]
    rfl

/-- C21 (amended). Purity is opt-in for the caller's functions.  The token of
an identifier bound to a function has the type of the binding as declared, and
the node that `base` builds has the type of the token, so the pure flag of the
node is the `TE_FLAG_PURE` bit of the binding.  A node of a function declared
with only its arity carries no pure flag, and a call to it whose arguments are
all constants is not folded: `optimize` leaves that node, and an expression
that is such a call compiles to the call.  `optimize` replaces a function node
with the flag whose children are all constants by the constant of its value,
and an expression that is such a call compiles to that constant.  With the
bindings of `test_dynamic`, `sum2(2,3)` stays a call; with `sum2` declared
`TE_FUNCTION2 | TE_FLAG_PURE` it is folded to the constant 5. -/
theorem purity_is_opt_in :
    (∀ (E : Env) (s : state) (c : Char) (rest : List Char) (pre : List te_variable)
      (v : te_variable) (post : List te_variable),
      s.next = c :: rest → is_lower c = true → s.lookup = pre ++ v :: post →
      (∀ w ∈ pre, cstring w.name ≠ s.next.takeWhile is_ident) →
      cstring v.name = s.next.takeWhile is_ident →
      (TE_FUNCTION0 ≤ TYPE_MASK v.type ∧ TYPE_MASK v.type ≤ TE_FUNCTION7) →
      (next_token E s).type = v.type ∧ IS_PURE (next_token E s).type = IS_PURE v.type) ∧
    (∀ (E : Env) (fuel : Nat) (s : state) (r : te_expr) (s1 : state),
      (TE_FUNCTION0 ≤ TYPE_MASK s.type ∧ TYPE_MASK s.type ≤ TE_FUNCTION7) →
      base E fuel s = some (r, s1) → r.type = s.type ∧ IS_PURE r.type = IS_PURE s.type) ∧
    (∀ (E : Env) (expr : te_expression) (t : Nat) (u : te_union) (xs : List ℚ) (c : Nat),
      (TE_FUNCTION0 ≤ TYPE_MASK t ∧ TYPE_MASK t ≤ TE_FUNCTION7) → IS_PURE t = false →
      optimize E expr (.mk t u (xs.map constant_node) c)
        = some (.mk t u (xs.map constant_node) c)) ∧
    (∀ (E : Env) (expr : te_expression) (t : Nat) (u : te_union) (xs : List ℚ) (c : Nat),
      (TE_FUNCTION0 ≤ TYPE_MASK t ∧ TYPE_MASK t ≤ TE_FUNCTION7) → IS_PURE t = true →
      xs.length = ARITY t →
      optimize E expr (.mk t u (xs.map constant_node) c)
        = some (.mk TE_CONSTANT (.value (call E u.getFunction c (args xs)).1) [] c)) ∧
    (∀ (E : Env) (expression : List Char) (bindings : List te_variable) (t : Nat)
      (u : te_union) (xs : List ℚ) (c : Nat) (s : state),
      parse E expression bindings = some (.mk t u (xs.map constant_node) c, s) →
      s.type = TOK_END → (TE_FUNCTION0 ≤ TYPE_MASK t ∧ TYPE_MASK t ≤ TE_FUNCTION7) →
      (IS_PURE t = false →
        te_compile E expression bindings
          = some (some (new_expression bindings (.mk t u (xs.map constant_node) c)), 0)) ∧
      (IS_PURE t = true →
        te_compile E expression bindings
          = some (some (new_expression bindings
              (.mk TE_CONSTANT (.value (call E u.getFunction c (args xs)).1) [] c)), 0))) ∧
    te_compile testEnv "sum2(2,3)".toList test_lookup
      = some (some (new_expression test_lookup
          (.mk TE_FUNCTION2 (.function (.user 12)) [constant_node 2, constant_node 3] 0)), 0) ∧
    te_compile testEnv "sum2(2,3)".toList
        [function_binding "sum2" 12 (TE_FUNCTION2 ||| TE_FLAG_PURE)]
      = some (some (new_expression [function_binding "sum2" 12 (TE_FUNCTION2 ||| TE_FLAG_PURE)]
          (constant_node 5)), 0) := by
  refine ⟨?_, ?_, ?_, optimize_pure_constants, te_compile_call_on_constants, by decide!,
    by decide!⟩
  · intro E s c rest pre v post h hc hl h1 h2 hm
    have e := (next_token_binding E s c rest pre v post h hc hl h1 h2).2 hm
    rw [e]
    exact ⟨rfl, rfl⟩
  · intro E fuel s r s1 hm h
    have e := base_function_type E fuel s r s1 hm h
    rw [e]
    exact ⟨rfl, rfl⟩
  · intro E expr t u xs c hm hp
    exact optimize_impure E expr t u _ c hm hp

/-- The hypotheses of `purity_is_opt_in` hold for the text `sum1(5)` with the
bindings of `test_dynamic`: its tree is the call of `sum1`, of the type
`TE_FUNCTION1` without the pure flag, on the constant 5, and the text compiles
to that call. -/
theorem purity_is_opt_in_witness :
    te_compile testEnv "sum1(5)".toList test_lookup
      = some (some (new_expression test_lookup
          (.mk TE_FUNCTION1 (.function (.user 11)) ([5].map constant_node) 0)), 0) :=
  (purity_is_opt_in.2.2.2.2.1 testEnv "sum1(5)".toList test_lookup TE_FUNCTION1
    (.function (.user 11)) [5] 0
    { start := "sum1(5)".toList, next := [], type := TOK_END, u := .value 5, context := 0,
      lookup := test_lookup }
    (by decide!) rfl (by decide)).1 (by decide)

/-- C25 (what the code does). The loop of `optimize` over the children of a
node is inside the test `IS_PURE(n->type)`: the children of a node without the
pure flag are not optimized.  With the bindings of `test_dynamic`, where
`sum1` has the type `TE_FUNCTION1` without the flag, the text `sum1(5+5)`
compiles to the call of `sum1` on the node `add(5, 5)`: a pure node whose
children are all constants remains in the compiled tree.  The same text with
`sum1` declared pure is folded to the constant 20. -/
theorem optimize_skips_children_of_impure :
    te_compile testEnv "sum1(5+5)".toList test_lookup
      = some (some (new_expression test_lookup
          (.mk TE_FUNCTION1 (.function (.user 11))
            [binary_node .add (constant_node 5) (constant_node 5)] 0)), 0) ∧
    IS_PURE (binary_node .add (constant_node 5) (constant_node 5)).type = true ∧
    optimize testEnv (new_expression test_lookup .null)
        (binary_node .add (constant_node 5) (constant_node 5))
      = some (constant_node 10) ∧
    te_compile testEnv "sum1(5+5)".toList
        [function_binding "sum1" 11 (TE_FUNCTION1 ||| TE_FLAG_PURE)]
      = some (some (new_expression [function_binding "sum1" 11 (TE_FUNCTION1 ||| TE_FLAG_PURE)]
          (constant_node 20)), 0) := by
  refine ⟨by decide!, by decide, by decide!, by decide!⟩

/-! ## The invariant of compiled trees -/

/-- C29. Well-formedness of compiled trees.  When `te_compile` succeeds, the
tree that the parser built and the tree left by `optimize`, which is the root
of the compiled expression, are both well formed.  A well-formed tree is a
constant node holding a value, or a variable node holding the position of a
binding of kind variable in the caller's list, or a function node of arity `m`
with exactly `m` children, all of them present and well formed; the null
pointer and the placeholder node of the fallback of `base` are not well
formed. -/
theorem compiled_tree_well_formed :
    (∀ (E : Env) (expression : List Char) (bindings : List te_variable) (ex : te_expression)
      (error : Nat), te_compile E expression bindings = some (some ex, error) →
      ∃ root s, parse E expression bindings = some (root, s) ∧
        well_formed bindings root = true ∧
        optimize E (new_expression bindings root) root = some ex.root ∧
        well_formed bindings ex.root = true) ∧
    (∀ (lk : List te_variable) (t : Nat) (u : te_union) (ps : List te_expr) (c : Nat),
      well_formed lk (.mk t u ps c) = true →
      (t = TE_CONSTANT ∧ (∃ v, u = .value v) ∧ ps = []) ∨
      (t = TE_VARIABLE ∧ ps = [] ∧ ∃ i : Nat, u = .ivar (i : Int) ∧
        ∃ v, lk.get? i = some v ∧ TYPE_MASK v.type = TE_VARIABLE) ∨
      ((TE_FUNCTION0 ≤ TYPE_MASK t ∧ TYPE_MASK t ≤ TE_FUNCTION7) ∧ (∃ f, u = .function f) ∧
        ps.length = ARITY t ∧ ∀ p ∈ ps, p ≠ .null ∧ well_formed lk p = true)) ∧
    (∀ (E : Env) (lk : List te_variable),
      well_formed lk ((new_expr 0 none).set_value E.nan) = false ∧
      well_formed lk .null = false) := by
  refine ⟨?_, ?_, ?_⟩
  · intro E expression bindings ex error h
    obtain ⟨root, s, root1, h1, _, h3, h4, h5, h6, _⟩ :=
      te_compile_some E expression bindings ex error h
    refine ⟨root, s, h1, h3, ?_, ?_⟩
    · rw [h6]; exact h4
    · rw [h6]; exact h5
  · intro lk t u ps c h
    rw [well_formed] at h
    by_cases h1 : t = TE_CONSTANT
    · rw [if_pos h1, Bool.and_eq_true] at h
      left
      refine ⟨h1, ?_, ?_⟩
      · cases u with
        | value v => exact ⟨v, rfl⟩
        | ivar i => simp [te_union.is_value] at h
        | function f => simp [te_union.is_value] at h
      · exact List.isEmpty_iff.mp h.2
    rw [if_neg h1] at h
    by_cases h2 : t = TE_VARIABLE
    · rw [if_pos h2, Bool.and_eq_true] at h
      right; left
      refine ⟨h2, List.isEmpty_iff.mp h.2, ?_⟩
      cases u with
      | value v => simp [te_union.is_variable] at h
      | function f => simp [te_union.is_variable] at h
      | ivar i =>
        have hv := h.1
        simp only [te_union.is_variable, Bool.and_eq_true, decide_eq_true_eq] at hv
        refine ⟨i.toNat, by rw [Int.toNat_of_nonneg hv.1], ?_⟩
        cases hg : lk.get? i.toNat with
        | none => rw [hg] at hv; simp at hv
        | some v =>
          rw [hg] at hv
          exact ⟨v, rfl, by simpa using hv.2⟩
    rw [if_neg h2] at h
    simp only [Bool.and_eq_true, decide_eq_true_eq] at h
    right; right
    obtain ⟨⟨hm, hu⟩, hps⟩ := h
    refine ⟨hm, ?_, ?_⟩
    · cases u with
      | function f => exact ⟨f, rfl⟩
      | value v => simp [te_union.is_function] at hu
      | ivar i => simp [te_union.is_function] at hu
    · have hi := (well_formed_parameters_iff lk ps (ARITY t)).mp hps
      refine ⟨hi.1, fun p hp => ⟨?_, hi.2 p hp⟩⟩
      intro e
      have := hi.2 p hp
      rw [e] at this
      simp [well_formed] at this
  · intro E lk
    exact ⟨rfl, rfl⟩

/-- The hypothesis of `compiled_tree_well_formed` holds for the text `x+sum2(1,2)`
with the bindings of `test_dynamic`, which compiles. -/
theorem compiled_tree_well_formed_witness :
    ∃ root s, parse testEnv "x+sum2(1,2)".toList test_lookup = some (root, s) ∧
      well_formed test_lookup root = true ∧
      optimize testEnv (new_expression test_lookup root) root
        = some (binary_node .add (variable_node 0)
            (.mk TE_FUNCTION2 (.function (.user 12)) [constant_node 1, constant_node 2] 0)) ∧
      well_formed test_lookup (binary_node .add (variable_node 0)
        (.mk TE_FUNCTION2 (.function (.user 12)) [constant_node 1, constant_node 2] 0)) = true :=
  compiled_tree_well_formed.1 testEnv "x+sum2(1,2)".toList test_lookup
    (new_expression test_lookup (binary_node .add (variable_node 0)
      (.mk TE_FUNCTION2 (.function (.user 12)) [constant_node 1, constant_node 2] 0))) 0
    (by decide!)

/-! ## The factorial -/

/-- The test `i > ULONG_MAX / result` of `fac` holds exactly when the product
`result * i` exceeds `ULONG_MAX`. -/
theorem guard_iff (i result : Nat) (h : 0 < result) :
    i > ULONG_MAX / result ↔ ULONG_MAX < result * i := by
  rw [gt_iff_lt, Nat.div_lt_iff_lt_mul h, Nat.mul_comm]

/-- One iteration of the loop of `fac`, over the natural numbers: the product
is not reduced modulo `ULONG_MAX + 1`. -/
theorem fac_loop_step (k i result : Nat) (h : 0 < result) :
    fac_loop (k + 1) i result
      = if ULONG_MAX < result * i then none else fac_loop k (i + 1) (result * i) := by
  rw [fac_loop]
  by_cases hg : ULONG_MAX < result * i
  · rw [if_pos ((guard_iff i result h).mpr hg), if_pos hg]
  · rw [if_neg (fun hc => hg ((guard_iff i result h).mp hc)), if_neg hg,
      Nat.mod_eq_of_lt (by omega)]

/-- The loop of `fac` entered with `i + 1` and the product `i !`: after `k`
more iterations it holds `(i + k) !`, unless that exceeds `ULONG_MAX`. -/
theorem fac_loop_factorial : ∀ (k i : Nat), i.factorial ≤ ULONG_MAX →
    fac_loop k (i + 1) (i.factorial)
      = if (i + k).factorial ≤ ULONG_MAX then some ((i + k).factorial) else none := by
  intro k
  induction k with
  | zero =>
    intro i hi
    rw [fac_loop, Nat.add_zero, if_pos hi]
  | succ k ih =>
    intro i hi
    rw [fac_loop_step k (i + 1) _ (Nat.factorial_pos i)]
    have e : i.factorial * (i + 1) = (i + 1).factorial := by
      rw [Nat.factorial_succ, Nat.mul_comm]
    rw [e]
    have e2 : i + (k + 1) = i + 1 + k := by omega
    rw [e2]
    by_cases hg : ULONG_MAX < (i + 1).factorial
    · rw [if_pos hg, if_neg]
      have := Nat.factorial_le (show i + 1 ≤ i + 1 + k by omega)
      omega
    · rw [if_neg hg]
      exact ih (i + 1) (by omega)

/-- A factorial that fits into an `unsigned long` is the factorial of a number
below 21. -/
theorem factorial_le_ulong (n : Nat) (h : n.factorial ≤ ULONG_MAX) : n ≤ 20 := by
  by_contra hc
  have h1 := Nat.factorial_le (show 21 ≤ n by omega)
  have h2 : ULONG_MAX < Nat.factorial 21 := by decide
  omega

/-- The value of `fac` on an argument that is not negative. -/
theorem fac_nonneg (E : Env) (a : ℚ) (h : 0 ≤ a) :
    fac E a = if (⌊a⌋₊).factorial ≤ ULONG_MAX then ((⌊a⌋₊).factorial : ℚ) else E.inf := by
  rw [fac, if_neg (not_lt.mpr h)]
  by_cases hu : a > (UINT_MAX : ℚ)
  · rw [if_pos hu, if_neg]
    intro hc
    have h20 := factorial_le_ulong _ hc
    have hlt := Nat.lt_floor_add_one a
    have h21 : a < 21 := by
      have : ((⌊a⌋₊ : ℚ) + 1) ≤ 21 := by
        have : (⌊a⌋₊ : ℚ) ≤ 20 := by exact_mod_cast h20
        linarith
      linarith
    have hU : (21 : ℚ) ≤ (UINT_MAX : ℚ) := by
      have : (21 : Nat) ≤ UINT_MAX := by decide
      exact_mod_cast this
    linarith
  · rw [if_neg hu]
    have hl := fac_loop_factorial ⌊a⌋₊ 0 (by decide)
    simp only [Nat.zero_add, Nat.factorial_zero] at hl
    rw [hl]
    by_cases hf : (⌊a⌋₊).factorial ≤ ULONG_MAX
    · rw [if_pos hf, if_pos hf]
    · rw [if_neg hf, if_neg hf]

/-- The integer part of 4.8 is 4. -/
theorem floor_4_8 : ⌊(4.8 : ℚ)⌋₊ = 4 :=
  (Nat.floor_eq_iff (by norm_num)).mpr ⟨by norm_num, by norm_num⟩

/-- C23. The builtin `fac`.  On a negative argument `fac` returns `NAN`.  On
an argument `a` that is not negative, with `n` the integer part of `a`, it
returns exactly `n!` when `n! ≤ ULONG_MAX` and `INFINITY` otherwise, also for
`a > UINT_MAX`.  The running product never wraps around: an iteration entered
with a product `result` and the factor `i` returns `INFINITY` when
`result * i` exceeds `ULONG_MAX`, and otherwise goes on with the product
`result * i` itself.  Witnesses: `fac(0) = 1`, `fac(4.8) = 24`,
`fac(10) = 3628800`, `fac(-1)` is `NAN`, `fac(300)` is `INFINITY`. -/
theorem fac_exact_or_infinity :
    (∀ (E : Env) (a : ℚ), a < 0 → fac E a = E.nan) ∧
    (∀ (E : Env) (a : ℚ), 0 ≤ a → (⌊a⌋₊).factorial ≤ ULONG_MAX →
      fac E a = ((⌊a⌋₊).factorial : ℚ)) ∧
    (∀ (E : Env) (a : ℚ), 0 ≤ a → ULONG_MAX < (⌊a⌋₊).factorial → fac E a = E.inf) ∧
    (∀ (E : Env) (a : ℚ), (UINT_MAX : ℚ) < a →
      fac E a = E.inf ∧ ULONG_MAX < (⌊a⌋₊).factorial) ∧
    (∀ (k i result : Nat), 0 < result →
      fac_loop (k + 1) i result
        = if ULONG_MAX < result * i then none else fac_loop k (i + 1) (result * i)) ∧
    (∀ E : Env, fac E 0 = 1 ∧ fac E 4.8 = 24 ∧ fac E 10 = 3628800 ∧ fac E (-1) = E.nan ∧
      fac E 300 = E.inf) ∧
    value_of exactEnv "fac(0)" [] (fun _ => 0) = some 1 ∧
    value_of exactEnv "fac(4.8)" [] (fun _ => 0) = some 24 ∧
    value_of exactEnv "fac(10)" [] (fun _ => 0) = some 3628800 := by
  have hpos : ∀ (E : Env) (a : ℚ), 0 ≤ a → (⌊a⌋₊).factorial ≤ ULONG_MAX →
      fac E a = ((⌊a⌋₊).factorial : ℚ) := by
    intro E a h0 hf
    rw [fac_nonneg E a h0, if_pos hf]
  have hinf : ∀ (E : Env) (a : ℚ), 0 ≤ a → ULONG_MAX < (⌊a⌋₊).factorial → fac E a = E.inf := by
    intro E a h0 hf
    rw [fac_nonneg E a h0, if_neg (by omega)]
  refine ⟨?_, hpos, hinf, ?_, fac_loop_step, ?_, by decide!, by decide!, by decide!⟩
  · intro E a h
    rw [fac, if_pos h]
  · intro E a h
    have hU : (0 : ℚ) ≤ (UINT_MAX : ℚ) := Nat.cast_nonneg _
    have h0 : 0 ≤ a := by linarith
    have hlt : ULONG_MAX < (⌊a⌋₊).factorial := by
      by_contra hc
      have h20 := factorial_le_ulong ⌊a⌋₊ (by omega)
      have hl := Nat.lt_floor_add_one a
      have h1 : (⌊a⌋₊ : ℚ) ≤ 20 := by exact_mod_cast h20
      have h2 : (21 : ℚ) ≤ (UINT_MAX : ℚ) := by
        have : (21 : Nat) ≤ UINT_MAX := by decide
        exact_mod_cast this
      linarith
    exact ⟨hinf E a h0 hlt, hlt⟩
  · intro E
    have f0 : ⌊(0 : ℚ)⌋₊ = 0 := Nat.floor_zero
    have f10 : ⌊(10 : ℚ)⌋₊ = 10 := Nat.floor_natCast 10
    have f300 : ⌊(300 : ℚ)⌋₊ = 300 := Nat.floor_natCast 300
    refine ⟨?_, ?_, ?_, ?_, ?_⟩
    · rw [hpos E 0 le_rfl (by rw [f0]; decide), f0]; rfl
    · rw [hpos E 4.8 (by norm_num) (by rw [floor_4_8]; decide), floor_4_8]; rfl
    · rw [hpos E 10 (by norm_num) (by rw [f10]; decide), f10]; rfl
    · rw [fac, if_pos (by norm_num)]
    · exact hinf E 300 (by norm_num) (by
        rw [f300]
        have h1 := Nat.factorial_le (show 21 ≤ 300 by omega)
        have h2 : ULONG_MAX < Nat.factorial 21 := by decide
        omega)

/-- The hypotheses of `fac_exact_or_infinity` hold for the argument 4.8, whose
integer part is 4: `fac(4.8)` is `4!`. -/
theorem fac_exact_or_infinity_witness :
    (0 : ℚ) ≤ 4.8 ∧ (⌊(4.8 : ℚ)⌋₊).factorial ≤ ULONG_MAX ∧
    fac exactEnv 4.8 = ((⌊(4.8 : ℚ)⌋₊).factorial : ℚ) :=
  ⟨by norm_num, by rw [floor_4_8]; decide,
    fac_exact_or_infinity.2.1 exactEnv 4.8 (by norm_num) (by rw [floor_4_8]; decide)⟩

/-! ## The binomial coefficient -/

/-- One iteration of the loop of `ncr`, over the natural numbers: the test
`result > ULONG_MAX / (un - ur + i)` holds exactly when the product exceeds
`ULONG_MAX`, and the product is not reduced modulo `ULONG_MAX + 1`. -/
theorem ncr_loop_step (un ur k i result : Nat) (hd : 0 < un - ur + i) :
    ncr_loop un ur (k + 1) i result
      = if ULONG_MAX < result * (un - ur + i) then none
        else ncr_loop un ur k (i + 1) (result * (un - ur + i) / i) := by
  rw [ncr_loop]
  have hg : result > ULONG_MAX / (un - ur + i) ↔ ULONG_MAX < result * (un - ur + i) := by
    rw [gt_iff_lt, Nat.div_lt_iff_lt_mul hd]
  by_cases h : ULONG_MAX < result * (un - ur + i)
  · rw [if_pos (hg.mpr h), if_pos h]
  · rw [if_neg (fun hc => h (hg.mp hc)), if_neg h, Nat.mod_eq_of_lt (by omega)]

/-- The division of the loop of `ncr` is exact: the accumulator `C(m + i, i)`
times `m + i + 1` is `i + 1` times `C(m + i + 1, i + 1)`. -/
theorem choose_step (m i : Nat) :
    (i + 1) ∣ Nat.choose (m + i) i * (m + i + 1) ∧
    Nat.choose (m + i) i * (m + i + 1) / (i + 1) = Nat.choose (m + i + 1) (i + 1) := by
  have h := Nat.succ_mul_choose_eq (m + i) i
  have e : Nat.choose (m + i) i * (m + i + 1) = Nat.choose (m + i + 1) (i + 1) * (i + 1) := by
    rw [Nat.mul_comm]; exact h
  rw [e]
  exact ⟨Dvd.intro_left _ rfl, Nat.mul_div_cancel _ (Nat.succ_pos i)⟩

/-- The loop of `ncr` entered with `i + 1` and the accumulator `C(m + i, i)`,
where `m = un - ur`: after `j` more iterations it holds `C(m + i + j, i + j)`,
unless it returned `INFINITY`. -/
theorem ncr_loop_choose (un ur : Nat) : ∀ (j i : Nat),
    ncr_loop un ur j (i + 1) (Nat.choose (un - ur + i) i) = none ∨
    ncr_loop un ur j (i + 1) (Nat.choose (un - ur + i) i)
      = some (Nat.choose (un - ur + i + j) (i + j)) := by
  intro j
  induction j with
  | zero =>
    intro i
    right
    rw [ncr_loop]
    rfl
  | succ j ih =>
    intro i
    rw [ncr_loop_step un ur j (i + 1) _ (by omega)]
    by_cases h : ULONG_MAX < Nat.choose (un - ur + i) i * (un - ur + (i + 1))
    · rw [if_pos h]
      left; rfl
    · rw [if_neg h]
      have e := (choose_step (un - ur) i).2
      have e1 : un - ur + (i + 1) = un - ur + i + 1 := rfl
      rw [e1, e]
      have e2 : un - ur + i + (j + 1) = un - ur + (i + 1) + j := by omega
      have e3 : i + (j + 1) = i + 1 + j := by omega
      rw [e2, e3]
      exact ih (i + 1)

/-- The number of iterations of `ncr`: `ur`, replaced by `un - ur` when
`ur > un / 2`, is the smaller one of `r` and `n - r`. -/
theorem ncr_count (n r : Nat) (h : r ≤ n) :
    (if r > n / 2 then n - r else r) = min r (n - r) := by
  split_ifs with hc <;> omega

/-- The value of `ncr` on integers `r ≤ n ≤ UINT_MAX`, in terms of its loop and
of the conversion of its result to `double`. -/
theorem ncr_nat (E : Env) (n r : Nat) (h : r ≤ n) (hn : n ≤ UINT_MAX) :
    ncr E (n : ℚ) (r : ℚ)
      = match ncr_loop n (min r (n - r)) (min r (n - r)) 1 1 with
        | none => E.inf
        | some result => (to_double result : ℚ) := by
  have hr : r ≤ UINT_MAX := le_trans h hn
  rw [ncr, if_neg, if_neg]
  · simp only [Nat.floor_natCast]
    rw [ncr_count n r h]
  · rw [not_or]
    constructor
    · rw [gt_iff_lt, not_lt]; exact_mod_cast hn
    · rw [gt_iff_lt, not_lt]; exact_mod_cast hr
  · rw [not_or, not_or]
    refine ⟨not_lt.mpr (Nat.cast_nonneg n), not_lt.mpr (Nat.cast_nonneg r), ?_⟩
    rw [not_lt]; exact_mod_cast h

/-- A number below `2 ^ 53` is converted to `double` exactly. -/
theorem to_double_small (m : Nat) (h : m < 2 ^ 53) : to_double m = m := by
  unfold to_double
  rw [if_pos h]

/-- The count of the dropped bits stops at the least `e` with `n < 2 ^ (53 + e)`. -/
theorem dropped_bits_spec (n : Nat) : ∀ (k e : Nat), 2 ^ (52 + e) ≤ n → n < 2 ^ (53 + e + k) →
    2 ^ (52 + dropped_bits n k e) ≤ n ∧ n < 2 ^ (53 + dropped_bits n k e) := by
  intro k
  induction k with
  | zero =>
    intro e h1 h2
    rw [dropped_bits]
    exact ⟨h1, h2⟩
  | succ k ih =>
    intro e h1 h2
    rw [dropped_bits]
    by_cases hc : n < 2 ^ (53 + e)
    · rw [if_pos hc]
      exact ⟨h1, hc⟩
    · rw [if_neg hc]
      have e1 : 52 + (e + 1) = 53 + e := by omega
      have e2 : 53 + (e + 1) + k = 53 + e + (k + 1) := by omega
      exact ih (e + 1) (by rw [e1]; omega) (by rw [e2]; exact h2)

/-- An `unsigned long` from `2 ^ 53` on is converted to the nearest number with
53 significant bits: with `e` the number of bits dropped, the result is a
multiple of `2 ^ e` at a distance of at most `2 ^ (e - 1)`. -/
theorem to_double_near (m : Nat) (h : 2 ^ 53 ≤ m) (h64 : m < 2 ^ 64) :
    ∃ e, 1 ≤ e ∧ 2 ^ (52 + e) ≤ m ∧ m < 2 ^ (53 + e) ∧ 2 ^ e ∣ to_double m ∧
      m ≤ to_double m + 2 ^ (e - 1) ∧ to_double m ≤ m + 2 ^ (e - 1) := by
  obtain ⟨s1, s2⟩ := dropped_bits_spec m 11 0 (by omega) (by omega)
  have hpos : 1 ≤ dropped_bits m 11 0 := by
    by_contra hc
    have hz : dropped_bits m 11 0 = 0 := by omega
    rw [hz] at s2
    omega
  obtain ⟨e, he⟩ : ∃ e, dropped_bits m 11 0 = e + 1 := ⟨dropped_bits m 11 0 - 1, by omega⟩
  refine ⟨dropped_bits m 11 0, hpos, s1, s2, ?_⟩
  have hdiv := Nat.div_add_mod m (2 ^ (e + 1))
  have hmod := Nat.mod_lt m (Nat.two_pow_pos (e + 1))
  have hpow : 2 ^ (e + 1) = 2 * 2 ^ e := by rw [Nat.pow_succ, Nat.mul_comm]
  unfold to_double
  rw [if_neg (by omega)]
  simp only [he, Nat.add_sub_cancel]
  have c1 : 2 ^ (e + 1) * (m / 2 ^ (e + 1)) = m / 2 ^ (e + 1) * 2 ^ (e + 1) := Nat.mul_comm _ _
  have c2 : (m / 2 ^ (e + 1) + 1) * 2 ^ (e + 1)
      = m / 2 ^ (e + 1) * 2 ^ (e + 1) + 2 ^ (e + 1) := by
    rw [Nat.add_mul, Nat.one_mul]
  split_ifs with h1 h2 h3
  · exact ⟨Dvd.intro_left _ rfl, by omega, by omega⟩
  · exact ⟨Dvd.intro_left _ rfl, by omega, by omega⟩
  · exact ⟨Dvd.intro_left _ rfl, by omega, by omega⟩
  · exact ⟨Dvd.intro_left _ rfl, by omega, by omega⟩

/-- C24 (counterexample). The binomial coefficient `C(62, 31)` is
465428353255261088: the loop of `ncr` computes it without returning
`INFINITY`, and `return result;` converts it to the nearest `double`,
465428353255261056, which `ncr(62, 31)` returns: neither `INFINITY` nor
exactly `C(62, 31)`. -/
theorem ncr_rounds_large_results :
    ncr_loop 62 31 31 1 1 = some 465428353255261088 ∧
    Nat.choose 62 31 = 465428353255261088 ∧
    to_double 465428353255261088 = 465428353255261056 ∧
    (∀ E : Env, ncr E 62 31 = 465428353255261056) ∧
    ¬ (ncr exactEnv 62 31 = exactEnv.inf ∨ ncr exactEnv 62 31 = (Nat.choose 62 31 : ℚ)) := by
  have hl : ncr_loop 62 (min 31 (62 - 31)) (min 31 (62 - 31)) 1 1
      = some 465428353255261088 := by decide
  have hc : Nat.choose 62 31 = 465428353255261088 := by
    have h := ncr_loop_choose 62 31 31 0
    simp only [Nat.add_zero, Nat.zero_add, Nat.choose_zero_right] at h
    have hl2 : ncr_loop 62 31 31 1 1 = some 465428353255261088 := by decide
    rw [hl2] at h
    rcases h with h | h
    · exact absurd h (fun hx => Option.noConfusion hx)
    · exact (Option.some.inj h).symm
  have hd : to_double 465428353255261088 = 465428353255261056 := by decide!
  have hv : ∀ E : Env, ncr E 62 31 = 465428353255261056 := by
    intro E
    have h := ncr_nat E 62 31 (by decide) (by decide)
    rw [hl] at h
    simp only [Nat.cast_ofNat] at h
    rw [h, hd]
    norm_num
  refine ⟨by decide, hc, hd, hv, ?_⟩
  rw [hv exactEnv, hc]
  intro h
  rcases h with h | h
  · have : exactEnv.inf = 0 := rfl
    rw [this] at h
    norm_num at h
  · norm_num at h

/-- The loop of `ncr` keeps its accumulator within an `unsigned long`. -/
theorem ncr_loop_bound (un ur : Nat) : ∀ (j i result v : Nat), result ≤ ULONG_MAX →
    ncr_loop un ur j (i + 1) result = some v → v ≤ ULONG_MAX := by
  intro j
  induction j with
  | zero =>
    intro i result v hr h
    rw [ncr_loop] at h
    injection h with h
    omega
  | succ j ih =>
    intro i result v hr h
    rw [ncr_loop_step un ur j (i + 1) _ (by omega)] at h
    by_cases hg : ULONG_MAX < result * (un - ur + (i + 1))
    · rw [if_pos hg] at h
      exact absurd h (fun hx => Option.noConfusion hx)
    · rw [if_neg hg] at h
      refine ih (i + 1) _ v ?_ h
      exact le_trans (Nat.div_le_self _ _) (by omega)

/-- C24 (amended). The builtin `ncr`.  It returns `NAN` when `n < 0`, `r < 0`
or `n < r`.  For integers `0 ≤ r ≤ n ≤ UINT_MAX` it returns `INFINITY`, or the
binomial coefficient `C(n, r)`, which then fits an `unsigned long`, converted
to `double`: exactly `C(n, r)` when `C(n, r) < 2^53`, and otherwise the nearest
number with 53 significant bits; and `ncr(n, r) = ncr(n, n - r)`.  With
`k = min(r, n - r)`, the number of iterations, the accumulator after step `j`
is `C(n - k + j, j)` unless the loop returned `INFINITY` before; an iteration
returns `INFINITY` when the product exceeds `ULONG_MAX` and otherwise goes on
with the product itself, so no multiplication wraps around; and the division
by `i + 1` of the accumulator `C(m + i, i)` times `m + i + 1` is exact.
Witnesses: `ncr(16,7) = ncr(16,9) = 11440`, `ncr(100,95) = 75287520`,
`ncr(2,4)` is `NAN`, `ncr(300,100)` is `INFINITY`. -/
theorem ncr_binomial_as_double :
    (∀ (E : Env) (n r : ℚ), n < 0 ∨ r < 0 ∨ n < r → ncr E n r = E.nan) ∧
    (∀ (E : Env) (n r : Nat), r ≤ n → n ≤ UINT_MAX →
      (ncr E (n : ℚ) (r : ℚ) = E.inf ∨
        (Nat.choose n r ≤ ULONG_MAX ∧
          ncr E (n : ℚ) (r : ℚ) = (to_double (Nat.choose n r) : ℚ))) ∧
      (Nat.choose n r < 2 ^ 53 →
        ncr E (n : ℚ) (r : ℚ) = E.inf ∨ ncr E (n : ℚ) (r : ℚ) = (Nat.choose n r : ℚ)) ∧
      ncr E (n : ℚ) (r : ℚ) = ncr E (n : ℚ) ((n - r : Nat) : ℚ)) ∧
    (∀ m : Nat, m < 2 ^ 53 → to_double m = m) ∧
    (∀ m : Nat, 2 ^ 53 ≤ m → m < 2 ^ 64 →
      ∃ e, 1 ≤ e ∧ 2 ^ (52 + e) ≤ m ∧ m < 2 ^ (53 + e) ∧ 2 ^ e ∣ to_double m ∧
        m ≤ to_double m + 2 ^ (e - 1) ∧ to_double m ≤ m + 2 ^ (e - 1)) ∧
    (∀ (n r j : Nat), r ≤ n → j ≤ min r (n - r) →
      ncr_loop n (min r (n - r)) j 1 1 = none ∨
      ncr_loop n (min r (n - r)) j 1 1 = some (Nat.choose (n - min r (n - r) + j) j)) ∧
    (∀ (un ur k i result : Nat), 0 < un - ur + i →
      ncr_loop un ur (k + 1) i result
        = if ULONG_MAX < result * (un - ur + i) then none
          else ncr_loop un ur k (i + 1) (result * (un - ur + i) / i)) ∧
    (∀ (m i : Nat), (i + 1) ∣ Nat.choose (m + i) i * (m + i + 1) ∧
      Nat.choose (m + i) i * (m + i + 1) / (i + 1) = Nat.choose (m + i + 1) (i + 1)) ∧
    (∀ E : Env, ncr E 16 7 = 11440 ∧ ncr E 16 9 = 11440 ∧ ncr E 100 95 = 75287520 ∧
      ncr E 2 4 = E.nan ∧ ncr E 300 100 = E.inf) ∧
    value_of exactEnv "ncr(16,7)" [] (fun _ => 0) = some 11440 ∧
    value_of exactEnv "ncr(16,9)" [] (fun _ => 0) = some 11440 ∧
    value_of exactEnv "ncr(100,95)" [] (fun _ => 0) = some 75287520 := by
  have hnan : ∀ (E : Env) (n r : ℚ), n < 0 ∨ r < 0 ∨ n < r → ncr E n r = E.nan := by
    intro E n r h
    rw [ncr, if_pos h]
  have hloop : ∀ (n k j : Nat), ncr_loop n k j 1 1 = none ∨
      ncr_loop n k j 1 1 = some (Nat.choose (n - k + j) j) := by
    intro n k j
    have h := ncr_loop_choose n k j 0
    simp only [Nat.add_zero, Nat.zero_add, Nat.choose_zero_right] at h
    exact h
  have hmain : ∀ (E : Env) (n r : Nat), r ≤ n → n ≤ UINT_MAX →
      ncr E (n : ℚ) (r : ℚ) = E.inf ∨
        (Nat.choose n r ≤ ULONG_MAX ∧
          ncr E (n : ℚ) (r : ℚ) = (to_double (Nat.choose n r) : ℚ)) := by
    intro E n r h hn
    rw [ncr_nat E n r h hn]
    rcases hloop n (min r (n - r)) (min r (n - r)) with e | e
    · rw [e]; left; rfl
    · have hb := ncr_loop_bound n (min r (n - r)) _ 0 1 _ (by decide) e
      rw [e]
      right
      have hk : min r (n - r) ≤ n := le_trans (min_le_left _ _) h
      rw [Nat.sub_add_cancel hk] at hb ⊢
      rcases min_choice r (n - r) with hm | hm
      · rw [hm] at hb ⊢
        exact ⟨hb, rfl⟩
      · rw [hm, Nat.choose_symm h] at hb ⊢
        exact ⟨hb, rfl⟩
  refine ⟨hnan, ?_, to_double_small, to_double_near, fun n r j _ _ => hloop n _ j,
    ncr_loop_step, choose_step, ?_, by decide!, by decide!, by decide!⟩
  · intro E n r h hn
    refine ⟨hmain E n r h hn, ?_, ?_⟩
    · intro hs
      rcases hmain E n r h hn with e | ⟨_, e⟩
      · exact Or.inl e
      · right
        rw [e, to_double_small _ hs]
    · rw [ncr_nat E n r h hn, ncr_nat E n (n - r) (Nat.sub_le n r) hn, Nat.sub_sub_self h,
        min_comm (n - r) r]
  · intro E
    have h1 := ncr_nat E 16 7 (by decide) (by decide)
    have h2 := ncr_nat E 16 9 (by decide) (by decide)
    have h3 := ncr_nat E 100 95 (by decide) (by decide)
    have h4 := ncr_nat E 300 100 (by decide) (by decide)
    have l1 : ncr_loop 16 (min 7 (16 - 7)) (min 7 (16 - 7)) 1 1 = some 11440 := by decide
    have l2 : ncr_loop 16 (min 9 (16 - 9)) (min 9 (16 - 9)) 1 1 = some 11440 := by decide
    have l3 : ncr_loop 100 (min 95 (100 - 95)) (min 95 (100 - 95)) 1 1 = some 75287520 := by
      decide
    have l4 : ncr_loop 300 (min 100 (300 - 100)) (min 100 (300 - 100)) 1 1 = none := by
      decide
    rw [l1] at h1
    rw [l2] at h2
    rw [l3] at h3
    rw [l4] at h4
    simp only [Nat.cast_ofNat] at h1 h2 h3 h4
    have d1 : to_double 11440 = 11440 := to_double_small _ (by decide)
    have d3 : to_double 75287520 = 75287520 := to_double_small _ (by decide)
    rw [d1] at h1 h2
    rw [d3] at h3
    refine ⟨?_, ?_, ?_, hnan E 2 4 (by norm_num), h4⟩
    · rw [h1]; norm_num
    · rw [h2]; norm_num
    · rw [h3]; norm_num

/-- The hypotheses of `ncr_binomial_as_double` hold for `n = 62` and `r = 31`:
`ncr(62, 31)` is `INFINITY` or the `double` nearest to `C(62, 31)`, and equals
`ncr(62, 62 - 31)`. -/
theorem ncr_binomial_as_double_witness :
    31 ≤ 62 ∧ 62 ≤ UINT_MAX ∧
    (ncr exactEnv ((62 : Nat) : ℚ) ((31 : Nat) : ℚ) = exactEnv.inf ∨
      (Nat.choose 62 31 ≤ ULONG_MAX ∧
        ncr exactEnv ((62 : Nat) : ℚ) ((31 : Nat) : ℚ)
          = (to_double (Nat.choose 62 31) : ℚ))) ∧
    ncr exactEnv ((62 : Nat) : ℚ) ((31 : Nat) : ℚ)
      = ncr exactEnv ((62 : Nat) : ℚ) ((62 - 31 : Nat) : ℚ) :=
  ⟨by decide, by decide,
    (ncr_binomial_as_double.2.1 exactEnv 62 31 (by decide) (by decide)).1,
    (ncr_binomial_as_double.2.1 exactEnv 62 31 (by decide) (by decide)).2.2⟩

/-! ## The error token is terminal -/

/-- Setting the error on a state in error leaves the state. -/
theorem set_error_of_error (s : state) (h : s.type = TOK_ERROR) : s.set_error = s := by
  cases s
  simp only [state.set_error] at *
  rw [h]

/-- No loop of the parser goes on in a state in error. -/
theorem operator_level_error (s : state) (h : s.type = TOK_ERROR) : operator_level s = none := by
  unfold operator_level
  rw [if_neg (by rw [h]; decide), if_neg (by rw [h]; decide)]

/-- A loop of the parser whose condition fails returns at once. -/
theorem binary_loop_stop (E : Env) (cond : state → Option Fn)
    (sub : state → Option (te_expr × state)) (fuel : Nat) (ret : te_expr) (s : state)
    (h : cond s = none) : binary_loop E cond sub (fuel + 1) ret s = some (ret, s) := by
  rw [binary_loop, h]

/-- In a state in error `base` takes its fallback and leaves the state. -/
theorem base_error (E : Env) (fuel : Nat) (s : state) (h : s.type = TOK_ERROR) :
    base E (fuel + 1) s = some ((new_expr 0 none).set_value E.nan, s) := by
  rw [base_default E fuel s (by rw [h]; decide) (by rw [h]; decide) (by rw [h]; decide)
    (by rw [h]; decide), set_error_of_error s h]

/-- In a state in error every function of the parser returns the placeholder
of `base` and leaves the state. -/
theorem parser_error (E : Env) (fuel : Nat) (s : state) (h : s.type = TOK_ERROR) :
    base E (fuel + 1) s = some ((new_expr 0 none).set_value E.nan, s) ∧
    power E (fuel + 2) s = some ((new_expr 0 none).set_value E.nan, s) ∧
    factor E (fuel + 3) s = some ((new_expr 0 none).set_value E.nan, s) ∧
    term E (fuel + 4) s = some ((new_expr 0 none).set_value E.nan, s) ∧
    expr E (fuel + 5) s = some ((new_expr 0 none).set_value E.nan, s) ∧
    list E (fuel + 6) s = some ((new_expr 0 none).set_value E.nan, s) := by
  obtain ⟨o1, o2, o3, o4⟩ := operator_level_none s (operator_level_error s h)
  have hb : ∀ f, base E (f + 1) s = some ((new_expr 0 none).set_value E.nan, s) :=
    fun f => base_error E f s h
  have hp : ∀ f, power E (f + 2) s = some ((new_expr 0 none).set_value E.nan, s) := by
    intro f
    rw [power_unsigned_fuel E f s o2]
    exact hb f
  have hf : ∀ f, factor E (f + 3) s = some ((new_expr 0 none).set_value E.nan, s) := by
    intro f
    rw [factor, hp f]
    exact binary_loop_stop E _ _ (f + 1) _ s o4
  have ht : ∀ f, term E (f + 4) s = some ((new_expr 0 none).set_value E.nan, s) := by
    intro f
    rw [term, hf f]
    exact binary_loop_stop E _ _ (f + 2) _ s o3
  have he : ∀ f, expr E (f + 5) s = some ((new_expr 0 none).set_value E.nan, s) := by
    intro f
    rw [expr, ht f]
    exact binary_loop_stop E _ _ (f + 3) _ s o2
  refine ⟨hb fuel, hp fuel, hf fuel, ht fuel, he fuel, ?_⟩
  rw [list, he fuel]
  exact binary_loop_stop E _ _ (fuel + 4) _ s o1

/-- Whatever fuel a function of the parser is given, when it returns from a
state in error it returns that state. -/
theorem parser_error_fixed (E : Env) (fuel : Nat) (s : state) (r : te_expr) (s1 : state)
    (h : s.type = TOK_ERROR) :
    (base E fuel s = some (r, s1) → s1 = s) ∧ (power E fuel s = some (r, s1) → s1 = s) ∧
    (factor E fuel s = some (r, s1) → s1 = s) ∧ (term E fuel s = some (r, s1) → s1 = s) ∧
    (expr E fuel s = some (r, s1) → s1 = s) ∧ (list E fuel s = some (r, s1) → s1 = s) := by
  obtain ⟨e1, e2, e3, e4, e5, e6⟩ := parser_error E fuel s h
  refine ⟨?_, ?_, ?_, ?_, ?_, ?_⟩
  · intro hr
    have := base_le E fuel (fuel + 1) (by omega) s _ hr
    rw [e1] at this
    injection this with this; injection this with _ this
    exact this.symm
  · intro hr
    have := power_le E fuel (fuel + 2) (by omega) s _ hr
    rw [e2] at this
    injection this with this; injection this with _ this
    exact this.symm
  · intro hr
    have := factor_le E fuel (fuel + 3) (by omega) s _ hr
    rw [e3] at this
    injection this with this; injection this with _ this
    exact this.symm
  · intro hr
    have := term_le E fuel (fuel + 4) (by omega) s _ hr
    rw [e4] at this
    injection this with this; injection this with _ this
    exact this.symm
  · intro hr
    have := expr_le E fuel (fuel + 5) (by omega) s _ hr
    rw [e5] at this
    injection this with this; injection this with _ this
    exact this.symm
  · intro hr
    have := list_le E fuel (fuel + 6) (by omega) s _ hr
    rw [e6] at this
    injection this with this; injection this with _ this
    exact this.symm

/-- C27 (what the code does). In the configuration `TE_POW_FROM_RIGHT`,
`factor` takes the `negate` node off whatever `power` returned, also when that
node comes from inside parentheses: `(-a)^b` compiles to `negate(pow(a, b))`
and not to `pow(negate(a), b)`, and `(-2)^2` evaluates to -4, not to 4 (the
default configuration gives 4).  The rest of the claim holds on the witnesses:
`2^3^4` and `a^b^a^b` are nested to the right, `-a^b` compiles to
`negate(pow(a, b))`, `-2^2` is -4, and `-(2)^2` has the tree of `-(2^2)`. -/
theorem pow_from_right_strips_parenthesised_negation :
    tree_from_right exactEnv "(-a)^b" [variable_binding "a", variable_binding "b"]
      = some (negate_node (binary_node .te_wrapped_pow (variable_node 0) (variable_node 1))) ∧
    value_from_right exactEnv "(-2)^2" [] (fun _ => 0) = some (-4) ∧
    value_of exactEnv "(-2)^2" [] (fun _ => 0) = some 4 ∧
    tree_from_right exactEnv "2^3^4" []
      = some (binary_node .te_wrapped_pow (constant_node 2)
          (binary_node .te_wrapped_pow (constant_node 3) (constant_node 4))) ∧
    tree_from_right exactEnv "2^3^4" [] = tree_from_right exactEnv "2^(3^4)" [] ∧
    tree_from_right exactEnv "a^b^a^b" [variable_binding "a", variable_binding "b"]
      = some (binary_node .te_wrapped_pow (variable_node 0)
          (binary_node .te_wrapped_pow (variable_node 1)
            (binary_node .te_wrapped_pow (variable_node 0) (variable_node 1)))) ∧
    tree_from_right exactEnv "-a^b" [variable_binding "a", variable_binding "b"]
      = some (negate_node (binary_node .te_wrapped_pow (variable_node 0) (variable_node 1))) ∧
    value_from_right exactEnv "-2^2" [] (fun _ => 0) = some (-4) ∧
    tree_from_right exactEnv "-(2)^2" [] = tree_from_right exactEnv "-(2^2)" [] := by
  refine ⟨by decide!, by decide!, by decide!, by decide!, by decide!, by decide!, by decide!,
    by decide!, by decide!⟩

/-! ## Texts enclosed in parentheses -/

theorem close_of_ne_end (s : state) (start : List Char) (h : s.type ≠ TOK_END) :
    s.close start = s.move start (s.next ++ [')']) := by
  unfold state.close
  rw [if_neg h]

theorem close_of_end (s : state) (start : List Char) (h : s.type = TOK_END) :
    s.close start = symbol_token (s.move start []) [] TOK_CLOSE := by
  unfold state.close
  rw [if_pos h]

/-- Away from the end of the text, the state on the text followed by `)` holds
the same token. -/
theorem close_token (s : state) (start : List Char) (h : s.type ≠ TOK_END) :
    (s.close start).type = s.type ∧ (s.close start).u = s.u ∧
    (s.close start).context = s.context := by
  rw [close_of_ne_end s start h]
  exact ⟨rfl, rfl, rfl⟩

theorem close_type_end (s : state) (start : List Char) (h : s.type = TOK_END) :
    (s.close start).type = TOK_CLOSE := by
  rw [close_of_end s start h]
  rfl

/-- The token of the state on the text followed by `)` has a type other than
`TOK_END` and `TOK_CLOSE` exactly when the token of the state has. -/
theorem close_type_iff (s : state) (start : List Char) (t : Nat) (h1 : t ≠ TOK_END)
    (h2 : t ≠ TOK_CLOSE) : (s.close start).type = t ↔ s.type = t := by
  by_cases h : s.type = TOK_END
  · rw [close_type_end s start h, h]
    exact ⟨fun e => absurd e.symm h2, fun e => absurd e.symm h1⟩
  · rw [(close_token s start h).1]

theorem close_u (s : state) (start : List Char) : (s.close start).u = s.u := by
  by_cases h : s.type = TOK_END
  · rw [close_of_end s start h]; rfl
  · exact (close_token s start h).2.1

/-- The tokenizer does not read the type of the token it replaces. -/
theorem next_token_of_type (E : Env) (s : state) (t : Nat) :
    next_token E { s with type := t } = next_token E s := rfl

/-- The tokenizer on the text followed by `)`. -/
theorem next_token_closes (E : Env) (hE : strtod_stable E ')') (start : List Char) (s : state)
    (h0 : '\x00' ∉ s.next) (h : s.type ≠ TOK_END) :
    next_token E (s.close start) = (next_token E s).close start ∧
    '\x00' ∉ (next_token E s).next := by
  have ha := next_token_append E ')' (Or.inr rfl) hE start s h0
  refine ⟨?_, not_mem_of_suffix _ _ (next_token_spec E s).2.2.2.2.2 h0⟩
  rw [close_of_ne_end s start h]
  by_cases he : (next_token E s).type = TOK_END
  · rw [ha.2 he, close_of_end _ start he]
    rfl
  · rw [ha.1 he, close_of_ne_end _ start he]

/-- The conditions of the loops of the parser do not tell the end of the text
from a `)`. -/
theorem close_ops (s : state) (start : List Char) :
    factor_op (s.close start) = factor_op s ∧ term_op (s.close start) = term_op s ∧
    expr_op (s.close start) = expr_op s ∧ list_op (s.close start) = list_op s := by
  by_cases h : s.type = TOK_END
  · have hc := close_type_end s start h
    unfold factor_op term_op expr_op list_op
    rw [hc, h]
    refine ⟨?_, ?_, ?_, ?_⟩ <;> rfl
  · obtain ⟨e1, e2, _⟩ := close_token s start h
    unfold factor_op term_op expr_op list_op
    rw [e1, e2]
    exact ⟨rfl, rfl, rfl, rfl⟩

/-- The sign loop of `power` on the text followed by `)`. -/
theorem power_signs_closes (E : Env) (hE : strtod_stable E ')') (start : List Char) :
    ∀ (fuel : Nat) (s : state) (sign : Int) (s1 : state) (sign1 : Int), '\x00' ∉ s.next →
      power_signs E fuel s sign = some (s1, sign1) →
      power_signs E fuel (s.close start) sign = some (s1.close start, sign1) ∧
      '\x00' ∉ s1.next := by
  intro fuel
  induction fuel with
  | zero => intro s sign s1 sign1 _ h; simp [power_signs] at h
  | succ fuel ih =>
    intro s sign s1 sign1 h0 h
    rw [power_signs] at h
    rw [power_signs]
    by_cases hc : s.type = TOK_INFIX ∧ (s.u.getFunction = .add ∨ s.u.getFunction = .sub)
    · have hne : s.type ≠ TOK_END := by rw [hc.1]; decide
      obtain ⟨e1, e2, _⟩ := close_token s start hne
      obtain ⟨n1, n2⟩ := next_token_closes E hE start s h0 hne
      rw [if_pos hc] at h
      rw [e1, e2, if_pos hc, n1]
      exact ih _ _ _ _ n2 h
    · rw [if_neg hc] at h
      injection h with h; injection h with a1 a2
      subst a1; subst a2
      have hc2 : ¬ ((s.close start).type = TOK_INFIX ∧
          ((s.close start).u.getFunction = .add ∨ (s.close start).u.getFunction = .sub)) := by
        rw [close_type_iff s start TOK_INFIX (by decide) (by decide), close_u]
        exact hc
      rw [if_neg hc2]
      exact ⟨rfl, h0⟩

/-- The loop of `factor`, `term`, `expr` and `list` on the text followed by `)`. -/
theorem binary_loop_closes (E : Env) (hE : strtod_stable E ')') (start : List Char)
    (cond : state → Option Fn) (sub : state → Option (te_expr × state))
    (hcond : ∀ s, cond (s.close start) = cond s)
    (herr : ∀ s, s.type = TOK_ERROR → cond s = none)
    (hend : ∀ s t, cond s = some t → s.type ≠ TOK_END)
    (hsub : closes start sub) :
    ∀ (fuel : Nat) (ret : te_expr) (s : state) (r : te_expr) (s1 : state), '\x00' ∉ s.next →
      binary_loop E cond sub fuel ret s = some (r, s1) → s1.type ≠ TOK_ERROR →
      binary_loop E cond sub fuel ret (s.close start) = some (r, s1.close start) ∧
      '\x00' ∉ s1.next := by
  intro fuel
  induction fuel with
  | zero => intro ret s r s1 _ h; simp [binary_loop] at h
  | succ fuel ih =>
    intro ret s r s1 h0 h hne
    rw [binary_loop] at h
    rw [binary_loop, hcond s]
    cases hc : cond s with
    | none =>
      rw [hc] at h
      injection h with h; injection h with e1 e2
      subst e1; subst e2
      exact ⟨rfl, h0⟩
    | some t =>
      rw [hc] at h
      simp only [] at h
      simp only []
      obtain ⟨n1, n2⟩ := next_token_closes E hE start s h0 (hend s t hc)
      rw [n1]
      cases hs : sub (next_token E s) with
      | none => rw [hs] at h; simp at h
      | some p =>
        obtain ⟨r1, s2⟩ := p
        rw [hs] at h
        simp only [] at h
        have h2 : s2.type ≠ TOK_ERROR := by
          intro he
          cases fuel with
          | zero => simp [binary_loop] at h
          | succ fuel =>
            rw [binary_loop, herr s2 he] at h
            injection h with h; injection h with e1 e2
            subst e2
            exact hne he
        obtain ⟨c1, c2⟩ := hsub _ _ _ n2 hs h2
        rw [c1]
        simp only []
        exact ih _ _ _ _ c2 h hne

/-- The argument loop of `base` on the text followed by `)`. -/
theorem base_args_closes (E : Env) (hE : strtod_stable E ')') (start : List Char)
    (sub : state → Option (te_expr × state)) (hsub : closes start sub) :
    ∀ (k i : Nat) (ret : te_expr) (s : state) (ret1 : te_expr) (i1 : Nat) (s1 : state),
      '\x00' ∉ s.next → s.type ≠ TOK_END →
      base_args E sub k i ret s = some (ret1, i1, s1) → s1.type ≠ TOK_ERROR →
      base_args E sub k i ret (s.close start) = some (ret1, i1, s1.close start) ∧
      '\x00' ∉ s1.next := by
  intro k
  induction k with
  | zero =>
    intro i ret s ret1 i1 s1 h0 _ h _
    rw [base_args] at h
    injection h with h; injection h with e1 h; injection h with e2 e3
    subst e1; subst e2; subst e3
    rw [base_args]
    exact ⟨rfl, h0⟩
  | succ k ih =>
    intro i ret s ret1 i1 s1 h0 hend h hne
    rw [base_args] at h
    rw [base_args]
    obtain ⟨n1, n2⟩ := next_token_closes E hE start s h0 hend
    rw [n1]
    cases hs : sub (next_token E s) with
    | none => rw [hs] at h; simp at h
    | some q =>
      obtain ⟨p, s2⟩ := q
      rw [hs] at h
      simp only [] at h
      by_cases hsep : s2.type ≠ TOK_SEP
      · rw [if_pos hsep] at h
        injection h with h; injection h with e1 h; injection h with e2 e3
        subst e1; subst e2; subst e3
        obtain ⟨c1, c2⟩ := hsub _ _ _ n2 hs hne
        rw [c1]
        simp only []
        rw [if_pos (by
          rw [Ne, close_type_iff s2 start TOK_SEP (by decide) (by decide)]
          exact hsep)]
        exact ⟨rfl, c2⟩
      · rw [if_neg hsep] at h
        have hs1 : s2.type = TOK_SEP := by
          by_contra hx; exact hsep hx
        obtain ⟨c1, c2⟩ := hsub _ _ _ n2 hs (by rw [hs1]; decide)
        rw [c1]
        simp only []
        rw [if_neg (by
          rw [Ne, close_type_iff s2 start TOK_SEP (by decide) (by decide)]
          exact hsep)]
        exact ih _ _ _ _ _ _ c2 (by rw [hs1]; decide) h hne

/-- No loop of the parser goes on at the end of the text. -/
theorem ops_end (s : state) (h : s.type = TOK_END) :
    factor_op s = none ∧ term_op s = none ∧ expr_op s = none ∧ list_op s = none := by
  have ho : operator_level s = none := by
    unfold operator_level
    rw [if_neg (by rw [h]; decide), if_neg (by rw [h]; decide)]
  obtain ⟨o1, o2, o3, o4⟩ := operator_level_none s ho
  exact ⟨o4, o3, o2, o1⟩

/-- No loop of the parser goes on in a state in error. -/
theorem ops_error (s : state) (h : s.type = TOK_ERROR) :
    factor_op s = none ∧ term_op s = none ∧ expr_op s = none ∧ list_op s = none := by
  obtain ⟨o1, o2, o3, o4⟩ := operator_level_none s (operator_level_error s h)
  exact ⟨o4, o3, o2, o1⟩

/-- A loop of the parser entered in a state in error returns that state. -/
theorem binary_loop_error (E : Env) (cond : state → Option Fn)
    (sub : state → Option (te_expr × state)) (fuel : Nat) (ret r : te_expr) (s s1 : state)
    (hc : cond s = none) (h : binary_loop E cond sub fuel ret s = some (r, s1)) : s1 = s := by
  cases fuel with
  | zero => simp [binary_loop] at h
  | succ fuel =>
    rw [binary_loop, hc] at h
    injection h with h; injection h with _ e2
    exact e2.symm

/-- Every level of the parser does on a text followed by `)` what it does on
the text itself, up to the end of the text. -/
theorem parser_closes (E : Env) (hE : strtod_stable E ')') (start : List Char) :
    ∀ (fuel : Nat),
    closes start (base E fuel) ∧ closes start (power E fuel) ∧ closes start (factor E fuel) ∧
    closes start (term E fuel) ∧ closes start (expr E fuel) ∧ closes start (list E fuel) := by
  intro fuel
  induction fuel with
  | zero =>
    refine ⟨?_, ?_, ?_, ?_, ?_, ?_⟩ <;> intro s r s1 _ h
    · simp [base] at h
    · simp [power] at h
    · simp [factor] at h
    · simp [term] at h
    · simp [expr] at h
    · simp [list] at h
  | succ fuel ih =>
    obtain ⟨ihb, ihp, ihf, iht, ihe, ihl⟩ := ih
    have hend_of : ∀ (cond : state → Option Fn), (∀ s, s.type = TOK_END → cond s = none) →
        ∀ s t, cond s = some t → s.type ≠ TOK_END := by
      intro cond hc s t hs he
      rw [hc s he] at hs
      simp at hs
    refine ⟨?_, ?_, ?_, ?_, ?_, ?_⟩
    · -- base
      intro s r s1 h0 h hne
      rcases base_cases s.type with h1 | h1 | h1 | h1 | h1 | h1 | ⟨h1, h2, h3, h4⟩
      · have hend : s.type ≠ TOK_END := fun e => by rw [e] at h1; exact absurd h1 (by decide)
        obtain ⟨e1, e2, e3⟩ := close_token s start hend
        obtain ⟨n1, n2⟩ := next_token_closes E hE start s h0 hend
        rw [base_number E fuel s h1] at h
        injection h with h; injection h with a1 a2
        subst a1; subst a2
        rw [base_number E fuel _ (by rw [e1]; exact h1), e2, n1]
        exact ⟨rfl, n2⟩
      · have hend : s.type ≠ TOK_END := fun e => by rw [e] at h1; exact absurd h1 (by decide)
        obtain ⟨e1, e2, e3⟩ := close_token s start hend
        obtain ⟨n1, n2⟩ := next_token_closes E hE start s h0 hend
        rw [base_variable E fuel s h1] at h
        injection h with h; injection h with a1 a2
        subst a1; subst a2
        rw [base_variable E fuel _ (by rw [e1]; exact h1), e2, n1]
        exact ⟨rfl, n2⟩
      · have hend : s.type ≠ TOK_END := fun e => by rw [e] at h1; exact absurd h1 (by decide)
        obtain ⟨e1, e2, e3⟩ := close_token s start hend
        obtain ⟨n1, n2⟩ := next_token_closes E hE start s h0 hend
        rw [base_function0 E fuel s h1] at h
        rw [base_function0 E fuel _ (by rw [e1]; exact h1), e1, e2, e3, n1]
        by_cases ho : (next_token E s).type = TOK_OPEN
        · rw [if_pos ho] at h
          have hend1 : (next_token E s).type ≠ TOK_END := by rw [ho]; decide
          obtain ⟨m1, m2⟩ := next_token_closes E hE start (next_token E s) n2 hend1
          rw [if_pos (by rw [(close_token _ start hend1).1]; exact ho), m1]
          by_cases hc : (next_token E (next_token E s)).type ≠ TOK_CLOSE
          · rw [if_pos hc] at h
            injection h with h; injection h with a1 a2
            subst a2
            exact absurd rfl hne
          · rw [if_neg hc] at h
            injection h with h; injection h with a1 a2
            subst a1; subst a2
            have hc1 : (next_token E (next_token E s)).type = TOK_CLOSE := by
              by_contra hx; exact hc hx
            have hend2 : (next_token E (next_token E s)).type ≠ TOK_END := by rw [hc1]; decide
            obtain ⟨k1, k2⟩ := next_token_closes E hE start _ m2 hend2
            rw [if_neg (by rw [(close_token _ start hend2).1]; exact hc), k1]
            exact ⟨rfl, k2⟩
        · rw [if_neg ho] at h
          injection h with h; injection h with a1 a2
          subst a1; subst a2
          rw [if_neg (by
            rw [close_type_iff _ start TOK_OPEN (by decide) (by decide)]; exact ho)]
          exact ⟨rfl, n2⟩
      · have hend : s.type ≠ TOK_END := fun e => by rw [e] at h1; exact absurd h1 (by decide)
        obtain ⟨e1, e2, e3⟩ := close_token s start hend
        obtain ⟨n1, n2⟩ := next_token_closes E hE start s h0 hend
        rw [base_function1 E fuel s h1] at h
        rw [base_function1 E fuel _ (by rw [e1]; exact h1), e1, e2, e3, n1]
        cases hp : power E fuel (next_token E s) with
        | none => rw [hp] at h; simp at h
        | some q =>
          obtain ⟨p, s2⟩ := q
          rw [hp] at h
          injection h with h; injection h with a1 a2
          subst a1; subst a2
          obtain ⟨c1, c2⟩ := ihp _ _ _ n2 hp hne
          rw [c1]
          exact ⟨rfl, c2⟩
      · have hend : s.type ≠ TOK_END := fun e => by rw [e] at h1; exact absurd h1 (by decide)
        obtain ⟨e1, e2, e3⟩ := close_token s start hend
        obtain ⟨n1, n2⟩ := next_token_closes E hE start s h0 hend
        rw [base_function_n E fuel s h1] at h
        rw [base_function_n E fuel _ (by rw [e1]; exact h1), e1, e2, e3, n1]
        by_cases hopen : (next_token E s).type ≠ TOK_OPEN
        · rw [if_pos hopen] at h
          injection h with h; injection h with a1 a2
          subst a2
          exact absurd rfl hne
        · rw [if_neg hopen] at h
          have ho : (next_token E s).type = TOK_OPEN := by
            by_contra hx; exact hopen hx
          have hend1 : (next_token E s).type ≠ TOK_END := by rw [ho]; decide
          rw [if_neg (by rw [(close_token _ start hend1).1]; exact hopen)]
          cases hargs : base_args E (expr E fuel) (ARITY s.type) 0
              (function_node s.type s.u.getFunction s.context) (next_token E s) with
          | none => rw [hargs] at h; simp at h
          | some q =>
            obtain ⟨ret1, i, s2⟩ := q
            rw [hargs] at h
            simp only [] at h
            by_cases hclose : s2.type ≠ TOK_CLOSE ∨ i ≠ ARITY s.type - 1
            · rw [if_pos hclose] at h
              injection h with h; injection h with a1 a2
              subst a2
              exact absurd rfl hne
            · rw [if_neg hclose] at h
              injection h with h; injection h with a1 a2
              subst a1; subst a2
              have hc1 : s2.type = TOK_CLOSE := by
                by_contra hx; exact hclose (Or.inl hx)
              have hend2 : s2.type ≠ TOK_END := by rw [hc1]; decide
              obtain ⟨b1, b2⟩ := base_args_closes E hE start (expr E fuel) ihe _ _ _ _ _ _ _
                n2 hend1 hargs (by rw [hc1]; decide)
              rw [b1]
              simp only []
              obtain ⟨k1, k2⟩ := next_token_closes E hE start s2 b2 hend2
              rw [if_neg (by rw [(close_token _ start hend2).1]; exact hclose), k1]
              exact ⟨rfl, k2⟩
      · have hend : s.type ≠ TOK_END := fun e => by rw [e] at h1; exact absurd h1 (by decide)
        obtain ⟨e1, e2, e3⟩ := close_token s start hend
        obtain ⟨n1, n2⟩ := next_token_closes E hE start s h0 hend
        rw [base_open E fuel s h1] at h
        rw [base_open E fuel _ (by rw [e1]; exact h1), n1]
        cases hl : list E fuel (next_token E s) with
        | none => rw [hl] at h; simp at h
        | some q =>
          obtain ⟨ret, s2⟩ := q
          rw [hl] at h
          simp only [] at h
          by_cases hclose : s2.type ≠ TOK_CLOSE
          · rw [if_pos hclose] at h
            injection h with h; injection h with a1 a2
            subst a2
            exact absurd rfl hne
          · rw [if_neg hclose] at h
            injection h with h; injection h with a1 a2
            subst a1; subst a2
            have hc1 : s2.type = TOK_CLOSE := by
              by_contra hx; exact hclose hx
            have hend2 : s2.type ≠ TOK_END := by rw [hc1]; decide
            obtain ⟨c1, c2⟩ := ihl _ _ _ n2 hl (by rw [hc1]; decide)
            rw [c1]
            simp only []
            obtain ⟨k1, k2⟩ := next_token_closes E hE start s2 c2 hend2
            rw [if_neg (by rw [(close_token _ start hend2).1]; exact hclose), k1]
            exact ⟨rfl, k2⟩
      · rw [base_default E fuel s h1 h2 h3 h4] at h
        injection h with h; injection h with a1 a2
        subst a2
        exact absurd rfl hne
    · -- power
      intro s r s1 h0 h hne
      rw [power] at h
      rw [power]
      cases hsg : power_signs E fuel s 1 with
      | none => rw [hsg] at h; simp at h
      | some q =>
        obtain ⟨s2, sign⟩ := q
        rw [hsg] at h
        simp only [] at h
        obtain ⟨g1, g2⟩ := power_signs_closes E hE start fuel s 1 s2 sign h0 hsg
        rw [g1]
        simp only []
        by_cases h1 : sign = 1
        · rw [if_pos h1] at h
          rw [if_pos h1]
          exact ihb _ _ _ g2 h hne
        · rw [if_neg h1] at h
          rw [if_neg h1]
          cases hb : base E fuel s2 with
          | none => rw [hb] at h; simp at h
          | some q =>
            obtain ⟨b, s3⟩ := q
            rw [hb] at h
            injection h with h; injection h with a1 a2
            subst a1; subst a2
            obtain ⟨c1, c2⟩ := ihb _ _ _ g2 hb hne
            rw [c1]
            exact ⟨rfl, c2⟩
    · intro s r s1 h0 h hne
      rw [factor] at h
      rw [factor]
      cases hp : power E fuel s with
      | none => rw [hp] at h; simp at h
      | some q =>
        obtain ⟨ret, s2⟩ := q
        rw [hp] at h
        simp only [] at h
        have h2 : s2.type ≠ TOK_ERROR := fun he =>
          hne (by rw [binary_loop_error E _ _ _ _ _ _ _ (ops_error s2 he).1 h]; exact he)
        obtain ⟨c1, c2⟩ := ihp _ _ _ h0 hp h2
        rw [c1]
        simp only []
        exact binary_loop_closes E hE start factor_op _ (fun s => (close_ops s start).1)
          (fun s he => (ops_error s he).1) (hend_of _ (fun s he => (ops_end s he).1))
          ihp fuel ret s2 r s1 c2 h hne
    · intro s r s1 h0 h hne
      rw [term] at h
      rw [term]
      cases hp : factor E fuel s with
      | none => rw [hp] at h; simp at h
      | some q =>
        obtain ⟨ret, s2⟩ := q
        rw [hp] at h
        simp only [] at h
        have h2 : s2.type ≠ TOK_ERROR := fun he =>
          hne (by rw [binary_loop_error E _ _ _ _ _ _ _ (ops_error s2 he).2.1 h]; exact he)
        obtain ⟨c1, c2⟩ := ihf _ _ _ h0 hp h2
        rw [c1]
        simp only []
        exact binary_loop_closes E hE start term_op _ (fun s => (close_ops s start).2.1)
          (fun s he => (ops_error s he).2.1) (hend_of _ (fun s he => (ops_end s he).2.1))
          ihf fuel ret s2 r s1 c2 h hne
    · intro s r s1 h0 h hne
      rw [expr] at h
      rw [expr]
      cases hp : term E fuel s with
      | none => rw [hp] at h; simp at h
      | some q =>
        obtain ⟨ret, s2⟩ := q
        rw [hp] at h
        simp only [] at h
        have h2 : s2.type ≠ TOK_ERROR := fun he =>
          hne (by rw [binary_loop_error E _ _ _ _ _ _ _ (ops_error s2 he).2.2.1 h]; exact he)
        obtain ⟨c1, c2⟩ := iht _ _ _ h0 hp h2
        rw [c1]
        simp only []
        exact binary_loop_closes E hE start expr_op _ (fun s => (close_ops s start).2.2.1)
          (fun s he => (ops_error s he).2.2.1) (hend_of _ (fun s he => (ops_end s he).2.2.1))
          iht fuel ret s2 r s1 c2 h hne
    · intro s r s1 h0 h hne
      rw [list] at h
      rw [list]
      cases hp : expr E fuel s with
      | none => rw [hp] at h; simp at h
      | some q =>
        obtain ⟨ret, s2⟩ := q
        rw [hp] at h
        simp only [] at h
        have h2 : s2.type ≠ TOK_ERROR := fun he =>
          hne (by rw [binary_loop_error E _ _ _ _ _ _ _ (ops_error s2 he).2.2.2 h]; exact he)
        obtain ⟨c1, c2⟩ := ihe _ _ _ h0 hp h2
        rw [c1]
        simp only []
        exact binary_loop_closes E hE start list_op _ (fun s => (close_ops s start).2.2.2)
          (fun s he => (ops_error s he).2.2.2) (hend_of _ (fun s he => (ops_end s he).2.2.2))
          ihe fuel ret s2 r s1 c2 h hne

/-- The parse of a text enclosed in parentheses: when the parse of the text
returns at the end of the text, the parse of `(` text `)` returns the same
tree at the end of its text. -/
theorem parse_enclosed (E : Env) (hE : strtod_stable E ')') (expression : List Char)
    (bindings : List te_variable) (root : te_expr) (s : state) (h0 : '\x00' ∉ expression)
    (hp : parse E expression bindings = some (root, s)) (hs : s.type = TOK_END) :
    ∃ s1, parse E ('(' :: (expression ++ [')'])) bindings = some (root, s1) ∧
      s1.type = TOK_END := by
  let text := '(' :: (expression ++ [')'])
  have hopen : next_token E (initial_state text bindings)
      = symbol_token (initial_state text bindings) (expression ++ [')']) TOK_OPEN :=
    next_token_open E _ _ rfl
  have hinit : (initial_state expression bindings).type ≠ TOK_END :=
    (by decide : TOK_NULL ≠ TOK_END)
  have hnext : next_token E (symbol_token (initial_state text bindings)
        (expression ++ [')']) TOK_OPEN)
      = (next_token E (initial_state expression bindings)).close text := by
    have e := (next_token_closes E hE text (initial_state expression bindings) h0 hinit).1
    rw [close_of_ne_end _ text hinit] at e
    rw [← e]
    rfl
  have hnul : '\x00' ∉ (next_token E (initial_state expression bindings)).next :=
    (next_token_closes E hE text (initial_state expression bindings) h0 hinit).2
  unfold parse at hp
  obtain ⟨hl, _⟩ := (parser_closes E hE text (compile_fuel expression)).2.2.2.2.2 _ _ _ hnul hp
    (by rw [hs]; decide)
  rw [← hnext, close_of_end s text hs] at hl
  obtain ⟨_, hpow⟩ := power_open_fuel E (compile_fuel expression) _ _ root rfl hl rfl
  have hend : next_token E (symbol_token (s.move text []) [] TOK_CLOSE)
      = { symbol_token (s.move text []) [] TOK_CLOSE with type := TOK_END } :=
    next_token_at_end E _ (Or.inl rfl)
  rw [hend] at hpow
  have hlist := single_operand_fuel E (compile_fuel expression + 1) _ _ root hpow (by
    unfold operator_level
    rw [if_neg (by decide : ¬ TOK_END = TOK_SEP), if_neg (by decide : ¬ TOK_END = TOK_INFIX)])
  refine ⟨{ symbol_token (s.move text []) [] TOK_CLOSE with type := TOK_END }, ?_, rfl⟩
  unfold parse
  rw [hopen]
  refine list_le E _ _ ?_ _ _ hlist
  simp only [compile_fuel, List.length_cons, List.length_append, List.length_nil]
  omega

/-- A text that compiles still compiles when it is enclosed in parentheses, to
the same expression. -/
theorem te_compile_enclosed (E : Env) (hE : strtod_stable E ')') (expression : List Char)
    (bindings : List te_variable) (ex : te_expression) (h0 : '\x00' ∉ expression)
    (h : te_compile E expression bindings = some (some ex, 0)) :
    te_compile E ('(' :: (expression ++ [')'])) bindings = some (some ex, 0) ∧
    (parse E ('(' :: (expression ++ [')'])) bindings).map Prod.fst
      = (parse E expression bindings).map Prod.fst := by
  obtain ⟨root, s, root1, h1, h2, _, h4, _, h6, _⟩ :=
    te_compile_some E expression bindings ex 0 h
  obtain ⟨s1, p1, p2⟩ := parse_enclosed E hE expression bindings root s h0 h1 h2
  refine ⟨?_, by rw [p1, h1]; rfl⟩
  rw [te_compile_of_tree E _ bindings root (by rw [p1]; rfl) (by rw [p1]; simp [p2]), h4, h6]
  rfl

/-- C26. Parentheses are transparent.  In the default configuration, for every
text that `te_compile` accepts, the text enclosed in `(` and `)` is accepted
too: the parser builds the same tree for it, and `te_compile` returns the same
expression (here `strtod` is assumed not to read a `)` nor past the end of the
text, as the decimal `strtod` of `exactEnv` does, and the text to hold no
terminator).  Witnesses: `(((2+(1))))` is 3, `(3-2-4)` compiles to the
expression of `3-2-4`, and `(1,2),3` is 3. -/
theorem parentheses_transparent :
    (∀ (E : Env) (expression : List Char) (bindings : List te_variable) (ex : te_expression),
      strtod_stable E ')' → '\x00' ∉ expression →
      te_compile E expression bindings = some (some ex, 0) →
      te_compile E ('(' :: (expression ++ [')'])) bindings = some (some ex, 0) ∧
      (parse E ('(' :: (expression ++ [')'])) bindings).map Prod.fst
        = (parse E expression bindings).map Prod.fst) ∧
    strtod_stable exactEnv ')' ∧
    value_of exactEnv "(((2+(1))))" [] (fun _ => 0) = some 3 ∧
    tree_of exactEnv "(3-2-4)" [] = tree_of exactEnv "3-2-4" [] ∧
    te_compile exactEnv "(3-2-4)".toList [] = te_compile exactEnv "3-2-4".toList [] ∧
    value_of exactEnv "(1,2),3" [] (fun _ => 0) = some 3 := by
  refine ⟨?_, strtod_stable_exactEnv _ (Or.inr rfl), by decide!, by decide!, by decide!,
    by decide!⟩
  intro E expression bindings ex hE h0 h
  exact te_compile_enclosed E hE expression bindings ex h0 h

/-- The hypotheses of `parentheses_transparent` hold for the text `x-2-4` with
the variable `x`: it compiles, and so does `(x-2-4)`, to the same expression. -/
theorem parentheses_transparent_witness :
    te_compile exactEnv ('(' :: ("x-2-4".toList ++ [')'])) [variable_binding "x"]
      = some (some (new_expression [variable_binding "x"]
          (binary_node .sub (binary_node .sub (variable_node 0) (constant_node 2))
            (constant_node 4))), 0) ∧
    (parse exactEnv ('(' :: ("x-2-4".toList ++ [')'])) [variable_binding "x"]).map Prod.fst
      = (parse exactEnv "x-2-4".toList [variable_binding "x"]).map Prod.fst :=
  parentheses_transparent.1 exactEnv "x-2-4".toList [variable_binding "x"]
    (new_expression [variable_binding "x"]
      (binary_node .sub (binary_node .sub (variable_node 0) (constant_node 2))
        (constant_node 4)))
    (strtod_stable_exactEnv _ (Or.inr rfl)) (by decide) (by decide!)

/-! ## The calls of the tokenizer made by a parse -/

theorem follows_refl (E : Env) (s : state) : follows E s s :=
  ⟨0, Or.inl rfl, fun j hj => absurd hj (Nat.not_lt_zero j)⟩

theorem follows_error (E : Env) (s : state) : follows E s s.set_error :=
  ⟨0, Or.inr rfl, fun j hj => absurd hj (Nat.not_lt_zero j)⟩

theorem follows_set_error (E : Env) (s s1 : state) (h : follows E s s1) :
    follows E s s1.set_error := by
  obtain ⟨k, hk, herr⟩ := h
  refine ⟨k, Or.inr ?_, herr⟩
  rcases hk with e | e
  · rw [e]
  · rw [e]; rfl

/-- One more call of the tokenizer, made on a token that is no error. -/
theorem follows_step (E : Env) (s s1 : state) (hs : s.type ≠ TOK_ERROR)
    (h : follows E (next_token E s) s1) : follows E s s1 := by
  obtain ⟨k, hk, herr⟩ := h
  refine ⟨k + 1, ?_, ?_⟩
  · rw [Function.iterate_succ_apply]
    exact hk
  · intro j hj
    cases j with
    | zero => exact hs
    | succ j =>
      rw [Function.iterate_succ_apply]
      exact herr j (by omega)

/-- The calls of two parts of a parse, the second of which leaves a state in
error as it is. -/
theorem follows_trans (E : Env) (s s1 s2 : state) (h1 : follows E s s1)
    (h2 : follows E s1 s2) (hfix : s1.type = TOK_ERROR → s2 = s1) : follows E s s2 := by
  obtain ⟨k1, hk1, herr1⟩ := h1
  rcases hk1 with e | e
  · obtain ⟨k2, hk2, herr2⟩ := h2
    refine ⟨k2 + k1, ?_, ?_⟩
    · rw [Function.iterate_add_apply, ← e]
      exact hk2
    · intro j hj
      by_cases hlt : j < k1
      · exact herr1 j hlt
      · have ej : j = (j - k1) + k1 := by omega
        rw [ej, Function.iterate_add_apply, ← e]
        exact herr2 (j - k1) (by omega)
  · have ht : s1.type = TOK_ERROR := by rw [e]; rfl
    rw [hfix ht]
    exact ⟨k1, Or.inr e, herr1⟩

/-- The calls of the tokenizer made by the sign loop of `power`. -/
theorem power_signs_follows (E : Env) : ∀ (fuel : Nat) (s : state) (sign : Int) (s1 : state)
    (sign1 : Int), power_signs E fuel s sign = some (s1, sign1) → follows E s s1 := by
  intro fuel
  induction fuel with
  | zero => intro s sign s1 sign1 h; simp [power_signs] at h
  | succ fuel ih =>
    intro s sign s1 sign1 h
    rw [power_signs] at h
    by_cases hc : s.type = TOK_INFIX ∧ (s.u.getFunction = .add ∨ s.u.getFunction = .sub)
    · rw [if_pos hc] at h
      exact follows_step E s s1 (by rw [hc.1]; decide) (ih _ _ _ _ h)
    · rw [if_neg hc] at h
      injection h with h; injection h with e1 e2
      subst e1
      exact follows_refl E _

/-- The calls of the tokenizer made by a loop of the parser. -/
theorem binary_loop_follows (E : Env) (cond : state → Option Fn)
    (sub : state → Option (te_expr × state))
    (herr : ∀ s, s.type = TOK_ERROR → cond s = none)
    (hsub : ∀ s r s1, sub s = some (r, s1) → follows E s s1) :
    ∀ (fuel : Nat) (ret : te_expr) (s : state) (r : te_expr) (s1 : state),
      binary_loop E cond sub fuel ret s = some (r, s1) → follows E s s1 := by
  intro fuel
  induction fuel with
  | zero => intro ret s r s1 h; simp [binary_loop] at h
  | succ fuel ih =>
    intro ret s r s1 h
    have h' := h
    rw [binary_loop] at h
    cases hc : cond s with
    | none =>
      rw [hc] at h
      injection h with h; injection h with e1 e2
      subst e2
      exact follows_refl E _
    | some t =>
      rw [hc] at h
      simp only [] at h
      have hs : s.type ≠ TOK_ERROR := by
        intro he
        rw [herr s he] at hc
        simp at hc
      cases hsb : sub (next_token E s) with
      | none => rw [hsb] at h; simp at h
      | some p =>
        obtain ⟨r1, s2⟩ := p
        rw [hsb] at h
        simp only [] at h
        exact follows_trans E s s2 s1 (follows_step E s s2 hs (hsub _ _ _ hsb))
          (ih _ _ _ _ h) (fun he => binary_loop_error E _ _ _ _ _ _ _ (herr s2 he) h)

/-- The calls of the tokenizer made by the argument loop of `base`. -/
theorem base_args_follows (E : Env) (sub : state → Option (te_expr × state))
    (hsub : ∀ s r s1, sub s = some (r, s1) → follows E s s1) :
    ∀ (k i : Nat) (ret : te_expr) (s : state) (ret1 : te_expr) (i1 : Nat) (s1 : state),
      s.type ≠ TOK_ERROR → base_args E sub k i ret s = some (ret1, i1, s1) →
      follows E s s1 := by
  intro k
  induction k with
  | zero =>
    intro i ret s ret1 i1 s1 _ h
    rw [base_args] at h
    injection h with h; injection h with e1 h; injection h with e2 e3
    subst e3
    exact follows_refl E _
  | succ k ih =>
    intro i ret s ret1 i1 s1 hs h
    rw [base_args] at h
    cases hsb : sub (next_token E s) with
    | none => rw [hsb] at h; simp at h
    | some q =>
      obtain ⟨p, s2⟩ := q
      rw [hsb] at h
      simp only [] at h
      have hfirst := follows_step E s s2 hs (hsub _ _ _ hsb)
      by_cases hsep : s2.type ≠ TOK_SEP
      · rw [if_pos hsep] at h
        injection h with h; injection h with e1 h; injection h with e2 e3
        subst e3
        exact hfirst
      · rw [if_neg hsep] at h
        have hs1 : s2.type = TOK_SEP := by
          by_contra hx; exact hsep hx
        exact follows_trans E s s2 s1 hfirst (ih _ _ _ _ _ _ (by rw [hs1]; decide) h)
          (fun he => absurd (hs1.symm.trans he) (by decide))

/-- Every level of the parser reaches the state it returns by calls of the
tokenizer none of which is made on an error token. -/
theorem parser_follows (E : Env) : ∀ (fuel : Nat),
    (∀ s r s1, base E fuel s = some (r, s1) → follows E s s1) ∧
    (∀ s r s1, power E fuel s = some (r, s1) → follows E s s1) ∧
    (∀ s r s1, factor E fuel s = some (r, s1) → follows E s s1) ∧
    (∀ s r s1, term E fuel s = some (r, s1) → follows E s s1) ∧
    (∀ s r s1, expr E fuel s = some (r, s1) → follows E s s1) ∧
    (∀ s r s1, list E fuel s = some (r, s1) → follows E s s1) := by
  intro fuel
  induction fuel with
  | zero =>
    refine ⟨?_, ?_, ?_, ?_, ?_, ?_⟩ <;> intro s r s1 h
    · simp [base] at h
    · simp [power] at h
    · simp [factor] at h
    · simp [term] at h
    · simp [expr] at h
    · simp [list] at h
  | succ fuel ih =>
    obtain ⟨ihb, ihp, ihf, iht, ihe, ihl⟩ := ih
    refine ⟨?_, ?_, ?_, ?_, ?_, ?_⟩
    · -- base
      intro s r s1 h
      rcases base_cases s.type with h1 | h1 | h1 | h1 | h1 | h1 | ⟨h1, h2, h3, h4⟩
      · have hs : s.type ≠ TOK_ERROR := fun e => by rw [e] at h1; exact absurd h1 (by decide)
        rw [base_number E fuel s h1] at h
        injection h with h; injection h with e1 e2
        subst e2
        exact follows_step E s _ hs (follows_refl E _)
      · have hs : s.type ≠ TOK_ERROR := fun e => by rw [e] at h1; exact absurd h1 (by decide)
        rw [base_variable E fuel s h1] at h
        injection h with h; injection h with e1 e2
        subst e2
        exact follows_step E s _ hs (follows_refl E _)
      · have hs : s.type ≠ TOK_ERROR := fun e => by rw [e] at h1; exact absurd h1 (by decide)
        rw [base_function0 E fuel s h1] at h
        by_cases ho : (next_token E s).type = TOK_OPEN
        · rw [if_pos ho] at h
          have hs1 : (next_token E s).type ≠ TOK_ERROR := by rw [ho]; decide
          by_cases hc : (next_token E (next_token E s)).type ≠ TOK_CLOSE
          · rw [if_pos hc] at h
            injection h with h; injection h with e1 e2
            subst e2
            exact follows_step E s _ hs (follows_step E _ _ hs1 (follows_error E _))
          · rw [if_neg hc] at h
            injection h with h; injection h with e1 e2
            subst e2
            have hc1 : (next_token E (next_token E s)).type = TOK_CLOSE := by
              by_contra hx; exact hc hx
            exact follows_step E s _ hs (follows_step E _ _ hs1
              (follows_step E _ _ (by rw [hc1]; decide) (follows_refl E _)))
        · rw [if_neg ho] at h
          injection h with h; injection h with e1 e2
          subst e2
          exact follows_step E s _ hs (follows_refl E _)
      · have hs : s.type ≠ TOK_ERROR := fun e => by rw [e] at h1; exact absurd h1 (by decide)
        rw [base_function1 E fuel s h1] at h
        cases hp : power E fuel (next_token E s) with
        | none => rw [hp] at h; simp at h
        | some q =>
          obtain ⟨p, s2⟩ := q
          rw [hp] at h
          injection h with h; injection h with e1 e2
          subst e2
          exact follows_step E s _ hs (ihp _ _ _ hp)
      · have hs : s.type ≠ TOK_ERROR := fun e => by rw [e] at h1; exact absurd h1 (by decide)
        rw [base_function_n E fuel s h1] at h
        by_cases hopen : (next_token E s).type ≠ TOK_OPEN
        · rw [if_pos hopen] at h
          injection h with h; injection h with e1 e2
          subst e2
          exact follows_step E s _ hs (follows_error E _)
        · rw [if_neg hopen] at h
          have ho : (next_token E s).type = TOK_OPEN := by
            by_contra hx; exact hopen hx
          cases hargs : base_args E (expr E fuel) (ARITY s.type) 0
              (function_node s.type s.u.getFunction s.context) (next_token E s) with
          | none => rw [hargs] at h; simp at h
          | some q =>
            obtain ⟨ret1, i, s2⟩ := q
            rw [hargs] at h
            simp only [] at h
            have hrun := follows_step E s s2 hs
              (base_args_follows E (expr E fuel) ihe _ _ _ _ _ _ _ (by rw [ho]; decide) hargs)
            by_cases hclose : s2.type ≠ TOK_CLOSE ∨ i ≠ ARITY s.type - 1
            · rw [if_pos hclose] at h
              injection h with h; injection h with e1 e2
              subst e2
              exact follows_set_error E s s2 hrun
            · rw [if_neg hclose] at h
              injection h with h; injection h with e1 e2
              subst e2
              have hc1 : s2.type = TOK_CLOSE := by
                by_contra hx; exact hclose (Or.inl hx)
              exact follows_trans E s s2 _ hrun
                (follows_step E s2 _ (by rw [hc1]; decide) (follows_refl E _))
                (fun he => absurd (hc1.symm.trans he) (by decide))
      · have hs : s.type ≠ TOK_ERROR := fun e => by rw [e] at h1; exact absurd h1 (by decide)
        rw [base_open E fuel s h1] at h
        cases hl : list E fuel (next_token E s) with
        | none => rw [hl] at h; simp at h
        | some q =>
          obtain ⟨ret, s2⟩ := q
          rw [hl] at h
          simp only [] at h
          have hrun := follows_step E s s2 hs (ihl _ _ _ hl)
          by_cases hclose : s2.type ≠ TOK_CLOSE
          · rw [if_pos hclose] at h
            injection h with h; injection h with e1 e2
            subst e2
            exact follows_set_error E s s2 hrun
          · rw [if_neg hclose] at h
            injection h with h; injection h with e1 e2
            subst e2
            have hc1 : s2.type = TOK_CLOSE := by
              by_contra hx; exact hclose hx
            exact follows_trans E s s2 _ hrun
              (follows_step E s2 _ (by rw [hc1]; decide) (follows_refl E _))
              (fun he => absurd (hc1.symm.trans he) (by decide))
      · rw [base_default E fuel s h1 h2 h3 h4] at h
        injection h with h; injection h with e1 e2
        subst e2
        exact follows_error E s
    · -- power
      intro s r s1 h
      rw [power] at h
      cases hsg : power_signs E fuel s 1 with
      | none => rw [hsg] at h; simp at h
      | some q =>
        obtain ⟨s2, sign⟩ := q
        rw [hsg] at h
        simp only [] at h
        have hsigns := power_signs_follows E fuel s 1 s2 sign hsg
        by_cases h1 : sign = 1
        · rw [if_pos h1] at h
          exact follows_trans E s s2 s1 hsigns (ihb _ _ _ h)
            (fun he => (parser_error_fixed E fuel s2 r s1 he).1 h)
        · rw [if_neg h1] at h
          cases hb : base E fuel s2 with
          | none => rw [hb] at h; simp at h
          | some q =>
            obtain ⟨b, s3⟩ := q
            rw [hb] at h
            injection h with h; injection h with e1 e2
            subst e2
            exact follows_trans E s s2 _ hsigns (ihb _ _ _ hb)
              (fun he => (parser_error_fixed E fuel s2 b _ he).1 hb)
    · intro s r s1 h
      rw [factor] at h
      cases hp : power E fuel s with
      | none => rw [hp] at h; simp at h
      | some q =>
        obtain ⟨ret, s2⟩ := q
        rw [hp] at h
        simp only [] at h
        exact follows_trans E s s2 s1 (ihp _ _ _ hp)
          (binary_loop_follows E factor_op _ (fun s he => (ops_error s he).1) ihp _ _ _ _ _ h)
          (fun he => binary_loop_error E _ _ _ _ _ _ _ (ops_error s2 he).1 h)
    · intro s r s1 h
      rw [term] at h
      cases hp : factor E fuel s with
      | none => rw [hp] at h; simp at h
      | some q =>
        obtain ⟨ret, s2⟩ := q
        rw [hp] at h
        simp only [] at h
        exact follows_trans E s s2 s1 (ihf _ _ _ hp)
          (binary_loop_follows E term_op _ (fun s he => (ops_error s he).2.1) ihf _ _ _ _ _ h)
          (fun he => binary_loop_error E _ _ _ _ _ _ _ (ops_error s2 he).2.1 h)
    · intro s r s1 h
      rw [expr] at h
      cases hp : term E fuel s with
      | none => rw [hp] at h; simp at h
      | some q =>
        obtain ⟨ret, s2⟩ := q
        rw [hp] at h
        simp only [] at h
        exact follows_trans E s s2 s1 (iht _ _ _ hp)
          (binary_loop_follows E expr_op _ (fun s he => (ops_error s he).2.2.1) iht _ _ _ _ _ h)
          (fun he => binary_loop_error E _ _ _ _ _ _ _ (ops_error s2 he).2.2.1 h)
    · intro s r s1 h
      rw [list] at h
      cases hp : expr E fuel s with
      | none => rw [hp] at h; simp at h
      | some q =>
        obtain ⟨ret, s2⟩ := q
        rw [hp] at h
        simp only [] at h
        exact follows_trans E s s2 s1 (ihe _ _ _ hp)
          (binary_loop_follows E list_op _ (fun s he => (ops_error s he).2.2.2) ihe _ _ _ _ _ h)
          (fun he => binary_loop_error E _ _ _ _ _ _ _ (ops_error s2 he).2.2.2 h)

/-- C30. The error token is terminal.  A function of the parser that is
entered in a state whose type is `TOK_ERROR` returns with that very state:
`base` takes its fallback, which calls no `next_token`, and the condition of
every loop (`power`, `factor`, `term`, `expr`, `list`) fails, so the cursor
does not move and the type is still `TOK_ERROR`.  Every function of the parser
reaches the state it returns by calls of `next_token` none of which is made on
a token `TOK_ERROR`, followed or not by the assignment of `TOK_ERROR`.  Hence
a parse that returns with a type other than `TOK_ERROR` has met no error among
the tokens it read; a parse that returns with `TOK_ERROR` makes `te_compile`
fail; and a text one of whose tokens is `TOK_ERROR` does not compile. -/
theorem error_is_terminal :
    (∀ (E : Env) (fuel : Nat) (s : state), s.type = TOK_ERROR →
      base E (fuel + 1) s = some ((new_expr 0 none).set_value E.nan, s) ∧
      power E (fuel + 2) s = some ((new_expr 0 none).set_value E.nan, s) ∧
      factor E (fuel + 3) s = some ((new_expr 0 none).set_value E.nan, s) ∧
      term E (fuel + 4) s = some ((new_expr 0 none).set_value E.nan, s) ∧
      expr E (fuel + 5) s = some ((new_expr 0 none).set_value E.nan, s) ∧
      list E (fuel + 6) s = some ((new_expr 0 none).set_value E.nan, s)) ∧
    (∀ (E : Env) (fuel : Nat) (s : state) (r : te_expr) (s1 : state), s.type = TOK_ERROR →
      (base E fuel s = some (r, s1) → s1 = s) ∧ (power E fuel s = some (r, s1) → s1 = s) ∧
      (factor E fuel s = some (r, s1) → s1 = s) ∧ (term E fuel s = some (r, s1) → s1 = s) ∧
      (expr E fuel s = some (r, s1) → s1 = s) ∧ (list E fuel s = some (r, s1) → s1 = s)) ∧
    (∀ (E : Env) (fuel : Nat) (s : state) (sign : Int), s.type = TOK_ERROR →
      power_signs E (fuel + 1) s sign = some (s, sign) ∧
      factor_op s = none ∧ term_op s = none ∧ expr_op s = none ∧ list_op s = none ∧
      s.set_error = s) ∧
    (∀ (E : Env) (fuel : Nat) (s : state) (r : te_expr) (s1 : state),
      base E fuel s = some (r, s1) ∨ power E fuel s = some (r, s1) ∨
      factor E fuel s = some (r, s1) ∨ term E fuel s = some (r, s1) ∨
      expr E fuel s = some (r, s1) ∨ list E fuel s = some (r, s1) →
      ∃ k, (s1 = (next_token E)^[k] s ∨ s1 = ((next_token E)^[k] s).set_error) ∧
        ∀ j, j < k → ((next_token E)^[j] s).type ≠ TOK_ERROR) ∧
    (∀ (E : Env) (fuel : Nat) (s : state) (r : te_expr) (s1 : state),
      list E fuel s = some (r, s1) → s1.type ≠ TOK_ERROR →
      ∃ k, s1 = (next_token E)^[k] s ∧ ∀ j, j ≤ k → ((next_token E)^[j] s).type ≠ TOK_ERROR) ∧
    (∀ (E : Env) (expression : List Char) (bindings : List te_variable) (root : te_expr)
      (s : state), parse E expression bindings = some (root, s) → s.type = TOK_ERROR →
      ∃ e, te_compile E expression bindings = some (none, e) ∧ 1 ≤ e) ∧
    (∀ (E : Env) (expression : List Char) (bindings : List te_variable) (j : Nat),
      ((next_token E)^[j] (next_token E (initial_state expression bindings))).type = TOK_ERROR →
      ∃ e, te_compile E expression bindings = some (none, e) ∧ 1 ≤ e) := by
  refine ⟨parser_error, parser_error_fixed, ?_, ?_, ?_, ?_, te_compile_error_token⟩
  · intro E fuel s sign h
    obtain ⟨o1, o2, o3, o4⟩ := operator_level_none s (operator_level_error s h)
    exact ⟨power_signs_stop E fuel s sign o2, o4, o3, o2, o1, set_error_of_error s h⟩
  · intro E fuel s r s1 h
    obtain ⟨f1, f2, f3, f4, f5, f6⟩ := parser_follows E fuel
    rcases h with h | h | h | h | h | h
    · exact f1 s r s1 h
    · exact f2 s r s1 h
    · exact f3 s r s1 h
    · exact f4 s r s1 h
    · exact f5 s r s1 h
    · exact f6 s r s1 h
  · intro E fuel s r s1 hl hne
    obtain ⟨c, hc⟩ := (parser_consumes E fuel).2.2.2.2.2 s r s1 hl hne
    obtain ⟨k, hk, hok, _⟩ := consumes_runs E s s1 c hc
    refine ⟨k, hk, ?_⟩
    intro j hj
    by_cases hjk : j < k
    · exact (hok j hjk).1
    · have : j = k := by omega
      rw [this, ← hk]
      exact hne
  · intro E expression bindings root s hp hs
    apply te_compile_fails
    intro ex hc
    obtain ⟨root1, s2, _, h1, h2, _⟩ := te_compile_some E expression bindings ex 0 hc
    rw [hp] at h1
    injection h1 with h1; injection h1 with _ h1
    rw [← h1, hs] at h2
    exact absurd h2 (by decide)

/-- The hypothesis of `error_is_terminal` holds for the state of the tokenizer
after the unknown character `$` of the text `1+$2`: `list` returns the
placeholder and leaves the state, the cursor before `2`. -/
theorem error_is_terminal_witness :
    (token_state "1+$2" "2" TOK_ERROR (.function .add)).type = TOK_ERROR ∧
    list exactEnv (0 + 6) (token_state "1+$2" "2" TOK_ERROR (.function .add))
      = some ((new_expr 0 none).set_value exactEnv.nan,
          token_state "1+$2" "2" TOK_ERROR (.function .add)) :=
  ⟨rfl, (error_is_terminal.1 exactEnv 0 (token_state "1+$2" "2" TOK_ERROR (.function .add))
    rfl).2.2.2.2.2⟩

/-! ## Termination -/

/-- An iteration of the loop of `next_token` that leaves the type `TOK_NULL`
has consumed a character. -/
theorem next_token_step_progress (E : Env) (s : state) (hs : s.type = TOK_NULL)
    (h : (next_token_step E s).type = TOK_NULL) :
    (next_token_step E s).next.length < s.next.length := by
  have h1 := (next_token_step_spec E s hs).2.1
  rw [h, weight_null] at h1
  omega

/-- The loop of `next_token` does not depend on the fuel, once the fuel exceeds
the text that is left. -/
theorem next_token_loop_fuel (E : Env) : ∀ (fuel fuel1 : Nat) (s : state), s.type = TOK_NULL →
    s.next.length < fuel → s.next.length < fuel1 →
    next_token_loop E fuel s = next_token_loop E fuel1 s := by
  intro fuel
  induction fuel with
  | zero => intro fuel1 s _ h; omega
  | succ fuel ih =>
    intro fuel1 s hs h1 h2
    cases fuel1 with
    | zero => omega
    | succ fuel1 =>
      rw [next_token_loop, next_token_loop]
      by_cases hn : (next_token_step E s).type = TOK_NULL
      · rw [if_pos hn, if_pos hn]
        have hp := next_token_step_progress E s hs hn
        exact ih fuel1 _ hn (by omega) (by omega)
      · rw [if_neg hn, if_neg hn]

/-- The parse run by `te_compile` does not depend on the fuel, from
`compile_fuel` on. -/
theorem parse_fuel (E : Env) (expression : List Char) (bindings : List te_variable)
    (fuel : Nat) (h : compile_fuel expression ≤ fuel) :
    list E fuel (next_token E (initial_state expression bindings))
      = parse E expression bindings := by
  obtain ⟨root, s, h1, _⟩ := te_compile_parse E expression bindings
  rw [h1]
  unfold parse at h1
  exact list_le E _ _ h _ _ h1

/-- The function `te_compile` returns on every text and every binding list. -/
theorem te_compile_returns (E : Env) (expression : List Char) (bindings : List te_variable) :
    ∃ r, te_compile E expression bindings = some r := by
  obtain ⟨root, s, h1, h2⟩ := te_compile_parse E expression bindings
  unfold te_compile
  simp only [h1]
  by_cases hend : s.type ≠ TOK_END
  · rw [if_pos hend]
    exact ⟨_, rfl⟩
  · rw [if_neg hend]
    have he : s.type = TOK_END := by simpa using hend
    have hw := h2.2.2.2.2 (by rw [he]; decide)
    obtain ⟨n1, e1, _⟩ := optimize_ok E (new_expression bindings root) bindings root hw
    rw [e1]
    exact ⟨_, rfl⟩

/-- C31. Termination of `te_compile`.  On every text and every binding list
`te_compile` returns, and the parse it runs is the same for every amount of
fuel from `compile_fuel` on.  The loop of `next_token` consumes a character in
every iteration that leaves the type `TOK_NULL`, and its result is the same
for every amount of fuel above the length of the text that is left.  The
measure of a state, the characters left plus 1 for a token that took a
character, never increases under `next_token` and decreases when the token
consumed is a function name, `(`, `,` or an operator; every function of the
parser returns within six levels of calls per unit of the measure and does not
increase it.  Witnesses: on `.` the token is a number and no character is
consumed, and `te_compile` returns on `.` and on `1+.` (with the errors 1 and
2). -/
theorem te_compile_terminates :
    (∀ (E : Env) (expression : List Char) (bindings : List te_variable),
      ∃ r, te_compile E expression bindings = some r) ∧
    (∀ (E : Env) (expression : List Char) (bindings : List te_variable) (fuel : Nat),
      compile_fuel expression ≤ fuel →
      list E fuel (next_token E (initial_state expression bindings))
        = parse E expression bindings) ∧
    (∀ (E : Env) (s : state), s.type = TOK_NULL → (next_token_step E s).type = TOK_NULL →
      (next_token_step E s).next.length < s.next.length) ∧
    (∀ (E : Env) (s : state) (fuel : Nat), s.next.length < fuel →
      next_token_loop E fuel { s with type := TOK_NULL } = next_token E s) ∧
    (∀ (E : Env) (s : state),
      (next_token E s).type ≠ TOK_NULL ∧ (next_token E s).measure ≤ s.measure) ∧
    (∀ (E : Env) (s : state),
      (TE_FUNCTION0 ≤ TYPE_MASK s.type ∧ TYPE_MASK s.type ≤ TE_FUNCTION7) ∨
        s.type = TOK_OPEN ∨ s.type = TOK_SEP ∨ s.type = TOK_INFIX →
      (next_token E s).measure < s.measure) ∧
    (∀ (E : Env) (fuel : Nat) (s : state),
      (6 * s.measure + 1 ≤ fuel →
        ∃ r s1, base E fuel s = some (r, s1) ∧ s1.measure ≤ s.measure) ∧
      (6 * s.measure + 2 ≤ fuel →
        ∃ r s1, power E fuel s = some (r, s1) ∧ s1.measure ≤ s.measure) ∧
      (6 * s.measure + 3 ≤ fuel →
        ∃ r s1, factor E fuel s = some (r, s1) ∧ s1.measure ≤ s.measure) ∧
      (6 * s.measure + 4 ≤ fuel →
        ∃ r s1, term E fuel s = some (r, s1) ∧ s1.measure ≤ s.measure) ∧
      (6 * s.measure + 5 ≤ fuel →
        ∃ r s1, expr E fuel s = some (r, s1) ∧ s1.measure ≤ s.measure) ∧
      (6 * s.measure + 6 ≤ fuel →
        ∃ r s1, list E fuel s = some (r, s1) ∧ s1.measure ≤ s.measure)) ∧
    next_token exactEnv (initial_state ".".toList [])
      = { initial_state ".".toList [] with type := TOK_NUMBER } ∧
    te_compile exactEnv ".".toList [] = some (none, 1) ∧
    te_compile exactEnv "1+.".toList [] = some (none, 2) := by
  refine ⟨te_compile_returns, parse_fuel, next_token_step_progress, ?_, ?_, ?_, ?_,
    by decide!, by decide!, by decide!⟩
  · intro E s fuel h
    unfold next_token
    exact next_token_loop_fuel E fuel _ _ rfl h (Nat.lt_succ_self _)
  · intro E s
    exact ⟨(next_token_spec E s).2.1, measure_next_token E s⟩
  · intro E s h
    apply measure_next_token_lt
    rcases h with h | h | h | h
    · exact weight_of_mask _ h
    · exact weight_operator _ (Or.inr (Or.inr h))
    · exact weight_operator _ (Or.inr (Or.inl h))
    · exact weight_operator _ (Or.inl h)
  · intro E fuel s
    obtain ⟨p1, p2, p3, p4, p5, p6⟩ := parser_returns E fuel
    exact ⟨p1 s, p2 s, p3 s, p4 s, p5 s, p6 s⟩

/-- The hypothesis of `te_compile_terminates` holds for the text `1+.` and
twice the fuel of `te_compile`: the parse is the one that `te_compile` runs,
which ends on the number token of `.` with the cursor before the point. -/
theorem te_compile_terminates_witness :
    compile_fuel "1+.".toList ≤ 2 * compile_fuel "1+.".toList ∧
    list exactEnv (2 * compile_fuel "1+.".toList)
        (next_token exactEnv (initial_state "1+.".toList []))
      = parse exactEnv "1+.".toList [] ∧
    (parse exactEnv "1+.".toList []).map (fun p => (p.1, p.2.type, p.2.next))
      = some (binary_node .add (constant_node 1) (constant_node 0), TOK_NUMBER, ".".toList) :=
  ⟨by decide, te_compile_terminates.2.1 exactEnv "1+.".toList [] _ (by decide), by decide!⟩

/-! ## The chain rule over doubles -/

theorem zero_fill_double_apply (g : Nat → double) (n j : Nat) :
    zero_fill_double g n j = if j < n then .finite 0 else g j := by
  induction n with
  | zero => simp [zero_fill_double]
  | succ n ih =>
    rw [zero_fill_double, Function.update_apply, ih]
    by_cases h1 : j = n
    · subst h1; simp
    · rw [if_neg h1]
      by_cases h2 : j < n
      · rw [if_pos h2, if_pos (by omega)]
      · rw [if_neg h2, if_neg (by omega)]

theorem add_scaled_double_apply (M : Machine) (a : double) (g1 g : Nat → double) (n j : Nat) :
    add_scaled_double M a g1 g n j = if j < n then M.add (g j) (M.mul a (g1 j)) else g j := by
  induction n with
  | zero => simp [add_scaled_double]
  | succ n ih =>
    rw [add_scaled_double, Function.update_apply]
    by_cases h1 : j = n
    · subst h1; rw [if_pos rfl, ih]; simp
    · rw [if_neg h1, ih]
      by_cases h2 : j < n
      · rw [if_pos h2, if_pos (by omega)]
      · rw [if_neg h2, if_neg (by omega)]

/-- The accumulation loop of `te_eval2` leaves in every slot `j < nvar` the sum
of the terms of the children whose local gradient is not 0, taken in the order
of the children and added to what the slot held. -/
theorem accumulate_double_apply (M : Machine) (df : Nat → double) (nvar : Nat) :
    ∀ (gs : List (Nat → double)) (i : Nat) (g : Nat → double) (j : Nat),
      accumulate_double M df nvar gs i g j =
        if j < nvar then nonzero_terms M df j gs i (g j) else g j := by
  intro gs
  induction gs with
  | nil => intro i g j; simp [accumulate_double, nonzero_terms]
  | cons g1 rest ih =>
    intro i g j
    rw [accumulate_double, ih, nonzero_terms]
    by_cases hj : j < nvar
    · rw [if_pos hj, if_pos hj]
      by_cases hd : (df i).nonzero = true
      · rw [if_pos hd, if_pos hd, add_scaled_double_apply, if_pos hj]
      · rw [if_neg hd, if_neg hd]
    · rw [if_neg hj, if_neg hj]
      by_cases hd : (df i).nonzero = true
      · rw [if_pos hd, add_scaled_double_apply, if_neg hj]
      · rw [if_neg hd]

/-- On a machine where `0 * a = 0` for a finite `a` and `a + 0 = a`, the sum
over the children whose local gradient is not 0 is the sum over all the
children, when the gradient of every child whose local gradient is 0 is
finite. -/
theorem nonzero_terms_eq_all_terms (M : Machine)
    (hmul : ∀ q : ℚ, M.mul (.finite 0) (.finite q) = .finite 0)
    (hadd : ∀ a : double, M.add a (.finite 0) = a) (df : Nat → double) (j : Nat) :
    ∀ (gs : List (Nat → double)) (i : Nat) (acc : double),
      (∀ k, k < gs.length → df (i + k) = .finite 0 →
        ∃ q : ℚ, (gs.getD k (fun _ => .finite 0)) j = .finite q) →
      nonzero_terms M df j gs i acc = all_terms M df j gs i acc := by
  intro gs
  induction gs with
  | nil => intro i acc _; rw [nonzero_terms, all_terms]
  | cons g1 rest ih =>
    intro i acc h
    rw [nonzero_terms, all_terms]
    have hrest : ∀ k, k < rest.length → df (i + 1 + k) = .finite 0 →
        ∃ q : ℚ, (rest.getD k (fun _ => .finite 0)) j = .finite q := by
      intro k hk hz
      have := h (k + 1) (by simp; omega) (by rw [show i + (k + 1) = i + 1 + k by omega]; exact hz)
      simpa using this
    by_cases hd : (df i).nonzero = true
    · rw [if_pos hd]
      exact ih (i + 1) _ hrest
    · rw [if_neg hd]
      have hz : df i = .finite 0 := by
        simpa [double.nonzero] using hd
      obtain ⟨q, hq⟩ := h 0 (by simp) (by simpa using hz)
      have hq1 : g1 j = .finite q := by simpa using hq
      rw [hz, hq1, hmul, hadd]
      exact ih (i + 1) _ hrest

theorem te_eval2_double_null (M : Machine) (expr : te_expression)
    (val g : Option (Nat → double)) : te_eval2_double M expr .null val g = some (.nan, g) := by
  rw [te_eval2_double]

theorem te_eval2_parameters_double_zero (M : Machine) (expr : te_expression)
    (ps : List te_expr) (val : Option (Nat → double)) :
    te_eval2_parameters_double M expr ps 0 val = some [] := by
  cases ps <;> rw [te_eval2_parameters_double]

theorem te_eval2_double_constant_node (M : Machine) (expr : te_expression) (v : ℚ)
    (val g : Option (Nat → double)) :
    te_eval2_double M expr (constant_node v) val g = some (.finite v, g) := by
  have e : constant_node v = .mk 1 (.value v) [] 0 := rfl
  rw [e, te_eval2_double, if_pos (by decide)]
  rfl

theorem te_eval2_double_variable_node (M : Machine) (expr : te_expression) (i : Int)
    (va ga : Nat → double) :
    te_eval2_double M expr (variable_node i) (some va) (some ga)
      = some (va i.toNat,
          some (Function.update ga (expr.idx.getD i.toNat 0) (.finite 1))) := by
  have e : variable_node i = .mk 0 (.ivar i) [] 0 := rfl
  rw [e, te_eval2_double, if_neg (by decide), if_pos (by decide)]
  rfl

/-- With a gradient array, `te_eval2` over doubles returns with a gradient array. -/
theorem te_eval2_double_some_buffer (M : Machine) (expr : te_expression) (n : te_expr)
    (val : Option (Nat → double)) (ga : Nat → double) (x : double)
    (g1 : Option (Nat → double))
    (h : te_eval2_double M expr n val (some ga) = some (x, g1)) : ∃ gb, g1 = some gb := by
  cases n with
  | null =>
    rw [te_eval2_double] at h
    injection h with h; injection h with _ h
    exact ⟨ga, h.symm⟩
  | mk t u ps c =>
    rw [te_eval2_double] at h
    split_ifs at h
    · injection h with h; injection h with _ h
      exact ⟨ga, h.symm⟩
    · unfold te_eval2_variable_double at h
      cases val with
      | none => simp at h
      | some va =>
        simp only [] at h
        injection h with h; injection h with _ h
        exact ⟨_, h.symm⟩
    · cases hch : te_eval2_parameters_double M expr ps (ARITY t) val with
      | none => rw [hch] at h; simp at h
      | some ch =>
        rw [hch] at h
        simp only [te_eval2_combine_double] at h
        split_ifs at h
        · injection h with h; injection h with _ h
          exact ⟨ga, h.symm⟩
        · injection h with h; injection h with _ h
          exact ⟨_, h.symm⟩
    · injection h with h; injection h with _ h
      exact ⟨ga, h.symm⟩

/-- The list returned by the loop over the children holds, for each slot `i`,
the value and the gradient vector that `te_eval2` computes for `parameters[i]`
in a zeroed vector. -/
theorem te_eval2_parameters_double_spec (M : Machine) (expr : te_expression)
    (val : Option (Nat → double)) :
    ∀ (k : Nat) (ps : List te_expr) (children : List (double × (Nat → double))),
      te_eval2_parameters_double M expr ps k val = some children →
      children.length = k ∧
      ∀ i, i < k →
        te_eval2_double M expr (ps.getD i .null) val (some (fun _ => .finite 0))
          = some ((children.getD i (.finite 0, fun _ => .finite 0)).1,
              some (children.getD i (.finite 0, fun _ => .finite 0)).2) := by
  intro k
  induction k with
  | zero =>
    intro ps children h
    rw [te_eval2_parameters_double_zero] at h
    injection h with h
    subst h
    exact ⟨rfl, fun i hi => by omega⟩
  | succ k ih =>
    intro ps children h
    cases ps with
    | nil =>
      rw [te_eval2_parameters_double] at h
      injection h with h
      subst h
      refine ⟨by simp, fun i hi => ?_⟩
      rw [List.getD_nil, te_eval2_double_null, List.getD_eq_getElem _ _ (by simpa using hi)]
      simp
    | cons p ps =>
      rw [te_eval2_parameters_double] at h
      cases hp : te_eval2_double M expr p val (some (fun _ => .finite 0)) with
      | none => rw [hp] at h; simp at h
      | some xg =>
        obtain ⟨x, g1⟩ := xg
        rw [hp] at h
        simp only [] at h
        cases hr : te_eval2_parameters_double M expr ps k val with
        | none => rw [hr] at h; simp at h
        | some rest =>
          rw [hr] at h
          simp only [] at h
          injection h with h
          subst h
          obtain ⟨a1, a2⟩ := ih ps rest hr
          obtain ⟨gb, hgb⟩ := te_eval2_double_some_buffer M expr p val _ x g1 hp
          refine ⟨by simp [a1], fun i hi => ?_⟩
          cases i with
          | zero => simp [hp, hgb]
          | succ i =>
            have := a2 i (by omega)
            simpa using this

/-- C3 (counterexample). The gradient written for a node is not the sum of
`localGrad[i] * childGrad[i][j]` over all its children.  The text `sqrt x, x`
compiles to the comma node over the call of `sqrt` on `x` and the variable
`x`.  Evaluated at `x = 0` with gradient tracking, `te_wrapped_sqrt` writes the
local gradient `0.5 / sqrt(0)`, an infinity, so the gradient computed for the
first child is infinite; `comma` writes the local gradients 0 and 1.  The sum
of the chain rule is `0 * inf + 1 * 1`, which is `NaN`, but the loop of
`te_eval2` skips the child whose local gradient is 0, and the gradient written
is 1. -/
theorem chain_rule_skips_zero_local_gradient :
    tree_of exactEnv "sqrt x, x" [variable_binding "x"]
      = some (binary_node .comma
          (.mk (TE_FUNCTION1 ||| TE_FLAG_PURE) (.function .te_wrapped_sqrt) [variable_node 0] 0)
          (variable_node 0)) ∧
    (te_compile exactEnv "sqrt x, x".toList [variable_binding "x"]).bind
      (fun r => r.1.bind (fun ex =>
        (te_eval_double ieee ex (some (fun _ => .finite 0)) (some (fun _ => .finite 0))).map
          (fun v => (v.1, v.2.map (fun g => g 0)))))
      = some (.finite 0, some (.finite 1)) ∧
    (te_eval2_parameters_double ieee
        (new_expression [variable_binding "x"]
          (binary_node .comma
            (.mk (TE_FUNCTION1 ||| TE_FLAG_PURE) (.function .te_wrapped_sqrt) [variable_node 0] 0)
            (variable_node 0)))
        [.mk (TE_FUNCTION1 ||| TE_FLAG_PURE) (.function .te_wrapped_sqrt) [variable_node 0] 0,
          variable_node 0] 2 (some (fun _ => .finite 0))).map
      (fun children => (children.map (fun c => (c.1, c.2 0)),
        (ieee.callable .comma 0 (fun i => (children.map Prod.fst).getD i (.finite 0))).2 0,
        (ieee.callable .comma 0 (fun i => (children.map Prod.fst).getD i (.finite 0))).2 1,
        all_terms ieee
          (ieee.callable .comma 0 (fun i => (children.map Prod.fst).getD i (.finite 0))).2 0
          (children.map Prod.snd) 0 (.finite 0),
        nonzero_terms ieee
          (ieee.callable .comma 0 (fun i => (children.map Prod.fst).getD i (.finite 0))).2 0
          (children.map Prod.snd) 0 (.finite 0)))
      = some ([(.finite 0, .inf), (.finite 0, .finite 1)], .finite 0, .finite 1, .nan,
          .finite 1) := by
  refine ⟨by decide!, by decide!, by decide!⟩



/-- C3 (amended). Chain rule over the children whose local gradient is not 0:
a function node of arity `m = ARITY(type)`, evaluated with a gradient array
`ga` after its children evaluated to `children`, returns the value of its
callable on the children's values and leaves in the array, at every slot
`j < nvar`, the sum, taken in the order of `i` from 0, of
`localGrad[i] * childGrad[i][j]` over those `i < m` with `localGrad[i] != 0`,
and leaves the slots from `nvar` on; `localGrad` is the array `df` written by
the callable and `childGrad[i]` is the gradient vector that `te_eval2` computes
for child `i` in a zeroed vector: the zero vector for a constant child, the
basis vector of the slot `idx[ivar]` for a variable child.  This holds for
every sum and product of the doubles and for every callable.  When `0 * a = 0`
for a finite `a` and `a + 0 = a`, and the gradient of every child whose local
gradient is 0 is finite at the slot `j`, that sum is the sum over all `i < m`.
Witness: `x*y^3` with `x = 2`, `y = 3` evaluates to 54 with gradient
(27, 54). -/
theorem chain_rule_over_nonzero_local_gradients (M : Machine) (expr : te_expression) (t : Nat)
    (u : te_union) (ps : List te_expr) (c : Nat) (val : Option (Nat → double))
    (ga : Nat → double) (children : List (double × (Nat → double)))
    (hm : TE_FUNCTION0 ≤ TYPE_MASK t ∧ TYPE_MASK t ≤ TE_FUNCTION7)
    (hch : te_eval2_parameters_double M expr ps (ARITY t) val = some children) :
    (∃ g1, te_eval2_double M expr (.mk t u ps c) val (some ga)
        = some ((M.callable u.getFunction c
            (fun i => (children.map Prod.fst).getD i (.finite 0))).1, some g1) ∧
      (∀ j, j < expr.nvar →
        g1 j = nonzero_terms M
          (M.callable u.getFunction c (fun i => (children.map Prod.fst).getD i (.finite 0))).2
          j (children.map Prod.snd) 0 (.finite 0)) ∧
      (∀ j, expr.nvar ≤ j → g1 j = ga j)) ∧
    children.length = ARITY t ∧
    (∀ i, i < ARITY t →
      te_eval2_double M expr (ps.getD i .null) val (some (fun _ => .finite 0))
        = some ((children.getD i (.finite 0, fun _ => .finite 0)).1,
            some (children.getD i (.finite 0, fun _ => .finite 0)).2)) ∧
    (∀ i v, i < ARITY t → ps.getD i .null = constant_node v →
      (children.getD i (.finite 0, fun _ => .finite 0)).2 = fun _ => .finite 0) ∧
    (∀ i k va, i < ARITY t → ps.getD i .null = variable_node k → val = some va →
      (children.getD i (.finite 0, fun _ => .finite 0)).2
        = Function.update (fun _ => .finite 0) (expr.idx.getD k.toNat 0) (.finite 1)) ∧
    ((∀ q : ℚ, M.mul (.finite 0) (.finite q) = .finite 0) →
      (∀ a : double, M.add a (.finite 0) = a) →
      ∀ j,
        (∀ i, i < ARITY t →
          (M.callable u.getFunction c
            (fun i => (children.map Prod.fst).getD i (.finite 0))).2 i = .finite 0 →
          ∃ q : ℚ, (children.getD i (.finite 0, fun _ => .finite 0)).2 j = .finite q) →
        nonzero_terms M
            (M.callable u.getFunction c (fun i => (children.map Prod.fst).getD i (.finite 0))).2
            j (children.map Prod.snd) 0 (.finite 0)
          = all_terms M
            (M.callable u.getFunction c (fun i => (children.map Prod.fst).getD i (.finite 0))).2
            j (children.map Prod.snd) 0 (.finite 0)) ∧
    ((te_compile exactEnv "x*y^3".toList [variable_binding "x", variable_binding "y"]).bind
      (fun r => r.1.bind (fun ex =>
        (te_eval_double ieee ex (some (fun i => if i = 0 then .finite 2 else .finite 3))
          (some (fun _ => .finite 0))).map
          (fun v => (v.1, v.2.map (fun g => (g 0, g 1))))))
      = some (.finite 54, some (.finite 27, .finite 54))) := by
  obtain ⟨hlen, hchild⟩ := te_eval2_parameters_double_spec M expr val (ARITY t) ps children hch
  refine ⟨?_, hlen, hchild, ?_, ?_, ?_, by decide!⟩
  · rw [te_eval2_double,
      if_neg (by rw [TYPE_MASK_eq] at *; simp only [TE_CONSTANT, TE_FUNCTION0] at *; omega),
      if_neg (by rw [TYPE_MASK_eq] at *; simp only [TE_VARIABLE, TE_FUNCTION0] at *; omega),
      if_pos hm, hch]
    simp only [te_eval2_combine_double]
    by_cases hn : expr.nvar = 0
    · rw [if_pos hn]
      exact ⟨ga, rfl, fun j hj => by omega, fun _ _ => rfl⟩
    · rw [if_neg hn]
      refine ⟨_, rfl, fun j hj => ?_, fun j hj => ?_⟩
      · rw [accumulate_double_apply, if_pos hj, zero_fill_double_apply, if_pos hj]
      · rw [accumulate_double_apply, if_neg (by omega), zero_fill_double_apply,
          if_neg (by omega)]
  · intro i v hi hp
    have h := hchild i hi
    rw [hp, te_eval2_double_constant_node] at h
    injection h with h; injection h with _ h; injection h with h
    exact h.symm
  · intro i k va hi hp hval
    have h := hchild i hi
    rw [hp, hval, te_eval2_double_variable_node] at h
    injection h with h; injection h with _ h; injection h with h
    exact h.symm
  · intro hmul hadd j hfin
    apply nonzero_terms_eq_all_terms M hmul hadd
    intro k hk hz
    rw [List.length_map, hlen] at hk
    rw [zero_add] at hz
    obtain ⟨q, hq⟩ := hfin k hk hz
    refine ⟨q, ?_⟩
    rw [← hq, List.getD_eq_getElem _ _ (by rw [List.length_map, hlen]; exact hk),
      List.getD_eq_getElem _ _ (by rw [hlen]; exact hk)]
    simp

/-- The hypotheses of `chain_rule_over_nonzero_local_gradients` hold at the
root of the tree of `x*y^3`, evaluated at `x = 2`, `y = 3`; the value is 54 and
the gradient written is (27, 54). -/
theorem chain_rule_over_nonzero_local_gradients_witness :
    (TE_FUNCTION0 ≤ TYPE_MASK 42 ∧ TYPE_MASK 42 ≤ TE_FUNCTION7) ∧
    (∃ g1, te_eval2_double ieee
        (new_expression [variable_binding "x", variable_binding "y"] .null)
        (binary_node .mul (variable_node 0)
          (binary_node .te_wrapped_pow (variable_node 1) (constant_node 3)))
        (some (fun i => if i = 0 then .finite 2 else .finite 3)) (some (fun _ => .finite 0))
        = some (.finite 54, some g1) ∧ g1 0 = .finite 27 ∧ g1 1 = .finite 54) := by
  refine ⟨by decide, ?_⟩
  have h := chain_rule_over_nonzero_local_gradients ieee
    (new_expression [variable_binding "x", variable_binding "y"] .null)
    42 (.function .mul)
    [variable_node 0, binary_node .te_wrapped_pow (variable_node 1) (constant_node 3)] 0
    (some (fun i => if i = 0 then .finite 2 else .finite 3)) (fun _ => .finite 0)
    ((te_eval2_parameters_double ieee
      (new_expression [variable_binding "x", variable_binding "y"] .null)
      [variable_node 0, binary_node .te_wrapped_pow (variable_node 1) (constant_node 3)]
      (ARITY 42) (some (fun i => if i = 0 then .finite 2 else .finite 3))).getD [])
    (by decide) (some_getD_of_isSome _ _ (by decide!))
  obtain ⟨⟨g1, h1, h2, _⟩, _⟩ := h
  have hv : ∀ x g, te_eval2_double ieee
      (new_expression [variable_binding "x", variable_binding "y"] .null)
      (binary_node .mul (variable_node 0)
        (binary_node .te_wrapped_pow (variable_node 1) (constant_node 3)))
      (some (fun i => if i = 0 then .finite 2 else .finite 3)) (some (fun _ => .finite 0))
        = some (x, some g) →
      x = .finite 54 ∧ g 0 = .finite 27 ∧ g 1 = .finite 54 := by
    intro x g hx
    have hd : (te_eval2_double ieee
      (new_expression [variable_binding "x", variable_binding "y"] .null)
      (binary_node .mul (variable_node 0)
        (binary_node .te_wrapped_pow (variable_node 1) (constant_node 3)))
      (some (fun i => if i = 0 then .finite 2 else .finite 3)) (some (fun _ => .finite 0))).map
        (fun v => (v.1, v.2.map (fun g => (g 0, g 1))))
          = some (.finite 54, some (.finite 27, .finite 54)) := by
      decide!
    rw [hx] at hd
    simp at hd
    exact hd
  have hx := hv _ _ h1
  rw [hx.1] at h1
  exact ⟨g1, h1, hx.2⟩

/-! ## Constant folding in a program with state -/

/-- The value returned by `te_eval2` on a node and the state afterwards, when a
gradient array is given. -/
theorem te_eval2_in_outcome {S : Type} (E : Env) (W : World S) (expr : te_expression) (t : Nat)
    (u : te_union) (ps : List te_expr) (c : Nat) (val : Option (Nat → ℚ)) (ga : Nat → ℚ)
    (σ : S) :
    (te_eval2_in E W expr (.mk t u ps c) val (some ga) σ).map outcome =
      if TYPE_MASK t = TE_CONSTANT then some (u.getValue, σ)
      else if TYPE_MASK t = TE_VARIABLE then val.map (fun va => (va u.getIvar.toNat, σ))
      else if TE_FUNCTION0 ≤ TYPE_MASK t ∧ TYPE_MASK t ≤ TE_FUNCTION7 then
        ((te_eval2_parameters_in E W expr ps (ARITY t) val σ).map outcomes).map
          (fun r => ((call_in E W u.getFunction c (args r.1) r.2).1.1,
            (call_in E W u.getFunction c (args r.1) r.2).2))
      else some (E.nan, σ) := by
  rw [te_eval2_in]
  by_cases h1 : TYPE_MASK t = TE_CONSTANT
  · rw [if_pos h1, if_pos h1]; rfl
  rw [if_neg h1, if_neg h1]
  by_cases h2 : TYPE_MASK t = TE_VARIABLE
  · rw [if_pos h2, if_pos h2]
    cases val <;> rfl
  rw [if_neg h2, if_neg h2]
  by_cases h3 : TE_FUNCTION0 ≤ TYPE_MASK t ∧ TYPE_MASK t ≤ TE_FUNCTION7
  · rw [if_pos h3, if_pos h3]
    cases hch : te_eval2_parameters_in E W expr ps (ARITY t) val σ with
    | none => rfl
    | some ch =>
      obtain ⟨children, σ1⟩ := ch
      simp only [te_eval2_combine_in]
      by_cases hn : expr.nvar = 0
      · rw [if_pos hn]; rfl
      · rw [if_neg hn]; rfl
  · rw [if_neg h3, if_neg h3]; rfl

theorem te_eval2_parameters_in_cons {S : Type} (E : Env) (W : World S) (expr : te_expression)
    (p : te_expr) (ps : List te_expr) (k : Nat) (val : Option (Nat → ℚ)) (σ : S) :
    (te_eval2_parameters_in E W expr (p :: ps) (k + 1) val σ).map outcomes =
      ((te_eval2_in E W expr p val (some (fun _ => 0)) σ).map outcome).bind (fun r =>
        ((te_eval2_parameters_in E W expr ps k val r.2).map outcomes).map
          (fun rest => (r.1 :: rest.1, rest.2))) := by
  rw [te_eval2_parameters_in]
  cases h1 : te_eval2_in E W expr p val (some (fun _ => 0)) σ with
  | none => rfl
  | some xg =>
    obtain ⟨⟨x, g1⟩, σ1⟩ := xg
    simp only []
    cases h2 : te_eval2_parameters_in E W expr ps k val σ1 with
    | none => simp [outcome, h2]
    | some rest =>
      obtain ⟨rest, σ2⟩ := rest
      simp [outcome, outcomes, h2]

theorem te_eval2_parameters_in_zero {S : Type} (E : Env) (W : World S) (expr : te_expression)
    (ps : List te_expr) (val : Option (Nat → ℚ)) (σ : S) :
    te_eval2_parameters_in E W expr ps 0 val σ = some ([], σ) := by
  cases ps <;> rw [te_eval2_parameters_in]

theorem te_eval2_in_constant_type {S : Type} (E : Env) (W : World S) (expr : te_expression)
    (p : te_expr) (h : p.type = TE_CONSTANT) (val : Option (Nat → ℚ)) (ga : Nat → ℚ) (σ : S) :
    (te_eval2_in E W expr p val (some ga) σ).map outcome = some (p.u.getValue, σ) := by
  cases p with
  | null => simp [te_expr.type, TE_CONSTANT] at h
  | mk t u ps c =>
    simp only [te_expr.type] at h
    rw [te_eval2_in_outcome, if_pos (by rw [h]; decide)]
    rfl

mutual
/-- On a well-formed tree whose pure-flagged callables are deterministic,
`optimize` returns, leaves the state of the program, and the tree it leaves
has, in every state and for every array of variable values, the value and the
effect on the state of the tree before. -/
theorem optimize_in_spec {S : Type} (E : Env) (W : World S) (expr : te_expression)
    (lk : List te_variable) :
    ∀ n : te_expr, well_formed lk n = true → pure_deterministic E W n → ∀ σ : S,
      ∃ n1, optimize_in E W expr n σ = some (n1, σ) ∧ well_formed lk n1 = true ∧
        ∀ (val : Option (Nat → ℚ)) (ga : Nat → ℚ) (σ1 : S),
          (te_eval2_in E W expr n1 val (some ga) σ1).map outcome
            = (te_eval2_in E W expr n val (some ga) σ1).map outcome
  | .null, h, _, _ => by simp [well_formed] at h
  | .mk t u ps c, h, hd, σ => by
    rw [optimize_in]
    by_cases h1 : t = TE_CONSTANT
    · rw [if_pos h1]; exact ⟨_, rfl, h, fun _ _ _ => rfl⟩
    rw [if_neg h1]
    by_cases h2 : t = TE_VARIABLE
    · rw [if_pos h2]; exact ⟨_, rfl, h, fun _ _ _ => rfl⟩
    rw [if_neg h2]
    by_cases h3 : IS_PURE t = true
    · rw [if_pos h3]
      rw [well_formed, if_neg h1, if_neg h2] at h
      simp only [Bool.and_eq_true, decide_eq_true_eq] at h
      obtain ⟨⟨hm, hu⟩, hps⟩ := h
      rw [pure_deterministic] at hd
      obtain ⟨⟨r, hr⟩, hdp⟩ := (⟨hd.1 h3, hd.2⟩ :
        deterministic E W u.getFunction c ∧ pure_deterministic_parameters E W ps)
      obtain ⟨ps1, known, e1, e2, e3, e4⟩ :=
        optimize_parameters_in_spec E W expr lk ps (ARITY t) hps hdp σ
      rw [e1]
      simp only []
      have m1 : ¬ TYPE_MASK t = TE_CONSTANT := by
        rw [TYPE_MASK_eq] at *; simp only [TE_CONSTANT, TE_FUNCTION0] at *; omega
      have m2 : ¬ TYPE_MASK t = TE_VARIABLE := by
        rw [TYPE_MASK_eq] at *; simp only [TE_VARIABLE, TE_FUNCTION0] at *; omega
      by_cases hk : known = true
      · rw [if_pos hk]
        obtain ⟨xs, hxs⟩ := e4 hk
        have hv := te_eval2_in_outcome E W expr t u ps1 c none (fun _ => 0) σ
        rw [if_neg m1, if_neg m2, if_pos hm, hxs none σ] at hv
        simp only [Option.map_some', hr] at hv
        cases hev : te_eval2_in E W expr (.mk t u ps1 c) none (some (fun _ => 0)) σ with
        | none => rw [hev] at hv; simp at hv
        | some vg =>
          obtain ⟨⟨v, g1⟩, σ2⟩ := vg
          rw [hev] at hv
          simp only [Option.map_some', outcome, Option.some.injEq, Prod.mk.injEq] at hv
          obtain ⟨hv1, hv2⟩ := hv
          subst hv2
          simp only []
          refine ⟨_, rfl, by simp [well_formed, te_union.is_value], ?_⟩
          intro val ga σ1
          rw [te_eval2_in_outcome E W expr TE_CONSTANT (.value v) [] c val ga σ1,
            if_pos (by decide), te_eval2_in_outcome E W expr t u ps c val ga σ1,
            if_neg m1, if_neg m2, if_pos hm, ← e3 val σ1, hxs val σ1]
          simp only [Option.map_some', hr, te_union.getValue, hv1]
      · rw [if_neg hk]
        refine ⟨_, rfl, ?_, ?_⟩
        · rw [well_formed, if_neg h1, if_neg h2]
          simp only [Bool.and_eq_true, decide_eq_true_eq]
          exact ⟨⟨hm, hu⟩, e2⟩
        · intro val ga σ1
          rw [te_eval2_in_outcome, te_eval2_in_outcome, e3 val σ1]
    · rw [if_neg h3]; exact ⟨_, rfl, h, fun _ _ _ => rfl⟩

/-- The loop of `optimize` over well-formed children whose pure-flagged
callables are deterministic returns and leaves the state of the program; the
children it leaves have the values and the effect on the state of the
children before; when it sets `known`, their values do not depend on the
variables or on the state, and their evaluation leaves the state. -/
theorem optimize_parameters_in_spec {S : Type} (E : Env) (W : World S) (expr : te_expression)
    (lk : List te_variable) :
    ∀ (ps : List te_expr) (k : Nat), well_formed_parameters lk ps k = true →
      pure_deterministic_parameters E W ps → ∀ σ : S,
      ∃ ps1 known, optimize_parameters_in E W expr ps k σ = some (ps1, known, σ) ∧
        well_formed_parameters lk ps1 k = true ∧
        (∀ (val : Option (Nat → ℚ)) (σ1 : S),
          (te_eval2_parameters_in E W expr ps1 k val σ1).map outcomes
            = (te_eval2_parameters_in E W expr ps k val σ1).map outcomes) ∧
        (known = true → ∃ xs, ∀ (val : Option (Nat → ℚ)) (σ1 : S),
          (te_eval2_parameters_in E W expr ps1 k val σ1).map outcomes = some (xs, σ1))
  | [], 0, _, _, σ => ⟨[], true, by rw [optimize_parameters_in], by simp [well_formed_parameters],
      fun _ _ => rfl, fun _ => ⟨[], fun val σ1 => by rw [te_eval2_parameters_in_zero]; rfl⟩⟩
  | [], _ + 1, h, _, _ => by simp [well_formed_parameters] at h
  | _ :: _, 0, h, _, _ => by simp [well_formed_parameters] at h
  | p :: ps, k + 1, h, hd, σ => by
    rw [well_formed_parameters, Bool.and_eq_true] at h
    rw [pure_deterministic_parameters] at hd
    obtain ⟨p1, e1, e2, e3⟩ := optimize_in_spec E W expr lk p h.1 hd.1 σ
    obtain ⟨ps1, known, f1, f2, f3, f4⟩ :=
      optimize_parameters_in_spec E W expr lk ps k h.2 hd.2 σ
    rw [optimize_parameters_in, e1]
    simp only [f1]
    refine ⟨_, _, rfl, by rw [well_formed_parameters, e2, f2]; rfl, ?_, ?_⟩
    · intro val σ1
      rw [te_eval2_parameters_in_cons, te_eval2_parameters_in_cons, e3 val _ σ1]
      cases hq : (te_eval2_in E W expr p val (some (fun _ => 0)) σ1).map outcome with
      | none => rfl
      | some r => simp only [Option.some_bind, f3 val r.2]
    · intro hk
      by_cases hc : p1.type ≠ TE_CONSTANT
      · rw [if_pos hc] at hk; simp at hk
      · rw [if_neg hc] at hk
        obtain ⟨xs, hxs⟩ := f4 hk
        refine ⟨p1.u.getValue :: xs, ?_⟩
        intro val σ1
        rw [te_eval2_parameters_in_cons,
          te_eval2_in_constant_type E W expr p1 (by simpa using hc)]
        simp only [Option.some_bind, hxs val σ1, Option.map_some']
end

mutual
/-- The evaluator reads only `nvar` and `idx` of the compiled expression. -/
theorem te_eval2_in_expr_congr {S : Type} (E : Env) (W : World S) (e1 e2 : te_expression)
    (hn : e1.nvar = e2.nvar) (hi : e1.idx = e2.idx) :
    ∀ (n : te_expr) (val g : Option (Nat → ℚ)) (σ : S),
      te_eval2_in E W e1 n val g σ = te_eval2_in E W e2 n val g σ
  | .null, val, g, σ => by rw [te_eval2_in, te_eval2_in]
  | .mk t u ps c, val, g, σ => by
    rw [te_eval2_in, te_eval2_in,
      te_eval2_parameters_in_expr_congr E W e1 e2 hn hi ps (ARITY t) val σ]
    simp only [te_eval2_variable, te_eval2_combine_in, hn, hi]

/-- The loop over the children reads only `nvar` and `idx` of the compiled expression. -/
theorem te_eval2_parameters_in_expr_congr {S : Type} (E : Env) (W : World S)
    (e1 e2 : te_expression) (hn : e1.nvar = e2.nvar) (hi : e1.idx = e2.idx) :
    ∀ (ps : List te_expr) (k : Nat) (val : Option (Nat → ℚ)) (σ : S),
      te_eval2_parameters_in E W e1 ps k val σ = te_eval2_parameters_in E W e2 ps k val σ
  | ps, 0, val, σ => by rw [te_eval2_parameters_in_zero, te_eval2_parameters_in_zero]
  | [], k + 1, val, σ => by
    rw [te_eval2_parameters_in, te_eval2_parameters_in]
  | p :: ps, k + 1, val, σ => by
    rw [te_eval2_parameters_in, te_eval2_parameters_in, te_eval2_in_expr_congr E W e1 e2 hn hi p]
    cases te_eval2_in E W e2 p val (some fun _ => 0) σ with
    | none => rfl
    | some r =>
      simp only []
      rw [te_eval2_parameters_in_expr_congr E W e1 e2 hn hi ps k val r.2]
end

/-- The callables of `tinyexpr.c` other than `te_wrapped_random`, and not the
caller's, are deterministic in every world. -/
theorem deterministic_builtin {S : Type} (E : Env) (W : World S) (f : Fn) (context : Nat)
    (h1 : f ≠ .te_wrapped_random) (h2 : ∀ a, f ≠ .user a) : deterministic E W f context := by
  refine ⟨fun x => call E f context x, fun x σ => ?_⟩
  cases f <;> first | rfl | exact absurd rfl h1 | exact absurd rfl (h2 _)

/-- C2. Constant folding preserves meaning.  The callables run in the state of
the program: `rand` and the caller's functions may read and change it.  When
the parse run by `te_compile` succeeds with the tree `root`, and every callable
of `root` that is flagged pure is a deterministic function of its arguments
(what it returns and writes depends on the arguments only, and the call leaves
the state), compilation returns an expression whose root is `optimize` of `root` and leaves
the state of the program; and in every state, for every array of variable
values (and every gradient array), `te_eval` returns on it the value that
`te_eval2` returns on the tree `root` before `optimize`, with the same state
afterwards.  Nothing is assumed of the callables that are not flagged pure.
The hypothesis is needed: `random` is flagged pure and draws from `rand`; in a
world where `rand` counts its calls, `random` compiles to the constant of the
draws made at compile time, while the tree before `optimize` evaluates to
another number.  A call that is not flagged pure is kept: with `tick` bound to
a function of the caller of the type `TE_FUNCTION0`, which returns the count
and advances it, `2*3+tick()` compiles to the sum of the constant 6 and the
call, and evaluates in the state 10 to 16, leaving the state 11. -/
theorem constant_folding_preserves_value :
    (∀ {S : Type} (E : Env) (W : World S) (expression : List Char)
      (bindings : List te_variable) (root : te_expr) (s : state),
      parse E expression bindings = some (root, s) → s.type = TOK_END →
      pure_deterministic E W root → ∀ σ0 : S,
      ∃ ex, te_compile_in E W expression bindings σ0 = some ((some ex, 0), σ0) ∧
        optimize_in E W (new_expression bindings root) root σ0 = some (ex.root, σ0) ∧
        ∀ (val : Option (Nat → ℚ)) (ga : Nat → ℚ) (σ : S),
          (te_eval_in E W ex val (some ga) σ).map outcome
            = (te_eval2_in E W ex root val (some ga) σ).map outcome) ∧
    (parse exactEnv "random".toList []).map Prod.fst
      = some (.mk (TE_FUNCTION0 ||| TE_FLAG_PURE) (.function .te_wrapped_random) [] 0) ∧
    ¬ pure_deterministic exactEnv counter_world
      (.mk (TE_FUNCTION0 ||| TE_FLAG_PURE) (.function .te_wrapped_random) [] 0) ∧
    te_compile_in exactEnv counter_world "random".toList [] 0
      = some ((some (new_expression [] (constant_node (16385 / 17592186044416))), 0), 3) ∧
    (te_eval_in exactEnv counter_world
        (new_expression [] (constant_node (16385 / 17592186044416))) none
        (some (fun _ => 0)) 3).map outcome
      = some (16385 / 17592186044416, 3) ∧
    (te_eval2_in exactEnv counter_world
        (new_expression [] (constant_node (16385 / 17592186044416)))
        (.mk (TE_FUNCTION0 ||| TE_FLAG_PURE) (.function .te_wrapped_random) [] 0) none
        (some (fun _ => 0)) 3).map outcome
      = some (3221356549 / 35184372088832, 6) ∧
    te_compile_in exactEnv counter_world "2*3+tick()".toList
        [function_binding "tick" 20 TE_FUNCTION0] 7
      = some ((some (new_expression [function_binding "tick" 20 TE_FUNCTION0]
          (binary_node .add (constant_node 6) (function_node TE_FUNCTION0 (.user 20) 0))), 0),
          7) ∧
    (te_eval_in exactEnv counter_world
        (new_expression [function_binding "tick" 20 TE_FUNCTION0]
          (binary_node .add (constant_node 6) (function_node TE_FUNCTION0 (.user 20) 0)))
        none (some (fun _ => 0)) 10).map outcome
      = some (16, 11) := by
  refine ⟨?_, by decide!, ?_, by decide!, by decide!, by decide!, by decide!, by decide!⟩
  · intro S E W expression bindings root s hparse hend hdet σ0
    obtain ⟨root0, s0, h1, h2⟩ := te_compile_parse E expression bindings
    rw [hparse] at h1
    injection h1 with h1
    injection h1 with e1 e2
    subst e1; subst e2
    have hw := h2.2.2.2.2 (by rw [hend]; decide)
    obtain ⟨n1, e1, _, e3⟩ :=
      optimize_in_spec E W (new_expression bindings root) bindings root hw hdet σ0
    refine ⟨new_expression bindings n1, ?_, e1, ?_⟩
    · unfold te_compile_in
      simp only [hparse]
      rw [if_neg (by simp [hend]), e1]
    · intro val ga σ
      have hv := e3 val ga σ
      change (te_eval2_in E W (new_expression bindings n1) n1 val (some ga) σ).map outcome = _
      rw [te_eval2_in_expr_congr E W (new_expression bindings n1)
          (new_expression bindings root) rfl rfl n1,
        te_eval2_in_expr_congr E W (new_expression bindings n1)
          (new_expression bindings root) rfl rfl root]
      exact hv
  · intro h
    rw [pure_deterministic] at h
    obtain ⟨r, hr⟩ := h.1 (by decide)
    have h0 : (call_in exactEnv counter_world .te_wrapped_random 0 (fun _ => 0) 0).2 = 0 := by
      rw [show Fn.te_wrapped_random
        = (te_union.function Fn.te_wrapped_random).getFunction from rfl, hr]
    exact absurd h0 (by decide)

/-- The hypotheses of `constant_folding_preserves_value` hold for the text
`2*3+tick()` in the world `counter_world`, where `tick` is bound to a function
of the caller that is not flagged pure and returns the count: the callables
`add` and `mul` are deterministic, and nothing is asked of `tick`.  The product
is folded, the call of `tick` is not, and compilation leaves the count. -/
theorem constant_folding_preserves_value_witness :
    ∃ ex, te_compile_in exactEnv counter_world "2*3+tick()".toList
        [function_binding "tick" 20 TE_FUNCTION0] 7 = some ((some ex, 0), 7) ∧
      optimize_in exactEnv counter_world
        (new_expression [function_binding "tick" 20 TE_FUNCTION0]
          (binary_node .add (binary_node .mul (constant_node 2) (constant_node 3))
            (function_node TE_FUNCTION0 (.user 20) 0)))
        (binary_node .add (binary_node .mul (constant_node 2) (constant_node 3))
          (function_node TE_FUNCTION0 (.user 20) 0)) 7 = some (ex.root, 7) ∧
      ∀ (val : Option (Nat → ℚ)) (ga : Nat → ℚ) (σ : Nat),
        (te_eval_in exactEnv counter_world ex val (some ga) σ).map outcome
          = (te_eval2_in exactEnv counter_world ex
              (binary_node .add (binary_node .mul (constant_node 2) (constant_node 3))
                (function_node TE_FUNCTION0 (.user 20) 0)) val (some ga) σ).map outcome :=
  constant_folding_preserves_value.1 exactEnv counter_world "2*3+tick()".toList
    [function_binding "tick" 20 TE_FUNCTION0]
    (binary_node .add (binary_node .mul (constant_node 2) (constant_node 3))
      (function_node TE_FUNCTION0 (.user 20) 0))
    { start := "2*3+tick()".toList, next := [], type := TOK_END, u := .function (.user 20),
      context := 0, lookup := [function_binding "tick" 20 TE_FUNCTION0] }
    (by decide!) rfl
    ⟨fun _ => deterministic_builtin _ _ _ _ (by decide) (fun _ h => Fn.noConfusion h),
      ⟨fun _ => deterministic_builtin _ _ _ _ (by decide) (fun _ h => Fn.noConfusion h),
        ⟨fun h => absurd h (by decide), trivial⟩, ⟨fun h => absurd h (by decide), trivial⟩,
        trivial⟩,
      ⟨fun h => absurd h (by decide), trivial⟩, trivial⟩ 7

end TinyExpr
